import Mathlib

/-!
# Propagation core of the CDCL solver (Solver.cpp) and the clause predictor

Shallow embedding of `Solver::newVar`, `Solver::attachBinClause`,
`Solver::attachClause`, `Solver::detachClause`, `Solver::detachModifiedClause`,
the propagation arms, `Solver::propagate`, `Solver::propagateNonLearntBin`,
`Solver::propagateFull`, `Solver::propBin`, `Solver::getUnitaries`,
`Solver::countNumBinClauses` and of `ClPredictors::set_up_input`
(cl_predictors.cpp), followed by the theorems about them.

Conventions of the embedding.

* Vectors are lists; an access outside a vector is undefined behaviour in the
  source and the fault `Fault.bounds` here.
* A failed `assert` is the fault `Fault.assertion`; `exit(-1)` is `Fault.exit`.
* Machine integers are natural numbers, reduced modulo `2 ^ w` where the
  source can overflow.
* The build modelled is the one without `DEBUG_ATTACH`, `VERBOSE_DEBUG*`.
* The outer loop of `propagate` is driven by a fuel counter computed from the
  state; `Fault.fuel` is reported when it runs out.
* A watchlist is rewritten in place with a read index `i` and a write index
  `j`, as in the source; the clause arena is the list `arena`, an offset being
  an index into it.
-/

namespace CMS

/-- Three-valued truth value (`lbool`). -/
inductive lbool where
  | l_True
  | l_False
  | l_Undef
deriving DecidableEq, Repr

open lbool

/-- A literal: a variable with a sign (`sign = true` is the negative literal). -/
structure Lit where
  var : Nat
  sign : Bool
deriving DecidableEq, Repr

/-- The integer index of a literal, `2 * var + sign`. -/
def Lit.toInt (l : Lit) : Nat := 2 * l.var + (if l.sign then 1 else 0)

/-- The negation `~l` of a literal. -/
def Lit.neg (l : Lit) : Lit := { var := l.var, sign := !l.sign }

/-- The variable `var_Undef`. -/
def var_Undef : Nat := 2147483647

/-- The literal `lit_Undef`. -/
def lit_Undef : Lit := { var := var_Undef, sign := false }

/-- Faults: a failed assertion, an access outside a vector, fuel exhausted,
a call of `exit`. -/
inductive Fault where
  | assertion
  | bounds
  | fuel
  | exit
deriving DecidableEq, Repr

deriving instance DecidableEq for Except

/-- The reason of an assignment or of a conflict (`PropBy`). -/
inductive PropBy where
  | null
  | binary (lit1 : Lit)
  | tertiary (lit1 lit2 : Lit)
  | clause (offset : Nat) (watchNum : Bool)
deriving DecidableEq, Repr

/-- `PropBy::isNULL`. -/
def PropBy.isNULL : PropBy → Bool
  | .null => true
  | _ => false

/-- A watcher (`Watched`): binary, ternary, or long clause. -/
inductive Watched where
  | binary (other : Lit) (learnt : Bool)
  | tri (other other2 : Lit)
  | clause (offset : Nat) (blocked : Lit) (watchNum : Bool)
deriving DecidableEq, Repr

/-- `Watched::isBinary`. -/
def Watched.isBinary : Watched → Bool
  | .binary _ _ => true
  | _ => false

/-- `Watched::isTriClause`. -/
def Watched.isTriClause : Watched → Bool
  | .tri _ _ => true
  | _ => false

/-- `Watched::isClause`. -/
def Watched.isClause : Watched → Bool
  | .clause _ _ _ => true
  | _ => false

/-- A clause body in the arena. -/
structure Clause where
  lits : List Lit
  num : Nat := 0
  learnt : Bool := false
deriving DecidableEq, Repr

/-- `Clause::size`. -/
def Clause.size (c : Clause) : Nat := c.lits.length

/-- Per-clause watch positions and visit counters (`ClauseData`). -/
structure ClauseData where
  lit0 : Nat := 0
  lit1 : Nat := 0
  numLitVisited : Nat := 0
  numPropAndConfl : Nat := 0
deriving DecidableEq, Repr

/-- `ClauseData::operator[]` read: `data[which]`. -/
def ClauseData.get (d : ClauseData) (which : Bool) : Nat :=
  if which then d.lit1 else d.lit0

/-- `ClauseData::operator[]` write: `data[which] = k`. -/
def ClauseData.set (d : ClauseData) (which : Bool) (k : Nat) : ClauseData :=
  if which then { d with lit1 := k } else { d with lit0 := k }

/-- Elimination status of a variable. -/
inductive Elimed where
  | ELIMED_NONE
  | ELIMED_QUEUED_VARREPLACER
  | ELIMED_OTHER
deriving DecidableEq, Repr

/-- Per-variable data (`VarData`). -/
structure VarData where
  level : Nat := 0
  reason : PropBy := PropBy.null
  elimed : Elimed := Elimed.ELIMED_NONE
deriving DecidableEq, Repr

/-- Per-variable data of full propagation (`PropData`). -/
structure PropData where
  ancestor : Lit := lit_Undef
  learntStep : Bool := false
  hyperBin : Bool := false
  hyperBinNotAdded : Bool := false
deriving DecidableEq, Repr

/-- A binary clause with its learnt flag (`BinaryClause`). -/
structure BinaryClause where
  lit1 : Lit
  lit2 : Lit
  learnt : Bool
deriving DecidableEq, Repr

/-- The solver state. -/
structure Solver where
  watches : List (List Watched) := []
  assigns : List lbool := []
  varData : List VarData := []
  propData : List PropData := []
  seen : List Nat := []
  seen2 : List Nat := []
  trail : List Lit := []
  trail_lim : List Nat := []
  qhead : Nat := 0
  clauseData : List ClauseData := []
  arena : List Clause := []
  failBinLit : Lit := lit_Undef
  needToAddBinClause : List BinaryClause := []
  enqeuedSomething : Bool := false
  ok : Bool := true
  propagations : Nat := 0
  bogoProps : Nat := 0
  propsBin : Nat := 0
  propsTri : Nat := 0
  propsLongIrred : Nat := 0
  propsLongRed : Nat := 0
deriving DecidableEq, Repr

/-- Modelled from the spec: `nVars()` of Solver.h, the number of variables,
which is the size of `assigns`. -/
def Solver.nVars (s : Solver) : Nat := s.assigns.length

/-- Modelled from the spec: `decisionLevel()` of Solver.h, the size of
`trail_lim`. -/
def Solver.decisionLevel (s : Solver) : Nat := s.trail_lim.length

/-- `lbool ^ bool`: the value flipped when the sign is set. -/
def lbool.xor (v : lbool) (b : Bool) : lbool :=
  match v, b with
  | l_True, true => l_False
  | l_False, true => l_True
  | v, _ => v

/-- `boolToLBool`. -/
def boolToLBool (b : Bool) : lbool := if b then l_True else l_False

/-- Modelled from the spec: `value(lit)` of Solver.h, `value(+v) = assignment[v]`,
`value(-v) = ¬assignment[v]`. A variable outside `assigns` reads as `l_Undef`;
well-formed states keep every variable below `nVars`. -/
def valueOf (assigns : List lbool) (l : Lit) : lbool :=
  (assigns.getD l.var l_Undef).xor l.sign

/-- `value(lit)` on the solver state. -/
def Solver.value (s : Solver) (l : Lit) : lbool := valueOf s.assigns l

/-- The watchlist `watches[l.toInt()]`. -/
def Solver.ws (s : Solver) (l : Lit) : List Watched := s.watches.getD l.toInt []

/-- Replace the watchlist `watches[l.toInt()]`. -/
def Solver.setWs (s : Solver) (l : Lit) (ws : List Watched) : Solver :=
  { s with watches := s.watches.set l.toInt ws }

/-- `watches[l.toInt()].push(w)`. -/
def Solver.pushWs (s : Solver) (l : Lit) (w : Watched) : Except Fault Solver :=
  if l.toInt < s.watches.length then .ok (s.setWs l (s.ws l ++ [w]))
  else .error .bounds

/-- The in-place write `ws[j] = w` on `ws = watches[p.toInt()]`. -/
def Solver.writeWs (s : Solver) (p : Lit) (j : Nat) (w : Watched) : Solver :=
  s.setWs p ((s.ws p).set j w)

/-- Modelled from the spec: `enqueue(lit, reason)` of Solver.h records the
assignment, the trail entry, the decision level and the reason. -/
def Solver.enqueue (s : Solver) (p : Lit) (src : PropBy) : Except Fault Solver :=
  if p.var < s.assigns.length ∧ p.var < s.varData.length then
    .ok { s with
      assigns := s.assigns.set p.var (boolToLBool (!p.sign))
      trail := s.trail ++ [p]
      propagations := s.propagations + 1
      varData := s.varData.set p.var
        { (s.varData.getD p.var {}) with reason := src, level := s.decisionLevel } }
  else .error .bounds

/-- The index of the first non-binary watcher, or the length if there is none
(the `for` loop of `attachBinClause`). -/
def firstNonBinary : List Watched → Nat
  | [] => 0
  | w :: ws => if w.isBinary then firstNonBinary ws + 1 else 0

/-- `std::swap(ws.back(), ws[it])`. -/
def swapBack (ws : List Watched) (it : Nat) : List Watched :=
  match ws[it]?, ws.getLast? with
  | some x, some b => (ws.set it b).set (ws.length - 1) x
  | _, _ => ws

/-- One half of `attachBinClause`: push the watcher, then swap it with the first
non-binary watcher of the list, if any. -/
def pushBinary (ws : List Watched) (w : Watched) : List Watched :=
  let ws1 := ws ++ [w]
  let it := firstNonBinary ws1
  if it ≠ ws1.length then swapBack ws1 it else ws1

/-- `Solver::attachBinClause` (build without `DEBUG_ATTACH`, whose assertions
and the parameter `checkUnassignedFirst` they read are compiled out). -/
def Solver.attachBinClause (s : Solver) (lit1 lit2 : Lit) (learnt : Bool) :
    Except Fault Solver :=
  if lit1.neg.toInt < s.watches.length then
    let s1 := s.setWs lit1.neg (pushBinary (s.ws lit1.neg) (.binary lit2 learnt))
    if lit2.neg.toInt < s1.watches.length then
      .ok (s1.setWs lit2.neg (pushBinary (s1.ws lit2.neg) (.binary lit1 learnt)))
    else .error .bounds
  else .error .bounds

/-- `Solver::attachClause`; the clause is named by its arena offset `off`
(`clAllocator->getOffset(&c)`). -/
def Solver.attachClause (s : Solver) (off : Nat) (point1 point2 : Nat)
    (checkAttach : Bool) : Except Fault Solver :=
  match s.arena[off]? with
  | none => .error .bounds
  | some c =>
    if ¬ (c.size > 2) then .error .assertion else
    match c.lits[point1]?, c.lits[point2]? with
    | some l1, some l2 =>
      if ¬ (l1.var ≠ l2.var) then .error .assertion else
      if checkAttach ∧ ¬ (s.value { var := l1.var, sign := false } = l_Undef
          ∧ (s.value l2 = l_Undef ∨ s.value l2 = l_False)) then .error .assertion else
      if c.size = 3 then
        match c.lits with
        | [c0, c1, c2] =>
          match s.pushWs c0.neg (.tri c1 c2) with
          | .error e => .error e
          | .ok s1 =>
            match s1.pushWs c1.neg (.tri c0 c2) with
            | .error e => .error e
            | .ok s2 => s2.pushWs c2.neg (.tri c0 c1)
        | _ => .error .bounds
      else
        match c.lits[c.size / 2]? with
        | none => .error .bounds
        | some blk =>
          match s.pushWs l1.neg (.clause off blk false) with
          | .error e => .error e
          | .ok s1 =>
            match s1.pushWs l2.neg (.clause off blk true) with
            | .error e => .error e
            | .ok s2 =>
              let cd := if s2.clauseData.length ≤ c.num
                then s2.clauseData ++ List.replicate (c.num + 1 - s2.clauseData.length) {}
                else s2.clauseData
              .ok { s2 with clauseData := cd.set c.num { lit0 := point1, lit1 := point2 } }
    | _, _ => .error .bounds

/-- Modelled from the spec: `findWCl` of Watched.h, is there a Long watcher for
`offset` in the list. -/
def findWCl (ws : List Watched) (offset : Nat) : Bool :=
  ws.any (fun w => match w with
    | .clause o _ _ => o = offset
    | _ => false)

/-- Modelled from the spec: `removeWCl` of Watched.h removes the first Long
watcher matching `offset`; its absence fails an assertion. -/
def removeWCl : List Watched → Nat → Except Fault (List Watched)
  | [], _ => .error .assertion
  | w :: ws, offset =>
    match w with
    | .clause o _ _ =>
      if o = offset then .ok ws
      else match removeWCl ws offset with
        | .ok r => .ok (w :: r)
        | .error e => .error e
    | _ => match removeWCl ws offset with
        | .ok r => .ok (w :: r)
        | .error e => .error e

/-- Modelled from the spec: `removeWTri` of Watched.h removes the first Ternary
watcher with payload `(lit1, lit2)`; its absence fails an assertion. -/
def removeWTri : List Watched → Lit → Lit → Except Fault (List Watched)
  | [], _, _ => .error .assertion
  | w :: ws, lit1, lit2 =>
    if w = .tri lit1 lit2 then .ok ws
    else match removeWTri ws lit1 lit2 with
      | .ok r => .ok (w :: r)
      | .error e => .error e

/-- Apply a removal to the watchlist `watches[l.toInt()]`. -/
def Solver.removeFromWs (s : Solver) (l : Lit)
    (f : List Watched → Except Fault (List Watched)) : Except Fault Solver :=
  if l.toInt < s.watches.length then
    match f (s.ws l) with
    | .ok r => .ok (s.setWs l r)
    | .error e => .error e
  else .error .bounds

/-- `Solver::detachModifiedClause`; `off` is `clAllocator->getOffset(address)`. -/
def Solver.detachModifiedClause (s : Solver) (lit1 lit2 lit3 : Lit) (origSize : Nat)
    (off : Nat) : Except Fault Solver :=
  if ¬ (origSize > 2) then .error .assertion else
  if lit1.neg.toInt < s.watches.length then
    if origSize = 3 ∧ ¬ findWCl (s.ws lit1.neg) off then
      match s.removeFromWs lit1.neg (fun ws => removeWTri ws lit2 lit3) with
      | .error e => .error e
      | .ok s1 =>
        match s1.removeFromWs lit2.neg (fun ws => removeWTri ws lit1 lit3) with
        | .error e => .error e
        | .ok s2 => s2.removeFromWs lit3.neg (fun ws => removeWTri ws lit1 lit2)
    else
      match s.removeFromWs lit1.neg (fun ws => removeWCl ws off) with
      | .error e => .error e
      | .ok s1 => s1.removeFromWs lit2.neg (fun ws => removeWCl ws off)
  else .error .bounds

/-- `Solver::detachClause`. -/
def Solver.detachClause (s : Solver) (off : Nat) : Except Fault Solver :=
  match s.arena[off]? with
  | none => .error .bounds
  | some c =>
    if c.size > 3 then
      match s.clauseData[c.num]? with
      | none => .error .bounds
      | some data =>
        match c.lits[data.get false]?, c.lits[data.get true]? with
        | some l1, some l2 =>
          if c.size = 3 then
            match c.lits[2]? with
            | some l3 => s.detachModifiedClause l1 l2 l3 c.size off
            | none => .error .bounds
          else s.detachModifiedClause l1 l2 lit_Undef c.size off
        | _, _ => .error .bounds
    else
      match c.lits[0]?, c.lits[1]?, c.lits[2]? with
      | some l1, some l2, some l3 => s.detachModifiedClause l1 l2 l3 c.size off
      | _, _, _ => .error .bounds

/-- `Solver::propBinaryClause` on the watcher payload `other = i->getOtherLit()`.
Returns the flag, the conflict and the state. -/
def Solver.propBinaryClause (s : Solver) (other : Lit) (p : Lit) (confl : PropBy) :
    Except Fault (Bool × PropBy × Solver) :=
  if s.value other = l_Undef then
    match ({ s with propsBin := s.propsBin + 1 } : Solver).enqueue other (.binary p.neg) with
    | .error e => .error e
    | .ok s1 => .ok (true, confl, s1)
  else if s.value other = l_False then
    .ok (false, .binary p.neg,
      { s with failBinLit := other, qhead := s.trail.length })
  else .ok (true, confl, s)

/-- `Solver::propTriClause<true>` on the payload `(other, other2)`. -/
def Solver.propTriClause (s : Solver) (other other2 : Lit) (p : Lit) (confl : PropBy) :
    Except Fault (Bool × PropBy × Solver) :=
  let val := s.value other
  if val = l_True then .ok (true, confl, s) else
  let val2 := s.value other2
  if val = l_Undef ∧ val2 = l_False then
    match ({ s with propsTri := s.propsTri + 1 } : Solver).enqueue other
        (.tertiary p.neg other2) with
    | .error e => .error e
    | .ok s1 => .ok (true, confl, s1)
  else if val = l_False ∧ val2 = l_Undef then
    match ({ s with propsTri := s.propsTri + 1 } : Solver).enqueue other2
        (.tertiary p.neg other) with
    | .error e => .error e
    | .ok s1 => .ok (true, confl, s1)
  else if val = l_False ∧ val2 = l_False then
    .ok (false, .tertiary p.neg other2,
      { s with failBinLit := other, qhead := s.trail.length })
  else .ok (true, confl, s)

/-- The search for a new watch in `propNormalClause`: the `for` loop over
`numLit`, `n` positions remaining. Returns the position found. -/
def findNewWatch (assigns : List lbool) (lits : List Lit) (d0 d1 : Nat) :
    Nat → Nat → Option Nat
  | 0, _ => none
  | n + 1, numLit =>
    if numLit = d0 ∨ numLit = d1 then findNewWatch assigns lits d0 d1 n (numLit + 1)
    else if valueOf assigns (lits.getD numLit lit_Undef) ≠ l_False then some numLit
    else findNewWatch assigns lits d0 d1 n (numLit + 1)

/-- Update `clauseData[num]` in place. -/
def Solver.setData (s : Solver) (num : Nat) (d : ClauseData) : Solver :=
  { s with clauseData := s.clauseData.set num d }

/-- `Solver::propNormalClause<true>` on the watcher `w = *i`, which is
`Watched(offset, blocked, watchNum)`, with write index `j` into
`watches[p.toInt()]`. Returns the flag, the new `j`, the conflict and the state.
The local `uint16_t size = c.size()` is `c.size % 65536`. -/
def Solver.propNormalClause (s : Solver) (w : Watched) (offset : Nat) (blocked : Lit)
    (watchNum : Bool) (j : Nat) (p : Lit) (confl : PropBy) :
    Except Fault (Bool × Nat × PropBy × Solver) :=
  if s.value blocked = l_True then .ok (true, j + 1, confl, s.writeWs p j w) else
  let s1 : Solver := { s with bogoProps := s.bogoProps + 4 }
  match s1.arena[offset]? with
  | none => .error .bounds
  | some c =>
    match s1.clauseData[c.num]? with
    | none => .error .bounds
    | some data =>
      match c.lits[data.get watchNum]?, c.lits[data.get (!watchNum)]? with
      | some lw, some lo =>
        if ¬ (lw = p.neg) then .error .assertion else
        if s1.value lo = l_True then .ok (true, j + 1, confl, s1.writeWs p j w) else
        match findNewWatch s1.assigns c.lits data.lit0 data.lit1 (c.size % 65536) 0 with
        | some numLit =>
          let data1 := data.set watchNum numLit
          let s2 := s1.setData c.num data1
          match s2.pushWs (c.lits.getD numLit lit_Undef).neg
              (.clause offset lo watchNum) with
          | .error e => .error e
          | .ok s3 =>
            .ok (true, j, confl,
              ({ s3 with bogoProps := s3.bogoProps + numLit / 10 } : Solver).setData c.num
                { data1 with numLitVisited := data1.numLitVisited + numLit })
        | none =>
          let numLit := c.size % 65536
          let data1 : ClauseData :=
            { data with numLitVisited := data.numLitVisited + numLit
                        numPropAndConfl := data.numPropAndConfl + 1 }
          let s2 := (({ s1 with bogoProps := s1.bogoProps + numLit / 10 } : Solver).setData
            c.num data1).writeWs p j w
          if s2.value lo = l_False then
            .ok (false, j + 1, .clause offset (!watchNum), { s2 with qhead := s2.trail.length })
          else
            let s3 : Solver := if c.learnt
              then { s2 with propsLongRed := s2.propsLongRed + 1 }
              else { s2 with propsLongIrred := s2.propsLongIrred + 1 }
            match s3.enqueue lo (.clause offset (!watchNum)) with
            | .error e => .error e
            | .ok s4 => .ok (true, j + 1, confl, s4)
      | _, _ => .error .bounds

/-- The body of the `for` loop of `propagate` on the watcher `w = *i`: the
dispatch on the kind of the watcher. Returns the flag (`false` is `break`), the
new `j`, the conflict and the state. The prefetch through `i2` has no effect on
the state and is left out. -/
def Solver.propagateWatch (s : Solver) (p : Lit) (j : Nat) (w : Watched) (confl : PropBy) :
    Except Fault (Bool × Nat × PropBy × Solver) :=
  match w with
  | .binary other learnt =>
    match (s.writeWs p j (.binary other learnt)).propBinaryClause other p confl with
    | .error e => .error e
    | .ok (b, confl1, s1) => .ok (b, j + 1, confl1, s1)
  | .tri other other2 =>
    match (s.writeWs p j (.tri other other2)).propTriClause other other2 p confl with
    | .error e => .error e
    | .ok (b, confl1, s1) => .ok (b, j + 1, confl1, s1)
  | .clause offset blocked watchNum =>
    s.propNormalClause (.clause offset blocked watchNum) offset blocked watchNum j p confl

/-- The `for (; i != end; i++)` loop of `propagate` over `ws = watches[p.toInt()]`,
with `n = end - i` entries left. Returns the final `i`, `j`, conflict and state. -/
def Solver.propagateWatches (p : Lit) :
    Nat → Nat → Nat → Solver → PropBy → Except Fault (Nat × Nat × PropBy × Solver)
  | 0, i, j, s, confl => .ok (i, j, confl, s)
  | n + 1, i, j, s, confl =>
    match (s.ws p)[i]? with
    | none => .error .bounds
    | some w =>
      match s.propagateWatch p j w confl with
      | .error e => .error e
      | .ok (true, j1, confl1, s1) => Solver.propagateWatches p n (i + 1) j1 s1 confl1
      | .ok (false, j1, confl1, s1) => .ok (i + 1, j1, confl1, s1)

/-- The loop `while (i != end) *j++ = *i++` of `propagate`, `n = end - i`. -/
def Solver.copyRest (p : Lit) : Nat → Nat → Nat → Solver → Nat × Solver
  | 0, _, j, s => (j, s)
  | n + 1, i, j, s =>
    match (s.ws p)[i]? with
    | none => (j, s)
    | some w => Solver.copyRest p n (i + 1) (j + 1) (s.writeWs p j w)

/-- `ws.shrink_(k)` on `ws = watches[p.toInt()]`: drop the last `k` entries. -/
def Solver.shrinkWs (s : Solver) (p : Lit) (k : Nat) : Solver :=
  s.setWs p ((s.ws p).take ((s.ws p).length - k))

/-- The body of the `while` loop of `propagate` for the dequeued literal. -/
def Solver.propagateLit (s : Solver) (confl : PropBy) : Except Fault (PropBy × Solver) :=
  match s.trail[s.qhead]? with
  | none => .error .bounds
  | some p =>
    if p.toInt < s.watches.length then
      let end_ := (s.ws p).length
      let s1 : Solver :=
        { s with qhead := s.qhead + 1, bogoProps := s.bogoProps + (end_ / 4 + 1) }
      match Solver.propagateWatches p end_ 0 0 s1 confl with
      | .error e => .error e
      | .ok (i, j, confl1, s2) =>
        let r := Solver.copyRest p (end_ - i) i j s2
        .ok (confl1, r.2.shrinkWs p (end_ - r.1))
    else .error .bounds

/-- The `while (qhead < trail.size() && confl.isNULL())` loop of `propagate`. -/
def Solver.propagateLoop : Nat → Solver → PropBy → Except Fault (PropBy × Solver)
  | 0, s, confl =>
    if s.qhead < s.trail.length ∧ confl.isNULL then .error .fuel else .ok (confl, s)
  | fuel + 1, s, confl =>
    if s.qhead < s.trail.length ∧ confl.isNULL then
      match s.propagateLit confl with
      | .error e => .error e
      | .ok (confl1, s1) => Solver.propagateLoop fuel s1 confl1
    else .ok (confl, s)

/-- Number of unassigned variables. -/
def undefCount (a : List lbool) : Nat := a.count l_Undef

/-- The fuel that `propagate` needs: every iteration dequeues one literal, and
every enqueue assigns one unassigned variable. -/
def Solver.propagateFuel (s : Solver) : Nat :=
  (s.trail.length - s.qhead) + undefCount s.assigns

/-- `Solver::propagate`. -/
def Solver.propagate (s : Solver) : Except Fault (PropBy × Solver) :=
  Solver.propagateLoop s.propagateFuel s .null

/-! ## The functional view of one watchlist scan

`propNormalCore`, `absStep`, `absScan` and `absLit` describe the scan of
`watches[p]` without the in-place cursors: the state always carries the list made
of the entries kept so far followed by the entries not yet visited, and a
relocated entry is erased from it. `propagateLit_eq_absLit` shows that the
in-place loop of the source computes the same result. -/

/-- What `propNormalClause` asks of the watchlists: keep the entry, or drop it
and push the watcher `w` onto `watches[l]`. -/
inductive LongAct where
  | keep
  | relocate (l : Lit) (w : Watched)
deriving DecidableEq, Repr

/-- The part of `propNormalClause<true>` that does not touch the watchlists. -/
def Solver.propNormalCore (s : Solver) (offset : Nat) (blocked : Lit)
    (watchNum : Bool) (p : Lit) (confl : PropBy) :
    Except Fault (Bool × LongAct × PropBy × Solver) :=
  if s.value blocked = l_True then .ok (true, .keep, confl, s) else
  let s1 : Solver := { s with bogoProps := s.bogoProps + 4 }
  match s1.arena[offset]? with
  | none => .error .bounds
  | some c =>
    match s1.clauseData[c.num]? with
    | none => .error .bounds
    | some data =>
      match c.lits[data.get watchNum]?, c.lits[data.get (!watchNum)]? with
      | some lw, some lo =>
        if ¬ (lw = p.neg) then .error .assertion else
        if s1.value lo = l_True then .ok (true, .keep, confl, s1) else
        match findNewWatch s1.assigns c.lits data.lit0 data.lit1 (c.size % 65536) 0 with
        | some numLit =>
          let data1 := data.set watchNum numLit
          let s2 := s1.setData c.num data1
          .ok (true, .relocate (c.lits.getD numLit lit_Undef).neg (.clause offset lo watchNum),
            confl,
            ({ s2 with bogoProps := s2.bogoProps + numLit / 10 } : Solver).setData c.num
              { data1 with numLitVisited := data1.numLitVisited + numLit })
        | none =>
          let numLit := c.size % 65536
          let data1 : ClauseData :=
            { data with numLitVisited := data.numLitVisited + numLit
                        numPropAndConfl := data.numPropAndConfl + 1 }
          let s2 := ({ s1 with bogoProps := s1.bogoProps + numLit / 10 } : Solver).setData
            c.num data1
          if s2.value lo = l_False then
            .ok (false, .keep, .clause offset (!watchNum), { s2 with qhead := s2.trail.length })
          else
            let s3 : Solver := if c.learnt
              then { s2 with propsLongRed := s2.propsLongRed + 1 }
              else { s2 with propsLongIrred := s2.propsLongIrred + 1 }
            match s3.enqueue lo (.clause offset (!watchNum)) with
            | .error e => .error e
            | .ok s4 => .ok (true, .keep, confl, s4)
      | _, _ => .error .bounds

/-- One step of the scan on the watcher `w` at position `k` of `watches[p]`:
the flag, the position of the next watcher, the conflict and the state. -/
def Solver.absStep (s : Solver) (p : Lit) (k : Nat) (w : Watched) (confl : PropBy) :
    Except Fault (Bool × Nat × PropBy × Solver) :=
  match w with
  | .binary other _ =>
    match s.propBinaryClause other p confl with
    | .error e => .error e
    | .ok (b, confl1, s1) => .ok (b, k + 1, confl1, s1)
  | .tri other other2 =>
    match s.propTriClause other other2 p confl with
    | .error e => .error e
    | .ok (b, confl1, s1) => .ok (b, k + 1, confl1, s1)
  | .clause offset blocked watchNum =>
    match s.propNormalCore offset blocked watchNum p confl with
    | .error e => .error e
    | .ok (b, .keep, confl1, s1) => .ok (b, k + 1, confl1, s1)
    | .ok (b, .relocate l w1, confl1, s1) =>
      match (s1.setWs p ((s1.ws p).eraseIdx k)).pushWs l w1 with
      | .error e => .error e
      | .ok s2 => .ok (b, k, confl1, s2)

/-- The scan of `watches[p]` from position `k`, with `n` watchers left. -/
def Solver.absScan (p : Lit) : Nat → Nat → Solver → PropBy → Except Fault (PropBy × Solver)
  | 0, _, s, confl => .ok (confl, s)
  | n + 1, k, s, confl =>
    match (s.ws p)[k]? with
    | none => .error .bounds
    | some w =>
      match s.absStep p k w confl with
      | .error e => .error e
      | .ok (true, k1, confl1, s1) => Solver.absScan p n k1 s1 confl1
      | .ok (false, _, confl1, s1) => .ok (confl1, s1)

/-- The functional view of `propagateLit`. -/
def Solver.absLit (s : Solver) (confl : PropBy) : Except Fault (PropBy × Solver) :=
  match s.trail[s.qhead]? with
  | none => .error .bounds
  | some p =>
    if p.toInt < s.watches.length then
      let end_ := (s.ws p).length
      let s1 : Solver :=
        { s with qhead := s.qhead + 1, bogoProps := s.bogoProps + (end_ / 4 + 1) }
      Solver.absScan p end_ 0 s1 confl
    else .error .bounds

/-- The watchlists seen through the cursors: `watches[p]` is the entries written
so far, `take j`, followed by the entries still to be read, `drop i`. -/
def virtW (W : List (List Watched)) (p : Lit) (i j : Nat) : List (List Watched) :=
  W.set p.toInt ((W.getD p.toInt []).take j ++ (W.getD p.toInt []).drop i)

/-- The state seen through the cursors. -/
def Solver.virt (s : Solver) (p : Lit) (i j : Nat) : Solver :=
  { s with watches := virtW s.watches p i j }

/-- The watched positions `(data[0], data[1])` of the clause numbered `num`. -/
def Solver.watchPos (s : Solver) (num : Nat) : Option (Nat × Nat) :=
  (s.clauseData[num]?).map (fun d => (d.lit0, d.lit1))

/-- The states agree on everything but `qhead`, the watchlists, the counters
and `failBinLit`. -/
def Same (s t : Solver) : Prop :=
  t.assigns = s.assigns ∧ t.trail = s.trail ∧ t.varData = s.varData ∧
    t.arena = s.arena ∧ t.trail_lim = s.trail_lim ∧
    t.clauseData.length = s.clauseData.length ∧ ∀ n, t.watchPos n = s.watchPos n

/-- The state `t` is `s` with the watch `which` of the clause numbered `num` moved
to position `k`, up to the counters. -/
def Reloc (s t : Solver) (num : Nat) (which : Bool) (k : Nat) : Prop :=
  t.assigns = s.assigns ∧ t.trail = s.trail ∧ t.varData = s.varData ∧
    t.arena = s.arena ∧ t.trail_lim = s.trail_lim ∧ t.qhead = s.qhead ∧
    t.clauseData.length = s.clauseData.length ∧
    t.watchPos num = (s.clauseData[num]?).map
      (fun d => ((d.set which k).lit0, (d.set which k).lit1)) ∧
    ∀ n, n ≠ num → t.watchPos n = s.watchPos n

/-- The state `t` is `s` after `enqueue(l, r)`, up to the counters. -/
def Enq (s t : Solver) (l : Lit) (r : PropBy) : Prop :=
  l.var < s.assigns.length ∧ l.var < s.varData.length ∧
    t.assigns = s.assigns.set l.var (boolToLBool (!l.sign)) ∧
    t.trail = s.trail ++ [l] ∧
    t.varData = s.varData.set l.var
      { (s.varData.getD l.var {}) with reason := r, level := s.trail_lim.length } ∧
    t.arena = s.arena ∧ t.trail_lim = s.trail_lim ∧ t.qhead = s.qhead ∧
    t.clauseData.length = s.clauseData.length ∧ ∀ n, t.watchPos n = s.watchPos n

/-! ## Predicates used in the statements -/

/-- Binaries are front-loaded: no binary watcher follows a non-binary one. -/
def BinFront (ws : List Watched) : Prop :=
  ws.Pairwise (fun x y => y.isBinary = true → x.isBinary = true)

/-- The list `new` is `old` with the one watcher `w` inserted at a position that
has only binary watchers in front of it; the other watchers keep their multiset,
and front-loaded binaries stay front-loaded. -/
def BinInserted (old new : List Watched) (w : Watched) : Prop :=
  ∃ pre post, new = pre ++ w :: post ∧ (∀ x ∈ pre, x.isBinary = true) ∧
    (pre ++ post).Perm old ∧ (BinFront old → BinFront new)

/-- The clause at `off` has no Long watcher in any watchlist. -/
def NotAttached (s : Solver) (off : Nat) : Prop :=
  ∀ l blk wn, Watched.clause off blk wn ∉ s.ws l

/-! ## Example states -/

/-- The empty solver with `n` variables over the arena `ar`. -/
def emptySolver (n : Nat) (ar : List Clause) : Solver :=
  { watches := List.replicate (2 * n) [], assigns := List.replicate n l_Undef,
    varData := List.replicate n {}, arena := ar }

/-- The positive literal `+v`. -/
def posLit (v : Nat) : Lit := { var := v, sign := false }

/-- The negative literal `-v`. -/
def negLit (v : Nat) : Lit := { var := v, sign := true }

/-- Four variables, the clause `{+0, +1, +2, +3}` at offset 0, nothing attached. -/
def exLong4 : Solver := emptySolver 4 [{ lits := [posLit 0, posLit 1, posLit 2, posLit 3] }]

/-- The state `exLong4` after `attachClause` of the clause with watches 0 and 1. -/
def exLong4Attached : Solver :=
  { exLong4 with
    watches := [[], [.clause 0 (posLit 2) false], [], [.clause 0 (posLit 2) true],
      [], [], [], []]
    clauseData := [{ lit0 := 0, lit1 := 1 }] }

/-- The state `exLong4` with variable 0 already assigned True. -/
def exLong4Assigned : Solver :=
  { exLong4 with assigns := [l_True, l_Undef, l_Undef, l_Undef], trail := [posLit 0] }

/-! ## Variables, unit literals, counting binaries -/

/-- `vec::resize(n)` with default-constructed new entries. -/
def resizeList {α : Type} (l : List α) (n : Nat) (d : α) : List α :=
  l.take n ++ List.replicate (n - l.length) d

/-- `Solver::newVar`; the call `exit(-1)` is the fault `Fault.exit`. Returns the
new variable and the state. -/
def Solver.newVar (s : Solver) : Except Fault (Nat × Solver) :=
  let v := s.nVars
  if v ≥ 2 ^ 30 then .error .exit else
  let s1 : Solver := { s with watches := resizeList s.watches (s.watches.length + 2) [] }
  let s2 : Solver := { s1 with assigns := s1.assigns ++ [l_Undef] }
  let s3 : Solver := { s2 with varData := s2.varData ++ [{}] }
  let s4 : Solver := { s3 with propData := resizeList s3.propData s3.nVars {} }
  let s5 : Solver := { s4 with seen := (s4.seen ++ [0]) ++ [0] }
  .ok (v, { s5 with seen2 := (s5.seen2 ++ [0]) ++ [0] })

/-- The loop `for (i = 0; i != lim; i++) unitaries.push_back(trail[i])` of
`getUnitaries`, with `n = lim - i` rounds left. -/
def getUnitariesLoop (trail : List Lit) : Nat → Nat → List Lit → Except Fault (List Lit)
  | 0, _, unitaries => .ok unitaries
  | n + 1, i, unitaries =>
    match trail[i]? with
    | none => .error .bounds
    | some l => getUnitariesLoop trail n (i + 1) (unitaries ++ [l])

/-- `Solver::getUnitaries`. -/
def Solver.getUnitaries (s : Solver) : Except Fault (List Lit) :=
  if s.decisionLevel > 0 then
    match s.trail_lim[0]? with
    | none => .error .bounds
    | some lim => getUnitariesLoop s.trail lim 0 []
  else .ok []

/-- The inner loop of `countNumBinClauses` over one watchlist; `num` is a
`uint32_t`. -/
def countBinWs (alsoLearnt alsoNonLearnt : Bool) : List Watched → Nat → Nat
  | [], num => num
  | w :: ws, num =>
    match w with
    | .binary _ learnt =>
      if learnt then countBinWs alsoLearnt alsoNonLearnt ws ((num + alsoLearnt.toNat) % 2 ^ 32)
      else countBinWs alsoLearnt alsoNonLearnt ws ((num + alsoNonLearnt.toNat) % 2 ^ 32)
    | _ => countBinWs alsoLearnt alsoNonLearnt ws num

/-- The outer loop of `countNumBinClauses` over all watchlists. -/
def countBinAll (alsoLearnt alsoNonLearnt : Bool) : List (List Watched) → Nat → Nat
  | [], num => num
  | ws :: rest, num =>
    countBinAll alsoLearnt alsoNonLearnt rest (countBinWs alsoLearnt alsoNonLearnt ws num)

/-- `Solver::countNumBinClauses`. -/
def Solver.countNumBinClauses (s : Solver) (alsoLearnt alsoNonLearnt : Bool) :
    Except Fault Nat :=
  let num := countBinAll alsoLearnt alsoNonLearnt s.watches 0
  if num % 2 = 0 then .ok (num / 2) else .error .assertion

/-- A state with `2 ^ 30 - 1` variables, all unassigned. -/
def exManyVars : Solver :=
  { watches := List.replicate (2 * (2 ^ 30 - 1)) [],
    assigns := List.replicate (2 ^ 30 - 1) l_Undef,
    varData := List.replicate (2 ^ 30 - 1) {},
    propData := List.replicate (2 ^ 30 - 1) {},
    seen := List.replicate (2 * (2 ^ 30 - 1)) 0,
    seen2 := List.replicate (2 * (2 ^ 30 - 1)) 0 }

/-- Two variables, none assigned, nothing attached. -/
def exTwoVars : Solver :=
  { watches := [[], [], [], []], assigns := [l_Undef, l_Undef], varData := [{}, {}],
    propData := [{}, {}], seen := [0, 0, 0, 0], seen2 := [0, 0, 0, 0] }

/-- One variable assigned True at decision level 0, no decision made. -/
def exUnitLevel0 : Solver :=
  { watches := [[], []], assigns := [l_True], varData := [{}], propData := [{}],
    trail := [posLit 0], qhead := 1 }

/-- Variable 0 assigned at level 0, then the decision `+1` at level 1. -/
def exUnitLevel1 : Solver :=
  { watches := [[], [], [], []], assigns := [l_True, l_True], varData := [{}, { level := 1 }],
    propData := [{}, {}], trail := [posLit 0, posLit 1], trail_lim := [1], qhead := 2 }

/-! ## The clause predictor (cl_predictors.cpp)

Floating point numbers are rational numbers and arithmetic on them is exact;
`log2` is a parameter. The unsigned subtractions wrap as in the source. -/

/-- Modelled from the spec: the statistics of a clause that `set_up_input`
reads (`ClauseStats` of clause.h). Counters are natural numbers; the discounted
and averaged ones are non-negative rationals. -/
structure ClauseStats where
  orig_glue : Nat := 0
  last_touched : Nat := 0
  introduced_at_conflict : Nat := 0
  props_made : Nat := 0
  ttl_stats : Nat := 0
  conflicts_made : Nat := 0
  glue : Nat := 0
  sum_props_made : Nat := 0
  sum_uip1_used : Nat := 0
  glue_before_minim : Nat := 0
  num_antecedents : Nat := 0
  num_total_lits_antecedents : Nat := 0
  glue_hist_long : NNRat := 0
  discounted_uip1_used3 : NNRat := 0
  num_resolutions_hist_lt : NNRat := 0
  discounted_props_made : NNRat := 0

/-- Modelled from the spec: the part of `CMSat::Clause` that `set_up_input`
reads; `is_ternary_resolvent` is the 0/1 indicator. -/
structure PredClause where
  stats : ClauseStats := {}
  is_ternary_resolvent : Nat := 0

/-- `MISSING_VAL`, the sentinel `-1.0f`. -/
def MISSING_VAL : ℚ := -1

/-- Modelled from the spec: `PRED_COLS_SHORT` of cl_predictors.h, the length of
the short feature vector; the assertion `cols == x` of `set_up_input` holds for
this value only. -/
def PRED_COLS_SHORT : Nat := 6

/-- Modelled from the spec: `PRED_COLS` of cl_predictors.h, the length of the
full feature vector; the assertion `x == cols` of `set_up_input` holds for this
value only. -/
def PRED_COLS : Nat := 17

/-- The difference `sumConflicts - cl->stats.last_touched` stored in a
`uint32_t`. -/
def last_touched_diff (cl : PredClause) (sumConflicts : Nat) : Nat :=
  (((sumConflicts : Int) - (cl.stats.last_touched : Int)) % 2 ^ 32).toNat

/-- The difference `sumConflicts - cl->stats.introduced_at_conflict`, computed
in `uint64_t` and stored in a `double`. -/
def time_inside_solver (cl : PredClause) (sumConflicts : Nat) : ℚ :=
  ((((sumConflicts : Int) - (cl.stats.introduced_at_conflict : Int)) % 2 ^ 64).toNat : ℚ)

/-- The features 1 to 6 that `set_up_input` writes first, in the order
written. -/
def shortFeatures (cl : PredClause) (sumConflicts : Nat)
    (act_ranking_rel uip1_ranking_rel prop_ranking_rel avg_props : ℚ) : List ℚ :=
  let ltd := last_touched_diff cl sumConflicts
  [ uip1_ranking_rel,
    (if ltd = 0 then MISSING_VAL else act_ranking_rel / (ltd : ℚ)),
    prop_ranking_rel,
    (if avg_props = 0 then MISSING_VAL else (cl.stats.props_made : ℚ) / avg_props),
    (ltd : ℚ),
    (cl.stats.ttl_stats : ℚ) ]

/-- The features 7 to 17 that `set_up_input` writes after the short ones, in
the order written. -/
def longFeatures (log2 : ℚ → ℚ) (cl : PredClause) (sumConflicts : Nat)
    (avg_props avg_glue : ℚ) : List ℚ :=
  let t := time_inside_solver cl sumConflicts
  let st := cl.stats
  [ (if st.conflicts_made = 0 then MISSING_VAL
      else (st.glue : ℚ) / (st.conflicts_made : ℚ)),
    (if t = 0 then MISSING_VAL else (st.sum_props_made : ℚ) / t),
    (if t = 0 ∨ avg_glue = 0 ∨ st.glue = 0 then MISSING_VAL
      else ((st.sum_props_made : ℚ) / t) / ((st.glue : ℚ) / avg_glue)),
    (if t = 0 ∨ st.sum_uip1_used = 0 ∨ st.glue_before_minim = 0
        ∨ cl.is_ternary_resolvent ≠ 0 then MISSING_VAL
      else log2 (st.glue_before_minim : ℚ) / ((st.sum_uip1_used : ℚ) / t)),
    (if cl.is_ternary_resolvent ≠ 0 then MISSING_VAL else (st.orig_glue : ℚ)),
    (if st.num_antecedents = 0 ∨ st.num_total_lits_antecedents = 0
        ∨ cl.is_ternary_resolvent ≠ 0 then MISSING_VAL
      else log2 (st.num_antecedents : ℚ) / (st.num_total_lits_antecedents : ℚ)),
    (if st.glue_before_minim = 0 ∨ cl.is_ternary_resolvent ≠ 0 then MISSING_VAL
      else (st.glue_hist_long : ℚ) / (st.glue_before_minim : ℚ)),
    (if cl.is_ternary_resolvent = 0 then MISSING_VAL
      else (st.discounted_uip1_used3 : ℚ) / (cl.is_ternary_resolvent : ℚ)),
    (if st.num_resolutions_hist_lt = 0 ∨ cl.is_ternary_resolvent ≠ 0 then MISSING_VAL
      else (st.discounted_props_made : ℚ) / (st.num_resolutions_hist_lt : ℚ)),
    (if st.discounted_props_made = 0 ∨ t = 0 then MISSING_VAL
      else ((st.sum_uip1_used : ℚ) / t) / (st.discounted_props_made : ℚ)),
    (if avg_props = 0 ∨ st.props_made = 0 then MISSING_VAL
      else (st.glue : ℚ) / ((st.props_made : ℚ) / avg_props)) ]

/-- `ClPredictors::set_up_input`: the values written to `at[0 .. x)`, in order. -/
def set_up_input (log2 : ℚ → ℚ) (cl : PredClause) (sumConflicts : Nat)
    (act_ranking_rel uip1_ranking_rel prop_ranking_rel avg_props avg_glue : ℚ)
    (cols : Nat) : Except Fault (List ℚ) :=
  if ¬ (cl.stats.orig_glue ≠ 1) then .error .assertion else
  let at6 := shortFeatures cl sumConflicts act_ranking_rel uip1_ranking_rel
    prop_ranking_rel avg_props
  if cols = PRED_COLS_SHORT then
    if cols = at6.length then .ok at6 else .error .assertion
  else
    let at17 := at6 ++ longFeatures log2 cl sumConflicts avg_props avg_glue
    if at17.length = cols then .ok at17 else .error .assertion

/-- The row that `predict` hands to the short-horizon model:
`XGDMatrixCreateFromMat(train, 1, PRED_COLS_SHORT, ..)` reads the first
`PRED_COLS_SHORT` columns of the buffer that `set_up_input` filled with
`cols = PRED_COLS`. -/
def predictShortInput (log2 : ℚ → ℚ) (cl : PredClause) (sumConflicts : Nat)
    (act_ranking_rel uip1_ranking_rel prop_ranking_rel avg_props avg_glue : ℚ) :
    Except Fault (List ℚ) :=
  match set_up_input log2 cl sumConflicts act_ranking_rel uip1_ranking_rel
      prop_ranking_rel avg_props avg_glue PRED_COLS with
  | .error e => .error e
  | .ok train => .ok (train.take PRED_COLS_SHORT)

/-- A clause whose original glue is 1. -/
def exGlueOne : PredClause := { stats := { orig_glue := 1 } }

/-- A clause that was never used in a first-UIP conflict (`sum_uip1_used = 0`),
with `discounted_props_made = 1`, introduced at conflict 0. -/
def exNoUip : PredClause := { stats := { discounted_props_made := 1 } }

/-- A clause that is no ternary resolvent, with `num_antecedents = 0` and
`num_total_lits_antecedents = 3`. -/
def exNoAntecedent : PredClause := { stats := { num_total_lits_antecedents := 3 } }

/-- A learnt clause with all counters set. -/
def exPredClause : PredClause :=
  { stats := { orig_glue := 4, last_touched := 90, introduced_at_conflict := 50,
               props_made := 12, ttl_stats := 1, conflicts_made := 3, glue := 3,
               sum_props_made := 40, sum_uip1_used := 5, glue_before_minim := 4,
               num_antecedents := 4, num_total_lits_antecedents := 16,
               glue_hist_long := 5, discounted_uip1_used3 := 2,
               num_resolutions_hist_lt := 7, discounted_props_made := 6 } }

/-- A stand-in for `log2` in the examples: the number of halvings, `Nat.log 2` of
the integer part. -/
def exLog2 (x : ℚ) : ℚ := (Nat.log 2 x.floor.toNat : ℚ)

/-! ## propagateNonLearntBin -/

/-- The `for` loop of `propagateNonLearntBin` over the watchers of `p`: watchers
that are not binary or are learnt are skipped; the flag `false` is the early
`return confl`. -/
def Solver.propNonLearntBinList (p : Lit) :
    List Watched → Solver → PropBy → Except Fault (Bool × PropBy × Solver)
  | [], s, confl => .ok (true, confl, s)
  | w :: ws, s, confl =>
    match w with
    | .binary other learnt =>
      if learnt then Solver.propNonLearntBinList p ws s confl
      else
        match s.propBinaryClause other p confl with
        | .error e => .error e
        | .ok (true, confl1, s1) => Solver.propNonLearntBinList p ws s1 confl1
        | .ok (false, confl1, s1) => .ok (false, confl1, s1)
    | _ => Solver.propNonLearntBinList p ws s confl

/-- The `while (qhead < trail.size())` loop of `propagateNonLearntBin`. -/
def Solver.propagateNonLearntBinLoop : Nat → Solver → PropBy → Except Fault (PropBy × Solver)
  | 0, s, _ => if s.qhead < s.trail.length then .error .fuel else .ok (.null, s)
  | fuel + 1, s, confl =>
    if s.qhead < s.trail.length then
      match s.trail[s.qhead]? with
      | none => .error .bounds
      | some p =>
        if p.toInt < s.watches.length then
          let s1 : Solver := { s with qhead := s.qhead + 1 }
          match Solver.propNonLearntBinList p (s1.ws p) s1 confl with
          | .error e => .error e
          | .ok (true, confl1, s2) => Solver.propagateNonLearntBinLoop fuel s2 confl1
          | .ok (false, confl1, s2) => .ok (confl1, s2)
        else .error .bounds
    else .ok (.null, s)

/-- `Solver::propagateNonLearntBin`. -/
def Solver.propagateNonLearntBin (s : Solver) : Except Fault (PropBy × Solver) :=
  Solver.propagateNonLearntBinLoop s.propagateFuel s .null

/-- The watcher is a non-learnt binary. -/
def Watched.isNonLearntBin : Watched → Bool
  | .binary _ learnt => !learnt
  | _ => false

/-- Every watcher of every watchlist is a non-learnt binary. -/
def OnlyNonLearntBin (s : Solver) : Prop :=
  ∀ ws ∈ s.watches, ∀ w ∈ ws, w.isNonLearntBin = true

/-- The state with every learnt and every non-binary watcher removed. -/
def Solver.keepNonLearntBin (s : Solver) : Solver :=
  { s with watches := s.watches.map (fun ws => ws.filter Watched.isNonLearntBin) }

/-- The state with the counter `bogoProps` set to `b`. -/
def Solver.withBogo (s : Solver) (b : Nat) : Solver := { s with bogoProps := b }

/-! ## propagateFull -/

/-- Modelled from the spec: the collaborators of full propagation that are
declared in Solver.h and not part of Solver.cpp. `removeWhich(lit, p, learnt)` is
the policy oracle; `analyzeFail(reason)` gives the failed literal of a conflict;
`addHyperBin(lit, lit1, lit2)` and `addHyperBin(lit, clause)` derive `lit` from a
ternary or a long clause. -/
structure FullPropOracle where
  removeWhich : Solver → Lit → Lit → Bool → Lit
  analyzeFail : Solver → PropBy → Lit
  addHyperBinTri : Solver → Lit → Lit → Lit → Except Fault Solver
  addHyperBinLong : Solver → Lit → Nat → Except Fault Solver

/-- Modelled from the spec: `enqueueComplex(lit, ancestor, learntStep)` of
Solver.h assigns `lit` as `enqueue` does, with the binary reason `¬ancestor`,
records `PropData{ancestor, learntStep, false, false}` and sets
`enqeuedSomething`. -/
def Solver.enqueueComplex (s : Solver) (p ancestor : Lit) (learntStep : Bool) :
    Except Fault Solver :=
  match s.enqueue p (.binary ancestor.neg) with
  | .error e => .error e
  | .ok s1 =>
    if p.var < s1.propData.length then
      let pd : PropData :=
        { ancestor := ancestor, learntStep := learntStep, hyperBin := false,
          hyperBinNotAdded := false }
      .ok { s1 with propData := s1.propData.set p.var pd, enqeuedSomething := true }
    else .error .bounds

/-- `uselessBin.insert(b)` on the set `uselessBin`, kept as a list without
repetition. -/
def setInsert (u : List BinaryClause) (b : BinaryClause) : List BinaryClause :=
  if b ∈ u then u else u ++ [b]

/-- `Solver::propBin` on the watcher `Watched(lit, learnt) = *k`. Returns the
conflict, the set `uselessBin` and the state. -/
def Solver.propBin (o : FullPropOracle) (s : Solver) (p : Lit) (lit : Lit) (learnt : Bool)
    (uselessBin : List BinaryClause) : Except Fault (PropBy × List BinaryClause × Solver) :=
  let val := s.value lit
  if val = l_Undef then
    match ({ s with propsBin := s.propsBin + 1 } : Solver).enqueueComplex lit p learnt with
    | .error e => .error e
    | .ok s1 => .ok (.null, uselessBin, s1)
  else if val = l_False then
    .ok (.binary p.neg, uselessBin, { s with failBinLit := lit })
  else
    match s.varData[lit.var]? with
    | none => .error .bounds
    | some vd =>
      if vd.level ≠ 0 then
        if ¬ (val = l_True) then .error .assertion else
        let remove := o.removeWhich s lit p learnt
        if remove = p then
          match s.propData[lit.var]? with
          | none => .error .bounds
          | some pd =>
            let origAnc := pd.ancestor
            if ¬ (origAnc ≠ lit_Undef) then .error .assertion else
            let clauseToRemove : BinaryClause :=
              { lit1 := pd.ancestor.neg, lit2 := lit, learnt := pd.learntStep }
            let u1 := if ¬ pd.hyperBin then setInsert uselessBin clauseToRemove else uselessBin
            let pd1 : PropData :=
              { ancestor := p, learntStep := learnt, hyperBin := false,
                hyperBinNotAdded := false }
            .ok (.null, u1, { s with propData := s.propData.set lit.var pd1 })
        else if remove ≠ lit_Undef then
          .ok (.null, setInsert uselessBin { lit1 := p.neg, lit2 := lit, learnt := learnt }, s)
        else .ok (.null, uselessBin, s)
      else .ok (.null, uselessBin, s)

/-- `Solver::propTriClause<false>` on the payload `(other, other2)`. -/
def Solver.propTriClauseFull (o : FullPropOracle) (s : Solver) (other other2 : Lit) (p : Lit)
    (confl : PropBy) : Except Fault (Bool × PropBy × Solver) :=
  let val := s.value other
  if val = l_True then .ok (true, confl, s) else
  let val2 := s.value other2
  if val = l_Undef ∧ val2 = l_False then
    match o.addHyperBinTri ({ s with propsTri := s.propsTri + 1 } : Solver) other p.neg
        other2 with
    | .error e => .error e
    | .ok s1 => .ok (true, confl, s1)
  else if val = l_False ∧ val2 = l_Undef then
    match o.addHyperBinTri ({ s with propsTri := s.propsTri + 1 } : Solver) other2 p.neg
        other with
    | .error e => .error e
    | .ok s1 => .ok (true, confl, s1)
  else if val = l_False ∧ val2 = l_False then
    .ok (false, .tertiary p.neg other2,
      { s with failBinLit := other, qhead := s.trail.length })
  else .ok (true, confl, s)

/-- `Solver::propNormalClause<false>` on the watcher `w = *i`, which is
`Watched(offset, blocked, watchNum)`, with write index `j`. -/
def Solver.propNormalClauseFull (o : FullPropOracle) (s : Solver) (w : Watched)
    (offset : Nat) (blocked : Lit) (watchNum : Bool) (j : Nat) (p : Lit) (confl : PropBy) :
    Except Fault (Bool × Nat × PropBy × Solver) :=
  if s.value blocked = l_True then .ok (true, j + 1, confl, s.writeWs p j w) else
  let s1 : Solver := { s with bogoProps := s.bogoProps + 4 }
  match s1.arena[offset]? with
  | none => .error .bounds
  | some c =>
    match s1.clauseData[c.num]? with
    | none => .error .bounds
    | some data =>
      match c.lits[data.get watchNum]?, c.lits[data.get (!watchNum)]? with
      | some lw, some lo =>
        if ¬ (lw = p.neg) then .error .assertion else
        if s1.value lo = l_True then .ok (true, j + 1, confl, s1.writeWs p j w) else
        match findNewWatch s1.assigns c.lits data.lit0 data.lit1 (c.size % 65536) 0 with
        | some numLit =>
          let data1 := data.set watchNum numLit
          let s2 := s1.setData c.num data1
          match s2.pushWs (c.lits.getD numLit lit_Undef).neg
              (.clause offset lo watchNum) with
          | .error e => .error e
          | .ok s3 =>
            .ok (true, j, confl,
              ({ s3 with bogoProps := s3.bogoProps + numLit / 10 } : Solver).setData c.num
                { data1 with numLitVisited := data1.numLitVisited + numLit })
        | none =>
          let numLit := c.size % 65536
          let data1 : ClauseData :=
            { data with numLitVisited := data.numLitVisited + numLit
                        numPropAndConfl := data.numPropAndConfl + 1 }
          let s2 := (({ s1 with bogoProps := s1.bogoProps + numLit / 10 } : Solver).setData
            c.num data1).writeWs p j w
          if s2.value lo = l_False then
            .ok (false, j + 1, .clause offset (!watchNum), { s2 with qhead := s2.trail.length })
          else
            let s3 : Solver := if c.learnt
              then { s2 with propsLongRed := s2.propsLongRed + 1 }
              else { s2 with propsLongIrred := s2.propsLongIrred + 1 }
            match o.addHyperBinLong s3 lo offset with
            | .error e => .error e
            | .ok s4 => .ok (true, j + 1, confl, s4)
      | _, _ => .error .bounds

/-- The `for` loop of the first phase of `propagateFull` over the watchers of
`p`: only non-learnt binaries are examined. A reason other than `PropBy()` ends
the loop: it is the `ret` of `return analyzeFail(ret)`. -/
def Solver.propFullNLBinList (o : FullPropOracle) (p : Lit) :
    List Watched → Solver → List BinaryClause →
      Except Fault (PropBy × List BinaryClause × Solver)
  | [], s, u => .ok (.null, u, s)
  | w :: ws, s, u =>
    match w with
    | .binary lit learnt =>
      if learnt then Solver.propFullNLBinList o p ws s u
      else
        match s.propBin o p lit learnt u with
        | .error e => .error e
        | .ok (ret, u1, s1) =>
          if ret ≠ .null then .ok (ret, u1, s1)
          else Solver.propFullNLBinList o p ws s1 u1
    | _ => Solver.propFullNLBinList o p ws s u

/-- The `for` loop of the second phase of `propagateFull` over the watchers of
`p`: only learnt binaries are examined. Returns the reason `ret` (not `PropBy()`
for `return analyzeFail(ret)`) and the flag of `goto start`. -/
def Solver.propFullLBinList (o : FullPropOracle) (p : Lit) :
    List Watched → Solver → List BinaryClause →
      Except Fault (PropBy × Bool × List BinaryClause × Solver)
  | [], s, u => .ok (.null, false, u, s)
  | w :: ws, s, u =>
    match w with
    | .binary lit learnt =>
      if ¬ learnt then Solver.propFullLBinList o p ws s u
      else
        match s.propBin o p lit learnt u with
        | .error e => .error e
        | .ok (ret, u1, s1) =>
          if ret ≠ .null then .ok (ret, false, u1, s1)
          else if s1.enqeuedSomething then .ok (.null, true, u1, s1)
          else Solver.propFullLBinList o p ws s1 u1
    | _ => Solver.propFullLBinList o p ws s u

/-- The body of the `for` loop of the third phase of `propagateFull` on the
watcher `w = *i`. Returns the flag (`false` is `break`), the new `j`, the
conflict and the state. -/
def Solver.propagateFullWatch (o : FullPropOracle) (s : Solver) (p : Lit) (j : Nat)
    (w : Watched) (confl : PropBy) : Except Fault (Bool × Nat × PropBy × Solver) :=
  match w with
  | .binary other learnt => .ok (true, j + 1, confl, s.writeWs p j (.binary other learnt))
  | .tri other other2 =>
    match (s.writeWs p j (.tri other other2)).propTriClauseFull o other other2 p confl with
    | .error e => .error e
    | .ok (b, confl1, s1) => .ok (b && !s1.enqeuedSomething, j + 1, confl1, s1)
  | .clause offset blocked watchNum =>
    match s.propNormalClauseFull o (.clause offset blocked watchNum) offset blocked watchNum
        j p confl with
    | .error e => .error e
    | .ok (b, j1, confl1, s1) => .ok (b && !s1.enqeuedSomething, j1, confl1, s1)

/-- The `for (; i != end; i++)` loop of the third phase of `propagateFull`, with
`n = end - i` entries left. Returns the final `i`, `j`, conflict and state. -/
def Solver.propagateFullWatches (o : FullPropOracle) (p : Lit) :
    Nat → Nat → Nat → Solver → PropBy → Except Fault (Nat × Nat × PropBy × Solver)
  | 0, i, j, s, confl => .ok (i, j, confl, s)
  | n + 1, i, j, s, confl =>
    match (s.ws p)[i]? with
    | none => .error .bounds
    | some w =>
      match s.propagateFullWatch o p j w confl with
      | .error e => .error e
      | .ok (true, j1, confl1, s1) => Solver.propagateFullWatches o p n (i + 1) j1 s1 confl1
      | .ok (false, j1, confl1, s1) => .ok (i + 1, j1, confl1, s1)

/-- The state of a run of `propagateFull`: the solver, the set `uselessBin` and
the two cursors `nlBinQHead`, `lBinQHead`. -/
structure FullState where
  s : Solver
  uselessBin : List BinaryClause := []
  nlBinQHead : Nat := 0
  lBinQHead : Nat := 0
deriving DecidableEq, Repr

/-- The three `while` loops of `propagateFull`. -/
inductive FullPhase where
  | nlBin
  | lBin
  | nonBin
deriving DecidableEq, Repr

/-- The loops of `propagateFull` from the label `start` on. One unit of fuel is
one test of a `while` condition; the phase says which loop is running, and
`goto start` is the phase `nlBin`. -/
def Solver.propagateFullLoop (o : FullPropOracle) :
    Nat → FullPhase → FullState → Except Fault (Lit × FullState)
  | 0, _, _ => .error .fuel
  | fuel + 1, .nlBin, st =>
    if st.nlBinQHead < st.s.trail.length then
      match st.s.trail[st.nlBinQHead]? with
      | none => .error .bounds
      | some p =>
        if p.toInt < st.s.watches.length then
          let s1 : Solver := { st.s with bogoProps := st.s.bogoProps + 1 }
          match Solver.propFullNLBinList o p (s1.ws p) s1 st.uselessBin with
          | .error e => .error e
          | .ok (ret, u1, s2) =>
            let st1 : FullState :=
              { st with s := s2, uselessBin := u1, nlBinQHead := st.nlBinQHead + 1 }
            if ret ≠ .null then .ok (o.analyzeFail s2 ret, st1)
            else Solver.propagateFullLoop o fuel .nlBin st1
        else .error .bounds
    else Solver.propagateFullLoop o fuel .lBin st
  | fuel + 1, .lBin, st =>
    if st.lBinQHead < st.s.trail.length then
      match st.s.trail[st.lBinQHead]? with
      | none => .error .bounds
      | some p =>
        if p.toInt < st.s.watches.length then
          let s1 : Solver :=
            { st.s with bogoProps := st.s.bogoProps + 1, enqeuedSomething := false }
          match Solver.propFullLBinList o p (s1.ws p) s1 st.uselessBin with
          | .error e => .error e
          | .ok (ret, restart, u1, s2) =>
            let st1 : FullState := { st with s := s2, uselessBin := u1 }
            if ret ≠ .null then .ok (o.analyzeFail s2 ret, st1)
            else if restart then Solver.propagateFullLoop o fuel .nlBin st1
            else Solver.propagateFullLoop o fuel .lBin
              { st1 with lBinQHead := st.lBinQHead + 1 }
        else .error .bounds
    else Solver.propagateFullLoop o fuel .nonBin st
  | fuel + 1, .nonBin, st =>
    if st.s.qhead < st.s.trail.length then
      match st.s.trail[st.s.qhead]? with
      | none => .error .bounds
      | some p =>
        if p.toInt < st.s.watches.length then
          let s1 : Solver :=
            { st.s with bogoProps := st.s.bogoProps + 1, enqeuedSomething := false }
          let end_ := (s1.ws p).length
          match Solver.propagateFullWatches o p end_ 0 0 s1 .null with
          | .error e => .error e
          | .ok (i, j, confl, s2) =>
            let r := Solver.copyRest p (end_ - i) i j s2
            let s3 := r.2.shrinkWs p (end_ - r.1)
            if confl ≠ .null then .ok (o.analyzeFail s3 confl, { st with s := s3 })
            else if s3.enqeuedSomething then
              Solver.propagateFullLoop o fuel .nlBin { st with s := s3 }
            else Solver.propagateFullLoop o fuel .nonBin
              { st with s := { s3 with qhead := s3.qhead + 1 } }
        else .error .bounds
    else .ok (lit_Undef, st)

/-- The fuel that `propagateFull` needs: with `n` the number of trail entries
that can exist, every cursor advances at most `n` times, there is one restart
for an enqueue at most, and two changes of phase after each restart. -/
def Solver.propagateFullFuel (s : Solver) : Nat :=
  3 * (s.trail.length + undefCount s.assigns) + 3 * undefCount s.assigns + 4

/-- `Solver::propagateFull`. The difference `trail.size() - trail_lim.back()` is
unsigned; it is 1 exactly when the truncated difference is. -/
def Solver.propagateFull (o : FullPropOracle) (s : Solver) (uselessBin : List BinaryClause) :
    Except Fault (Lit × FullState) :=
  if ¬ (uselessBin = []) then .error .assertion else
  if ¬ (s.decisionLevel = 1) then .error .assertion else
  match s.trail_lim.getLast? with
  | none => .error .bounds
  | some lim =>
    if ¬ (s.trail.length - lim = 1) then .error .assertion else
    match s.trail[s.qhead]? with
    | none => .error .bounds
    | some root =>
      if root.var < s.propData.length then
        let pd : PropData :=
          { (s.propData.getD root.var {}) with
            ancestor := lit_Undef, learntStep := false, hyperBin := false,
            hyperBinNotAdded := false }
        let s1 : Solver := { s with propData := s.propData.set root.var pd }
        let s2 : Solver := { s1 with needToAddBinClause := [] }
        Solver.propagateFullLoop o s2.propagateFullFuel .nlBin
          { s := s2, uselessBin := uselessBin, nlBinQHead := s.qhead, lBinQHead := s.qhead }
      else .error .bounds

/-- The cursor `qhead` is within the trail. -/
def QLe (s : Solver) : Prop := s.qhead ≤ s.trail.length

/-- From `s` to `t` the cursor `qhead` is kept and the trail is not shortened. -/
def TrailMono (s t : Solver) : Prop :=
  t.qhead = s.qhead ∧ s.trail.length ≤ t.trail.length

/-- What the theorems ask of `addHyperBin`: it keeps `qhead` and does not
shorten the trail. -/
def HyperBinKeepsTrail (o : FullPropOracle) : Prop :=
  (∀ s a b c t, o.addHyperBinTri s a b c = .ok t → TrailMono s t) ∧
  (∀ s a off t, o.addHyperBinLong s a off = .ok t → TrailMono s t)

/-- One arm of the third phase of `propagateFull` from `s` to `t`: either no
conflict, the reason is passed on and the trail only grows, or a conflict, the
flag is `false`, the reason is set and `qhead` is at the end of the trail. -/
def ArmStep (s t : Solver) (c c1 : PropBy) (f : Bool) : Prop :=
  (c1 = c ∧ TrailMono s t) ∨
  (f = false ∧ c1 ≠ .null ∧ t.qhead = t.trail.length ∧ s.trail.length ≤ t.trail.length)

/-! ## Example states of full propagation -/

/-- An analyzer that echoes the literal of its input. -/
def echoAnalyzer (_ : Solver) (r : PropBy) : Lit :=
  match r with
  | .binary l => l
  | .tertiary l _ => l
  | _ => lit_Undef

/-- An oracle for the examples: `removeWhich` answers "neither", `analyzeFail`
echoes, `addHyperBin` enqueues nothing. -/
def echoOracle : FullPropOracle :=
  { removeWhich := fun _ _ _ _ => lit_Undef,
    analyzeFail := echoAnalyzer,
    addHyperBinTri := fun s _ _ _ => .ok s,
    addHyperBinLong := fun s _ _ => .ok s }

/-- An oracle whose analyzer answers `lit_Undef` to every conflict. -/
def silentOracle : FullPropOracle :=
  { echoOracle with analyzeFail := fun _ _ => lit_Undef }

/-- Attach a list of binary clauses in order. -/
def attachBins : List (Lit × Lit × Bool) → Solver → Except Fault Solver
  | [], s => .ok s
  | (a, b, learnt) :: rest, s =>
    match s.attachBinClause a b learnt with
    | .error e => .error e
    | .ok s1 => attachBins rest s1

/-- New decision level, then `enqueue` of the decision `p`: the state a probe of
`p` starts from. -/
def Solver.decide (s : Solver) (p : Lit) : Except Fault Solver :=
  ({ s with trail_lim := s.trail_lim ++ [s.trail.length] } : Solver).enqueue p .null

/-- An empty solver with `n` variables, including their `propData`. -/
def freshSolver (n : Nat) : Solver :=
  { emptySolver n [] with propData := List.replicate n {} }

/-- Scenario S6 before the probe: variables 1 and 2 (variable 0 is unused), the
non-learnt binaries `{-1, +2}`, `{-1, -2}`. -/
def exS6Attached : Except Fault Solver :=
  attachBins [(negLit 1, posLit 2, false), (negLit 1, negLit 2, false)] (freshSolver 3)

/-- Scenario S6: the state with the probe `+1` enqueued at decision level 1. -/
def exS6 : Solver :=
  { freshSolver 3 with
    watches := [[], [], [.binary (posLit 2) false, .binary (negLit 2) false], [],
      [.binary (negLit 1) false], [.binary (negLit 1) false]]
    assigns := [l_Undef, l_True, l_Undef]
    varData := [{}, { level := 1 }, {}]
    trail := [posLit 1]
    trail_lim := [0]
    propagations := 1 }

/-- Scenario S5 before the probe: variables 1 to 4, the non-learnt binaries
`{-1, +2}`, `{-2, +3}`, `{-3, +4}`. -/
def exS5Attached : Except Fault Solver :=
  attachBins [(negLit 1, posLit 2, false), (negLit 2, posLit 3, false),
    (negLit 3, posLit 4, false)] (freshSolver 5)

/-- Scenario S5: the state with the probe `+1` enqueued at decision level 1. -/
def exS5 : Solver :=
  { freshSolver 5 with
    watches := [[], [], [.binary (posLit 2) false], [], [.binary (posLit 3) false],
      [.binary (negLit 1) false], [.binary (posLit 4) false], [.binary (negLit 2) false],
      [], [.binary (negLit 3) false]]
    assigns := [l_Undef, l_True, l_Undef, l_Undef, l_Undef]
    varData := [{}, { level := 1 }, {}, {}, {}]
    trail := [posLit 1]
    trail_lim := [0]
    propagations := 1 }

/-- Scenario S6: the state in which `propagateFull` finds the conflict. -/
def exS6Final : FullState :=
  { s := { exS6 with
      assigns := [l_Undef, l_True, l_True]
      varData := [{}, { level := 1 }, { level := 1, reason := .binary (negLit 1) }]
      propData := [{}, {}, { ancestor := posLit 1 }]
      trail := [posLit 1, posLit 2]
      failBinLit := negLit 2
      enqeuedSomething := true
      propagations := 2
      bogoProps := 1
      propsBin := 1 },
    uselessBin := [], nlBinQHead := 1, lBinQHead := 0 }

/-- Scenario S5: the solver state that `propagateFull` ends in. -/
def exS5FinalSolver : Solver :=
  { exS5 with
    assigns := [l_Undef, l_True, l_True, l_True, l_True]
    varData := [{}, { level := 1 }, { level := 1, reason := .binary (negLit 1) },
      { level := 1, reason := .binary (negLit 2) }, { level := 1, reason := .binary (negLit 3) }]
    propData := [{}, {}, { ancestor := posLit 1 }, { ancestor := posLit 2 },
      { ancestor := posLit 3 }]
    trail := [posLit 1, posLit 2, posLit 3, posLit 4]
    qhead := 4
    propagations := 4
    bogoProps := 12
    propsBin := 3 }

/-- Scenario S5: the final state of `propagateFull`, with its cursors. -/
def exS5Final : FullState :=
  { s := exS5FinalSolver, uselessBin := [], nlBinQHead := 4, lBinQHead := 4 }

/-! ## Invariants of the watchlists and reachable states -/

/-- Every literal on the trail is True. -/
def TrailTrue (s : Solver) : Prop := ∀ l ∈ s.trail, s.value l = l_True

/-- The binary watchers of the watchlist with index `i`, in order. -/
def binsOf (W : List (List Watched)) (i : Nat) : List Watched :=
  (W.getD i []).filter Watched.isBinary

/-- The states `s` and `t` have the same number of watchlists and, in each of
them, the same binary watchers in the same order. -/
def BinSame (s t : Solver) : Prop :=
  t.watches.length = s.watches.length ∧ ∀ i, binsOf t.watches i = binsOf s.watches i

/-- The watcher is binary with the given learnt flag. -/
def Watched.isBinLearnt (learnt : Bool) : Watched → Bool
  | .binary _ l => l == learnt
  | _ => false

/-- The number of binary watchers with the given learnt flag in all watchlists. -/
def binWatchers (learnt : Bool) (W : List (List Watched)) : Nat :=
  (W.map (fun ws => ws.countP (Watched.isBinLearnt learnt))).sum

/-- The states reached from empty watchlists, with every trail literal True, by
`attachBinClause`, `attachClause`, `propagate`, decisions and `newVar`;
`Reach nl nn s` counts the calls of `attachBinClause` with `learnt = true` (`nl`)
and with `learnt = false` (`nn`). -/
inductive Reach : Nat → Nat → Solver → Prop where
  | init (s : Solver) : (∀ ws ∈ s.watches, ws = []) → TrailTrue s → Reach 0 0 s
  | attachBin {nl nn : Nat} {s t : Solver} (a b : Lit) (learnt : Bool) :
      Reach nl nn s → s.attachBinClause a b learnt = .ok t →
      Reach (nl + (if learnt then 1 else 0)) (nn + (if learnt then 0 else 1)) t
  | attach {nl nn : Nat} {s t : Solver} (off p1 p2 : Nat) (chk : Bool) :
      Reach nl nn s → s.attachClause off p1 p2 chk = .ok t → Reach nl nn t
  | propagate {nl nn : Nat} {s t : Solver} (c : PropBy) :
      Reach nl nn s → s.propagate = .ok (c, t) → Reach nl nn t
  | decide {nl nn : Nat} {s t : Solver} (l : Lit) :
      Reach nl nn s → s.value l = l_Undef → s.decide l = .ok t → Reach nl nn t
  | newVar {nl nn : Nat} {s t : Solver} (v : Nat) :
      Reach nl nn s → s.newVar = .ok (v, t) → Reach nl nn t

/-- Two variables and `n` copies of the learnt binary clause `{+0, +1}`
attached. -/
def exManyBins (n : Nat) : Solver :=
  { watches := [[], List.replicate n (.binary (posLit 1) true), [],
      List.replicate n (.binary (posLit 0) true)],
    assigns := [l_Undef, l_Undef], varData := [{}, {}], propData := [{}, {}] }

/-- Three variables with the learnt binary `{-1, +2}` and the non-learnt binary
`{-2, +1}` attached, in this order, to the empty solver. -/
def exTwoBins : Solver :=
  { freshSolver 3 with
    watches := [[], [], [.binary (posLit 2) true], [.binary (negLit 2) false],
      [.binary (posLit 1) false], [.binary (negLit 1) true]] }

/-! ## The predictor with checked divisions

The same code as `set_up_input`, on values of the type `double` that may be
infinite or NaN, with every division and every `log2` of the source checked at
the moment it is executed. -/

/-- A value of the type `double`: a finite value, an infinity or a NaN. The
arithmetic of finite values is exact here, and the sign of a zero is not kept. -/
inductive Dbl where
  | fin (q : ℚ)
  | inf (neg : Bool)
  | nan
deriving DecidableEq

/-- The test `x == 0` on a `double`. -/
def Dbl.isZero : Dbl → Bool
  | .fin q => decide (q = 0)
  | _ => false

/-- The value is `+inf` or `-inf`. -/
def Dbl.isInf : Dbl → Bool
  | .inf _ => true
  | _ => false

/-- The division of two `double`s: a NaN operand gives NaN, a finite value
divided by an infinity is zero, a division by zero gives an infinity or NaN. -/
def Dbl.div : Dbl → Dbl → Dbl
  | .nan, _ => .nan
  | _, .nan => .nan
  | .inf _, .inf _ => .nan
  | .inf n, .fin q => .inf (n != decide (q < 0))
  | .fin _, .inf _ => .fin 0
  | .fin a, .fin b =>
    if b = 0 then (if a = 0 then .nan else .inf (decide (a < 0))) else .fin (a / b)

/-- Faults of the checked predictor: a fault of `set_up_input`, an executed
division by zero, an executed `log2` of zero. -/
inductive ArithFault where
  | fault (f : Fault)
  | divByZero
  | logOfZero
deriving DecidableEq, Repr

/-- The division `a / b` of the source, executed: a zero divisor is a fault. -/
def checkedDiv (a b : Dbl) : Except ArithFault Dbl :=
  if b.isZero then .error .divByZero else .ok (a.div b)

/-- The call `log2(x)` of the source on a counter `x`, executed: a zero argument
is a fault. -/
def checkedLog2 (log2 : ℚ → ℚ) (x : ℚ) : Except ArithFault Dbl :=
  if x = 0 then .error .logOfZero else .ok (.fin (log2 x))

/-- The features 1 to 6 of `set_up_input` with the divisions checked. -/
def shortFeaturesChecked (cl : PredClause) (sumConflicts : Nat)
    (act_ranking_rel uip1_ranking_rel prop_ranking_rel avg_props : Dbl) :
    Except ArithFault (List Dbl) :=
  let ltd := last_touched_diff cl sumConflicts
  match (if ltd = 0 then .ok (.fin MISSING_VAL)
    else checkedDiv act_ranking_rel (.fin (ltd : ℚ))) with
  | .error e => .error e
  | .ok f2 =>
    match (if avg_props.isZero then .ok (.fin MISSING_VAL)
      else checkedDiv (.fin (cl.stats.props_made : ℚ)) avg_props) with
    | .error e => .error e
    | .ok f4 =>
      .ok [uip1_ranking_rel, f2, prop_ranking_rel, f4, .fin (ltd : ℚ),
        .fin (cl.stats.ttl_stats : ℚ)]

/-- The quotient `(a / b) / (c / d)` of the source, every division checked. -/
def checkedDivDiv (a b c d : Dbl) : Except ArithFault Dbl :=
  match checkedDiv a b with
  | .error e => .error e
  | .ok x =>
    match checkedDiv c d with
    | .error e => .error e
    | .ok y => checkedDiv x y

/-- The quotient `log2(g) / (c / d)` of the source, checked. -/
def checkedLogDivDiv (log2 : ℚ → ℚ) (g : ℚ) (c d : Dbl) : Except ArithFault Dbl :=
  match checkedLog2 log2 g with
  | .error e => .error e
  | .ok x =>
    match checkedDiv c d with
    | .error e => .error e
    | .ok y => checkedDiv x y

/-- The quotient `log2(g) / b` of the source, checked. -/
def checkedLogDiv (log2 : ℚ → ℚ) (g : ℚ) (b : Dbl) : Except ArithFault Dbl :=
  match checkedLog2 log2 g with
  | .error e => .error e
  | .ok x => checkedDiv x b

/-- The quotient `a / (c / d)` of the source, checked. -/
def checkedDivOfDiv (a c d : Dbl) : Except ArithFault Dbl :=
  match checkedDiv c d with
  | .error e => .error e
  | .ok y => checkedDiv a y

/-- The quotient `(a / b) / c` of the source, checked. -/
def checkedDivThenDiv (a b c : Dbl) : Except ArithFault Dbl :=
  match checkedDiv a b with
  | .error e => .error e
  | .ok x => checkedDiv x c

/-- The values in order, or the first fault. -/
def collect : List (Except ArithFault Dbl) → Except ArithFault (List Dbl)
  | [] => .ok []
  | x :: xs =>
    match x with
    | .error e => .error e
    | .ok v =>
      match collect xs with
      | .error e => .error e
      | .ok vs => .ok (v :: vs)

/-- The features 7 to 17 of `set_up_input` with the divisions and the calls of
`log2` checked, in the order written. The counters of the clause are finite
values; `avg_props` and `avg_glue` are `double` arguments. -/
def longFeaturesChecked (log2 : ℚ → ℚ) (cl : PredClause) (sumConflicts : Nat)
    (avg_props avg_glue : Dbl) : Except ArithFault (List Dbl) :=
  let t := time_inside_solver cl sumConflicts
  let st := cl.stats
  collect
  [ (if st.conflicts_made = 0 then .ok (.fin MISSING_VAL)
      else checkedDiv (.fin (st.glue : ℚ)) (.fin (st.conflicts_made : ℚ))),
    (if t = 0 then .ok (.fin MISSING_VAL)
      else checkedDiv (.fin (st.sum_props_made : ℚ)) (.fin t)),
    (if t = 0 ∨ avg_glue.isZero = true ∨ st.glue = 0 then .ok (.fin MISSING_VAL)
      else checkedDivDiv (.fin (st.sum_props_made : ℚ)) (.fin t) (.fin (st.glue : ℚ))
        avg_glue),
    (if t = 0 ∨ st.sum_uip1_used = 0 ∨ st.glue_before_minim = 0
        ∨ cl.is_ternary_resolvent ≠ 0 then .ok (.fin MISSING_VAL)
      else checkedLogDivDiv log2 (st.glue_before_minim : ℚ) (.fin (st.sum_uip1_used : ℚ))
        (.fin t)),
    (if cl.is_ternary_resolvent ≠ 0 then .ok (.fin MISSING_VAL)
      else .ok (.fin (st.orig_glue : ℚ))),
    (if st.num_antecedents = 0 ∨ st.num_total_lits_antecedents = 0
        ∨ cl.is_ternary_resolvent ≠ 0 then .ok (.fin MISSING_VAL)
      else checkedLogDiv log2 (st.num_antecedents : ℚ)
        (.fin (st.num_total_lits_antecedents : ℚ))),
    (if st.glue_before_minim = 0 ∨ cl.is_ternary_resolvent ≠ 0 then .ok (.fin MISSING_VAL)
      else checkedDiv (.fin (st.glue_hist_long : ℚ)) (.fin (st.glue_before_minim : ℚ))),
    (if cl.is_ternary_resolvent = 0 then .ok (.fin MISSING_VAL)
      else checkedDiv (.fin (st.discounted_uip1_used3 : ℚ))
        (.fin (cl.is_ternary_resolvent : ℚ))),
    (if st.num_resolutions_hist_lt = 0 ∨ cl.is_ternary_resolvent ≠ 0
      then .ok (.fin MISSING_VAL)
      else checkedDiv (.fin (st.discounted_props_made : ℚ))
        (.fin (st.num_resolutions_hist_lt : ℚ))),
    (if st.discounted_props_made = 0 ∨ t = 0 then .ok (.fin MISSING_VAL)
      else checkedDivThenDiv (.fin (st.sum_uip1_used : ℚ)) (.fin t)
        (.fin (st.discounted_props_made : ℚ))),
    (if avg_props.isZero = true ∨ st.props_made = 0 then .ok (.fin MISSING_VAL)
      else checkedDivOfDiv (.fin (st.glue : ℚ)) (.fin (st.props_made : ℚ)) avg_props) ]

/-- `ClPredictors::set_up_input` with the divisions and the calls of `log2`
checked: the values written to `at[0 .. x)`, in order. -/
def set_up_input_checked (log2 : ℚ → ℚ) (cl : PredClause) (sumConflicts : Nat)
    (act_ranking_rel uip1_ranking_rel prop_ranking_rel avg_props avg_glue : Dbl)
    (cols : Nat) : Except ArithFault (List Dbl) :=
  if ¬ (cl.stats.orig_glue ≠ 1) then .error (.fault .assertion) else
  match shortFeaturesChecked cl sumConflicts act_ranking_rel uip1_ranking_rel
    prop_ranking_rel avg_props with
  | .error e => .error e
  | .ok at6 =>
    if cols = PRED_COLS_SHORT then
      if cols = at6.length then .ok at6 else .error (.fault .assertion)
    else
      match longFeaturesChecked log2 cl sumConflicts avg_props avg_glue with
      | .error e => .error e
      | .ok l =>
        let at17 := at6 ++ l
        if at17.length = cols then .ok at17 else .error (.fault .assertion)

/-- The result of `set_up_input` on finite values among the results of the
checked code. -/
def liftFault : Except Fault (List ℚ) → Except ArithFault (List Dbl)
  | .error e => .error (.fault e)
  | .ok v => .ok (v.map Dbl.fin)

/-! ## The frame of a watchlist scan -/

/-- The number of watchers in all the watchlists. -/
def numWatchers (W : List (List Watched)) : Nat := (W.map List.length).sum

/-- The conflict reason that the arm of the watcher `w` of `watches[p]` records
when the clause of `w` is falsified: `PropBy(~p)`, `PropBy(~p, other2)`,
`PropBy(offset, !watchNum)`. -/
def Watched.conflictReason (w : Watched) (p : Lit) : PropBy :=
  match w with
  | .binary _ _ => .binary p.neg
  | .tri _ other2 => .tertiary p.neg other2
  | .clause offset _ watchNum => .clause offset (!watchNum)

/-! ## Contracts on `addHyperBin` -/

/-- What the frame theorems ask of `addHyperBin`: it leaves the watchlists alone
and keeps every True literal True. -/
def HyperBinKeepsWatches (o : FullPropOracle) : Prop :=
  (∀ s a b c t, o.addHyperBinTri s a b c = .ok t →
    t.watches = s.watches ∧ ∀ x, s.value x = l_True → t.value x = l_True) ∧
  (∀ s a off t, o.addHyperBinLong s a off = .ok t →
    t.watches = s.watches ∧ ∀ x, s.value x = l_True → t.value x = l_True)

/-- From `s` to `t` the trail is not shortened, every new trail entry is paid
for by a variable that was unassigned, and the flag `enqeuedSomething` is raised
only when the number of unassigned variables has dropped. -/
def Progress (s t : Solver) : Prop :=
  s.trail.length ≤ t.trail.length ∧
  t.trail.length + undefCount t.assigns ≤ s.trail.length + undefCount s.assigns ∧
  (t.enqeuedSomething = true →
    s.enqeuedSomething = true ∨ undefCount t.assigns < undefCount s.assigns)

/-- What termination asks of `addHyperBin`: it returns (a fault of its own is
not the exhaustion of fuel), it keeps `qhead`, and each of its enqueues assigns
a previously unassigned variable and raises the flag `enqeuedSomething`, which
nothing else raises. -/
def HyperBinEnqueuesFresh (o : FullPropOracle) : Prop :=
  (∀ s a b c, o.addHyperBinTri s a b c ≠ .error .fuel) ∧
  (∀ s a off, o.addHyperBinLong s a off ≠ .error .fuel) ∧
  (∀ s a b c t, o.addHyperBinTri s a b c = .ok t → t.qhead = s.qhead ∧ Progress s t) ∧
  (∀ s a off t, o.addHyperBinLong s a off = .ok t → t.qhead = s.qhead ∧ Progress s t)

/-- What the order of the phases asks of `addHyperBin`: whenever it lengthens
the trail it raises the flag `enqeuedSomething`. -/
def HyperBinRaisesFlag (o : FullPropOracle) : Prop :=
  (∀ s a b c t, o.addHyperBinTri s a b c = .ok t →
    t.enqeuedSomething = false → t.trail.length = s.trail.length) ∧
  (∀ s a off t, o.addHyperBinLong s a off = .ok t →
    t.enqeuedSomething = false → t.trail.length = s.trail.length)

/-! ## One pass through the loops of `propagateFull` -/

/-- One pass through the loops of `propagateFull`, the body of
`propagateFullLoop` for one unit of fuel: the run ends with a result (`inl`), or
it goes on in a phase with a state (`inr`). -/
def Solver.propagateFullStep (o : FullPropOracle) :
    FullPhase → FullState → Except Fault ((Lit × FullState) ⊕ (FullPhase × FullState))
  | .nlBin, st =>
    if st.nlBinQHead < st.s.trail.length then
      match st.s.trail[st.nlBinQHead]? with
      | none => .error .bounds
      | some p =>
        if p.toInt < st.s.watches.length then
          let s1 : Solver := { st.s with bogoProps := st.s.bogoProps + 1 }
          match Solver.propFullNLBinList o p (s1.ws p) s1 st.uselessBin with
          | .error e => .error e
          | .ok (ret, u1, s2) =>
            let st1 : FullState :=
              { st with s := s2, uselessBin := u1, nlBinQHead := st.nlBinQHead + 1 }
            if ret ≠ .null then .ok (.inl (o.analyzeFail s2 ret, st1))
            else .ok (.inr (.nlBin, st1))
        else .error .bounds
    else .ok (.inr (.lBin, st))
  | .lBin, st =>
    if st.lBinQHead < st.s.trail.length then
      match st.s.trail[st.lBinQHead]? with
      | none => .error .bounds
      | some p =>
        if p.toInt < st.s.watches.length then
          let s1 : Solver :=
            { st.s with bogoProps := st.s.bogoProps + 1, enqeuedSomething := false }
          match Solver.propFullLBinList o p (s1.ws p) s1 st.uselessBin with
          | .error e => .error e
          | .ok (ret, restart, u1, s2) =>
            let st1 : FullState := { st with s := s2, uselessBin := u1 }
            if ret ≠ .null then .ok (.inl (o.analyzeFail s2 ret, st1))
            else if restart then .ok (.inr (.nlBin, st1))
            else .ok (.inr (.lBin, { st1 with lBinQHead := st.lBinQHead + 1 }))
        else .error .bounds
    else .ok (.inr (.nonBin, st))
  | .nonBin, st =>
    if st.s.qhead < st.s.trail.length then
      match st.s.trail[st.s.qhead]? with
      | none => .error .bounds
      | some p =>
        if p.toInt < st.s.watches.length then
          let s1 : Solver :=
            { st.s with bogoProps := st.s.bogoProps + 1, enqeuedSomething := false }
          let end_ := (s1.ws p).length
          match Solver.propagateFullWatches o p end_ 0 0 s1 .null with
          | .error e => .error e
          | .ok (i, j, confl, s2) =>
            let r := Solver.copyRest p (end_ - i) i j s2
            let s3 := r.2.shrinkWs p (end_ - r.1)
            if confl ≠ .null then .ok (.inl (o.analyzeFail s3 confl, { st with s := s3 }))
            else if s3.enqeuedSomething then .ok (.inr (.nlBin, { st with s := s3 }))
            else .ok (.inr (.nonBin, { st with s := { s3 with qhead := s3.qhead + 1 } }))
        else .error .bounds
    else .ok (.inl (lit_Undef, st))

/-- The configurations that a run of the loops of `propagateFull` passes
through from the configuration `(ph, st)` on: `FullReach o ph st ph1 st1`. -/
inductive FullReach (o : FullPropOracle) (ph : FullPhase) (st : FullState) :
    FullPhase → FullState → Prop where
  | refl : FullReach o ph st ph st
  | step {ph1 ph2 : FullPhase} {st1 st2 : FullState} :
    FullReach o ph st ph1 st1 →
    Solver.propagateFullStep o ph1 st1 = .ok (.inr (ph2, st2)) →
    FullReach o ph st ph2 st2

/-- During the scan `propFullLBinList o p ws s u` of the second loop, the learnt
Binary watcher `w` is handed to `propBin` in the state `sx`: it is the first
learnt watcher, or the scan goes on after an earlier one, which it does when
`propBin` found no conflict and nothing was enqueued. -/
inductive LBinExamined (o : FullPropOracle) (p : Lit) :
    List Watched → Solver → List BinaryClause → Watched → Solver → Prop where
  | here (lit : Lit) (ws : List Watched) (s : Solver) (u : List BinaryClause) :
    LBinExamined o p (.binary lit true :: ws) s u (.binary lit true) s
  | skip {w : Watched} {ws : List Watched} {s : Solver} {u : List BinaryClause}
      {w1 : Watched} {sx : Solver} :
    (∀ lit, w ≠ .binary lit true) → LBinExamined o p ws s u w1 sx →
    LBinExamined o p (w :: ws) s u w1 sx
  | next {lit : Lit} {ws : List Watched} {s s2 : Solver} {u u1 : List BinaryClause}
      {w1 : Watched} {sx : Solver} :
    s.propBin o p lit true u = .ok (.null, u1, s2) → s2.enqeuedSomething = false →
    LBinExamined o p ws s2 u1 w1 sx →
    LBinExamined o p (.binary lit true :: ws) s u w1 sx

/-- During the scan `propagateFullWatches o p n i j s c` of the third loop, the
Ternary or Long watcher `w` is handed to its arm in the state `sx`: it is the
watcher at the read cursor, or the scan goes on after the watcher at the read
cursor, which it does when its arm returned `true` and nothing was enqueued. -/
inductive WatchExamined (o : FullPropOracle) (p : Lit) :
    Nat → Nat → Nat → Solver → PropBy → Watched → Solver → Prop where
  | here {n i j : Nat} {s : Solver} {c : PropBy} {w : Watched} :
    (s.ws p)[i]? = some w → w.isBinary = false →
    WatchExamined o p (n + 1) i j s c w s
  | next {n i j j1 : Nat} {s s1 : Solver} {c c1 : PropBy} {w0 w : Watched} {sx : Solver} :
    (s.ws p)[i]? = some w0 → s.propagateFullWatch o p j w0 c = .ok (true, j1, c1, s1) →
    WatchExamined o p n (i + 1) j1 s1 c1 w sx →
    WatchExamined o p (n + 1) i j s c w sx

/-- In the pass from the configuration `(ph, st)` the watcher `w`, a learnt
Binary watcher of the second loop or a Ternary or Long watcher of the third
loop, is examined in the solver state `sx`. The first loop examines non-learnt
Binary watchers only. -/
def LaterExamined (o : FullPropOracle) (ph : FullPhase) (st : FullState) (w : Watched)
    (sx : Solver) : Prop :=
  match ph with
  | .nlBin => False
  | .lBin =>
    st.lBinQHead < st.s.trail.length ∧ ∃ p, st.s.trail[st.lBinQHead]? = some p ∧
      LBinExamined o p (st.s.ws p)
        { st.s with bogoProps := st.s.bogoProps + 1, enqeuedSomething := false }
        st.uselessBin w sx
  | .nonBin =>
    st.s.qhead < st.s.trail.length ∧ ∃ p, st.s.trail[st.s.qhead]? = some p ∧
      WatchExamined o p (st.s.ws p).length 0 0
        { st.s with bogoProps := st.s.bogoProps + 1, enqeuedSomething := false }
        .null w sx

/-- The scan `propFullNLBinList o p ws s u` of the first loop hands every
non-learnt Binary watcher of `ws` to `propBin`, which finds no conflict. -/
def NLBinAllExamined (o : FullPropOracle) (p : Lit) (ws : List Watched) (s : Solver)
    (u : List BinaryClause) : Prop :=
  ∀ pre lit post, ws = pre ++ .binary lit false :: post →
    ∃ s1 u1 s2 u2, Solver.propFullNLBinList o p pre s u = .ok (.null, u1, s1) ∧
      s1.propBin o p lit false u1 = .ok (.null, u2, s2)

/-- The kinds of a pass from `(ph, st)` to `(ph1, st1)` that does not return:
a cursor below the trail length advances by one while a loop body runs, or the
pass enqueued a previously unassigned literal and restarts from the first loop,
or the loop condition is false and control falls into the next loop with the
state unchanged. -/
def PassKind (ph : FullPhase) (st : FullState) (ph1 : FullPhase) (st1 : FullState) : Prop :=
  (ph = .nlBin ∧ ph1 = .nlBin ∧ st.nlBinQHead < st.s.trail.length ∧
    st1.nlBinQHead = st.nlBinQHead + 1 ∧ st1.lBinQHead = st.lBinQHead ∧
    st1.s.qhead = st.s.qhead ∧ Progress st.s st1.s) ∨
  (ph = .nlBin ∧ ph1 = .lBin ∧ ¬ st.nlBinQHead < st.s.trail.length ∧ st1 = st) ∨
  (ph = .lBin ∧ ph1 = .lBin ∧ st.lBinQHead < st.s.trail.length ∧
    st1.lBinQHead = st.lBinQHead + 1 ∧ st1.nlBinQHead = st.nlBinQHead ∧
    st1.s.qhead = st.s.qhead ∧ Progress st.s st1.s) ∨
  (ph = .lBin ∧ ph1 = .nlBin ∧ st1.lBinQHead = st.lBinQHead ∧
    st1.nlBinQHead = st.nlBinQHead ∧ st1.s.qhead = st.s.qhead ∧ Progress st.s st1.s ∧
    undefCount st1.s.assigns < undefCount st.s.assigns) ∨
  (ph = .lBin ∧ ph1 = .nonBin ∧ ¬ st.lBinQHead < st.s.trail.length ∧ st1 = st) ∨
  (ph = .nonBin ∧ ph1 = .nonBin ∧ st.s.qhead < st.s.trail.length ∧
    st1.s.qhead = st.s.qhead + 1 ∧ st1.nlBinQHead = st.nlBinQHead ∧
    st1.lBinQHead = st.lBinQHead ∧ Progress st.s st1.s) ∨
  (ph = .nonBin ∧ ph1 = .nlBin ∧ st1.lBinQHead = st.lBinQHead ∧
    st1.nlBinQHead = st.nlBinQHead ∧ st1.s.qhead = st.s.qhead ∧ Progress st.s st1.s ∧
    undefCount st1.s.assigns < undefCount st.s.assigns)

/-- The rank of a phase: the number of loops that follow it. -/
def FullPhase.rank : FullPhase → Nat
  | .nlBin => 2
  | .lBin => 1
  | .nonBin => 0

/-- The measure that every pass through the loops of `propagateFull` lowers:
the distances of the three cursors to the largest length the trail can reach,
three units for each unassigned variable, and the rank of the phase. -/
def fullMeasure (ph : FullPhase) (st : FullState) : Nat :=
  let bound := st.s.trail.length + undefCount st.s.assigns
  (bound - st.nlBinQHead) + (bound - st.lBinQHead) + (bound - st.s.qhead)
    + 3 * undefCount st.s.assigns + ph.rank

/-! ## Example: a probe with a learnt binary clause -/

/-- Variables 1 and 2 (variable 0 is unused), the learnt binary `{-1, +2}`
attached, and the probe `+1` enqueued at decision level 1. -/
def exLearnt : Solver :=
  { freshSolver 3 with
    watches := [[], [], [.binary (posLit 2) true], [], [], [.binary (negLit 1) true]]
    assigns := [l_Undef, l_True, l_Undef]
    varData := [{}, { level := 1 }, {}]
    trail := [posLit 1]
    trail_lim := [0]
    propagations := 1 }

/-- The configuration in which `propagateFull` on `exLearnt` enters its loops. -/
def exLearntStart : FullState := { s := exLearnt }

/-- The configuration of that run when the second loop starts: the first loop
has scanned the watchers of `+1`. -/
def exLearntSecond : FullState :=
  { s := { exLearnt with bogoProps := 1 }, nlBinQHead := 1 }

/-! ## Examples for `propBin` -/

/-- An oracle whose `removeWhich` always answers with the literal that is being
propagated. -/
def removePropagatedOracle : FullPropOracle :=
  { echoOracle with removeWhich := fun _ _ p _ => p }

/-- The probe `+1` at decision level 1 together with `+2` and `+3`, both
implied by it; the root `+1` has no recorded ancestor. -/
def exRootImplied : Solver :=
  { freshSolver 4 with
    assigns := [l_Undef, l_True, l_True, l_True]
    varData := [{}, { level := 1 }, { level := 1, reason := .binary (negLit 1) },
      { level := 1, reason := .binary (negLit 1) }]
    propData := [{}, {}, { ancestor := posLit 1 }, { ancestor := posLit 1 }]
    trail := [posLit 1, posLit 2, posLit 3]
    trail_lim := [0] }

/-! ## Scenario S4: relocation of a watch -/

/-- The clause `{+1, +2, +3, +4, +5}` of scenario S4. -/
def exS4Clause : Clause := { lits := [posLit 1, posLit 2, posLit 3, posLit 4, posLit 5] }

/-- Scenario S4 before the attachment: variables 1 to 5 (variable 0 is unused)
and the clause `{+1, +2, +3, +4, +5}` at offset 0. -/
def exS4Start : Solver := emptySolver 6 [exS4Clause]

/-- Scenario S4: the clause attached with watches at the positions 0 and 1, and
`-1` assigned as a decision. -/
def exS4 : Solver :=
  { exS4Start with
    watches := [[], [], [], [.clause 0 (posLit 3) false], [], [.clause 0 (posLit 3) true],
      [], [], [], [], [], []]
    clauseData := [{ lit0 := 0, lit1 := 1 }]
    assigns := [l_Undef, l_False, l_Undef, l_Undef, l_Undef, l_Undef]
    varData := [{}, { level := 1 }, {}, {}, {}, {}]
    trail := [negLit 1]
    trail_lim := [0]
    propagations := 1 }

/-- Scenario S4: the state right after the Long arm on the watcher in
`watches[-1]`; the read entry is still in place, the list is compacted at the end
of the scan. -/
def exS4Relocated : Solver :=
  { exS4 with
    watches := [[], [], [], [.clause 0 (posLit 3) false], [], [.clause 0 (posLit 3) true],
      [], [.clause 0 (posLit 2) false], [], [], [], []]
    clauseData := [{ lit0 := 2, lit1 := 1, numLitVisited := 2 }]
    bogoProps := 4 }

/-- Scenario S4: the state after `propagate`. -/
def exS4Final : Solver :=
  { exS4 with
    watches := [[], [], [], [], [], [.clause 0 (posLit 3) true],
      [], [.clause 0 (posLit 2) false], [], [], [], []]
    clauseData := [{ lit0 := 2, lit1 := 1, numLitVisited := 2 }]
    qhead := 1
    bogoProps := 5 }

/-! ## Binary watch symmetry, falsified conflicts -/

/-- Binary watch symmetry: `watches[~a]` holds a Binary watcher with payload `b`
and learnt flag `r` exactly if `watches[~b]` holds one with payload `a` and flag
`r`. A watchlist beyond the end of `watches` is read as empty. -/
def BinSym (s : Solver) : Prop :=
  ∀ a b r, Watched.binary b r ∈ s.ws a.neg ↔ Watched.binary a r ∈ s.ws b.neg

/-- Every clause in the arena has fewer than `2^16` literals, the range of the
loop counter `uint16_t size` of `propNormalClause`. -/
def ShortClauses (s : Solver) : Prop :=
  ∀ (off : Nat) (cl : Clause), s.arena[off]? = some cl → cl.size < 65536

/-- The reason recorded for the variable of `l` (`varData[l.var()].reason`). -/
def Solver.reasonOf (s : Solver) (l : Lit) : PropBy := (s.varData.getD l.var {}).reason

/-- The clause that the conflict `c`, found while the watchlist of `p` was
scanned, identifies is falsified in `t`: `~p` and `failBinLit` for a Binary
conflict, these and the second literal of the reason for a Ternary conflict,
every literal of the clause at the offset for a Long conflict. -/
def ConflictFalsified (t : Solver) (p : Lit) : PropBy → Prop
  | .null => False
  | .binary x => x = p.neg ∧ t.value p.neg = l_False ∧ t.value t.failBinLit = l_False
  | .tertiary x y =>
    x = p.neg ∧ t.value p.neg = l_False ∧ t.value t.failBinLit = l_False ∧ t.value y = l_False
  | .clause off _ =>
    ∃ cl, t.arena[off]? = some cl ∧ p.neg ∈ cl.lits ∧ ∀ l ∈ cl.lits, t.value l = l_False

/-- The arm on the watcher `w` of `watches[p]` enqueues `l` with reason `r`, and
the clause of the reason is unit in `s`: every literal but `l` is False. -/
def ArmUnit (s : Solver) (p : Lit) (w : Watched) (l : Lit) (r : PropBy) : Prop :=
  match w with
  | .binary o _ => l = o ∧ r = .binary p.neg ∧ s.value p.neg = l_False
  | .tri a a2 =>
    ((l = a ∧ r = .tertiary p.neg a2 ∧ s.value a2 = l_False) ∨
      (l = a2 ∧ r = .tertiary p.neg a ∧ s.value a = l_False)) ∧ s.value p.neg = l_False
  | .clause off _ wn =>
    r = .clause off (!wn) ∧ ∃ cl d, s.arena[off]? = some cl ∧ s.clauseData[cl.num]? = some d ∧
      cl.lits[d.get wn]? = some p.neg ∧ cl.lits[d.get (!wn)]? = some l ∧
      ∀ i x, cl.lits[i]? = some x → i ≠ d.get (!wn) → s.value x = l_False

/-- The reason `r` of the literal `l` denotes a clause whose other literals are
False in `s`: the negation of a trail literal for a Binary reason, that and the
second literal for a Ternary reason, every literal other than `l` of the clause
at the offset, which contains `l`, for a Long reason. -/
def UnitReason (s : Solver) (l : Lit) : PropBy → Prop
  | .null => False
  | .binary x => x.neg ∈ s.trail ∧ s.value x = l_False
  | .tertiary x q => x.neg ∈ s.trail ∧ s.value x = l_False ∧ s.value q = l_False
  | .clause off _ =>
    ∃ cl, s.arena[off]? = some cl ∧ l ∈ cl.lits ∧ ∀ x ∈ cl.lits, x ≠ l → s.value x = l_False

/-- From `s` to `t` the arena is unchanged, assigned literals keep their value
and their reason, and the trail has grown by literals of pairwise different
variables that were unassigned in `s`, are True in `t` and carry a reason that
is unit in `t`. -/
def UnitRun (s t : Solver) : Prop :=
  t.arena = s.arena ∧
  (∀ x, s.value x ≠ l_Undef → t.value x = s.value x ∧ t.reasonOf x = s.reasonOf x) ∧
  ∃ new, t.trail = s.trail ++ new ∧ (new.map Lit.var).Nodup ∧
    ∀ l ∈ new, s.value l = l_Undef ∧ t.value l = l_True ∧ UnitReason t l (t.reasonOf l)

/-- The literal at the watch `which` of the clause at `off`:
`c[clauseData[c.getNum()][which]]`. -/
def Solver.watchLit (s : Solver) (off : Nat) (which : Bool) : Option Lit :=
  match s.arena[off]? with
  | none => none
  | some cl =>
    match s.watchPos cl.num with
    | none => none
    | some q => cl.lits[if which then q.2 else q.1]?

/-- The literal has been dequeued: it is on the trail before `qhead`. -/
def Solver.Done (s : Solver) (x : Lit) : Prop := ∃ i, i < s.qhead ∧ s.trail[i]? = some x

/-- What the scan of the watchlist of a True literal leaves behind for a watcher
it keeps, with `D` the literals whose lists have been scanned: the other literal
of a Binary watcher is True; a Ternary watcher with one literal False because of
a scanned literal has its other literal True; a Long watcher has a True blocker
or a True literal at the other watch. -/
def Watched.Good (s : Solver) (D : Lit → Prop) : Watched → Prop
  | .binary o _ => s.value o = l_True
  | .tri a a2 =>
    (s.value a = l_False → D a.neg → s.value a2 = l_True) ∧
      (s.value a2 = l_False → D a2.neg → s.value a = l_True)
  | .clause off blk wn =>
    s.value blk = l_True ∨ ∃ lo, s.watchLit off (!wn) = some lo ∧ s.value lo = l_True

/-- Every watcher in the list of a literal of `D` is `Good`. -/
def Processed (s : Solver) (D : Lit → Prop) : Prop :=
  ∀ l, D l → ∀ w ∈ s.ws l, w.Good s D

/-- Clause numbers name clauses: two arena entries with the same number are the
same entry. -/
def NumInj (s : Solver) : Prop :=
  ∀ (off off' : Nat) (cl cl' : Clause), s.arena[off]? = some cl → s.arena[off']? = some cl' →
    cl.num = cl'.num → off = off'

/-- The blocker of every Long watcher is a literal of its clause. -/
def BlkIn (s : Solver) : Prop :=
  ∀ l off blk wn, Watched.clause off blk wn ∈ s.ws l →
    ∃ cl, s.arena[off]? = some cl ∧ blk ∈ cl.lits

/-- A ternary clause is watched in the lists of all three literals: with
`attachClause` pushing `(c1, c2)`, `(c0, c2)`, `(c0, c1)`, a watcher `(a, a2)` in
the list of `l` comes with watchers of the other two literals in the lists of
`~a` and `~a2`. -/
def TriSym (s : Solver) : Prop :=
  ∀ l a a2, Watched.tri a a2 ∈ s.ws l →
    (Watched.tri l.neg a2 ∈ s.ws a.neg ∨ Watched.tri a2 l.neg ∈ s.ws a.neg) ∧
    (Watched.tri l.neg a ∈ s.ws a2.neg ∨ Watched.tri a l.neg ∈ s.ws a2.neg)

/-- Every True literal is on the trail. -/
def AssignedOnTrail (s : Solver) : Prop := ∀ x, s.value x = l_True → x ∈ s.trail

/-- From `s` to `t` the arena is unchanged, assigned literals keep their value,
the trail has grown by the literals that became True, and `Good` watchers stay
`Good`. -/
def Advance (s t : Solver) : Prop :=
  t.arena = s.arena ∧ (∀ x, s.value x ≠ l_Undef → t.value x = s.value x) ∧
  (∃ new, t.trail = s.trail ++ new ∧ ∀ x, t.value x = l_True → s.value x = l_True ∨ x ∈ new) ∧
  (∀ (E : Lit → Prop) (w : Watched), (∀ x, E x → s.value x = l_True) → w.Good s E → w.Good t E)

/-- The state that `propagate` is called in: the trail literals are True and
they are the True literals, `qhead` is inside the trail, the watch invariants
hold and the trail entries before `qhead` have been propagated. -/
def PropInv (s : Solver) : Prop :=
  TrailTrue s ∧ AssignedOnTrail s ∧ s.qhead ≤ s.trail.length ∧ NumInj s ∧ BlkIn s ∧
    TriSym s ∧ BinSym s ∧ Processed s s.Done

/-- The clause at `off` is attached as a Long clause: its two watchers sit in
the lists of the negations of the literals `x0`, `x1` at its two watches. -/
def AttachedLong (s : Solver) (off : Nat) (x0 x1 : Lit) : Prop :=
  s.watchLit off false = some x0 ∧ s.watchLit off true = some x1 ∧
    (∃ blk, Watched.clause off blk false ∈ s.ws x0.neg) ∧
    (∃ blk, Watched.clause off blk true ∈ s.ws x1.neg)

/-! ## The watcher invariant over reachable states -/

/-- The watcher is the Long watcher of the watch `which` of the clause at `off`. -/
def Watched.isLongOf (off : Nat) (which : Bool) : Watched → Bool
  | .clause o _ w => o == off && w == which
  | _ => false

/-- The number of Long watchers of the watch `which` of the clause at `off` in
all watchlists. -/
def longCount (W : List (List Watched)) (off : Nat) (which : Bool) : Nat :=
  (W.map (fun ws => ws.countP (Watched.isLongOf off which))).sum

/-- Each watch of each clause has at most one Long watcher. -/
def LongUnique (s : Solver) : Prop := ∀ off which, longCount s.watches off which ≤ 1

/-- The watcher invariant: a Long watcher `(off, blocker, which)` in the list of
`l` belongs to a clause that has `~l` at the position `clauseData[num][which]`. -/
def WInv (s : Solver) : Prop :=
  ∀ l off blk which, Watched.clause off blk which ∈ s.ws l → s.watchLit off which = some l.neg

/-- The states reached from empty watchlists, clause numbers that name clauses
and a trail of True literals by `attachBinClause`, by `attachClause` of a clause
that is not attached, by `propagate` and by decisions. -/
inductive ReachW : Solver → Prop where
  | init (s : Solver) : (∀ ws ∈ s.watches, ws = []) → TrailTrue s → NumInj s → ReachW s
  | attachBin {s t : Solver} (a b : Lit) (learnt : Bool) :
      ReachW s → s.attachBinClause a b learnt = .ok t → ReachW t
  | attach {s t : Solver} (off p1 p2 : Nat) (chk : Bool) :
      ReachW s → NotAttached s off → s.attachClause off p1 p2 chk = .ok t → ReachW t
  | propagate {s t : Solver} (c : PropBy) :
      ReachW s → s.propagate = .ok (c, t) → ReachW t
  | decide {s t : Solver} (l : Lit) :
      ReachW s → s.value l = l_Undef → s.decide l = .ok t → ReachW t

/-! ## A clause of 2^16 literals -/

/-- During the scan `propFullNLBinList o p ws s u` of the first loop, the
non-learnt Binary watcher `w` is handed to `propBin`, which returns the reason
`r` (`PropBy()` when there is no conflict): it is the first non-learnt Binary
watcher, or the scan goes on after an earlier one, which it does when `propBin`
found no conflict. -/
inductive NLBinYields (o : FullPropOracle) (p : Lit) :
    List Watched → Solver → List BinaryClause → Watched → PropBy → Prop where
  | here {lit : Lit} {ws : List Watched} {s s1 : Solver} {u u1 : List BinaryClause}
      {r : PropBy} :
    s.propBin o p lit false u = .ok (r, u1, s1) →
    NLBinYields o p (.binary lit false :: ws) s u (.binary lit false) r
  | skip {w : Watched} {ws : List Watched} {s : Solver} {u : List BinaryClause}
      {w1 : Watched} {r : PropBy} :
    (∀ lit, w ≠ .binary lit false) → NLBinYields o p ws s u w1 r →
    NLBinYields o p (w :: ws) s u w1 r
  | next {lit : Lit} {ws : List Watched} {s s1 : Solver} {u u1 : List BinaryClause}
      {w1 : Watched} {r : PropBy} :
    s.propBin o p lit false u = .ok (.null, u1, s1) → NLBinYields o p ws s1 u1 w1 r →
    NLBinYields o p (.binary lit false :: ws) s u w1 r

/-- During the scan `propFullLBinList o p ws s u` of the second loop, the learnt
Binary watcher `w` is handed to `propBin`, which returns the reason `r`: it is
the first learnt Binary watcher, or the scan goes on after an earlier one, which
it does when `propBin` found no conflict and nothing was enqueued. -/
inductive LBinYields (o : FullPropOracle) (p : Lit) :
    List Watched → Solver → List BinaryClause → Watched → PropBy → Prop where
  | here {lit : Lit} {ws : List Watched} {s s1 : Solver} {u u1 : List BinaryClause}
      {r : PropBy} :
    s.propBin o p lit true u = .ok (r, u1, s1) →
    LBinYields o p (.binary lit true :: ws) s u (.binary lit true) r
  | skip {w : Watched} {ws : List Watched} {s : Solver} {u : List BinaryClause}
      {w1 : Watched} {r : PropBy} :
    (∀ lit, w ≠ .binary lit true) → LBinYields o p ws s u w1 r →
    LBinYields o p (w :: ws) s u w1 r
  | next {lit : Lit} {ws : List Watched} {s s1 : Solver} {u u1 : List BinaryClause}
      {w1 : Watched} {r : PropBy} :
    s.propBin o p lit true u = .ok (.null, u1, s1) → s1.enqeuedSomething = false →
    LBinYields o p ws s1 u1 w1 r →
    LBinYields o p (.binary lit true :: ws) s u w1 r

/-- During the scan `propagateFullWatches o p n i j s c` of the third loop, the
Ternary or Long watcher `w` is handed to its arm, `propTriClause<false>` or
`propNormalClause<false>`, which leaves the reason `r` in `confl`: it is the
watcher at the read cursor, or the scan goes on after the watcher at the read
cursor, which it does when its arm returned `true` and nothing was enqueued. -/
inductive WatchYields (o : FullPropOracle) (p : Lit) :
    Nat → Nat → Nat → Solver → PropBy → Watched → PropBy → Prop where
  | tri {n i j : Nat} {s s1 : Solver} {c r : PropBy} {a b : Lit} {f : Bool} :
    (s.ws p)[i]? = some (.tri a b) →
    (s.writeWs p j (.tri a b)).propTriClauseFull o a b p c = .ok (f, r, s1) →
    WatchYields o p (n + 1) i j s c (.tri a b) r
  | long {n i j j1 : Nat} {s s1 : Solver} {c r : PropBy} {off : Nat} {blk : Lit}
      {wn f : Bool} :
    (s.ws p)[i]? = some (.clause off blk wn) →
    s.propNormalClauseFull o (.clause off blk wn) off blk wn j p c = .ok (f, j1, r, s1) →
    WatchYields o p (n + 1) i j s c (.clause off blk wn) r
  | next {n i j j1 : Nat} {s s1 : Solver} {c c1 : PropBy} {w0 w : Watched} {r : PropBy} :
    (s.ws p)[i]? = some w0 → s.propagateFullWatch o p j w0 c = .ok (true, j1, c1, s1) →
    WatchYields o p n (i + 1) j1 s1 c1 w r →
    WatchYields o p (n + 1) i j s c w r

/-- In the pass from the configuration `(ph, st)` the watcher `w` is examined
and yields the reason `r`: a non-learnt Binary watcher of `trail[nlBinQHead]` in
the first loop, a learnt Binary watcher of `trail[lBinQHead]` in the second, a
Ternary or Long watcher of `trail[qhead]` in the third. -/
def PassYields (o : FullPropOracle) (ph : FullPhase) (st : FullState) (w : Watched)
    (r : PropBy) : Prop :=
  match ph with
  | .nlBin =>
    st.nlBinQHead < st.s.trail.length ∧ ∃ p, st.s.trail[st.nlBinQHead]? = some p ∧
      NLBinYields o p (st.s.ws p) { st.s with bogoProps := st.s.bogoProps + 1 }
        st.uselessBin w r
  | .lBin =>
    st.lBinQHead < st.s.trail.length ∧ ∃ p, st.s.trail[st.lBinQHead]? = some p ∧
      LBinYields o p (st.s.ws p)
        { st.s with bogoProps := st.s.bogoProps + 1, enqeuedSomething := false }
        st.uselessBin w r
  | .nonBin =>
    st.s.qhead < st.s.trail.length ∧ ∃ p, st.s.trail[st.s.qhead]? = some p ∧
      WatchYields o p (st.s.ws p).length 0 0
        { st.s with bogoProps := st.s.bogoProps + 1, enqeuedSomething := false }
        .null w r

/-- In the run of the loops of `propagateFull` from the configuration `st0` at
the label `start`, the watcher `w` is examined and yields the reason `r`. -/
def RunYields (o : FullPropOracle) (st0 : FullState) (w : Watched) (r : PropBy) : Prop :=
  ∃ ph st, FullReach o .nlBin st0 ph st ∧ PassYields o ph st w r

/-- The configuration in which `propagateFull` reaches the label `start`: the
`propData` of the root `trail[qhead]` is reset, `needToAddBinClause` is cleared
and the cursors `nlBinQHead`, `lBinQHead` are at `qhead`. -/
def Solver.fullStart (s : Solver) (uselessBin : List BinaryClause) : FullState :=
  let root := s.trail.getD s.qhead lit_Undef
  let pd : PropData :=
    { (s.propData.getD root.var {}) with
      ancestor := lit_Undef, learntStep := false, hyperBin := false,
      hyperBinNotAdded := false }
  { s := { s with propData := s.propData.set root.var pd, needToAddBinClause := [] },
    uselessBin := uselessBin, nlBinQHead := s.qhead, lBinQHead := s.qhead }

/-- An oracle for the examples whose analyzer answers the literal `-1`, the
negation of the probe of the scenarios, to every conflict; the rest is
`echoOracle`. -/
def probeOracle : FullPropOracle :=
  { echoOracle with analyzeFail := fun _ _ => negLit 1 }

/-! ## The watch invariants of `propagate` -/

/-- From `s` to `t` the arena and the number of watchlists are kept, each watch
of each clause keeps its number of Long watchers, and every watchlist keeps its
Binary and Ternary watchers. -/
def WatchersKept (s t : Solver) : Prop :=
  t.arena = s.arena ∧ t.watches.length = s.watches.length ∧
  (∀ off wn, longCount t.watches off wn = longCount s.watches off wn) ∧
  (∀ l w, w.isClause = false → (w ∈ t.ws l ↔ w ∈ s.ws l))

/-- The watch invariants that `propagate` is called with: the invariants of
`PropInv`, the watcher invariant of the Long watchers, and at most one Long
watcher for each watch of each clause. -/
def WatchInv (s : Solver) : Prop := PropInv s ∧ WInv s ∧ LongUnique s

/-- Scenario S4 after `attachClause(c, 0, 1)` and before the decision: the two
Long watchers are in `watches[-1]` and `watches[-2]`. -/
def exS4Attached : Solver :=
  { exS4Start with
    watches := [[], [], [], [.clause 0 (posLit 3) false], [], [.clause 0 (posLit 3) true],
      [], [], [], [], [], []]
    clauseData := [{ lit0 := 0, lit1 := 1 }] }

/-! ## Attaching a clause set in some order -/

/-- One call that attaches a clause: `attachBinClause(lit1, lit2, learnt)` for a
binary clause, `attachClause(c, point1, point2, checkAttach)` for the clause at
the arena offset `off`. -/
inductive AttachOp where
  | bin (lit1 lit2 : Lit) (learnt : Bool)
  | cls (off point1 point2 : Nat) (checkAttach : Bool)
deriving DecidableEq, Repr

/-- The call of the attach function that the item names. -/
def Solver.attachOp (s : Solver) : AttachOp → Except Fault Solver
  | .bin lit1 lit2 learnt => s.attachBinClause lit1 lit2 learnt
  | .cls off point1 point2 checkAttach => s.attachClause off point1 point2 checkAttach

/-- Attach the clauses of the list, in the order of the list. -/
def attachOps : List AttachOp → Solver → Except Fault Solver
  | [], s => .ok s
  | op :: rest, s =>
    match s.attachOp op with
    | .error e => .error e
    | .ok s1 => attachOps rest s1

/-- The arena offsets of the clauses that the list attaches with `attachClause`. -/
def attachedOffsets : List AttachOp → List Nat
  | [] => []
  | .bin _ _ _ :: rest => attachedOffsets rest
  | .cls off _ _ _ :: rest => off :: attachedOffsets rest

/-- Attach the clauses in the order of the list, enqueue the decision `d` on a
new decision level and run `propagate`. -/
def Solver.attachDecidePropagate (s : Solver) (ops : List AttachOp) (d : Lit) :
    Except Fault (PropBy × Solver) :=
  match attachOps ops s with
  | .error e => .error e
  | .ok s1 =>
    match s1.decide d with
    | .error e => .error e
    | .ok s2 => s2.propagate

/-- The watchers that the call pushes, over the arena `ar`: the watcher `w` goes
to `watches[l]`. A binary clause pushes one Binary watcher for each literal, a
clause of three literals one Ternary watcher for each literal, a longer clause
the two Long watchers of the literals at `point1` and `point2`, with the literal
in the middle of the clause as the blocker. -/
def Pushes (ar : List Clause) : AttachOp → Lit → Watched → Prop
  | .bin a b r, l, w => (l = a.neg ∧ w = .binary b r) ∨ (l = b.neg ∧ w = .binary a r)
  | .cls off p1 p2 _, l, w => ∃ cl, ar[off]? = some cl ∧
      ((∃ c0 c1 c2, cl.lits = [c0, c1, c2] ∧
          ((l = c0.neg ∧ w = .tri c1 c2) ∨ (l = c1.neg ∧ w = .tri c0 c2) ∨
            (l = c2.neg ∧ w = .tri c0 c1))) ∨
       (cl.size > 3 ∧ ∃ blk l1 l2, cl.lits[cl.size / 2]? = some blk ∧
          cl.lits[p1]? = some l1 ∧ cl.lits[p2]? = some l2 ∧ l1.var ≠ l2.var ∧
          ((l = l1.neg ∧ w = .clause off blk false) ∨
            (l = l2.neg ∧ w = .clause off blk true))))

/-- The two watches of every clause that has a Long watcher are at different
positions of the clause. -/
def WatchDistinct (s : Solver) : Prop :=
  ∀ l off blk wn cl q, Watched.clause off blk wn ∈ s.ws l → s.arena[off]? = some cl →
    s.watchPos cl.num = some q → q.1 ≠ q.2

/-- The set `G` of literals is closed under unit propagation with the clause of
the watcher `w` of `watches[p]`: for a Binary watcher `o`, the clause `{~p, o}`;
for a Ternary watcher `(a, a2)`, the clause `{~p, a, a2}`; for a Long watcher,
the clause at its offset, whatever literal of it is left over. -/
def WClosed (G : Lit → Prop) (ar : List Clause) (p : Lit) : Watched → Prop
  | .binary o _ => G p → G o
  | .tri a a2 => G p → (G a2.neg → G a) ∧ (G a.neg → G a2)
  | .clause off _ _ => ∀ (cl : Clause) (k : Nat) (x : Lit), ar[off]? = some cl →
      cl.lits[k]? = some x → (∀ (i : Nat) (y : Lit), cl.lits[i]? = some y → i ≠ k → G y.neg) → G x

/-- The set `G` is closed under unit propagation with every clause that has a
watcher in the state. -/
def Closed (G : Lit → Prop) (s : Solver) : Prop :=
  ∀ p w, w ∈ s.ws p → WClosed G s.arena p w

/-! ## Example clause sets -/

/-- The binary clauses `{-1, +2}`, `{-1, -2}`, `{-1, +3}`: the decision `+1` runs
into the conflict of the first two. -/
def exOrderOps : List AttachOp :=
  [.bin (negLit 1) (posLit 2) false, .bin (negLit 1) (negLit 2) false,
    .bin (negLit 1) (posLit 3) false]

/-- An arena with the long clause `{-2, -3, +4, -1}` and the ternary clause
`{-4, +5, -1}`. -/
def exMixedArena : List Clause :=
  [{ lits := [negLit 2, negLit 3, posLit 4, negLit 1], num := 0 },
    { lits := [negLit 4, posLit 5, negLit 1], num := 1 }]

/-- The binary clauses `{-1, +2}`, `{-1, +3}` and the two clauses of
`exMixedArena`, each watched at its first two literals. -/
def exMixedOps : List AttachOp :=
  [.bin (negLit 1) (posLit 2) false, .bin (negLit 1) (posLit 3) false, .cls 0 0 1 true,
    .cls 1 0 1 true]

/-! ## Literals and watchlists -/

theorem Lit.neg_neg (l : Lit) : l.neg.neg = l := by
  cases l; simp [Lit.neg]

theorem Lit.neg_ne (l : Lit) : l.neg ≠ l := by
  cases l with | mk v b => cases b <;> simp [Lit.neg]

theorem Lit.neg_var (l : Lit) : l.neg.var = l.var := rfl

theorem Lit.neg_inj {a b : Lit} (h : a.neg = b.neg) : a = b := by
  have := congrArg Lit.neg h
  simpa [Lit.neg_neg] using this

theorem Lit.neg_eq_iff {a b : Lit} : a.neg = b ↔ a = b.neg := by
  constructor
  · intro h; rw [← h, Lit.neg_neg]
  · intro h; rw [h, Lit.neg_neg]

theorem Lit.toInt_inj {a b : Lit} : a.toInt = b.toInt ↔ a = b := by
  constructor
  · intro h
    cases a with | mk va sa => cases b with | mk vb sb =>
    cases sa <;> cases sb <;> simp [Lit.toInt] at h ⊢ <;> omega
  · intro h; rw [h]

theorem Lit.toInt_lt {l : Lit} {n : Nat} : l.toInt < 2 * n ↔ l.var < n := by
  cases l with | mk v b => cases b <;> simp [Lit.toInt] <;> omega

theorem Lit.neg_toInt_lt {l : Lit} {n : Nat} : l.neg.toInt < 2 * n ↔ l.var < n := by
  rw [Lit.toInt_lt, Lit.neg_var]

theorem lbool_xor_false (v : lbool) : v.xor false = v := by
  cases v <;> rfl

theorem Solver.value_neg (s : Solver) (l : Lit) :
    s.value l.neg = match s.value l with
      | l_True => l_False
      | l_False => l_True
      | l_Undef => l_Undef := by
  cases l with | mk v b =>
  simp only [Solver.value, valueOf, Lit.neg]
  cases s.assigns.getD v l_Undef <;> cases b <;> rfl

theorem Solver.value_neg_true {s : Solver} {l : Lit} :
    s.value l.neg = l_True ↔ s.value l = l_False := by
  rw [Solver.value_neg]; cases s.value l <;> simp

theorem Solver.value_neg_false {s : Solver} {l : Lit} :
    s.value l.neg = l_False ↔ s.value l = l_True := by
  rw [Solver.value_neg]; cases s.value l <;> simp

theorem Solver.value_neg_undef {s : Solver} {l : Lit} :
    s.value l.neg = l_Undef ↔ s.value l = l_Undef := by
  rw [Solver.value_neg]; cases s.value l <;> simp

theorem Solver.value_congr {s t : Solver} (h : t.assigns = s.assigns) (l : Lit) :
    t.value l = s.value l := by
  simp [Solver.value, h]

/-- A literal with a non-`Undef` value has its variable inside `assigns`. -/
theorem Solver.var_lt_of_value {s : Solver} {l : Lit} (h : s.value l ≠ l_Undef) :
    l.var < s.assigns.length := by
  by_contra hn
  apply h
  have : s.assigns.getD l.var l_Undef = l_Undef := by
    rw [List.getD_eq_getElem?_getD, List.getElem?_eq_none (by omega)]; rfl
  simp only [Solver.value, valueOf, this]
  cases l.sign <;> rfl

@[simp] theorem Solver.setWs_watches_length (s : Solver) (l : Lit) (x : List Watched) :
    (s.setWs l x).watches.length = s.watches.length := by
  simp [Solver.setWs]

theorem Solver.ws_setWs (s : Solver) (l l' : Lit) (x : List Watched)
    (h : l.toInt < s.watches.length) :
    (s.setWs l x).ws l' = if l' = l then x else s.ws l' := by
  simp only [Solver.ws, Solver.setWs, List.getD_eq_getElem?_getD, List.getElem?_set]
  by_cases hl : l' = l
  · subst hl; simp [h]
  · have : l.toInt ≠ l'.toInt := fun e => hl (Lit.toInt_inj.mp e.symm)
    simp [hl, this]

theorem Solver.ws_setWs_self (s : Solver) (l : Lit) (x : List Watched)
    (h : l.toInt < s.watches.length) : (s.setWs l x).ws l = x := by
  rw [Solver.ws_setWs s l l x h]; simp

theorem Solver.ws_setWs_ne (s : Solver) (l l' : Lit) (x : List Watched) (hne : l' ≠ l) :
    (s.setWs l x).ws l' = s.ws l' := by
  simp only [Solver.ws, Solver.setWs, List.getD_eq_getElem?_getD, List.getElem?_set]
  have : l.toInt ≠ l'.toInt := fun e => hne (Lit.toInt_inj.mp e.symm)
  simp [this]

theorem Solver.ws_eq_nil_of_ge (s : Solver) (l : Lit) (h : s.watches.length ≤ l.toInt) :
    s.ws l = [] := by
  simp [Solver.ws, List.getD_eq_getElem?_getD, List.getElem?_eq_none h]

theorem Solver.setWs_of_ge (s : Solver) (l : Lit) (x : List Watched)
    (h : s.watches.length ≤ l.toInt) : s.setWs l x = s := by
  simp only [Solver.setWs]
  have : s.watches.set l.toInt x = s.watches := by
    rw [List.set_eq_take_append_cons_drop]; simp; omega
  rw [this]

theorem Solver.setWs_ws_self (s : Solver) (l : Lit) : s.setWs l (s.ws l) = s := by
  by_cases h : l.toInt < s.watches.length
  · simp only [Solver.setWs, Solver.ws]
    have : s.watches.set l.toInt (s.watches.getD l.toInt []) = s.watches := by
      apply List.ext_getElem?
      intro n
      rw [List.getElem?_set]
      by_cases hn : l.toInt = n
      · subst hn; simp [h, List.getD_eq_getElem?_getD, List.getElem?_eq_getElem h]
      · simp [hn]
    rw [this]
  · exact Solver.setWs_of_ge s l _ (by omega)

theorem Solver.setWs_setWs (s : Solver) (l : Lit) (x y : List Watched) :
    (s.setWs l x).setWs l y = s.setWs l y := by
  simp [Solver.setWs]

theorem Solver.pushWs_ok {s : Solver} {l : Lit} {w : Watched} {t : Solver}
    (h : s.pushWs l w = .ok t) :
    l.toInt < s.watches.length ∧ t = s.setWs l (s.ws l ++ [w]) := by
  unfold Solver.pushWs at h
  split at h
  · rename_i hl; injection h with h; exact ⟨hl, h.symm⟩
  · cases h

theorem Solver.pushWs_of_lt {s : Solver} {l : Lit} (w : Watched)
    (h : l.toInt < s.watches.length) : s.pushWs l w = .ok (s.setWs l (s.ws l ++ [w])) := by
  simp [Solver.pushWs, h]

/-! ## attachBinClause -/

theorem swapBack_cons (b : Watched) (l : List Watched) (k : Nat) (hl : l ≠ []) :
    swapBack (b :: l) (k + 1) = b :: swapBack l k := by
  unfold swapBack
  have h1 : (b :: l).getLast? = l.getLast? := by
    cases l with
    | nil => exact absurd rfl hl
    | cons x xs => simp [List.getLast?_cons_cons]
  rw [h1]
  simp only [List.getElem?_cons_succ]
  cases hk : l[k]? with
  | none => simp
  | some x =>
    cases hb : l.getLast? with
    | none => simp
    | some y =>
      simp only [List.set_cons_succ, List.length_cons]
      have : l.length ≠ 0 := by
        intro h; exact hl (List.length_eq_zero.mp h)
      obtain ⟨n, hn⟩ := Nat.exists_eq_succ_of_ne_zero this
      simp [hn]

theorem firstNonBinary_le (ws : List Watched) : firstNonBinary ws ≤ ws.length := by
  induction ws with
  | nil => simp [firstNonBinary]
  | cons w ws ih => simp only [firstNonBinary]; split <;> simp <;> omega

theorem pushBinary_nil (w : Watched) (hw : w.isBinary = true) : pushBinary [] w = [w] := by
  simp [pushBinary, firstNonBinary, hw]

theorem pushBinary_cons_bin (b w : Watched) (ws : List Watched) (hb : b.isBinary = true) :
    pushBinary (b :: ws) w = b :: pushBinary ws w := by
  have e : (b :: ws) ++ [w] = b :: (ws ++ [w]) := rfl
  unfold pushBinary
  simp only [e, firstNonBinary, hb, if_true, List.length_cons, List.append_eq]
  by_cases h : firstNonBinary (ws ++ [w]) = (ws ++ [w]).length
  · simp [h]
  · have h2 : firstNonBinary (ws ++ [w]) + 1 ≠ (ws ++ [w]).length + 1 := by omega
    rw [if_pos h2, if_pos h, swapBack_cons _ _ _ (by simp)]

theorem pushBinary_cons_nonbin (b w : Watched) (ws : List Watched) (hb : b.isBinary = false) :
    pushBinary (b :: ws) w = w :: (ws ++ [b]) := by
  have e : (b :: ws) ++ [w] = b :: (ws ++ [w]) := rfl
  unfold pushBinary
  have hl : (b :: (ws ++ [w])).getLast? = some w := by
    rw [← e, List.getLast?_concat]
  simp only [e, firstNonBinary, hb, List.append_eq]
  simp only [swapBack, hl]
  simp

theorem binInserted_pushBinary (ws : List Watched) (w : Watched) (hw : w.isBinary = true) :
    BinInserted ws (pushBinary ws w) w := by
  induction ws with
  | nil =>
    refine ⟨[], [], ?_, ?_, ?_, ?_⟩
    · simp [pushBinary_nil w hw]
    · simp
    · simp
    · intro _; rw [pushBinary_nil w hw]; simp [BinFront]
  | cons b ws ih =>
    cases hb : b.isBinary with
    | true =>
      rw [pushBinary_cons_bin b w ws hb]
      obtain ⟨pre, post, h1, h2, h3, h4⟩ := ih
      refine ⟨b :: pre, post, ?_, ?_, ?_, ?_⟩
      · simp [h1]
      · intro x hx
        rcases List.mem_cons.mp hx with rfl | hx
        · exact hb
        · exact h2 x hx
      · simpa using h3
      · intro hf
        unfold BinFront at hf ⊢
        rw [List.pairwise_cons] at hf ⊢
        refine ⟨fun _ _ _ => hb, h4 hf.2⟩
    | false =>
      rw [pushBinary_cons_nonbin b w ws hb]
      refine ⟨[], ws ++ [b], rfl, by simp, ?_, ?_⟩
      · simp only [List.nil_append]
        exact List.perm_append_singleton b ws
      · intro hf
        unfold BinFront at hf ⊢
        rw [List.pairwise_cons] at hf ⊢
        have hall : ∀ x ∈ ws, x.isBinary = false := by
          intro x hx
          cases hx2 : x.isBinary with
          | false => rfl
          | true => have := hf.1 x hx hx2; rw [hb] at this; cases this
        refine ⟨fun _ _ _ => hw, ?_⟩
        rw [List.pairwise_append]
        refine ⟨hf.2, by simp, ?_⟩
        intro x hx y hy hy2
        simp at hy; subst hy; rw [hb] at hy2; cases hy2

theorem attachBinClause_of_lt (s : Solver) (a b : Lit) (learnt : Bool)
    (ha : a.neg.toInt < s.watches.length) (hb : b.neg.toInt < s.watches.length) :
    s.attachBinClause a b learnt = .ok
      ((s.setWs a.neg (pushBinary (s.ws a.neg) (.binary b learnt))).setWs b.neg
        (pushBinary ((s.setWs a.neg (pushBinary (s.ws a.neg) (.binary b learnt))).ws b.neg)
          (.binary a learnt))) := by
  simp [Solver.attachBinClause, ha, hb]

theorem attachBinClause_ok {s t : Solver} {a b : Lit} {learnt : Bool}
    (h : s.attachBinClause a b learnt = .ok t) :
    a.neg.toInt < s.watches.length ∧ b.neg.toInt < s.watches.length := by
  unfold Solver.attachBinClause at h
  split at h
  · rename_i ha
    simp only [Solver.setWs_watches_length] at h
    split at h
    · rename_i hb; exact ⟨ha, hb⟩
    · cases h
  · cases h

/-- C9: for two different literals `a`, `b` (the binary clause `{a, b}` has
different variables) whose watchlists exist, `attachBinClause(a, b, learnt)`
returns, and in `watches[¬a]` (likewise in
`watches[¬b]`) the new Binary watcher has only binary watchers in front of it, so
it precedes every non-binary watcher; the list gains exactly that watcher, the
others keep their multiset, front-loaded binaries stay front-loaded, and no other
watchlist changes. -/
theorem attachBinClause_front_loaded (s : Solver) (a b : Lit) (learnt : Bool)
    (hab : a ≠ b) (ha : a.neg.toInt < s.watches.length)
    (hb : b.neg.toInt < s.watches.length) :
    ∃ t, s.attachBinClause a b learnt = .ok t ∧
      BinInserted (s.ws a.neg) (t.ws a.neg) (.binary b learnt) ∧
      BinInserted (s.ws b.neg) (t.ws b.neg) (.binary a learnt) ∧
      (∀ l, l ≠ a.neg → l ≠ b.neg → t.ws l = s.ws l) ∧
      t.watches.length = s.watches.length := by
  have hne : a.neg ≠ b.neg := fun e => hab (Lit.neg_inj e)
  refine ⟨_, attachBinClause_of_lt s a b learnt ha hb, ?_, ?_, ?_, ?_⟩
  · rw [Solver.ws_setWs_ne _ _ _ _ hne, Solver.ws_setWs_self _ _ _ ha]
    exact binInserted_pushBinary _ _ rfl
  · rw [Solver.ws_setWs_self _ _ _ (by simpa using hb),
      Solver.ws_setWs_ne _ _ _ _ (Ne.symm hne)]
    exact binInserted_pushBinary _ _ rfl
  · intro l h1 h2
    rw [Solver.ws_setWs_ne _ _ _ _ h2, Solver.ws_setWs_ne _ _ _ _ h1]
  · simp

/-- C9, witness: the binary `{+0, +1}` attached to a
solver with two variables and one Long watcher in `watches[-0]`. -/
theorem attachBinClause_front_loaded_witness :
    ∃ t, ({ watches := [[], [.clause 0 ⟨1, false⟩ false], [], []] } : Solver).attachBinClause
        ⟨0, false⟩ ⟨1, false⟩ false = .ok t ∧
      BinInserted [.clause 0 ⟨1, false⟩ false] (t.ws ⟨0, true⟩) (.binary ⟨1, false⟩ false) ∧
      BinInserted [] (t.ws ⟨1, true⟩) (.binary ⟨0, false⟩ false) ∧
      (∀ l, l ≠ (⟨0, true⟩ : Lit) → l ≠ (⟨1, true⟩ : Lit) →
        t.ws l = ({ watches := [[], [.clause 0 ⟨1, false⟩ false], [], []] } : Solver).ws l) ∧
      t.watches.length = 4 :=
  attachBinClause_front_loaded { watches := [[], [.clause 0 ⟨1, false⟩ false], [], []] }
    ⟨0, false⟩ ⟨1, false⟩ false (by decide) (by decide) (by decide)

/-- The call `attachBinClause(a, a, learnt)`, which the solver does not make (a
binary clause has two variables; the assertion is compiled under `DEBUG_ATTACH`
only): with `a = -0` the single list `watches[+0]` gains two watchers, so it is
not the old list with exactly one watcher inserted. -/
theorem attachBinClause_same_literal :
    ∃ t, ({ watches := [[], []] } : Solver).attachBinClause ⟨0, true⟩ ⟨0, true⟩ false = .ok t ∧
      ¬ BinInserted (({ watches := [[], []] } : Solver).ws (Lit.neg ⟨0, true⟩))
          (t.ws (Lit.neg ⟨0, true⟩)) (.binary ⟨0, true⟩ false) := by
  refine ⟨_, attachBinClause_of_lt _ _ _ _ (by decide) (by decide), ?_⟩
  rintro ⟨pre, post, h1, -, h3, -⟩
  have hl := h3.length_eq
  have h0 : (({ watches := [[], []] } : Solver).ws (Lit.neg ⟨0, true⟩)) = [] := by decide
  rw [h0] at hl
  have hpre : pre = [] := by
    cases pre with
    | nil => rfl
    | cons x xs => simp at hl
  have hpost : post = [] := by
    cases post with
    | nil => rfl
    | cons x xs => simp at hl
  subst hpre; subst hpost
  have := congrArg List.length h1
  revert this
  decide

/-! ## attachClause and detachClause -/

theorem pushWs_count {s t : Solver} {l : Lit} {w : Watched} (h : s.pushWs l w = .ok t)
    (l' : Lit) (x : Watched) :
    (t.ws l').count x = (s.ws l').count x + (if l' = l ∧ x = w then 1 else 0) := by
  obtain ⟨hl, rfl⟩ := Solver.pushWs_ok h
  rw [Solver.ws_setWs _ _ _ _ hl]
  by_cases e : l' = l
  · subst e
    by_cases ex : x = w
    · subst ex; simp
    · have : ¬ (w = x) := fun h => ex h.symm
      simp [ex, List.count_cons, this]
  · simp [e]

theorem pushWs_frame {s t : Solver} {l : Lit} {w : Watched} (h : s.pushWs l w = .ok t) :
    t.watches.length = s.watches.length ∧ t.arena = s.arena ∧ t.clauseData = s.clauseData
      ∧ t.assigns = s.assigns ∧ t.trail = s.trail ∧ t.qhead = s.qhead
      ∧ t.varData = s.varData := by
  obtain ⟨_, rfl⟩ := Solver.pushWs_ok h
  simp [Solver.setWs]

theorem pushWs_ws {s t : Solver} {l : Lit} {w : Watched} (h : s.pushWs l w = .ok t)
    (l' : Lit) : t.ws l' = if l' = l then s.ws l ++ [w] else s.ws l' := by
  obtain ⟨hl, rfl⟩ := Solver.pushWs_ok h
  rw [Solver.ws_setWs _ _ _ _ hl]

theorem removeWTri_count (ws : List Watched) (a b : Lit) (h : Watched.tri a b ∈ ws) :
    ∃ r, removeWTri ws a b = .ok r ∧
      ∀ x, r.count x = ws.count x - (if x = Watched.tri a b then 1 else 0) := by
  induction ws with
  | nil => cases h
  | cons w ws ih =>
    unfold removeWTri
    by_cases e : w = Watched.tri a b
    · subst e
      refine ⟨ws, by simp, ?_⟩
      intro x
      by_cases ex : x = Watched.tri a b
      · subst ex; simp
      · have : ¬ (Watched.tri a b = x) := fun h => ex h.symm
        simp [ex, List.count_cons, this]
    · have hm : Watched.tri a b ∈ ws := by
        rcases List.mem_cons.mp h with h | h
        · exact absurd h.symm e
        · exact h
      obtain ⟨r, hr, hc⟩ := ih hm
      refine ⟨w :: r, by simp [e, hr], ?_⟩
      intro x
      have hpos : 0 < ws.count (Watched.tri a b) := List.count_pos_iff.mpr hm
      rw [List.count_cons, List.count_cons, hc x]
      by_cases ex : x = Watched.tri a b
      · subst ex; simp only [if_true]
        have : ¬ (w = Watched.tri a b) := e
        simp [this]
      · simp [ex]

theorem removeWCl_count (ws : List Watched) (off : Nat) (w : Watched) (hw : w ∈ ws)
    (hoff : ∃ blk wn, w = Watched.clause off blk wn)
    (huniq : ∀ x ∈ ws, ∀ blk wn, x = Watched.clause off blk wn → x = w) :
    ∃ r, removeWCl ws off = .ok r ∧
      ∀ x, r.count x = ws.count x - (if x = w then 1 else 0) := by
  induction ws with
  | nil => cases hw
  | cons y ws ih =>
    obtain ⟨blk, wn, rfl⟩ := hoff
    by_cases e : y = Watched.clause off blk wn
    · subst e
      refine ⟨ws, by simp [removeWCl], ?_⟩
      intro x
      by_cases ex : x = Watched.clause off blk wn
      · subst ex; simp
      · have : ¬ (Watched.clause off blk wn = x) := fun h => ex h.symm
        simp [ex, List.count_cons, this]
    · have hm : Watched.clause off blk wn ∈ ws := by
        rcases List.mem_cons.mp hw with h | h
        · exact absurd h.symm e
        · exact h
      obtain ⟨r, hr, hc⟩ := ih hm (fun x hx => huniq x (List.mem_cons_of_mem _ hx))
      have hy : removeWCl (y :: ws) off = .ok (y :: r) := by
        cases y with
        | binary o l => simp [removeWCl, hr]
        | tri o o2 => simp [removeWCl, hr]
        | clause o b2 w2 =>
          have hne : o ≠ off := by
            intro ho
            subst ho
            exact e (huniq _ (List.mem_cons_self _ _) b2 w2 rfl)
          simp [removeWCl, hr, hne]
      refine ⟨y :: r, hy, ?_⟩
      intro x
      have hpos : 0 < ws.count (Watched.clause off blk wn) := List.count_pos_iff.mpr hm
      rw [List.count_cons, List.count_cons, hc x]
      by_cases ex : x = Watched.clause off blk wn
      · subst ex
        simp [e]
      · simp [ex]

theorem removeFromWs_count {s : Solver} {l : Lit} {f : List Watched → Except Fault (List Watched)}
    {r : List Watched} (hl : l.toInt < s.watches.length) (hf : f (s.ws l) = .ok r) :
    ∃ t, s.removeFromWs l f = .ok t ∧ (∀ l', t.ws l' = if l' = l then r else s.ws l') ∧
      t.watches.length = s.watches.length ∧ t.arena = s.arena ∧
      t.clauseData = s.clauseData := by
  refine ⟨s.setWs l r, by simp [Solver.removeFromWs, hl, hf], ?_, by simp, rfl, rfl⟩
  intro l'
  rw [Solver.ws_setWs _ _ _ _ hl]

theorem mem_ws_lt {s : Solver} {l : Lit} {w : Watched} (h : w ∈ s.ws l) :
    l.toInt < s.watches.length := by
  by_contra hn
  rw [Solver.ws_eq_nil_of_ge s l (by omega)] at h
  cases h

theorem findWCl_eq_false {ws : List Watched} {off : Nat}
    (h : ∀ blk wn, Watched.clause off blk wn ∉ ws) : findWCl ws off = false := by
  unfold findWCl
  rw [List.any_eq_false]
  intro x hx
  cases x with
  | binary o l => simp
  | tri o o2 => simp
  | clause o b w =>
    simp only [decide_eq_true_eq]
    intro e
    subst e
    exact h b w hx

/-- What a successful `attachClause` did. -/
theorem attachClause_inv {s t : Solver} {off p1 p2 : Nat} {chk : Bool}
    (h : s.attachClause off p1 p2 chk = .ok t) :
    ∃ c l1 l2, s.arena[off]? = some c ∧ c.size > 2 ∧ c.lits[p1]? = some l1 ∧
      c.lits[p2]? = some l2 ∧ l1.var ≠ l2.var ∧
      (chk = true → s.value { var := l1.var, sign := false } = l_Undef ∧
        (s.value l2 = l_Undef ∨ s.value l2 = l_False)) ∧
      ((∃ c0 c1 c2 s1 s2, c.lits = [c0, c1, c2] ∧ s.pushWs c0.neg (.tri c1 c2) = .ok s1 ∧
          s1.pushWs c1.neg (.tri c0 c2) = .ok s2 ∧ s2.pushWs c2.neg (.tri c0 c1) = .ok t) ∨
       (c.size > 3 ∧ ∃ blk s1 s2, c.lits[c.size / 2]? = some blk ∧
          s.pushWs l1.neg (.clause off blk false) = .ok s1 ∧
          s1.pushWs l2.neg (.clause off blk true) = .ok s2 ∧
          t = { s2 with clauseData :=
            (if s2.clauseData.length ≤ c.num
              then s2.clauseData ++ List.replicate (c.num + 1 - s2.clauseData.length) {}
              else s2.clauseData).set c.num { lit0 := p1, lit1 := p2 } })) := by
  unfold Solver.attachClause at h
  split at h
  · cases h
  · rename_i c hc
    split at h
    · cases h
    · rename_i hsz
      split at h
      · rename_i l1 l2 h1 h2
        split at h
        · cases h
        · rename_i hv
          split at h
          · cases h
          · rename_i hchk
            refine ⟨c, l1, l2, hc, by omega, h1, h2, by simpa using hv, ?_, ?_⟩
            · intro hc1
              by_contra hcon
              exact hchk ⟨hc1, hcon⟩
            · split at h
              · rename_i h3
                split at h
                · rename_i c0 c1 c2 hl
                  left
                  split at h
                  · cases h
                  · rename_i s1 hs1
                    split at h
                    · cases h
                    · rename_i s2 hs2
                      exact ⟨c0, c1, c2, s1, s2, hl, hs1, hs2, h⟩
                · cases h
              · rename_i h3
                right
                refine ⟨by omega, ?_⟩
                split at h
                · cases h
                · rename_i blk hb
                  split at h
                  · cases h
                  · rename_i s1 hs1
                    split at h
                    · cases h
                    · rename_i s2 hs2
                      injection h with h
                      exact ⟨blk, s1, s2, hb, hs1, hs2, h.symm⟩
      · cases h

theorem removeFromWs_tri {s : Solver} {l : Lit} {a b : Lit} (h : Watched.tri a b ∈ s.ws l) :
    ∃ t, s.removeFromWs l (fun ws => removeWTri ws a b) = .ok t ∧
      (∀ l' x, (t.ws l').count x =
        (s.ws l').count x - (if l' = l ∧ x = Watched.tri a b then 1 else 0)) ∧
      t.watches.length = s.watches.length ∧ t.arena = s.arena ∧
      t.clauseData = s.clauseData ∧ (∀ l', l' ≠ l → t.ws l' = s.ws l') := by
  obtain ⟨r, hr, hc⟩ := removeWTri_count _ a b h
  obtain ⟨t, ht, hws, h1, h2, h3⟩ := removeFromWs_count (f := fun ws => removeWTri ws a b)
    (mem_ws_lt h) hr
  refine ⟨t, ht, ?_, h1, h2, h3, fun l' hl' => by rw [hws l', if_neg hl']⟩
  intro l' x
  rw [hws l']
  by_cases e : l' = l
  · subst e; simp [hc x]
  · simp [e]

theorem removeFromWs_cl {s : Solver} {l : Lit} {off : Nat} {w : Watched} (hw : w ∈ s.ws l)
    (hoff : ∃ blk wn, w = Watched.clause off blk wn)
    (huniq : ∀ x ∈ s.ws l, ∀ blk wn, x = Watched.clause off blk wn → x = w) :
    ∃ t, s.removeFromWs l (fun ws => removeWCl ws off) = .ok t ∧
      (∀ l' x, (t.ws l').count x =
        (s.ws l').count x - (if l' = l ∧ x = w then 1 else 0)) ∧
      t.watches.length = s.watches.length ∧ t.arena = s.arena ∧
      t.clauseData = s.clauseData ∧ (∀ l', l' ≠ l → t.ws l' = s.ws l') := by
  obtain ⟨r, hr, hc⟩ := removeWCl_count _ off w hw hoff huniq
  obtain ⟨t, ht, hws, h1, h2, h3⟩ := removeFromWs_count (f := fun ws => removeWCl ws off)
    (mem_ws_lt hw) hr
  refine ⟨t, ht, ?_, h1, h2, h3, fun l' hl' => by rw [hws l', if_neg hl']⟩
  intro l' x
  rw [hws l']
  by_cases e : l' = l
  · subst e; simp [hc x]
  · simp [e]

theorem mem_of_count_pos {ws : List Watched} {x : Watched} (h : 0 < ws.count x) : x ∈ ws :=
  List.count_pos_iff.mp h

/-- Detaching a ternary clause right after its three watchers were pushed. -/
theorem detach_after_attach_tri {s s1 s2 t : Solver} {off : Nat} {c : Clause} {c0 c1 c2 : Lit}
    (hna : NotAttached s off) (hc : s.arena[off]? = some c) (hl : c.lits = [c0, c1, c2])
    (h1 : s.pushWs c0.neg (.tri c1 c2) = .ok s1)
    (h2 : s1.pushWs c1.neg (.tri c0 c2) = .ok s2)
    (h3 : s2.pushWs c2.neg (.tri c0 c1) = .ok t) :
    ∃ u, t.detachClause off = .ok u ∧ u.watches.length = s.watches.length ∧
      ∀ l, (u.ws l).Perm (s.ws l) := by
  have k1 := pushWs_count h1
  have k2 := pushWs_count h2
  have k3 := pushWs_count h3
  obtain ⟨f1, a1, -⟩ := pushWs_frame h1
  obtain ⟨f2, a2, -⟩ := pushWs_frame h2
  obtain ⟨f3, a3, -⟩ := pushWs_frame h3
  have hct : t.arena[off]? = some c := by rw [a3, a2, a1]; exact hc
  have hsz : c.size = 3 := by simp [Clause.size, hl]
  -- no Long watcher for `off` in the first list
  have hfind : findWCl (t.ws c0.neg) off = false := by
    apply findWCl_eq_false
    intro blk wn hm
    have hp := List.count_pos_iff.mpr hm
    rw [k3, k2, k1] at hp
    have h0 : (s.ws c0.neg).count (Watched.clause off blk wn) = 0 :=
      List.count_eq_zero.mpr (hna _ _ _)
    simp [h0] at hp
  have m1 : Watched.tri c1 c2 ∈ t.ws c0.neg := by
    apply mem_of_count_pos
    rw [k3, k2, k1]; simp
  obtain ⟨u1, e1, q1, g1, b1, -, -⟩ := removeFromWs_tri m1
  have m2 : Watched.tri c0 c2 ∈ u1.ws c1.neg := by
    apply mem_of_count_pos
    have := q1 c1.neg (Watched.tri c0 c2)
    rw [k3, k2, k1] at this
    rw [this]
    simp only [and_self, if_true]
    split_ifs <;> omega
  obtain ⟨u2, e2, q2, g2, b2, -, -⟩ := removeFromWs_tri m2
  have m3 : Watched.tri c0 c1 ∈ u2.ws c2.neg := by
    apply mem_of_count_pos
    have := q2 c2.neg (Watched.tri c0 c1)
    rw [q1, k3, k2, k1] at this
    rw [this]
    simp only [and_self, if_true]
    split_ifs <;> omega
  obtain ⟨u3, e3, q3, g3, b3, -, -⟩ := removeFromWs_tri m3
  refine ⟨u3, ?_, by omega, ?_⟩
  · have hlt : c0.neg.toInt < t.watches.length := mem_ws_lt m1
    simp [Solver.detachClause, hct, hsz, hl, Solver.detachModifiedClause, hlt, hfind, e1, e2, e3]
  · intro l
    rw [List.perm_iff_count]
    intro x
    rw [q3, q2, q1, k3, k2, k1]
    have p1 := List.count_pos_iff.mpr m1
    have p2 := List.count_pos_iff.mpr m2
    have p3 := List.count_pos_iff.mpr m3
    rw [k3, k2, k1] at p1
    rw [q1, k3, k2, k1] at p2
    rw [q2, q1, k3, k2, k1] at p3
    by_cases x1 : l = c0.neg ∧ x = Watched.tri c1 c2 <;>
    by_cases x2 : l = c1.neg ∧ x = Watched.tri c0 c2 <;>
    by_cases x3 : l = c2.neg ∧ x = Watched.tri c0 c1 <;>
    simp only [x1, x2, x3, if_true, if_false] <;> omega

/-- Detaching a long clause right after its two watchers were pushed. -/
theorem detach_after_attach_long {s s1 s2 : Solver} {off p1 p2 : Nat} {c : Clause}
    {l1 l2 blk : Lit}
    (hna : NotAttached s off) (hc : s.arena[off]? = some c) (hsz : c.size > 3)
    (hp1 : c.lits[p1]? = some l1) (hp2 : c.lits[p2]? = some l2) (hv : l1.var ≠ l2.var)
    (h1 : s.pushWs l1.neg (.clause off blk false) = .ok s1)
    (h2 : s1.pushWs l2.neg (.clause off blk true) = .ok s2) :
    ∃ u, ({ s2 with clauseData :=
            (if s2.clauseData.length ≤ c.num
              then s2.clauseData ++ List.replicate (c.num + 1 - s2.clauseData.length) {}
              else s2.clauseData).set c.num { lit0 := p1, lit1 := p2 } } : Solver).detachClause off
        = .ok u ∧ u.watches.length = s.watches.length ∧ ∀ l, (u.ws l).Perm (s.ws l) := by
  have k1 := pushWs_count h1
  have k2 := pushWs_count h2
  have w1 := pushWs_ws h1
  have w2 := pushWs_ws h2
  obtain ⟨f1, a1, -⟩ := pushWs_frame h1
  obtain ⟨f2, a2, -⟩ := pushWs_frame h2
  have hne : l1.neg ≠ l2.neg := fun e => hv (congrArg Lit.var (Lit.neg_inj e))
  generalize ht : ({ s2 with clauseData :=
            (if s2.clauseData.length ≤ c.num
              then s2.clauseData ++ List.replicate (c.num + 1 - s2.clauseData.length) {}
              else s2.clauseData).set c.num { lit0 := p1, lit1 := p2 } } : Solver) = t
  have hws : ∀ l, t.ws l = s2.ws l := by intro l; subst ht; rfl
  have hwl : t.watches.length = s2.watches.length := by subst ht; rfl
  have hct : t.arena[off]? = some c := by subst ht; simp only; rw [a2, a1]; exact hc
  have hcd : t.clauseData[c.num]? = some { lit0 := p1, lit1 := p2 } := by
    subst ht
    simp only
    rw [List.getElem?_set]
    simp only [if_true]
    split_ifs with h h'
    · rfl
    · exfalso; apply h'; simp; omega
    · rfl
    · exfalso; omega
  -- the list of the first watch
  have e1 : t.ws l1.neg = s.ws l1.neg ++ [.clause off blk false] := by
    rw [hws, w2, if_neg hne, w1, if_pos rfl]
  have e2 : t.ws l2.neg = s.ws l2.neg ++ [.clause off blk true] := by
    rw [hws, w2, if_pos rfl, w1, if_neg (Ne.symm hne)]
  have m1 : Watched.clause off blk false ∈ t.ws l1.neg := by rw [e1]; simp
  obtain ⟨u1, r1, q1, g1, b1, d1, n1⟩ := @removeFromWs_cl _ _ off _ m1 ⟨blk, false, rfl⟩ (by
    intro x hx b w hxe
    rw [e1] at hx
    rcases List.mem_append.mp hx with hx | hx
    · subst hxe; exact absurd hx (hna _ _ _)
    · simpa using hx)
  have e3 : u1.ws l2.neg = s.ws l2.neg ++ [.clause off blk true] := by
    rw [n1 _ (Ne.symm hne), e2]
  have m2 : Watched.clause off blk true ∈ u1.ws l2.neg := by rw [e3]; simp
  obtain ⟨u2, r2, q2, g2, b2, d2, n2⟩ := @removeFromWs_cl _ _ off _ m2 ⟨blk, true, rfl⟩ (by
    intro x hx b w hxe
    rw [e3] at hx
    rcases List.mem_append.mp hx with hx | hx
    · subst hxe; exact absurd hx (hna _ _ _)
    · simpa using hx)
  refine ⟨u2, ?_, by omega, ?_⟩
  · have hlt : l1.neg.toInt < t.watches.length := mem_ws_lt m1
    have hn3 : ¬ (c.size = 3) := by omega
    have hgt : 2 < c.size := by omega
    simp [Solver.detachClause, hct, hsz, hcd, ClauseData.get, hp1, hp2, hn3,
      Solver.detachModifiedClause, hlt, hgt, r1, r2]
  · intro l
    rw [List.perm_iff_count]
    intro x
    rw [q2, q1, hws, k2, k1]
    by_cases x1 : l = l1.neg ∧ x = Watched.clause off blk false <;>
    by_cases x2 : l = l2.neg ∧ x = Watched.clause off blk true <;>
    simp only [x1, x2, if_true, if_false] <;> omega

/-- C7: for a clause of size at least 3 that has no Long watcher yet, whenever
`attachClause(c, w0, w1)` accepts its arguments, the following `detachClause(c)`
returns and every watchlist holds the same multiset of watchers as before the
attach. -/
theorem attach_detach_restores_watchlists (s t : Solver) (off p1 p2 : Nat) (chk : Bool)
    (hna : NotAttached s off) (h : s.attachClause off p1 p2 chk = .ok t) :
    ∃ u, t.detachClause off = .ok u ∧ u.watches.length = s.watches.length ∧
      ∀ l, (u.ws l).Perm (s.ws l) := by
  obtain ⟨c, l1, l2, hc, hsz, hp1, hp2, hv, -, hcase⟩ := attachClause_inv h
  rcases hcase with ⟨c0, c1, c2, s1, s2, hl, h1, h2, h3⟩ | ⟨hsz3, blk, s1, s2, hb, h1, h2, rfl⟩
  · exact detach_after_attach_tri hna hc hl h1 h2 h3
  · exact detach_after_attach_long hna hc hsz3 hp1 hp2 hv h1 h2

theorem ws_eq_nil_of_all_nil {s : Solver} (h : ∀ x ∈ s.watches, x = []) (l : Lit) :
    s.ws l = [] := by
  unfold Solver.ws
  rw [List.getD_eq_getElem?_getD]
  cases hx : s.watches[l.toInt]? with
  | none => rfl
  | some x => exact h x (List.getElem?_mem hx)

/-- C7, witness: the clause `{+0, +1, +2, +3}` at offset 0, attached with watches
0 and 1 to a solver with four variables and empty watchlists. -/
theorem attach_detach_restores_watchlists_witness :
    ∃ u, exLong4Attached.detachClause 0 = .ok u ∧
      u.watches.length = exLong4.watches.length ∧ ∀ l, (u.ws l).Perm (exLong4.ws l) :=
  attach_detach_restores_watchlists exLong4 exLong4Attached 0 0 1 true
    (by
      intro l blk wn hm
      rw [ws_eq_nil_of_all_nil (by decide) l] at hm
      cases hm)
    (by decide)

theorem attachClause_long_ok (s : Solver) (off p1 p2 : Nat) (chk : Bool) (c : Clause)
    (l1 l2 : Lit) (hc : s.arena[off]? = some c) (hsz : c.size > 3)
    (hp1 : c.lits[p1]? = some l1) (hp2 : c.lits[p2]? = some l2) (hv : l1.var ≠ l2.var)
    (hchk : chk = true → s.value { var := l1.var, sign := false } = l_Undef ∧
      (s.value l2 = l_Undef ∨ s.value l2 = l_False))
    (hr1 : l1.neg.toInt < s.watches.length) (hr2 : l2.neg.toInt < s.watches.length) :
    ∃ t blk s1 s2, s.attachClause off p1 p2 chk = .ok t ∧ c.lits[c.size / 2]? = some blk ∧
      s.pushWs l1.neg (.clause off blk false) = .ok s1 ∧
      s1.pushWs l2.neg (.clause off blk true) = .ok s2 ∧
      t = { s2 with clauseData :=
            (if s2.clauseData.length ≤ c.num
              then s2.clauseData ++ List.replicate (c.num + 1 - s2.clauseData.length) {}
              else s2.clauseData).set c.num { lit0 := p1, lit1 := p2 } } := by
  have hlt : c.size / 2 < c.lits.length := by
    have : c.size = c.lits.length := rfl
    omega
  have hb : c.lits[c.size / 2]? = some (c.lits[c.size / 2]) := List.getElem?_eq_getElem hlt
  have e1 := Solver.pushWs_of_lt (.clause off (c.lits[c.size / 2]) false) hr1
  have hr2b : l2.neg.toInt <
      (s.setWs l1.neg (s.ws l1.neg ++ [.clause off (c.lits[c.size / 2]) false])).watches.length := by
    simpa using hr2
  have e2 := Solver.pushWs_of_lt (.clause off (c.lits[c.size / 2]) true) hr2b
  refine ⟨_, c.lits[c.size / 2], _, _, ?_, hb, e1, e2, rfl⟩
  have h2 : 2 < c.size := by omega
  have h3 : ¬ (c.size = 3) := by omega
  have hchk2 : ¬ (chk = true ∧ ¬ (s.value { var := l1.var, sign := false } = l_Undef ∧
      (s.value l2 = l_Undef ∨ s.value l2 = l_False))) := fun h => h.2 (hchk h.1)
  unfold Solver.attachClause
  simp only [hc, hp1, hp2, gt_iff_lt, h2, not_true_eq_false, if_false, ne_eq, hv,
    not_false_eq_true, hchk2, h3, hb, e1, e2]

/-- C10 (amended): for a clause of size above 3 and positions whose literals have
distinct variables and, when `checkAttach` is set, with `c[w0]` unassigned and
`c[w1]` unassigned or False, `attachClause` appends `Long(offset, c[size/2], 0)`
to `watches[¬c[w0]]` and `Long(offset, c[size/2], 1)` to `watches[¬c[w1]]`, sets
`clauseData[c.num]` to `(w0, w1)`, growing `clauseData` when needed, and changes
no other watchlist; the blocker is a literal of `c`. It fails its assertion when
the size is at most 2, when `c[w0]` and `c[w1]` share a variable, and when
`checkAttach` is set and the condition on the values fails. -/
theorem attachClause_long_watchers :
    (∀ (s : Solver) (off p1 p2 : Nat) (chk : Bool) (c : Clause) (l1 l2 : Lit),
      s.arena[off]? = some c → c.size > 3 →
      c.lits[p1]? = some l1 → c.lits[p2]? = some l2 → l1.var ≠ l2.var →
      (chk = true → s.value { var := l1.var, sign := false } = l_Undef ∧
        (s.value l2 = l_Undef ∨ s.value l2 = l_False)) →
      l1.neg.toInt < s.watches.length → l2.neg.toInt < s.watches.length →
      ∃ t blk, s.attachClause off p1 p2 chk = .ok t ∧
        c.lits[c.size / 2]? = some blk ∧ blk ∈ c.lits ∧
        t.ws l1.neg = s.ws l1.neg ++ [.clause off blk false] ∧
        t.ws l2.neg = s.ws l2.neg ++ [.clause off blk true] ∧
        (∀ l, l ≠ l1.neg → l ≠ l2.neg → t.ws l = s.ws l) ∧
        t.watches.length = s.watches.length ∧
        t.clauseData[c.num]? = some { lit0 := p1, lit1 := p2 } ∧
        t.clauseData.length = max s.clauseData.length (c.num + 1) ∧
        (∀ n, n ≠ c.num → n < s.clauseData.length → t.clauseData[n]? = s.clauseData[n]?)) ∧
    (∀ (s : Solver) (off p1 p2 : Nat) (chk : Bool) (c : Clause),
      s.arena[off]? = some c → c.size ≤ 2 →
      s.attachClause off p1 p2 chk = .error .assertion) ∧
    (∀ (s : Solver) (off p1 p2 : Nat) (chk : Bool) (c : Clause) (l1 l2 : Lit),
      s.arena[off]? = some c → 2 < c.size →
      c.lits[p1]? = some l1 → c.lits[p2]? = some l2 → l1.var = l2.var →
      s.attachClause off p1 p2 chk = .error .assertion) ∧
    (∀ (s : Solver) (off p1 p2 : Nat) (c : Clause) (l1 l2 : Lit),
      s.arena[off]? = some c → 2 < c.size →
      c.lits[p1]? = some l1 → c.lits[p2]? = some l2 → l1.var ≠ l2.var →
      ¬ (s.value { var := l1.var, sign := false } = l_Undef ∧
        (s.value l2 = l_Undef ∨ s.value l2 = l_False)) →
      s.attachClause off p1 p2 true = .error .assertion) := by
  refine ⟨?_, ?_, ?_, ?_⟩
  · intro s off p1 p2 chk c l1 l2 hc hsz hp1 hp2 hv hchk hr1 hr2
    obtain ⟨t, blk, s1, s2, ht, hb, e1, e2, rfl⟩ :=
      attachClause_long_ok s off p1 p2 chk c l1 l2 hc hsz hp1 hp2 hv hchk hr1 hr2
    have hne : l1.neg ≠ l2.neg := fun e => hv (congrArg Lit.var (Lit.neg_inj e))
    have w1 := pushWs_ws e1
    have w2 := pushWs_ws e2
    obtain ⟨f1, -, d1, -⟩ := pushWs_frame e1
    obtain ⟨f2, -, d2, -⟩ := pushWs_frame e2
    refine ⟨_, blk, ht, hb, List.getElem?_mem hb, ?_, ?_, ?_, ?_, ?_, ?_, ?_⟩
    · show s2.ws l1.neg = _
      rw [w2, if_neg hne, w1, if_pos rfl]
    · show s2.ws l2.neg = _
      rw [w2, if_pos rfl, w1, if_neg (Ne.symm hne)]
    · intro l h1 h2
      show s2.ws l = _
      rw [w2, if_neg h2, w1, if_neg h1]
    · show s2.watches.length = _
      omega
    · simp only [d2, d1]
      rw [List.getElem?_set]
      simp only [if_true]
      split_ifs with h h'
      · rfl
      · exfalso; apply h'; simp; omega
      · rfl
      · exfalso; omega
    · simp only [d2, d1, List.length_set]
      split_ifs with h
      · simp; omega
      · omega
    · intro n hn hlt
      simp only [d2, d1]
      rw [List.getElem?_set, if_neg (Ne.symm hn)]
      split_ifs with h
      · rw [List.getElem?_append_left hlt]
      · rfl
  · intro s off p1 p2 chk c hc hsz
    have : ¬ (2 < c.size) := by omega
    simp [Solver.attachClause, hc, this]
  · intro s off p1 p2 chk c l1 l2 hc hsz hp1 hp2 hv
    simp [Solver.attachClause, hc, hsz, hp1, hp2, hv]
  · intro s off p1 p2 c l1 l2 hc hsz hp1 hp2 hv hcond
    unfold Solver.attachClause
    simp only [hc, hp1, hp2, gt_iff_lt, hsz, not_true_eq_false, if_false, ne_eq, hv,
      not_false_eq_true, true_and, hcond, if_true]

/-- C10, witness of the amended statement: `{+0, +1, +2, +3}` attached with
watches 0 and 1 and `checkAttach` set, all variables unassigned. -/
theorem attachClause_long_watchers_witness :
    ∃ t blk, exLong4.attachClause 0 0 1 true = .ok t ∧
        [posLit 0, posLit 1, posLit 2, posLit 3][4 / 2]? = some blk ∧
        blk ∈ [posLit 0, posLit 1, posLit 2, posLit 3] ∧
        t.ws (negLit 0) = exLong4.ws (negLit 0) ++ [.clause 0 blk false] ∧
        t.ws (negLit 1) = exLong4.ws (negLit 1) ++ [.clause 0 blk true] ∧
        (∀ l, l ≠ negLit 0 → l ≠ negLit 1 → t.ws l = exLong4.ws l) ∧
        t.watches.length = exLong4.watches.length ∧
        t.clauseData[0]? = some { lit0 := 0, lit1 := 1 } ∧
        t.clauseData.length = max exLong4.clauseData.length (0 + 1) ∧
        (∀ n, n ≠ 0 → n < exLong4.clauseData.length →
          t.clauseData[n]? = exLong4.clauseData[n]?) :=
  attachClause_long_watchers.1 exLong4 0 0 1 true
    { lits := [posLit 0, posLit 1, posLit 2, posLit 3] } (posLit 0) (posLit 1)
    (by decide) (by decide) (by decide) (by decide) (by decide) (by decide) (by decide)
    (by decide)

/-- C10, counterexample to the unguarded statement: the clause has size 4 and the
watched positions have distinct variables, yet with `checkAttach` set and `c[w0]`
assigned the call fails its assertion and appends nothing. -/
theorem attachClause_checkAttach_counterexample :
    exLong4Assigned.arena[0]? = some { lits := [posLit 0, posLit 1, posLit 2, posLit 3] } ∧
    (posLit 0).var ≠ (posLit 1).var ∧
    exLong4Assigned.attachClause 0 0 1 true = .error .assertion := by
  decide

/-! ## The arms do not depend on the watchlists -/

theorem enqueue_withW (s : Solver) (W : List (List Watched)) (l : Lit) (r : PropBy) :
    ({ s with watches := W } : Solver).enqueue l r
      = (s.enqueue l r).map (fun t => { t with watches := W }) := by
  unfold Solver.enqueue
  by_cases h : l.var < s.assigns.length ∧ l.var < s.varData.length
  · simp [h, Except.map, Solver.decisionLevel]
  · simp [h, Except.map]

theorem propBinaryClause_withW (s : Solver) (W : List (List Watched)) (o p : Lit) (c : PropBy) :
    ({ s with watches := W } : Solver).propBinaryClause o p c
      = (s.propBinaryClause o p c).map (fun r => (r.1, r.2.1, { r.2.2 with watches := W })) := by
  unfold Solver.propBinaryClause
  have hv : ∀ x, ({ s with watches := W } : Solver).value x = s.value x := fun x => rfl
  simp only [hv]
  split_ifs
  · have := enqueue_withW { s with propsBin := s.propsBin + 1 } W o (.binary p.neg)
    simp only at this
    rw [this]
    cases ({ s with propsBin := s.propsBin + 1 } : Solver).enqueue o (.binary p.neg) <;> rfl
  · rfl
  · rfl

theorem propTriClause_withW (s : Solver) (W : List (List Watched)) (a b p : Lit) (c : PropBy) :
    ({ s with watches := W } : Solver).propTriClause a b p c
      = (s.propTriClause a b p c).map (fun r => (r.1, r.2.1, { r.2.2 with watches := W })) := by
  unfold Solver.propTriClause
  have hv : ∀ x, ({ s with watches := W } : Solver).value x = s.value x := fun x => rfl
  simp only [hv]
  split_ifs
  · rfl
  · have := enqueue_withW { s with propsTri := s.propsTri + 1 } W a (.tertiary p.neg b)
    simp only at this
    rw [this]
    cases ({ s with propsTri := s.propsTri + 1 } : Solver).enqueue a (.tertiary p.neg b) <;> rfl
  · have := enqueue_withW { s with propsTri := s.propsTri + 1 } W b (.tertiary p.neg a)
    simp only at this
    rw [this]
    cases ({ s with propsTri := s.propsTri + 1 } : Solver).enqueue b (.tertiary p.neg a) <;> rfl
  · rfl
  · rfl

theorem propNormalCore_withW (s : Solver) (W : List (List Watched)) (off : Nat) (blk : Lit)
    (wn : Bool) (p : Lit) (c : PropBy) :
    ({ s with watches := W } : Solver).propNormalCore off blk wn p c
      = (s.propNormalCore off blk wn p c).map
          (fun r => (r.1, r.2.1, r.2.2.1, { r.2.2.2 with watches := W })) := by
  unfold Solver.propNormalCore
  simp only [Solver.value, Solver.setData]
  split
  · rfl
  · split
    · rfl
    · rename_i cl hcl
      split
      · rfl
      · split
        · split
          · rfl
          · split
            · rfl
            · split
              · rfl
              · split
                · rfl
                · cases hl : cl.learnt
                  · simp only [Bool.false_eq_true, if_false, Solver.enqueue, Solver.decisionLevel]
                    split_ifs <;> rfl
                  · simp only [if_true, Solver.enqueue, Solver.decisionLevel]
                    split_ifs <;> rfl
        · rfl

/-- `propNormalClause` is its watchlist-free core followed by the watchlist
operation the core asks for. -/
theorem propNormalClause_eq_core (s : Solver) (w : Watched) (off : Nat) (blk : Lit)
    (wn : Bool) (j : Nat) (p : Lit) (c : PropBy) :
    s.propNormalClause w off blk wn j p c =
      match s.propNormalCore off blk wn p c with
      | .error e => .error e
      | .ok (b, .keep, c1, t) => .ok (b, j + 1, c1, t.writeWs p j w)
      | .ok (b, .relocate l w1, c1, t) =>
        match t.pushWs l w1 with
        | .error e => .error e
        | .ok t2 => .ok (b, j, c1, t2) := by
  unfold Solver.propNormalClause Solver.propNormalCore
  simp only [Solver.value, Solver.setData, Solver.writeWs, Solver.setWs, Solver.ws,
    Solver.pushWs]
  split
  · rfl
  · split
    · rfl
    · rename_i cl hcl
      split
      · rfl
      · split
        · split
          · rfl
          · split
            · rfl
            · split
              · simp only [List.length_set]
                split_ifs <;> rfl
              · split
                · rfl
                · cases hl : cl.learnt
                  · simp only [Bool.false_eq_true, if_false, Solver.enqueue, Solver.decisionLevel]
                    split_ifs <;> rfl
                  · simp only [if_true, Solver.enqueue, Solver.decisionLevel]
                    split_ifs <;> rfl
        · rfl

/-! ## What the arms do to the state -/

theorem Same.refl (s : Solver) : Same s s := ⟨rfl, rfl, rfl, rfl, rfl, rfl, fun _ => rfl⟩

theorem Same.trans {s t u : Solver} (h1 : Same s t) (h2 : Same t u) : Same s u := by
  obtain ⟨a1, a2, a3, a4, a5, a6, a7⟩ := h1
  obtain ⟨b1, b2, b3, b4, b5, b6, b7⟩ := h2
  exact ⟨b1.trans a1, b2.trans a2, b3.trans a3, b4.trans a4, b5.trans a5, b6.trans a6,
    fun n => (b7 n).trans (a7 n)⟩

theorem Same.value_eq {s t : Solver} (h : Same s t) (x : Lit) : t.value x = s.value x :=
  Solver.value_congr h.1 x

theorem enqueue_inv {s t : Solver} {l : Lit} {r : PropBy} (h : s.enqueue l r = .ok t) :
    Enq s t l r ∧ t.watches = s.watches := by
  unfold Solver.enqueue at h
  split at h
  · rename_i hl
    injection h with h
    subst h
    exact ⟨⟨hl.1, hl.2, rfl, rfl, rfl, rfl, rfl, rfl, rfl, fun _ => rfl⟩, rfl⟩
  · cases h

theorem enqueue_ok_of_lt (s : Solver) (l : Lit) (r : PropBy)
    (h1 : l.var < s.assigns.length) (h2 : l.var < s.varData.length) :
    ∃ t, s.enqueue l r = .ok t := by
  unfold Solver.enqueue
  rw [if_pos ⟨h1, h2⟩]
  exact ⟨_, rfl⟩

theorem enqueue_error {s : Solver} {l : Lit} {r : PropBy} {e : Fault}
    (h : s.enqueue l r = .error e) :
    e = .bounds ∧ ¬ (l.var < s.assigns.length ∧ l.var < s.varData.length) := by
  unfold Solver.enqueue at h
  split at h
  · cases h
  · rename_i hl; injection h with h; exact ⟨h.symm, hl⟩

/-- The three outcomes of `propBinaryClause`. -/
theorem propBinaryClause_inv {s t : Solver} {o p : Lit} {c c1 : PropBy} {b : Bool}
    (h : s.propBinaryClause o p c = .ok (b, c1, t)) :
    t.watches = s.watches ∧
    ((s.value o = l_Undef ∧ b = true ∧ c1 = c ∧ Enq s t o (.binary p.neg)) ∨
     (s.value o = l_False ∧ b = false ∧ c1 = .binary p.neg ∧ Same s t ∧
        t.qhead = s.trail.length ∧ t.failBinLit = o) ∨
     (s.value o = l_True ∧ b = true ∧ c1 = c ∧ t = s)) := by
  unfold Solver.propBinaryClause at h
  split_ifs at h with h1 h2
  · split at h
    · cases h
    · rename_i s1 hs1
      injection h with h
      injection h with hb h
      injection h with hc ht
      subst hb hc ht
      obtain ⟨he, hw⟩ := enqueue_inv hs1
      exact ⟨hw, Or.inl ⟨h1, rfl, rfl, he⟩⟩
  · injection h with h
    injection h with hb h
    injection h with hc ht
    subst hb hc ht
    exact ⟨rfl, Or.inr (Or.inl ⟨h2, rfl, rfl, Same.refl s, rfl, rfl⟩)⟩
  · injection h with h
    injection h with hb h
    injection h with hc ht
    subst hb hc ht
    refine ⟨rfl, Or.inr (Or.inr ⟨?_, rfl, rfl, rfl⟩)⟩
    cases hv : s.value o
    · rfl
    · exact absurd hv h2
    · exact absurd hv h1

/-- The outcomes of `propTriClause`. -/
theorem propTriClause_inv {s t : Solver} {a a2 p : Lit} {c c1 : PropBy} {b : Bool}
    (h : s.propTriClause a a2 p c = .ok (b, c1, t)) :
    t.watches = s.watches ∧
    ((s.value a = l_Undef ∧ s.value a2 = l_False ∧ b = true ∧ c1 = c ∧
        Enq s t a (.tertiary p.neg a2)) ∨
     (s.value a = l_False ∧ s.value a2 = l_Undef ∧ b = true ∧ c1 = c ∧
        Enq s t a2 (.tertiary p.neg a)) ∨
     (s.value a = l_False ∧ s.value a2 = l_False ∧ b = false ∧ c1 = .tertiary p.neg a2 ∧
        Same s t ∧ t.qhead = s.trail.length ∧ t.failBinLit = a) ∨
     ((s.value a = l_True ∨ s.value a2 = l_True ∨
        (s.value a = l_Undef ∧ s.value a2 = l_Undef)) ∧ b = true ∧ c1 = c ∧ t = s)) := by
  unfold Solver.propTriClause at h
  simp only at h
  split_ifs at h with h1 h2 h3 h4
  · injection h with h
    injection h with hb h
    injection h with hc ht
    subst hb hc ht
    exact ⟨rfl, Or.inr (Or.inr (Or.inr ⟨Or.inl h1, rfl, rfl, rfl⟩))⟩
  · split at h
    · cases h
    · rename_i s1 hs1
      injection h with h
      injection h with hb h
      injection h with hc ht
      subst hb hc ht
      obtain ⟨he, hw⟩ := enqueue_inv hs1
      exact ⟨hw, Or.inl ⟨h2.1, h2.2, rfl, rfl, he⟩⟩
  · split at h
    · cases h
    · rename_i s1 hs1
      injection h with h
      injection h with hb h
      injection h with hc ht
      subst hb hc ht
      obtain ⟨he, hw⟩ := enqueue_inv hs1
      exact ⟨hw, Or.inr (Or.inl ⟨h3.1, h3.2, rfl, rfl, he⟩)⟩
  · injection h with h
    injection h with hb h
    injection h with hc ht
    subst hb hc ht
    exact ⟨rfl, Or.inr (Or.inr (Or.inl ⟨h4.1, h4.2, rfl, rfl, Same.refl s, rfl, rfl⟩))⟩
  · injection h with h
    injection h with hb h
    injection h with hc ht
    subst hb hc ht
    refine ⟨rfl, Or.inr (Or.inr (Or.inr ⟨?_, rfl, rfl, rfl⟩))⟩
    cases hv : s.value a <;> cases hv2 : s.value a2 <;> simp_all

theorem watchPos_set_same {cd : List ClauseData} {num : Nat} {d d1 : ClauseData}
    (hd : cd[num]? = some d) (h0 : d1.lit0 = d.lit0) (h1 : d1.lit1 = d.lit1) (n : Nat) :
    ((cd.set num d1)[n]?).map (fun d => (d.lit0, d.lit1))
      = (cd[n]?).map (fun d => (d.lit0, d.lit1)) := by
  rw [List.getElem?_set]
  by_cases e : num = n
  · subst e
    have hlt : num < cd.length := by
      by_contra hn
      rw [List.getElem?_eq_none (by omega)] at hd
      cases hd
    simp [hlt, hd, h0, h1]
  · simp [e]

/-- The outcomes of the core of `propNormalClause`. -/
theorem propNormalCore_inv {s t : Solver} {off : Nat} {blk p : Lit} {wn : Bool}
    {c c1 : PropBy} {b : Bool} {act : LongAct}
    (h : s.propNormalCore off blk wn p c = .ok (b, act, c1, t)) :
    t.watches = s.watches ∧
    ((s.value blk = l_True ∧ b = true ∧ act = .keep ∧ c1 = c ∧ t = s) ∨
     ∃ cl d lo, s.arena[off]? = some cl ∧ s.clauseData[cl.num]? = some d ∧
       cl.lits[d.get wn]? = some p.neg ∧ cl.lits[d.get (!wn)]? = some lo ∧
       s.value blk ≠ l_True ∧
       ((s.value lo = l_True ∧ b = true ∧ act = .keep ∧ c1 = c ∧ Same s t ∧
           t.qhead = s.qhead) ∨
        (s.value lo ≠ l_True ∧ ∃ k,
           findNewWatch s.assigns cl.lits d.lit0 d.lit1 (cl.size % 65536) 0 = some k ∧
           b = true ∧ act = .relocate (cl.lits.getD k lit_Undef).neg (.clause off lo wn) ∧
           c1 = c ∧ Reloc s t cl.num wn k) ∨
        (findNewWatch s.assigns cl.lits d.lit0 d.lit1 (cl.size % 65536) 0 = none ∧
           s.value lo = l_False ∧ b = false ∧ act = .keep ∧ c1 = .clause off (!wn) ∧
           Same s t ∧ t.qhead = s.trail.length) ∨
        (findNewWatch s.assigns cl.lits d.lit0 d.lit1 (cl.size % 65536) 0 = none ∧
           s.value lo = l_Undef ∧ b = true ∧ act = .keep ∧ c1 = c ∧
           Enq s t lo (.clause off (!wn))))) := by
  unfold Solver.propNormalCore at h
  simp only [Solver.setData] at h
  split at h
  · rename_i h1
    injection h with h
    injection h with hb h
    injection h with ha h
    injection h with hc ht
    subst hb ha hc ht
    exact ⟨rfl, Or.inl ⟨h1, rfl, rfl, rfl, rfl⟩⟩
  · rename_i h1
    split at h
    · cases h
    · rename_i cl hcl
      split at h
      · cases h
      · rename_i d hd
        split at h
        · rename_i lw lo hlw hlo
          split at h
          · cases h
          · rename_i hlwp
            have hlwp2 : lw = p.neg := by
              by_contra hne; exact hlwp hne
            subst hlwp2
            split at h
            · rename_i h2
              injection h with h
              injection h with hb h
              injection h with ha h
              injection h with hc ht
              subst hb ha hc ht
              exact ⟨rfl, Or.inr ⟨cl, d, lo, hcl, hd, hlw, hlo, h1, Or.inl
                ⟨h2, rfl, rfl, rfl, ⟨rfl, rfl, rfl, rfl, rfl, rfl, fun _ => rfl⟩, rfl⟩⟩⟩
            · rename_i h2
              split at h
              · rename_i k hk
                injection h with h
                injection h with hb h
                injection h with ha h
                injection h with hc ht
                subst hb ha hc ht
                refine ⟨rfl, Or.inr ⟨cl, d, lo, hcl, hd, hlw, hlo, h1, Or.inr (Or.inl
                  ⟨h2, k, hk, rfl, rfl, rfl, rfl, rfl, rfl, rfl, rfl, rfl, ?_, ?_, ?_⟩)⟩⟩
                · simp
                · simp only [Solver.watchPos, List.set_set]
                  have hlt : cl.num < s.clauseData.length := by
                    by_contra hn
                    have hd2 := hd
                    simp only at hd2
                    rw [List.getElem?_eq_none (by omega)] at hd2
                    cases hd2
                  have hd2 : s.clauseData[cl.num]? = some d := hd
                  rw [List.getElem?_set]
                  simp only [if_true, hlt, hd2, Option.map_some']
                · intro n hn
                  simp only [Solver.watchPos, List.set_set]
                  rw [List.getElem?_set, if_neg (Ne.symm hn)]
              · rename_i hk
                split at h
                · rename_i h3
                  injection h with h
                  injection h with hb h
                  injection h with ha h
                  injection h with hc ht
                  subst hb ha hc ht
                  refine ⟨rfl, Or.inr ⟨cl, d, lo, hcl, hd, hlw, hlo, h1, Or.inr (Or.inr (Or.inl
                    ⟨hk, h3, rfl, rfl, rfl, ⟨rfl, rfl, rfl, rfl, rfl, ?_, ?_⟩, rfl⟩))⟩⟩
                  · simp
                  · intro n
                    exact watchPos_set_same hd (by rfl) (by rfl) n
                · rename_i h3
                  split at h
                  · cases h
                  · rename_i s4 hs4
                    injection h with h
                    injection h with hb h
                    injection h with ha h
                    injection h with hc ht
                    subst hb ha hc ht
                    have hund : s.value lo = l_Undef := by
                      have h2b : ¬ s.value lo = l_True := h2
                      have h3b : ¬ s.value lo = l_False := h3
                      cases hv : s.value lo
                      · exact absurd hv h2b
                      · exact absurd hv h3b
                      · rfl
                    obtain ⟨he, hw⟩ := enqueue_inv hs4
                    refine ⟨?_, Or.inr ⟨cl, d, lo, hcl, hd, hlw, hlo, h1, Or.inr (Or.inr (Or.inr
                      ⟨hk, hund, rfl, rfl, rfl, ?_⟩))⟩⟩
                    · rw [hw]; cases cl.learnt <;> rfl
                    · obtain ⟨e1, e2, e3, e4, e5, e6, e7, e8, e9, e10⟩ := he
                      cases hl : cl.learnt <;> simp only [hl, Bool.false_eq_true, if_false,
                        if_true] at e1 e2 e3 e4 e5 e6 e7 e8 e9 e10 ⊢
                      · refine ⟨e1, e2, e3, e4, e5, e6, e7, e8, ?_, ?_⟩
                        · rw [e9]; simp
                        · intro n; rw [e10 n]; exact watchPos_set_same hd (by rfl) (by rfl) n
                      · refine ⟨e1, e2, e3, e4, e5, e6, e7, e8, ?_, ?_⟩
                        · rw [e9]; simp
                        · intro n; rw [e10 n]; exact watchPos_set_same hd (by rfl) (by rfl) n
        · cases h

/-! ## The in-place scan and its functional view -/

theorem getD_set_self {α : Type} (W : List α) (P : Nat) (x d : α) (h : P < W.length) :
    (W.set P x).getD P d = x := by
  simp [List.getD_eq_getElem?_getD, List.getElem?_set, h]

theorem getD_set_ne {α : Type} (W : List α) (P L : Nat) (x d : α) (h : P ≠ L) :
    (W.set P x).getD L d = W.getD L d := by
  simp [List.getD_eq_getElem?_getD, List.getElem?_set, h]

theorem take_drop_write (ws : List Watched) (i j : Nat) (w : Watched)
    (hi : ws[i]? = some w) (hji : j ≤ i) :
    (ws.set j w).take (j + 1) ++ (ws.set j w).drop (i + 1) = ws.take j ++ ws.drop i := by
  have hlt : i < ws.length := by
    by_contra hn
    rw [List.getElem?_eq_none (by omega)] at hi
    cases hi
  have h1 : (ws.set j w).take (j + 1) = ws.take j ++ [w] := by
    rw [List.set_eq_take_append_cons_drop, if_pos (by omega)]
    rw [List.take_append_eq_append_take]
    simp [List.length_take, Nat.min_eq_left (by omega : j ≤ ws.length)]
  have h2 : (ws.set j w).drop (i + 1) = ws.drop (i + 1) := by
    rw [List.drop_set, if_pos (by omega)]
  have h3 : ws.drop i = w :: ws.drop (i + 1) := by
    rw [List.drop_eq_getElem_cons hlt]
    congr 1
    rw [List.getElem?_eq_getElem hlt] at hi
    injection hi
  rw [h1, h2, h3]
  simp

theorem eraseIdx_take_drop (ws : List Watched) (i j : Nat) (hi : i < ws.length) (hji : j ≤ i) :
    (ws.take j ++ ws.drop i).eraseIdx j = ws.take j ++ ws.drop (i + 1) := by
  rw [List.eraseIdx_append_of_length_le (by simp)]
  simp only [List.length_take, Nat.min_eq_left (by omega : j ≤ ws.length), Nat.sub_self]
  rw [List.drop_eq_getElem_cons hi]
  simp

theorem virtW_write (W : List (List Watched)) (p : Lit) (i j : Nat) (w : Watched)
    (hP : p.toInt < W.length) (hi : (W.getD p.toInt [])[i]? = some w) (hji : j ≤ i) :
    virtW (W.set p.toInt ((W.getD p.toInt []).set j w)) p (i + 1) (j + 1) = virtW W p i j := by
  unfold virtW
  rw [getD_set_self _ _ _ _ hP, List.set_set, take_drop_write _ _ _ _ hi hji]

theorem virtW_length (W : List (List Watched)) (p : Lit) (i j : Nat) :
    (virtW W p i j).length = W.length := by
  simp [virtW]

theorem virtW_getD_self (W : List (List Watched)) (p : Lit) (i j : Nat)
    (hP : p.toInt < W.length) :
    (virtW W p i j).getD p.toInt [] =
      (W.getD p.toInt []).take j ++ (W.getD p.toInt []).drop i := by
  unfold virtW
  rw [getD_set_self _ _ _ _ hP]

theorem virtW_getD_ne (W : List (List Watched)) (p l : Lit) (i j : Nat) (h : l ≠ p) :
    (virtW W p i j).getD l.toInt [] = W.getD l.toInt [] := by
  unfold virtW
  rw [getD_set_ne]
  exact fun e => h (Lit.toInt_inj.mp e.symm)

theorem virtW_erase (W : List (List Watched)) (p : Lit) (i j : Nat)
    (hP : p.toInt < W.length) (hi : i < (W.getD p.toInt []).length) (hji : j ≤ i) :
    (virtW W p i j).set p.toInt (((virtW W p i j).getD p.toInt []).eraseIdx j)
      = virtW W p (i + 1) j := by
  rw [virtW_getD_self _ _ _ _ hP, eraseIdx_take_drop _ _ _ hi hji]
  unfold virtW
  rw [List.set_set]

theorem virtW_push (W : List (List Watched)) (p l : Lit) (i j : Nat) (w : Watched)
    (h : l ≠ p) :
    virtW (W.set l.toInt (W.getD l.toInt [] ++ [w])) p i j
      = (virtW W p i j).set l.toInt ((virtW W p i j).getD l.toInt [] ++ [w]) := by
  have hne : l.toInt ≠ p.toInt := fun e => h (Lit.toInt_inj.mp e)
  rw [virtW_getD_ne _ _ _ _ _ h]
  unfold virtW
  rw [getD_set_ne _ _ _ _ _ hne, List.set_comm _ _ _ hne]

theorem virtW_zero (W : List (List Watched)) (p : Lit) : virtW W p 0 0 = W := by
  unfold virtW
  simp only [List.take_zero, List.drop_zero, List.nil_append]
  by_cases hP : p.toInt < W.length
  · apply List.ext_getElem?
    intro n
    rw [List.getElem?_set]
    by_cases hn : p.toInt = n
    · subst hn; simp [hP, List.getD_eq_getElem?_getD, List.getElem?_eq_getElem hP]
    · simp [hn]
  · rw [List.set_eq_take_append_cons_drop, if_neg hP]

theorem valueOf_set (a : List lbool) (l x : Lit) (h : l.var < a.length) :
    valueOf (a.set l.var (boolToLBool (!l.sign))) x
      = if x.var = l.var then (if x = l then l_True else l_False) else valueOf a x := by
  unfold valueOf
  rw [List.getD_eq_getElem?_getD, List.getElem?_set]
  by_cases e : x.var = l.var
  · rw [if_pos e.symm, if_pos h, if_pos e]
    cases x with | mk xv xs =>
    cases l with | mk lv ls =>
    simp only at e
    subst e
    cases xs <;> cases ls <;> simp [boolToLBool, lbool.xor]
  · have e2 : ¬ l.var = x.var := fun h => e h.symm
    simp [e, e2, List.getD_eq_getElem?_getD]

theorem Enq.value_other {s t : Solver} {l : Lit} {r : PropBy} (h : Enq s t l r) (x : Lit) :
    t.value x = if x.var = l.var then (if x = l then l_True else l_False) else s.value x := by
  unfold Solver.value
  rw [h.2.2.1, valueOf_set _ _ _ h.1]

theorem Enq.value_self {s t : Solver} {l : Lit} {r : PropBy} (h : Enq s t l r) :
    t.value l = l_True := by
  rw [h.value_other]; simp

/-- An enqueue of an unassigned literal keeps every assigned value. -/
theorem Enq.value_of_assigned {s t : Solver} {l : Lit} {r : PropBy} (h : Enq s t l r)
    (hl : s.value l = l_Undef) {x : Lit} (hx : s.value x ≠ l_Undef) : t.value x = s.value x := by
  rw [h.value_other]
  have hne : x.var ≠ l.var := by
    intro e
    apply hx
    cases x with | mk xv xs =>
    cases l with | mk lv ls =>
    simp only at e
    subst e
    unfold Solver.value valueOf at hl ⊢
    simp only at hl ⊢
    cases hg : s.assigns.getD xv l_Undef <;> rw [hg] at hl <;>
      cases xs <;> cases ls <;> simp_all [lbool.xor]
  simp [hne]

theorem writeWs_eq (s : Solver) (p : Lit) (j : Nat) (w : Watched) :
    s.writeWs p j w
      = { s with watches := s.watches.set p.toInt ((s.watches.getD p.toInt []).set j w) } := rfl

theorem virt_eq (s : Solver) (p : Lit) (i j : Nat) :
    s.virt p i j = { s with watches := virtW s.watches p i j } := rfl

theorem ws_withW (t : Solver) (W : List (List Watched)) (p : Lit) :
    ({ t with watches := W } : Solver).ws p = W.getD p.toInt [] := rfl

/-- Simulation of one kept entry, for an arm that does not depend on the
watchlists. -/
theorem sim_param (f : Solver → Except Fault (Bool × PropBy × Solver))
    (hparam : ∀ (s : Solver) (W : List (List Watched)),
      f { s with watches := W } = (f s).map (fun r => (r.1, r.2.1, { r.2.2 with watches := W })))
    (hw : ∀ s b c t, f s = .ok (b, c, t) → t.watches = s.watches)
    (sc : Solver) (p : Lit) (i j : Nat) (w : Watched)
    (hP : p.toInt < sc.watches.length) (hi : (sc.ws p)[i]? = some w) (hji : j ≤ i) :
    match f (sc.writeWs p j w) with
    | .error e => f (sc.virt p i j) = .error e
    | .ok (b, c1, sc1) =>
      f (sc.virt p i j) = .ok (b, c1, sc1.virt p (i + 1) (j + 1)) ∧
      (sc1.ws p).length = (sc.ws p).length ∧ sc1.watches.length = sc.watches.length ∧
      ∃ t, f sc = .ok (b, c1, t) ∧ sc1 = { t with watches := (sc.writeWs p j w).watches } := by
  have e1 := hparam sc (sc.watches.set p.toInt ((sc.watches.getD p.toInt []).set j w))
  have e2 := hparam sc (virtW sc.watches p i j)
  rw [writeWs_eq, virt_eq, e1, e2]
  cases hA : f sc with
  | error e => simp [Except.map]
  | ok r =>
    obtain ⟨b, c1, t⟩ := r
    simp only [Except.map]
    refine ⟨?_, ?_, ?_, t, rfl, rfl⟩
    · rw [virt_eq]
      simp only
      rw [virtW_write _ _ _ _ _ hP hi hji]
    · rw [ws_withW, getD_set_self _ _ _ _ hP]
      simp [Solver.ws]
    · simp

theorem sim_bin (sc : Solver) (p : Lit) (i j : Nat) (o : Lit) (lr : Bool) (confl : PropBy)
    (hP : p.toInt < sc.watches.length) (hi : (sc.ws p)[i]? = some (.binary o lr))
    (hji : j ≤ i) (hv : sc.value p = l_True) :
    match sc.propagateWatch p j (.binary o lr) confl with
    | .error e => (sc.virt p i j).absStep p j (.binary o lr) confl = .error e
    | .ok (b, j1, c1, sc1) =>
      (sc.virt p i j).absStep p j (.binary o lr) confl = .ok (b, j1, c1, sc1.virt p (i + 1) j1) ∧
      (sc1.ws p).length = (sc.ws p).length ∧ sc1.watches.length = sc.watches.length ∧
      j1 ≤ i + 1 ∧ sc1.value p = l_True := by
  have h := sim_param (fun s => s.propBinaryClause o p confl)
    (fun s W => propBinaryClause_withW s W o p confl)
    (fun s b c t h => (propBinaryClause_inv h).1) sc p i j _ hP hi hji
  simp only [Solver.propagateWatch, Solver.absStep]
  simp only at h
  cases hA : (sc.writeWs p j (.binary o lr)).propBinaryClause o p confl with
  | error e =>
    rw [hA] at h
    simp only at h ⊢
    rw [h]
  | ok r =>
    obtain ⟨b, c1, sc1⟩ := r
    rw [hA] at h
    simp only at h ⊢
    obtain ⟨h1, h2, h3, t, ht, hsc1⟩ := h
    rw [h1]
    refine ⟨rfl, h2, h3, by omega, ?_⟩
    have hvt : t.value p = l_True := by
      obtain ⟨-, hc⟩ := propBinaryClause_inv ht
      rcases hc with ⟨hu, -, -, he⟩ | ⟨-, -, -, hs, -⟩ | ⟨-, -, -, rfl⟩
      · rw [he.value_of_assigned hu (by rw [hv]; simp), hv]
      · rw [hs.value_eq, hv]
      · exact hv
    rw [hsc1]
    exact hvt

theorem sim_tri (sc : Solver) (p : Lit) (i j : Nat) (a a2 : Lit) (confl : PropBy)
    (hP : p.toInt < sc.watches.length) (hi : (sc.ws p)[i]? = some (.tri a a2))
    (hji : j ≤ i) (hv : sc.value p = l_True) :
    match sc.propagateWatch p j (.tri a a2) confl with
    | .error e => (sc.virt p i j).absStep p j (.tri a a2) confl = .error e
    | .ok (b, j1, c1, sc1) =>
      (sc.virt p i j).absStep p j (.tri a a2) confl = .ok (b, j1, c1, sc1.virt p (i + 1) j1) ∧
      (sc1.ws p).length = (sc.ws p).length ∧ sc1.watches.length = sc.watches.length ∧
      j1 ≤ i + 1 ∧ sc1.value p = l_True := by
  have h := sim_param (fun s => s.propTriClause a a2 p confl)
    (fun s W => propTriClause_withW s W a a2 p confl)
    (fun s b c t h => (propTriClause_inv h).1) sc p i j _ hP hi hji
  simp only [Solver.propagateWatch, Solver.absStep]
  simp only at h
  cases hA : (sc.writeWs p j (.tri a a2)).propTriClause a a2 p confl with
  | error e =>
    rw [hA] at h
    simp only at h ⊢
    rw [h]
  | ok r =>
    obtain ⟨b, c1, sc1⟩ := r
    rw [hA] at h
    simp only at h ⊢
    obtain ⟨h1, h2, h3, t, ht, hsc1⟩ := h
    rw [h1]
    refine ⟨rfl, h2, h3, by omega, ?_⟩
    have hvt : t.value p = l_True := by
      obtain ⟨-, hc⟩ := propTriClause_inv ht
      rcases hc with ⟨hu, -, -, -, he⟩ | ⟨-, hu, -, -, he⟩ | ⟨-, -, -, -, hs, -⟩ | ⟨-, -, -, rfl⟩
      · rw [he.value_of_assigned hu (by rw [hv]; simp), hv]
      · rw [he.value_of_assigned hu (by rw [hv]; simp), hv]
      · rw [hs.value_eq, hv]
      · exact hv
    rw [hsc1]
    exact hvt

theorem findNewWatch_some {a : List lbool} {lits : List Lit} {d0 d1 : Nat} :
    ∀ {n start k : Nat}, findNewWatch a lits d0 d1 n start = some k →
      start ≤ k ∧ k < start + n ∧ k ≠ d0 ∧ k ≠ d1 ∧
      valueOf a (lits.getD k lit_Undef) ≠ l_False ∧
      ∀ m, start ≤ m → m < k → m = d0 ∨ m = d1 ∨ valueOf a (lits.getD m lit_Undef) = l_False := by
  intro n
  induction n with
  | zero => intro start k h; simp [findNewWatch] at h
  | succ n ih =>
    intro start k h
    unfold findNewWatch at h
    split_ifs at h with h1 h2
    · obtain ⟨a1, a2, a3, a4, a5, a6⟩ := ih h
      refine ⟨by omega, by omega, a3, a4, a5, ?_⟩
      intro m hm hmk
      by_cases e : m = start
      · subst e
        rcases h1 with h1 | h1
        · exact Or.inl h1
        · exact Or.inr (Or.inl h1)
      · exact a6 m (by omega) hmk
    · injection h with h
      subst h
      refine ⟨le_refl _, by omega, fun e => h1 (Or.inl e), fun e => h1 (Or.inr e), h2, ?_⟩
      intro m hm hmk
      omega
    · obtain ⟨a1, a2, a3, a4, a5, a6⟩ := ih h
      refine ⟨by omega, by omega, a3, a4, a5, ?_⟩
      intro m hm hmk
      by_cases e : m = start
      · subst e
        right; right
        by_contra hne
        exact h2 hne
      · exact a6 m (by omega) hmk

theorem findNewWatch_none {a : List lbool} {lits : List Lit} {d0 d1 : Nat} :
    ∀ {n start : Nat}, findNewWatch a lits d0 d1 n start = none →
      ∀ m, start ≤ m → m < start + n →
        m = d0 ∨ m = d1 ∨ valueOf a (lits.getD m lit_Undef) = l_False := by
  intro n
  induction n with
  | zero => intro start _ m h1 h2; omega
  | succ n ih =>
    intro start h m hm1 hm2
    unfold findNewWatch at h
    split_ifs at h with h1 h2
    · by_cases e : m = start
      · subst e
        rcases h1 with h1 | h1
        · exact Or.inl h1
        · exact Or.inr (Or.inl h1)
      · exact ih h m (by omega) (by omega)
    · by_cases e : m = start
      · subst e
        right; right
        by_contra hne
        exact h2 hne
      · exact ih h m (by omega) (by omega)

/-- The core never changes the value of an assigned literal. -/
theorem propNormalCore_value {s t : Solver} {off : Nat} {blk p : Lit} {wn : Bool}
    {c c1 : PropBy} {b : Bool} {act : LongAct}
    (h : s.propNormalCore off blk wn p c = .ok (b, act, c1, t)) {x : Lit}
    (hx : s.value x ≠ l_Undef) : t.value x = s.value x := by
  obtain ⟨-, hc⟩ := propNormalCore_inv h
  rcases hc with ⟨-, -, -, -, rfl⟩ | ⟨cl, d, lo, -, -, -, -, -, hc⟩
  · rfl
  · rcases hc with ⟨-, -, -, -, hs, -⟩ | ⟨-, k, -, -, -, -, hr⟩ | ⟨-, -, -, -, -, hs, -⟩ |
      ⟨-, hu, -, -, -, he⟩
    · exact hs.value_eq x
    · exact Solver.value_congr hr.1 x
    · exact hs.value_eq x
    · exact he.value_of_assigned hu hx

/-- A relocated watcher never goes to the list of a True literal. -/
theorem propNormalCore_relocate_ne {s t : Solver} {off : Nat} {blk p l : Lit} {wn : Bool}
    {c c1 : PropBy} {b : Bool} {w1 : Watched}
    (h : s.propNormalCore off blk wn p c = .ok (b, .relocate l w1, c1, t))
    {q : Lit} (hq : s.value q = l_True) : l ≠ q := by
  obtain ⟨-, hc⟩ := propNormalCore_inv h
  rcases hc with ⟨-, -, ha, -⟩ | ⟨cl, d, lo, -, -, -, -, -, hc⟩
  · cases ha
  · rcases hc with ⟨-, -, ha, -⟩ | ⟨-, k, hk, -, ha, -, -⟩ | ⟨-, -, -, ha, -⟩ | ⟨-, -, -, ha, -⟩
    · cases ha
    · injection ha with hl hw
      obtain ⟨-, -, -, -, hval, -⟩ := findNewWatch_some hk
      intro e
      apply hval
      have : (cl.lits.getD k lit_Undef) = q.neg := by
        rw [← Lit.neg_eq_iff, ← hl, e]
      rw [this]
      exact Solver.value_neg_false.mpr hq
    · cases ha
    · cases ha

theorem sim_long (sc : Solver) (p : Lit) (i j : Nat) (off : Nat) (blk : Lit) (wn : Bool)
    (confl : PropBy)
    (hP : p.toInt < sc.watches.length) (hi : (sc.ws p)[i]? = some (.clause off blk wn))
    (hji : j ≤ i) (hv : sc.value p = l_True) :
    match sc.propagateWatch p j (.clause off blk wn) confl with
    | .error e => (sc.virt p i j).absStep p j (.clause off blk wn) confl = .error e
    | .ok (b, j1, c1, sc1) =>
      (sc.virt p i j).absStep p j (.clause off blk wn) confl
        = .ok (b, j1, c1, sc1.virt p (i + 1) j1) ∧
      (sc1.ws p).length = (sc.ws p).length ∧ sc1.watches.length = sc.watches.length ∧
      j1 ≤ i + 1 ∧ sc1.value p = l_True := by
  have hilt : i < (sc.watches.getD p.toInt []).length := by
    by_contra hn
    unfold Solver.ws at hi
    rw [List.getElem?_eq_none (by omega)] at hi
    cases hi
  simp only [Solver.propagateWatch, Solver.absStep]
  have e2 := propNormalCore_withW sc (virtW sc.watches p i j) off blk wn p confl
  rw [propNormalClause_eq_core, virt_eq, e2]
  cases hA : sc.propNormalCore off blk wn p confl with
  | error e => simp [Except.map]
  | ok r =>
    obtain ⟨b, act, c1, t⟩ := r
    have hw : t.watches = sc.watches := (propNormalCore_inv hA).1
    have hvt : t.value p = l_True := by
      rw [propNormalCore_value hA (by rw [hv]; simp), hv]
    cases act with
    | keep =>
      simp only [Except.map]
      refine ⟨?_, ?_, ?_, by omega, ?_⟩
      · rw [virt_eq, writeWs_eq]
        simp only [hw]
        rw [virtW_write _ _ _ _ _ hP hi hji]
      · rw [writeWs_eq, ws_withW, hw, getD_set_self _ _ _ _ hP]
        simp [Solver.ws]
      · rw [writeWs_eq]; simp [hw]
      · exact hvt
    | relocate l w1 =>
      have hne : l ≠ p := propNormalCore_relocate_ne hA hv
      simp only [Except.map, Solver.pushWs, Solver.setWs, Solver.ws, hw, List.length_set,
        virtW_length]
      by_cases hl : l.toInt < sc.watches.length
      · simp only [hl, if_true]
        refine ⟨?_, ?_, ?_, by omega, ?_⟩
        · rw [virt_eq]
          simp only
          rw [virtW_push _ _ _ _ _ _ hne, virtW_erase _ _ _ _ hP hilt hji]
        · rw [getD_set_ne]
          exact fun e => hne (Lit.toInt_inj.mp e)
        · simp
        · exact hvt
      · simp only [hl, if_false]

/-- One step of the in-place loop is one step of the functional scan on the
state seen through the cursors. -/
theorem sim_step (sc : Solver) (p : Lit) (i j : Nat) (w : Watched) (confl : PropBy)
    (hP : p.toInt < sc.watches.length) (hi : (sc.ws p)[i]? = some w)
    (hji : j ≤ i) (hv : sc.value p = l_True) :
    match sc.propagateWatch p j w confl with
    | .error e => (sc.virt p i j).absStep p j w confl = .error e
    | .ok (b, j1, c1, sc1) =>
      (sc.virt p i j).absStep p j w confl = .ok (b, j1, c1, sc1.virt p (i + 1) j1) ∧
      (sc1.ws p).length = (sc.ws p).length ∧ sc1.watches.length = sc.watches.length ∧
      j1 ≤ i + 1 ∧ sc1.value p = l_True := by
  cases w with
  | binary o lr => exact sim_bin sc p i j o lr confl hP hi hji hv
  | tri a a2 => exact sim_tri sc p i j a a2 confl hP hi hji hv
  | clause off blk wn => exact sim_long sc p i j off blk wn confl hP hi hji hv

theorem virt_writeWs (s : Solver) (p : Lit) (i j : Nat) (w : Watched)
    (hP : p.toInt < s.watches.length) (hi : (s.ws p)[i]? = some w) (hji : j ≤ i) :
    (s.writeWs p j w).virt p (i + 1) (j + 1) = s.virt p i j := by
  rw [virt_eq, virt_eq, writeWs_eq]
  simp only
  rw [virtW_write _ _ _ _ _ hP hi hji]

theorem writeWs_ws_length (s : Solver) (p : Lit) (j : Nat) (w : Watched) :
    ((s.writeWs p j w).ws p).length = (s.ws p).length := by
  by_cases hP : p.toInt < s.watches.length
  · rw [writeWs_eq, ws_withW, getD_set_self _ _ _ _ hP]
    simp [Solver.ws]
  · unfold Solver.writeWs
    rw [Solver.setWs_of_ge _ _ _ (by omega)]

theorem copyRest_spec (p : Lit) :
    ∀ (n i j : Nat) (s : Solver), p.toInt < s.watches.length →
      i + n = (s.ws p).length → j ≤ i →
      (Solver.copyRest p n i j s).1 = j + n ∧
      (Solver.copyRest p n i j s).2.virt p (i + n) (j + n) = s.virt p i j ∧
      ((Solver.copyRest p n i j s).2.ws p).length = (s.ws p).length ∧
      (Solver.copyRest p n i j s).2.watches.length = s.watches.length := by
  intro n
  induction n with
  | zero => intro i j s _ _ _; simp [Solver.copyRest]
  | succ n ih =>
    intro i j s hP hlen hji
    have hlt : i < (s.ws p).length := by omega
    have hi : (s.ws p)[i]? = some ((s.ws p)[i]) := List.getElem?_eq_getElem hlt
    unfold Solver.copyRest
    rw [hi]
    simp only
    have hP2 : p.toInt < (s.writeWs p j (s.ws p)[i]).watches.length := by
      rw [writeWs_eq]; simpa using hP
    obtain ⟨a1, a2, a3, a4⟩ := ih (i + 1) (j + 1) (s.writeWs p j (s.ws p)[i]) hP2
      (by rw [writeWs_ws_length]; omega) (by omega)
    refine ⟨by omega, ?_, ?_, ?_⟩
    · have e1 : i + (n + 1) = i + 1 + n := by omega
      have e2 : j + (n + 1) = j + 1 + n := by omega
      rw [e1, e2, a2, virt_writeWs _ _ _ _ _ hP hi hji]
    · rw [a3, writeWs_ws_length]
    · rw [a4, writeWs_eq]; simp

/-- After the loop, copying the rest and shrinking yields the state seen through
the cursors. -/
theorem finish_eq_virt (s : Solver) (p : Lit) (i j : Nat) (hP : p.toInt < s.watches.length)
    (hji : j ≤ i) (hlen : i ≤ (s.ws p).length) :
    (Solver.copyRest p ((s.ws p).length - i) i j s).2.shrinkWs p
        ((s.ws p).length - (Solver.copyRest p ((s.ws p).length - i) i j s).1)
      = s.virt p i j := by
  obtain ⟨a1, a2, a3, a4⟩ := copyRest_spec p ((s.ws p).length - i) i j s hP (by omega) hji
  rw [← a2, a1]
  generalize (Solver.copyRest p ((s.ws p).length - i) i j s).2 = t at a3 a4 ⊢
  generalize hL : (s.ws p).length = L at a3 hlen ⊢
  unfold Solver.shrinkWs
  rw [virt_eq]
  have e1 : (t.ws p).length - (L - (j + (L - i))) = j + (L - i) := by omega
  have e2 : List.drop (i + (L - i)) (t.ws p) = [] := by
    apply List.drop_eq_nil_of_le; omega
  rw [e1]
  unfold Solver.setWs virtW
  have e3 : t.watches.getD p.toInt [] = t.ws p := rfl
  rw [e3, e2, List.append_nil]

theorem virt_ws_get (s : Solver) (p : Lit) (i j : Nat) (hP : p.toInt < s.watches.length)
    (hji : j ≤ i) (hlen : i ≤ (s.ws p).length) : ((s.virt p i j).ws p)[j]? = (s.ws p)[i]? := by
  rw [virt_eq, ws_withW, virtW_getD_self _ _ _ _ hP]
  have hl : (List.take j (s.watches.getD p.toInt [])).length = j := by
    rw [List.length_take]; exact Nat.min_eq_left (by unfold Solver.ws at hlen; omega)
  rw [List.getElem?_append_right (by omega), hl]
  simp [Solver.ws]

/-- The in-place loop computes the functional scan. -/
theorem propagateWatches_sim (p : Lit) :
    ∀ (n i j : Nat) (sc : Solver) (confl : PropBy), p.toInt < sc.watches.length →
      (sc.ws p).length = i + n → j ≤ i → sc.value p = l_True →
      match Solver.propagateWatches p n i j sc confl with
      | .error e => Solver.absScan p n j (sc.virt p i j) confl = .error e
      | .ok (i1, j1, c1, sc1) =>
        Solver.absScan p n j (sc.virt p i j) confl = .ok (c1, sc1.virt p i1 j1) ∧
        j1 ≤ i1 ∧ i1 ≤ (sc1.ws p).length ∧ (sc1.ws p).length = i + n ∧
        p.toInt < sc1.watches.length := by
  intro n
  induction n with
  | zero =>
    intro i j sc confl hP hlen hji hv
    simp only [Solver.propagateWatches, Solver.absScan]
    exact ⟨trivial, hji, by omega, hlen, hP⟩
  | succ n ih =>
    intro i j sc confl hP hlen hji hv
    have hlt : i < (sc.ws p).length := by omega
    have hi : (sc.ws p)[i]? = some ((sc.ws p)[i]) := List.getElem?_eq_getElem hlt
    have hstep := sim_step sc p i j _ confl hP hi hji hv
    unfold Solver.propagateWatches Solver.absScan
    rw [virt_ws_get _ _ _ _ hP hji (by omega), hi]
    simp only
    cases hA : sc.propagateWatch p j (sc.ws p)[i] confl with
    | error e =>
      rw [hA] at hstep
      simp only at hstep ⊢
      rw [hstep]
    | ok r =>
      obtain ⟨b, j1, c1, sc1⟩ := r
      rw [hA] at hstep
      simp only at hstep
      obtain ⟨h1, h2, h3, h4, h5⟩ := hstep
      rw [h1]
      cases b with
      | true =>
        simp only
        have := ih (i + 1) j1 sc1 c1 (by omega) (by omega) h4 h5
        have e : i + 1 + n = i + (n + 1) := by omega
        rw [e] at this
        exact this
      | false =>
        simp only
        exact ⟨trivial, h4, by omega, by omega, by omega⟩

/-- The scan of one watchlist, the copy of the rest and the shrink compute the
functional scan, when the literal is True. -/
theorem scan_finish_eq (p : Lit) (s1 : Solver) (confl : PropBy)
    (hP : p.toInt < s1.watches.length) (hv : s1.value p = l_True) :
    (match Solver.propagateWatches p (s1.ws p).length 0 0 s1 confl with
      | .error e => .error e
      | .ok (i, j, c1, s2) =>
        .ok (c1, (Solver.copyRest p ((s1.ws p).length - i) i j s2).2.shrinkWs p
          ((s1.ws p).length - (Solver.copyRest p ((s1.ws p).length - i) i j s2).1)))
      = Solver.absScan p (s1.ws p).length 0 s1 confl := by
  have hsim := propagateWatches_sim p (s1.ws p).length 0 0 s1 confl hP (by simp)
    (le_refl _) hv
  have hz : s1.virt p 0 0 = s1 := by
    rw [virt_eq, virtW_zero]
  rw [hz] at hsim
  cases hA : Solver.propagateWatches p (s1.ws p).length 0 0 s1 confl with
  | error e =>
    rw [hA] at hsim
    simp only at hsim ⊢
    rw [hsim]
  | ok r =>
    obtain ⟨i1, j1, c1, sc1⟩ := r
    rw [hA] at hsim
    simp only at hsim ⊢
    obtain ⟨h1, h2, h3, h4, h5⟩ := hsim
    rw [h1]
    have hf := finish_eq_virt sc1 p i1 j1 h5 h2 h3
    simp only [Nat.zero_add] at h4
    rw [h4] at hf
    rw [hf]

/-- The body of the `while` loop of `propagate` computes the functional scan,
when the dequeued literal is True. -/
theorem propagateLit_eq_absLit (s : Solver) (confl : PropBy)
    (hv : ∀ p, s.trail[s.qhead]? = some p → s.value p = l_True) :
    s.propagateLit confl = s.absLit confl := by
  unfold Solver.propagateLit Solver.absLit
  cases hp : s.trail[s.qhead]? with
  | none => rfl
  | some p =>
    simp only
    by_cases hP : p.toInt < s.watches.length
    · rw [if_pos hP, if_pos hP]
      exact scan_finish_eq p
        ({ s with qhead := s.qhead + 1, bogoProps := s.bogoProps + ((s.ws p).length / 4 + 1) } :
          Solver) confl hP (hv p hp)
    · rw [if_neg hP, if_neg hP]

/-! ## newVar -/

theorem resizeList_length {α : Type} (l : List α) (n : Nat) (d : α) :
    (resizeList l n d).length = n := by
  unfold resizeList
  simp only [List.length_append, List.length_take, List.length_replicate]
  omega

theorem resizeList_add_two {α : Type} (l : List α) (d : α) :
    resizeList l (l.length + 2) d = l ++ [d, d] := by
  unfold resizeList
  rw [List.take_of_length_le (by omega)]
  have e : l.length + 2 - l.length = 2 := by omega
  rw [e]
  rfl

theorem resizeList_getElem?_old {α : Type} (l : List α) (n : Nat) (d : α) (i : Nat)
    (hi : i < n) (hl : i < l.length) : (resizeList l n d)[i]? = l[i]? := by
  unfold resizeList
  rw [List.getElem?_append_left (by simp; omega), List.getElem?_take_of_lt hi]

theorem resizeList_getElem?_new {α : Type} (l : List α) (n : Nat) (d : α) (i : Nat)
    (hi : i < n) (hl : l.length ≤ i) : (resizeList l n d)[i]? = some d := by
  unfold resizeList
  rw [List.take_of_length_le (by omega), List.getElem?_append_right hl]
  rw [List.getElem?_replicate]
  rw [if_pos (by omega)]

theorem newVar_eq (s : Solver) (h : s.nVars < 2 ^ 30) :
    s.newVar = .ok (s.nVars,
      { s with watches := resizeList s.watches (s.watches.length + 2) [],
               assigns := s.assigns ++ [l_Undef],
               varData := s.varData ++ [({} : VarData)],
               propData := resizeList s.propData (s.assigns.length + 1) {},
               seen := (s.seen ++ [0]) ++ [0],
               seen2 := (s.seen2 ++ [0]) ++ [0] }) := by
  have hn : ¬ (s.nVars ≥ 2 ^ 30) := by omega
  unfold Solver.newVar
  simp only [hn, if_false]
  simp [Solver.nVars]

/-- C11: from a state with `V < 2 ^ 30` variables `newVar` returns `V`; it
appends one `l_Undef` to `assigns`, one default `VarData` to `varData`, two empty
lists to `watches` and two zeros to each of `seen` and `seen2`, resizes `propData`
to one entry per variable (old entries below the new size keep their value, new
ones are default), and changes nothing else; so the sizes of `watches`, `seen`
and `seen2` stay at twice the number of variables. -/
theorem newVar_appends (s : Solver) (h : s.nVars < 2 ^ 30) :
    ∃ t, s.newVar = .ok (s.nVars, t) ∧ t.nVars = s.nVars + 1 ∧
      t.assigns = s.assigns ++ [l_Undef] ∧ t.varData = s.varData ++ [({} : VarData)] ∧
      t.watches = s.watches ++ [[], []] ∧
      t.seen = s.seen ++ [0, 0] ∧ t.seen2 = s.seen2 ++ [0, 0] ∧
      t.propData.length = t.nVars ∧
      (∀ i, i < t.nVars → i < s.propData.length → t.propData[i]? = s.propData[i]?) ∧
      (∀ i, i < t.nVars → s.propData.length ≤ i → t.propData[i]? = some ({} : PropData)) ∧
      (t.trail = s.trail ∧ t.trail_lim = s.trail_lim ∧ t.qhead = s.qhead ∧
        t.clauseData = s.clauseData ∧ t.arena = s.arena) ∧
      (s.watches.length = 2 * s.nVars → s.seen.length = 2 * s.nVars →
        s.seen2.length = 2 * s.nVars →
        t.watches.length = 2 * t.nVars ∧ t.seen.length = 2 * t.nVars ∧
          t.seen2.length = 2 * t.nVars) := by
  have hn : ¬ (s.nVars ≥ 2 ^ 30) := by omega
  refine ⟨_, newVar_eq s h, ?_, rfl, rfl, ?_, ?_, ?_,
    ?_, ?_, ?_, ⟨rfl, rfl, rfl, rfl, rfl⟩, ?_⟩
  · simp [Solver.nVars]
  · exact resizeList_add_two _ _
  · simp
  · simp
  · simp [Solver.nVars, resizeList_length]
  · intro i hi hl
    simp only [Solver.nVars, List.length_append, List.length_singleton] at hi
    exact resizeList_getElem?_old _ _ _ _ hi hl
  · intro i hi hl
    simp only [Solver.nVars, List.length_append, List.length_singleton] at hi
    exact resizeList_getElem?_new _ _ _ _ hi hl
  · intro h1 h2 h3
    simp only [resizeList_length, List.length_append, List.length_singleton, h2, h3,
      Solver.nVars] at h1 h2 h3 ⊢
    omega

theorem newVar_appends_witness :
    exTwoVars.nVars < 2 ^ 30 ∧
    ∃ t, exTwoVars.newVar = .ok (exTwoVars.nVars, t) ∧ t.nVars = exTwoVars.nVars + 1 ∧
      t.assigns = exTwoVars.assigns ++ [l_Undef] ∧ t.varData = exTwoVars.varData ++ [({} : VarData)] ∧
      t.watches = exTwoVars.watches ++ [[], []] ∧
      t.seen = exTwoVars.seen ++ [0, 0] ∧ t.seen2 = exTwoVars.seen2 ++ [0, 0] ∧
      t.propData.length = t.nVars ∧
      (∀ i, i < t.nVars → i < exTwoVars.propData.length →
        t.propData[i]? = exTwoVars.propData[i]?) ∧
      (∀ i, i < t.nVars → exTwoVars.propData.length ≤ i → t.propData[i]? = some ({} : PropData)) ∧
      (t.trail = exTwoVars.trail ∧ t.trail_lim = exTwoVars.trail_lim ∧
        t.qhead = exTwoVars.qhead ∧
        t.clauseData = exTwoVars.clauseData ∧ t.arena = exTwoVars.arena) ∧
      (exTwoVars.watches.length = 2 * exTwoVars.nVars →
        exTwoVars.seen.length = 2 * exTwoVars.nVars →
        exTwoVars.seen2.length = 2 * exTwoVars.nVars →
        t.watches.length = 2 * t.nVars ∧ t.seen.length = 2 * t.nVars ∧
          t.seen2.length = 2 * t.nVars) :=
  ⟨by decide, newVar_appends exTwoVars (by decide)⟩

/-- C12 (as amended): `newVar` exits exactly when the number of variables
before the call is at least `2 ^ 30`; for every smaller count, `2 ^ 30 - 1`
included, it returns the new variable and the count grows by one. -/
theorem newVar_exit_iff (s : Solver) :
    (s.newVar = .error .exit ↔ 2 ^ 30 ≤ s.nVars) ∧
    ((∃ t, s.newVar = .ok (s.nVars, t) ∧ t.nVars = s.nVars + 1) ↔ s.nVars < 2 ^ 30) := by
  by_cases h : s.nVars < 2 ^ 30
  · obtain ⟨t, ht, hn, -⟩ := newVar_appends s h
    refine ⟨⟨fun e => ?_, fun e => ?_⟩, ⟨fun _ => h, fun _ => ⟨t, ht, hn⟩⟩⟩
    · rw [ht] at e; cases e
    · omega
  · have hn : s.nVars ≥ 2 ^ 30 := by omega
    have e : s.newVar = .error .exit := by
      unfold Solver.newVar; simp only [hn, if_true]
    refine ⟨⟨fun _ => hn, fun _ => e⟩, ⟨fun ⟨t, ht, _⟩ => ?_, fun h' => absurd h' h⟩⟩
    rw [e] at ht; cases ht

/-- C12, counterexample: with `2 ^ 30 - 1` variables `newVar` does not exit; it
returns the variable `2 ^ 30 - 1`. -/
theorem newVar_below_limit_counterexample :
    exManyVars.nVars ≥ 2 ^ 30 - 1 ∧
    (exManyVars.newVar).map Prod.fst = .ok (2 ^ 30 - 1) := by
  have hn : exManyVars.nVars = 2 ^ 30 - 1 := by
    show (List.replicate (2 ^ 30 - 1) l_Undef).length = 2 ^ 30 - 1
    exact List.length_replicate _ _
  have hlt : exManyVars.nVars < 2 ^ 30 := by rw [hn]; norm_num
  refine ⟨by rw [hn], ?_⟩
  rw [newVar_eq exManyVars hlt, hn]
  rfl

/-! ## getUnitaries -/

theorem getUnitariesLoop_eq (trail : List Lit) (n i : Nat) (acc : List Lit)
    (h : i + n ≤ trail.length) :
    getUnitariesLoop trail n i acc = .ok (acc ++ (trail.drop i).take n) := by
  induction n generalizing i acc with
  | zero => simp [getUnitariesLoop]
  | succ n ih =>
    have hi : i < trail.length := by omega
    rw [getUnitariesLoop, List.getElem?_eq_getElem hi]
    simp only
    rw [ih (i + 1) _ (by omega)]
    rw [List.drop_eq_getElem_cons hi, List.take_succ_cons]
    simp

/-- C16 (as amended): at decision level 0 `getUnitaries` returns the empty
vector; at a decision level above 0, with the first decision at trail position
`trail_lim[0]` inside the trail, it returns exactly the trail literals before the
first decision, in trail order. -/
theorem getUnitaries_spec (s : Solver) :
    (s.decisionLevel = 0 → s.getUnitaries = .ok []) ∧
    (∀ lim, s.trail_lim[0]? = some lim → lim ≤ s.trail.length →
      0 < s.decisionLevel ∧ s.getUnitaries = .ok (s.trail.take lim)) := by
  constructor
  · intro h
    unfold Solver.getUnitaries
    rw [if_neg (by omega)]
  · intro lim hl hle
    have hd : 0 < s.decisionLevel := by
      unfold Solver.decisionLevel
      cases hs : s.trail_lim with
      | nil => rw [hs] at hl; simp at hl
      | cons a l => simp
    refine ⟨hd, ?_⟩
    unfold Solver.getUnitaries
    rw [if_pos hd, hl]
    simp only
    rw [getUnitariesLoop_eq _ _ _ _ (by omega)]
    simp

/-- C16, counterexample: at decision level 0 the literal `+0` is on the trail,
before any decision, and `getUnitaries` returns the empty vector. -/
theorem getUnitaries_level0_counterexample :
    exUnitLevel0.decisionLevel = 0 ∧ exUnitLevel0.trail = [posLit 0] ∧
    exUnitLevel0.value (posLit 0) = l_True ∧
    exUnitLevel0.getUnitaries = .ok [] := by
  decide

/-! ## set_up_input -/

theorem shortFeatures_length (cl : PredClause) (n : Nat) (a u p v : ℚ) :
    (shortFeatures cl n a u p v).length = 6 := rfl

theorem longFeatures_length (log2 : ℚ → ℚ) (cl : PredClause) (n : Nat) (v g : ℚ) :
    (longFeatures log2 cl n v g).length = 11 := rfl

theorem set_up_input_short (log2 : ℚ → ℚ) (cl : PredClause) (n : Nat) (a u p v g : ℚ)
    (h : cl.stats.orig_glue ≠ 1) :
    set_up_input log2 cl n a u p v g PRED_COLS_SHORT = .ok (shortFeatures cl n a u p v) := by
  unfold set_up_input
  rw [if_neg (by simpa using h), if_pos rfl, if_pos (by rfl)]

theorem set_up_input_full (log2 : ℚ → ℚ) (cl : PredClause) (n : Nat) (a u p v g : ℚ)
    (h : cl.stats.orig_glue ≠ 1) :
    set_up_input log2 cl n a u p v g PRED_COLS
      = .ok (shortFeatures cl n a u p v ++ longFeatures log2 cl n v g) := by
  unfold set_up_input
  rw [if_neg (by simpa using h), if_neg (by decide), if_pos (by rfl)]

theorem set_up_input_assert (log2 : ℚ → ℚ) (cl : PredClause) (n : Nat) (a u p v g : ℚ)
    (cols : Nat) (h : cl.stats.orig_glue = 1) :
    set_up_input log2 cl n a u p v g cols = .error .assertion := by
  unfold set_up_input
  rw [if_pos (by simpa using h)]

theorem set_up_input_other (log2 : ℚ → ℚ) (cl : PredClause) (n : Nat) (a u p v g : ℚ)
    (cols : Nat) (h1 : cols ≠ PRED_COLS_SHORT) (h2 : cols ≠ PRED_COLS) :
    set_up_input log2 cl n a u p v g cols = .error .assertion := by
  unfold set_up_input
  by_cases h3 : cl.stats.orig_glue ≠ 1
  · rw [if_neg (by simpa using h3), if_neg h1]
    simp only
    rw [if_neg]
    rw [List.length_append, shortFeatures_length, longFeatures_length]
    exact fun e => h2 e.symm
  · rw [if_pos h3]

/-- C18: for every clause, its original glue being other than 1 as
`set_up_input` asserts on entry, and all values of the counters, `set_up_input` with `cols = PRED_COLS_SHORT` writes
exactly the six features 1 to 6 in the listed order, with `cols = PRED_COLS` it
writes exactly seventeen features, the first six of them being the short ones,
so the row handed to the short-horizon model by `predict` is the short feature
vector; with any other `cols` the final assertion fails. -/
theorem set_up_input_short_is_prefix (log2 : ℚ → ℚ) (cl : PredClause) (n : Nat)
    (a u p v g : ℚ) (h : cl.stats.orig_glue ≠ 1) :
    ∃ short full,
      set_up_input log2 cl n a u p v g PRED_COLS_SHORT = .ok short ∧
      set_up_input log2 cl n a u p v g PRED_COLS = .ok full ∧
      short = [ u,
        (if last_touched_diff cl n = 0 then MISSING_VAL
          else a / (last_touched_diff cl n : ℚ)),
        p,
        (if v = 0 then MISSING_VAL else (cl.stats.props_made : ℚ) / v),
        (last_touched_diff cl n : ℚ),
        (cl.stats.ttl_stats : ℚ) ] ∧
      short.length = 6 ∧ full.length = 17 ∧
      full.take PRED_COLS_SHORT = short ∧
      predictShortInput log2 cl n a u p v g = .ok short ∧
      (∀ cols, cols ≠ PRED_COLS_SHORT → cols ≠ PRED_COLS →
        set_up_input log2 cl n a u p v g cols = .error .assertion) := by
  refine ⟨_, _, set_up_input_short log2 cl n a u p v g h,
    set_up_input_full log2 cl n a u p v g h, rfl, rfl, rfl, ?_, ?_, ?_⟩
  · rw [List.take_left' (by rfl)]
  · unfold predictShortInput
    rw [set_up_input_full log2 cl n a u p v g h]
    simp only
    rw [List.take_left' (by rfl)]
  · intro cols h1 h2
    exact set_up_input_other log2 cl n a u p v g cols h1 h2

theorem set_up_input_short_is_prefix_witness :
    exPredClause.stats.orig_glue ≠ 1 ∧
    ∃ short full,
      set_up_input exLog2 exPredClause 100 (1 / 2) (1 / 4) (3 / 4) 10 5 PRED_COLS_SHORT
        = .ok short ∧
      set_up_input exLog2 exPredClause 100 (1 / 2) (1 / 4) (3 / 4) 10 5 PRED_COLS = .ok full ∧
      short = [ (1 / 4 : ℚ),
        (if last_touched_diff exPredClause 100 = 0 then MISSING_VAL
          else (1 / 2) / (last_touched_diff exPredClause 100 : ℚ)),
        (3 / 4 : ℚ),
        (if (10 : ℚ) = 0 then MISSING_VAL else (exPredClause.stats.props_made : ℚ) / 10),
        (last_touched_diff exPredClause 100 : ℚ),
        (exPredClause.stats.ttl_stats : ℚ) ] ∧
      short.length = 6 ∧ full.length = 17 ∧
      full.take PRED_COLS_SHORT = short ∧
      predictShortInput exLog2 exPredClause 100 (1 / 2) (1 / 4) (3 / 4) 10 5 = .ok short ∧
      (∀ cols, cols ≠ PRED_COLS_SHORT → cols ≠ PRED_COLS →
        set_up_input exLog2 exPredClause 100 (1 / 2) (1 / 4) (3 / 4) 10 5 cols
          = .error .assertion) :=
  ⟨by decide, set_up_input_short_is_prefix exLog2 exPredClause 100 (1 / 2) (1 / 4) (3 / 4) 10 5
    (by decide)⟩

/-- For a clause whose original glue is 1, which the solver does not create, the
first assertion of `set_up_input` fails and no feature is written. -/
theorem set_up_input_glue_one_asserts :
    set_up_input exLog2 exGlueOne 0 0 0 0 0 0 PRED_COLS_SHORT = .error .assertion ∧
    set_up_input exLog2 exGlueOne 0 0 0 0 0 0 PRED_COLS = .error .assertion :=
  ⟨set_up_input_assert _ _ _ _ _ _ _ _ _ rfl, set_up_input_assert _ _ _ _ _ _ _ _ _ rfl⟩

theorem time_inside_solver_nonneg (cl : PredClause) (n : Nat) :
    0 ≤ time_inside_solver cl n := by
  unfold time_inside_solver
  exact Nat.cast_nonneg _

theorem full_getElem?_long (log2 : ℚ → ℚ) (cl : PredClause) (n : Nat) (a u p v g : ℚ)
    (k : Nat) :
    (shortFeatures cl n a u p v ++ longFeatures log2 cl n v g)[6 + k]?
      = (longFeatures log2 cl n v g)[k]? := by
  rw [List.getElem?_append_right (by rw [shortFeatures_length]; omega), shortFeatures_length]
  congr 1
  omega

/-- C19 (as amended): for every clause whose original glue is not 1, feature
16 of the full vector is the sentinel `-1.0` if and only if
`discounted_props_made = 0` or `time_inside_solver = 0`; otherwise it is
`(sum_uip1_used / time_inside_solver) / discounted_props_made`, which is `0`, not
the sentinel, when `sum_uip1_used = 0`. -/
theorem feature16_missing_iff (log2 : ℚ → ℚ) (cl : PredClause) (n : Nat)
    (a u p v g : ℚ) (h : cl.stats.orig_glue ≠ 1) :
    ∃ full, set_up_input log2 cl n a u p v g PRED_COLS = .ok full ∧
      (full[15]? = some MISSING_VAL ↔
        (cl.stats.discounted_props_made = 0 ∨ time_inside_solver cl n = 0)) ∧
      (¬ (cl.stats.discounted_props_made = 0 ∨ time_inside_solver cl n = 0) →
        full[15]? = some (((cl.stats.sum_uip1_used : ℚ) / time_inside_solver cl n)
          / (cl.stats.discounted_props_made : ℚ))) := by
  refine ⟨_, set_up_input_full log2 cl n a u p v g h, ?_, ?_⟩
  · rw [full_getElem?_long log2 cl n a u p v g 9]
    simp only [longFeatures, List.getElem?_cons_succ, List.getElem?_cons_zero, Option.some.injEq]
    constructor
    · intro e
      by_contra hc
      rw [if_neg hc] at e
      have h0 : (0 : ℚ) ≤ ((cl.stats.sum_uip1_used : ℚ) / time_inside_solver cl n)
          / (cl.stats.discounted_props_made : ℚ) :=
        div_nonneg (div_nonneg (Nat.cast_nonneg _) (time_inside_solver_nonneg cl n))
          (NNRat.coe_nonneg _)
      rw [e] at h0
      norm_num [MISSING_VAL] at h0
    · intro hc
      rw [if_pos hc]
  · intro hc
    rw [full_getElem?_long log2 cl n a u p v g 9]
    simp only [longFeatures, List.getElem?_cons_succ, List.getElem?_cons_zero, Option.some.injEq]
    rw [if_neg hc]

theorem feature16_missing_iff_witness :
    exPredClause.stats.orig_glue ≠ 1 ∧
    ∃ full, set_up_input exLog2 exPredClause 100 (1 / 2) (1 / 4) (3 / 4) 10 5 PRED_COLS
        = .ok full ∧
      (full[15]? = some MISSING_VAL ↔
        (exPredClause.stats.discounted_props_made = 0
          ∨ time_inside_solver exPredClause 100 = 0)) ∧
      (¬ (exPredClause.stats.discounted_props_made = 0
          ∨ time_inside_solver exPredClause 100 = 0) →
        full[15]? = some (((exPredClause.stats.sum_uip1_used : ℚ)
          / time_inside_solver exPredClause 100)
          / (exPredClause.stats.discounted_props_made : ℚ))) :=
  ⟨by decide, feature16_missing_iff exLog2 exPredClause 100 (1 / 2) (1 / 4) (3 / 4) 10 5
    (by decide)⟩

theorem time_inside_solver_exNoUip : time_inside_solver exNoUip 1 = 1 := by
  norm_num [time_inside_solver, exNoUip]

/-- C19, counterexample: a clause with `sum_uip1_used = 0`, one conflict after
its introduction and `discounted_props_made = 1`: feature 16 is `0`, not the
sentinel. -/
theorem feature16_zero_uip_counterexample :
    exNoUip.stats.sum_uip1_used = 0 ∧
    (set_up_input exLog2 exNoUip 1 0 0 0 0 0 PRED_COLS).map (fun full => full[15]?)
      = .ok (some 0) ∧
    (0 : ℚ) ≠ MISSING_VAL := by
  refine ⟨rfl, ?_, by norm_num [MISSING_VAL]⟩
  rw [set_up_input_full exLog2 exNoUip 1 0 0 0 0 0 (by decide)]
  show Except.ok ((shortFeatures exNoUip 1 0 0 0 0 ++ longFeatures exLog2 exNoUip 1 0 0)[6 + 9]?)
    = Except.ok (some 0)
  rw [full_getElem?_long exLog2 exNoUip 1 0 0 0 0 0 9]
  simp only [longFeatures, List.getElem?_cons_succ, List.getElem?_cons_zero,
    time_inside_solver_exNoUip]
  norm_num [exNoUip]

/-- C20 (as amended): for every clause whose original glue is not 1, and a
`log2` that is non-negative from 1 on, feature 12 of the full vector is the
sentinel `-1.0` if and only if the clause is a ternary resolvent or
`num_total_lits_antecedents = 0` or `num_antecedents = 0`; otherwise it is
`log2(num_antecedents) / num_total_lits_antecedents`. -/
theorem feature12_missing_iff (log2 : ℚ → ℚ) (hlog : ∀ x : ℚ, 1 ≤ x → 0 ≤ log2 x)
    (cl : PredClause) (n : Nat) (a u p v g : ℚ) (h : cl.stats.orig_glue ≠ 1) :
    ∃ full, set_up_input log2 cl n a u p v g PRED_COLS = .ok full ∧
      (full[11]? = some MISSING_VAL ↔
        (cl.stats.num_antecedents = 0 ∨ cl.stats.num_total_lits_antecedents = 0
          ∨ cl.is_ternary_resolvent ≠ 0)) ∧
      (¬ (cl.stats.num_antecedents = 0 ∨ cl.stats.num_total_lits_antecedents = 0
          ∨ cl.is_ternary_resolvent ≠ 0) →
        full[11]? = some (log2 (cl.stats.num_antecedents : ℚ)
          / (cl.stats.num_total_lits_antecedents : ℚ))) := by
  refine ⟨_, set_up_input_full log2 cl n a u p v g h, ?_, ?_⟩
  · rw [full_getElem?_long log2 cl n a u p v g 5]
    simp only [longFeatures, List.getElem?_cons_succ, List.getElem?_cons_zero, Option.some.injEq]
    constructor
    · intro e
      by_contra hc
      rw [if_neg hc] at e
      have h1 : (1 : ℚ) ≤ (cl.stats.num_antecedents : ℚ) := by
        have : 1 ≤ cl.stats.num_antecedents := by
          rcases Nat.eq_zero_or_pos cl.stats.num_antecedents with h0 | h0
          · exact absurd (Or.inl h0) hc
          · exact h0
        exact_mod_cast this
      have h0 : (0 : ℚ) ≤ log2 (cl.stats.num_antecedents : ℚ)
          / (cl.stats.num_total_lits_antecedents : ℚ) :=
        div_nonneg (hlog _ h1) (Nat.cast_nonneg _)
      rw [e] at h0
      norm_num [MISSING_VAL] at h0
    · intro hc
      rw [if_pos hc]
  · intro hc
    rw [full_getElem?_long log2 cl n a u p v g 5]
    simp only [longFeatures, List.getElem?_cons_succ, List.getElem?_cons_zero, Option.some.injEq]
    rw [if_neg hc]

theorem exLog2_nonneg (x : ℚ) (_ : 1 ≤ x) : 0 ≤ exLog2 x := by
  unfold exLog2
  exact Nat.cast_nonneg _

theorem feature12_missing_iff_witness :
    (∀ x : ℚ, 1 ≤ x → 0 ≤ exLog2 x) ∧ exPredClause.stats.orig_glue ≠ 1 ∧
    ∃ full, set_up_input exLog2 exPredClause 100 (1 / 2) (1 / 4) (3 / 4) 10 5 PRED_COLS
        = .ok full ∧
      (full[11]? = some MISSING_VAL ↔
        (exPredClause.stats.num_antecedents = 0
          ∨ exPredClause.stats.num_total_lits_antecedents = 0
          ∨ exPredClause.is_ternary_resolvent ≠ 0)) ∧
      (¬ (exPredClause.stats.num_antecedents = 0
          ∨ exPredClause.stats.num_total_lits_antecedents = 0
          ∨ exPredClause.is_ternary_resolvent ≠ 0) →
        full[11]? = some (exLog2 (exPredClause.stats.num_antecedents : ℚ)
          / (exPredClause.stats.num_total_lits_antecedents : ℚ))) :=
  ⟨exLog2_nonneg, by decide, feature12_missing_iff exLog2 exLog2_nonneg exPredClause 100
    (1 / 2) (1 / 4) (3 / 4) 10 5 (by decide)⟩

/-- C20, counterexample: a clause that is no ternary resolvent, with
`num_total_lits_antecedents = 3` and `num_antecedents = 0`: feature 12 is the
sentinel. -/
theorem feature12_no_antecedent_counterexample :
    exNoAntecedent.is_ternary_resolvent = 0 ∧
    exNoAntecedent.stats.num_total_lits_antecedents ≠ 0 ∧
    (set_up_input exLog2 exNoAntecedent 1 0 0 0 0 0 PRED_COLS).map (fun full => full[11]?)
      = .ok (some MISSING_VAL) := by
  refine ⟨rfl, by decide, ?_⟩
  rw [set_up_input_full exLog2 exNoAntecedent 1 0 0 0 0 0 (by decide)]
  show Except.ok ((shortFeatures exNoAntecedent 1 0 0 0 0
    ++ longFeatures exLog2 exNoAntecedent 1 0 0)[6 + 5]?) = Except.ok (some MISSING_VAL)
  rw [full_getElem?_long exLog2 exNoAntecedent 1 0 0 0 0 0 5]
  simp only [longFeatures, List.getElem?_cons_succ, List.getElem?_cons_zero]
  have hc : exNoAntecedent.stats.num_antecedents = 0
      ∨ exNoAntecedent.stats.num_total_lits_antecedents = 0
      ∨ exNoAntecedent.is_ternary_resolvent ≠ 0 := Or.inl rfl
  rw [if_pos hc]

/-! ## propagateFull: the scenarios -/

/-- C15 (as amended): scenario S5. With the non-learnt binaries `{-1, +2}`,
`{-2, +3}`, `{-3, +4}` attached and `+1` the single probe literal at decision
level 1, `propagateFull` returns `lit_Undef` (no conflict) for every policy
`removeWhich`, analyzer and `addHyperBin`, with `+2, +3, +4` on the trail after
the probe; the recorded ancestor of each literal is the literal it was derived
from by one binary clause (`+1` for `+2`, `+2` for `+3`, `+3` for `+4`), and both
`needToAddBinClause` and `uselessBin` are empty. -/
theorem propagateFull_S5 (o : FullPropOracle) :
    (match exS5Attached with
      | .ok s => s.decide (posLit 1)
      | .error e => .error e) = .ok exS5 ∧
    exS5.propagateFull o [] = .ok (lit_Undef, exS5Final) ∧
    exS5Final.s.trail = [posLit 1, posLit 2, posLit 3, posLit 4] ∧
    (exS5Final.s.propData.map (fun d => d.ancestor))
      = [lit_Undef, lit_Undef, posLit 1, posLit 2, posLit 3] ∧
    exS5Final.s.needToAddBinClause = [] ∧ exS5Final.uselessBin = [] ∧
    exS5Final.s.qhead = exS5Final.s.trail.length := by
  refine ⟨by decide, by rfl, by decide, by decide, by decide, by decide, by decide⟩

/-- C15, counterexample: in scenario S5 the recorded ancestor of `+4` is `+3`,
not `+1`, and `needToAddBinClause` is empty. -/
theorem propagateFull_S5_counterexample :
    (exS5.propagateFull echoOracle []).map
        (fun r => (r.1, r.2.s.trail, (r.2.s.propData.getD 4 {}).ancestor,
          r.2.s.needToAddBinClause))
      = .ok (lit_Undef, [posLit 1, posLit 2, posLit 3, posLit 4], posLit 3, []) ∧
    posLit 3 ≠ posLit 1 := by
  decide

/-! ## propagateFull: the analyzer is called on the conflict only -/

theorem propBin_af (o : FullPropOracle) (af : Solver → PropBy → Lit) (s : Solver) (p lit : Lit)
    (learnt : Bool) (u : List BinaryClause) :
    s.propBin { o with analyzeFail := af } p lit learnt u = s.propBin o p lit learnt u := rfl

theorem propTriClauseFull_af (o : FullPropOracle) (af : Solver → PropBy → Lit) (s : Solver)
    (a b p : Lit) (c : PropBy) :
    s.propTriClauseFull { o with analyzeFail := af } a b p c = s.propTriClauseFull o a b p c :=
  rfl

theorem propNormalClauseFull_af (o : FullPropOracle) (af : Solver → PropBy → Lit) (s : Solver)
    (w : Watched) (off : Nat) (blk : Lit) (wn : Bool) (j : Nat) (p : Lit) (c : PropBy) :
    s.propNormalClauseFull { o with analyzeFail := af } w off blk wn j p c
      = s.propNormalClauseFull o w off blk wn j p c := rfl

theorem propagateFullWatch_af (o : FullPropOracle) (af : Solver → PropBy → Lit) (s : Solver)
    (p : Lit) (j : Nat) (w : Watched) (c : PropBy) :
    s.propagateFullWatch { o with analyzeFail := af } p j w c = s.propagateFullWatch o p j w c :=
  rfl

theorem propFullNLBinList_af (o : FullPropOracle) (af : Solver → PropBy → Lit) (p : Lit)
    (ws : List Watched) (s : Solver) (u : List BinaryClause) :
    Solver.propFullNLBinList { o with analyzeFail := af } p ws s u
      = Solver.propFullNLBinList o p ws s u := by
  induction ws generalizing s u with
  | nil => rfl
  | cons w ws ih =>
    cases w with
    | binary lit learnt =>
      simp only [Solver.propFullNLBinList, propBin_af, ih]
    | tri a b => simp only [Solver.propFullNLBinList, ih]
    | clause a b c => simp only [Solver.propFullNLBinList, ih]

theorem propFullLBinList_af (o : FullPropOracle) (af : Solver → PropBy → Lit) (p : Lit)
    (ws : List Watched) (s : Solver) (u : List BinaryClause) :
    Solver.propFullLBinList { o with analyzeFail := af } p ws s u
      = Solver.propFullLBinList o p ws s u := by
  induction ws generalizing s u with
  | nil => rfl
  | cons w ws ih =>
    cases w with
    | binary lit learnt =>
      simp only [Solver.propFullLBinList, propBin_af, ih]
    | tri a b => simp only [Solver.propFullLBinList, ih]
    | clause a b c => simp only [Solver.propFullLBinList, ih]

theorem propagateFullWatches_af (o : FullPropOracle) (af : Solver → PropBy → Lit) (p : Lit)
    (n i j : Nat) (s : Solver) (c : PropBy) :
    Solver.propagateFullWatches { o with analyzeFail := af } p n i j s c
      = Solver.propagateFullWatches o p n i j s c := by
  induction n generalizing i j s c with
  | zero => rfl
  | succ n ih =>
    simp only [Solver.propagateFullWatches, propagateFullWatch_af, ih]

theorem propagateFullLoop_result (o : FullPropOracle) (fuel : Nat) (ph : FullPhase)
    (st : FullState) (l : Lit) (st' : FullState)
    (h : Solver.propagateFullLoop o fuel ph st = .ok (l, st')) :
    ∃ r : PropBy,
      (r = .null → l = lit_Undef ∧ ¬ (st'.s.qhead < st'.s.trail.length)) ∧
      (r ≠ .null → l = o.analyzeFail st'.s r) ∧
      ∀ af, Solver.propagateFullLoop { o with analyzeFail := af } fuel ph st
        = .ok (if r = .null then lit_Undef else af st'.s r, st') := by
  induction fuel generalizing ph st with
  | zero => cases ph <;> simp [Solver.propagateFullLoop] at h
  | succ fuel ih =>
    cases ph with
    | nlBin =>
      rw [Solver.propagateFullLoop] at h
      by_cases hc : st.nlBinQHead < st.s.trail.length
      · rw [if_pos hc] at h
        cases ht : st.s.trail[st.nlBinQHead]? with
        | none => rw [ht] at h; cases h
        | some p =>
          rw [ht] at h
          dsimp only at h
          by_cases hp : p.toInt < st.s.watches.length
          · rw [if_pos hp] at h
            cases hr : Solver.propFullNLBinList o p
                (({ st.s with bogoProps := st.s.bogoProps + 1 } : Solver).ws p)
                { st.s with bogoProps := st.s.bogoProps + 1 } st.uselessBin with
            | error e => rw [hr] at h; cases h
            | ok res =>
              obtain ⟨ret, u1, s2⟩ := res
              rw [hr] at h
              dsimp only at h
              by_cases hret : ret ≠ .null
              · rw [if_pos hret] at h
                injection h with h
                injection h with h1 h2
                subst h2
                refine ⟨ret, fun e => absurd e hret, fun _ => h1.symm, fun af => ?_⟩
                rw [Solver.propagateFullLoop, if_pos hc, ht]
                dsimp only
                rw [if_pos hp, propFullNLBinList_af, hr]
                dsimp only
                rw [if_pos hret, if_neg hret]
              · rw [if_neg hret] at h
                obtain ⟨r, h1, h2, h3⟩ := ih _ _ h
                refine ⟨r, h1, h2, fun af => ?_⟩
                rw [Solver.propagateFullLoop, if_pos hc, ht]
                dsimp only
                rw [if_pos hp, propFullNLBinList_af, hr]
                dsimp only
                rw [if_neg hret]
                exact h3 af
          · rw [if_neg hp] at h; cases h
      · rw [if_neg hc] at h
        obtain ⟨r, h1, h2, h3⟩ := ih _ _ h
        refine ⟨r, h1, h2, fun af => ?_⟩
        rw [Solver.propagateFullLoop, if_neg hc]
        exact h3 af
    | lBin =>
      rw [Solver.propagateFullLoop] at h
      by_cases hc : st.lBinQHead < st.s.trail.length
      · rw [if_pos hc] at h
        cases ht : st.s.trail[st.lBinQHead]? with
        | none => rw [ht] at h; cases h
        | some p =>
          rw [ht] at h
          dsimp only at h
          by_cases hp : p.toInt < st.s.watches.length
          · rw [if_pos hp] at h
            cases hr : Solver.propFullLBinList o p
                (({ st.s with bogoProps := st.s.bogoProps + 1,
                              enqeuedSomething := false } : Solver).ws p)
                { st.s with bogoProps := st.s.bogoProps + 1, enqeuedSomething := false }
                st.uselessBin with
            | error e => rw [hr] at h; cases h
            | ok res =>
              obtain ⟨ret, restart, u1, s2⟩ := res
              rw [hr] at h
              dsimp only at h
              by_cases hret : ret ≠ .null
              · rw [if_pos hret] at h
                injection h with h
                injection h with h1 h2
                subst h2
                refine ⟨ret, fun e => absurd e hret, fun _ => h1.symm, fun af => ?_⟩
                rw [Solver.propagateFullLoop, if_pos hc, ht]
                dsimp only
                rw [if_pos hp, propFullLBinList_af, hr]
                dsimp only
                rw [if_pos hret, if_neg hret]
              · rw [if_neg hret] at h
                by_cases hrs : restart = true
                · rw [if_pos hrs] at h
                  obtain ⟨r, h1, h2, h3⟩ := ih _ _ h
                  refine ⟨r, h1, h2, fun af => ?_⟩
                  rw [Solver.propagateFullLoop, if_pos hc, ht]
                  dsimp only
                  rw [if_pos hp, propFullLBinList_af, hr]
                  dsimp only
                  rw [if_neg hret, if_pos hrs]
                  exact h3 af
                · rw [if_neg hrs] at h
                  obtain ⟨r, h1, h2, h3⟩ := ih _ _ h
                  refine ⟨r, h1, h2, fun af => ?_⟩
                  rw [Solver.propagateFullLoop, if_pos hc, ht]
                  dsimp only
                  rw [if_pos hp, propFullLBinList_af, hr]
                  dsimp only
                  rw [if_neg hret, if_neg hrs]
                  exact h3 af
          · rw [if_neg hp] at h; cases h
      · rw [if_neg hc] at h
        obtain ⟨r, h1, h2, h3⟩ := ih _ _ h
        refine ⟨r, h1, h2, fun af => ?_⟩
        rw [Solver.propagateFullLoop, if_neg hc]
        exact h3 af
    | nonBin =>
      rw [Solver.propagateFullLoop] at h
      by_cases hc : st.s.qhead < st.s.trail.length
      · rw [if_pos hc] at h
        cases ht : st.s.trail[st.s.qhead]? with
        | none => rw [ht] at h; cases h
        | some p =>
          rw [ht] at h
          dsimp only at h
          by_cases hp : p.toInt < st.s.watches.length
          · rw [if_pos hp] at h
            cases hr : Solver.propagateFullWatches o p
                (({ st.s with bogoProps := st.s.bogoProps + 1,
                              enqeuedSomething := false } : Solver).ws p).length 0 0
                { st.s with bogoProps := st.s.bogoProps + 1, enqeuedSomething := false }
                .null with
            | error e => rw [hr] at h; cases h
            | ok res =>
              obtain ⟨i, j, confl, s2⟩ := res
              rw [hr] at h
              dsimp only at h
              by_cases hret : confl ≠ .null
              · rw [if_pos hret] at h
                injection h with h
                injection h with h1 h2
                subst h2
                refine ⟨confl, fun e => absurd e hret, fun _ => h1.symm, fun af => ?_⟩
                rw [Solver.propagateFullLoop, if_pos hc, ht]
                dsimp only
                rw [if_pos hp, propagateFullWatches_af, hr]
                dsimp only
                rw [if_pos hret, if_neg hret]
              · rw [if_neg hret] at h
                split at h
                · rename_i he
                  obtain ⟨r, h1, h2, h3⟩ := ih _ _ h
                  refine ⟨r, h1, h2, fun af => ?_⟩
                  rw [Solver.propagateFullLoop, if_pos hc, ht]
                  dsimp only
                  rw [if_pos hp, propagateFullWatches_af, hr]
                  dsimp only
                  rw [if_neg hret, if_pos he]
                  exact h3 af
                · rename_i he
                  obtain ⟨r, h1, h2, h3⟩ := ih _ _ h
                  refine ⟨r, h1, h2, fun af => ?_⟩
                  rw [Solver.propagateFullLoop, if_pos hc, ht]
                  dsimp only
                  rw [if_pos hp, propagateFullWatches_af, hr]
                  dsimp only
                  rw [if_neg hret, if_neg he]
                  exact h3 af
          · rw [if_neg hp] at h; cases h
      · rw [if_neg hc] at h
        injection h with h
        injection h with h1 h2
        subst h2
        refine ⟨.null, fun _ => ⟨h1.symm, hc⟩, fun e => absurd rfl e, fun af => ?_⟩
        rw [Solver.propagateFullLoop, if_neg hc, if_pos rfl]

/-! ## propagateFull: `qhead` stays within the trail -/

theorem trailMono_refl (s : Solver) : TrailMono s s := ⟨rfl, Nat.le_refl _⟩

theorem trailMono_trans {s t u : Solver} (h1 : TrailMono s t) (h2 : TrailMono t u) :
    TrailMono s u := ⟨h2.1.trans h1.1, Nat.le_trans h1.2 h2.2⟩

theorem trailMono_qle {s t : Solver} (h : TrailMono s t) (hq : QLe s) : QLe t := by
  unfold QLe at hq ⊢
  unfold TrailMono at h
  omega

theorem armStep_qle {s t : Solver} {c c1 : PropBy} {f : Bool} (h : ArmStep s t c c1 f)
    (hq : QLe s) : QLe t := by
  rcases h with ⟨-, h⟩ | ⟨-, -, h, -⟩
  · exact trailMono_qle h hq
  · unfold QLe; omega

theorem armStep_len {s t : Solver} {c c1 : PropBy} {f : Bool} (h : ArmStep s t c c1 f) :
    s.trail.length ≤ t.trail.length := by
  rcases h with ⟨-, h⟩ | ⟨-, -, -, h⟩
  · exact h.2
  · exact h

theorem enqueue_qt {s t : Solver} {l : Lit} {r : PropBy} (h : s.enqueue l r = .ok t) :
    t.qhead = s.qhead ∧ t.trail.length = s.trail.length + 1 := by
  unfold Solver.enqueue at h
  split at h
  · injection h with h
    subst h
    simp
  · cases h

theorem enqueueComplex_qt {s t : Solver} {l a : Lit} {b : Bool}
    (h : s.enqueueComplex l a b = .ok t) :
    t.qhead = s.qhead ∧ t.trail.length = s.trail.length + 1 := by
  unfold Solver.enqueueComplex at h
  split at h
  · cases h
  · rename_i s1 h1
    split at h
    · injection h with h
      subst h
      have e := enqueue_qt h1
      exact e
    · cases h

theorem propBin_mono {o : FullPropOracle} {s t : Solver} {p lit : Lit} {learnt : Bool}
    {u u1 : List BinaryClause} {ret : PropBy}
    (h : s.propBin o p lit learnt u = .ok (ret, u1, t)) : TrailMono s t := by
  unfold TrailMono
  unfold Solver.propBin at h
  simp only at h
  by_cases h1 : s.value lit = l_Undef
  · rw [if_pos h1] at h
    split at h
    · cases h
    · rename_i s1 hs1
      simp only [Except.ok.injEq, Prod.mk.injEq] at h
      obtain ⟨-, -, rfl⟩ := h
      have := enqueueComplex_qt hs1
      simp only at this
      omega
  · rw [if_neg h1] at h
    repeat' split at h
    all_goals (cases h; try exact ⟨rfl, Nat.le_refl _⟩)

theorem propFullNLBinList_mono {o : FullPropOracle} {p : Lit} (ws : List Watched) {s t : Solver}
    {u u1 : List BinaryClause} {ret : PropBy}
    (h : Solver.propFullNLBinList o p ws s u = .ok (ret, u1, t)) : TrailMono s t := by
  induction ws generalizing s u with
  | nil =>
    simp only [Solver.propFullNLBinList, Except.ok.injEq, Prod.mk.injEq] at h
    obtain ⟨-, -, rfl⟩ := h
    exact trailMono_refl _
  | cons w ws ih =>
    cases w with
    | binary lit learnt =>
      cases learnt with
      | true =>
        simp only [Solver.propFullNLBinList, if_true] at h
        exact ih h
      | false =>
        simp only [Solver.propFullNLBinList, Bool.false_eq_true, if_false] at h
        split at h
        · cases h
        · rename_i ret1 u2 s1 h1
          have hq1 := propBin_mono h1
          split_ifs at h
          · simp only [Except.ok.injEq, Prod.mk.injEq] at h
            obtain ⟨-, -, rfl⟩ := h
            exact hq1
          · exact trailMono_trans hq1 (ih h)
    | tri a b => simp only [Solver.propFullNLBinList] at h; exact ih h
    | clause a b c => simp only [Solver.propFullNLBinList] at h; exact ih h

theorem propFullLBinList_mono {o : FullPropOracle} {p : Lit} (ws : List Watched) {s t : Solver}
    {u u1 : List BinaryClause} {ret : PropBy} {b : Bool}
    (h : Solver.propFullLBinList o p ws s u = .ok (ret, b, u1, t)) : TrailMono s t := by
  induction ws generalizing s u with
  | nil =>
    simp only [Solver.propFullLBinList, Except.ok.injEq, Prod.mk.injEq] at h
    obtain ⟨-, -, -, rfl⟩ := h
    exact trailMono_refl _
  | cons w ws ih =>
    cases w with
    | binary lit learnt =>
      cases learnt with
      | false =>
        simp only [Solver.propFullLBinList, Bool.false_eq_true, not_false_eq_true, if_true] at h
        exact ih h
      | true =>
        simp only [Solver.propFullLBinList, not_true_eq_false, if_false] at h
        split at h
        · cases h
        · rename_i ret1 u2 s1 h1
          have hq1 := propBin_mono h1
          split_ifs at h
          · simp only [Except.ok.injEq, Prod.mk.injEq] at h
            obtain ⟨-, -, -, rfl⟩ := h
            exact hq1
          · simp only [Except.ok.injEq, Prod.mk.injEq] at h
            obtain ⟨-, -, -, rfl⟩ := h
            exact hq1
          · exact trailMono_trans hq1 (ih h)
    | tri a b => simp only [Solver.propFullLBinList] at h; exact ih h
    | clause a b c => simp only [Solver.propFullLBinList] at h; exact ih h

theorem propTriClauseFull_step {o : FullPropOracle} (ho : HyperBinKeepsTrail o) {s t : Solver}
    {a b p : Lit} {c c1 : PropBy} {f : Bool}
    (h : s.propTriClauseFull o a b p c = .ok (f, c1, t)) : ArmStep s t c c1 f := by
  unfold Solver.propTriClauseFull at h
  simp only at h
  split_ifs at h
  · cases h; exact Or.inl ⟨rfl, trailMono_refl _⟩
  · split at h
    · cases h
    · rename_i s1 h1
      cases h
      have e := ho.1 _ _ _ _ _ h1
      exact Or.inl ⟨rfl, e⟩
  · split at h
    · cases h
    · rename_i s1 h1
      cases h
      have e := ho.1 _ _ _ _ _ h1
      exact Or.inl ⟨rfl, e⟩
  · cases h
    exact Or.inr ⟨rfl, by simp, rfl, Nat.le_refl _⟩
  · cases h; exact Or.inl ⟨rfl, trailMono_refl _⟩

theorem pushWs_qt {s t : Solver} {l : Lit} {w : Watched} (h : s.pushWs l w = .ok t) :
    t.qhead = s.qhead ∧ t.trail = s.trail := by
  unfold Solver.pushWs at h
  split_ifs at h
  cases h
  exact ⟨rfl, rfl⟩

theorem propNormalClauseFull_step {o : FullPropOracle} (ho : HyperBinKeepsTrail o)
    {s t : Solver} {w : Watched} {off : Nat} {blk p : Lit} {wn : Bool} {j j1 : Nat}
    {c c1 : PropBy} {f : Bool}
    (h : s.propNormalClauseFull o w off blk wn j p c = .ok (f, j1, c1, t)) :
    ArmStep s t c c1 f := by
  unfold Solver.propNormalClauseFull at h
  simp only at h
  repeat' split at h
  all_goals try (cases h; done)
  all_goals simp only [Except.ok.injEq, Prod.mk.injEq] at h
  all_goals obtain ⟨rfl, -, rfl, rfl⟩ := h
  all_goals first
    | exact Or.inl ⟨rfl, rfl, Nat.le_refl _⟩
    | exact Or.inr ⟨rfl, by simp, rfl, Nat.le_refl _⟩
    | (rename_i s3 h3
       have e := pushWs_qt h3
       refine Or.inl ⟨rfl, ?_, ?_⟩
       · show s3.qhead = s.qhead
         rw [e.1]; rfl
       · show s.trail.length ≤ s3.trail.length
         rw [e.2]; exact Nat.le_refl _)
    | (rename_i s4 h4
       have e := ho.2 _ _ _ _ h4
       refine Or.inl ⟨rfl, ?_⟩
       unfold TrailMono at e ⊢
       split_ifs at e <;>
         simp only [Solver.setData, Solver.writeWs, Solver.setWs] at e <;> exact e)

theorem propagateFullWatch_step {o : FullPropOracle} (ho : HyperBinKeepsTrail o) {s t : Solver}
    {p : Lit} {j j1 : Nat} {w : Watched} {c c1 : PropBy} {f : Bool}
    (h : s.propagateFullWatch o p j w c = .ok (f, j1, c1, t)) :
    (c1 = c ∧ TrailMono s t) ∨
    (f = false ∧ c1 ≠ .null ∧ t.qhead = t.trail.length ∧ s.trail.length ≤ t.trail.length) := by
  unfold Solver.propagateFullWatch at h
  cases w with
  | binary a b =>
    simp only [Except.ok.injEq, Prod.mk.injEq] at h
    obtain ⟨-, -, rfl, rfl⟩ := h
    exact Or.inl ⟨rfl, trailMono_refl _⟩
  | tri a b =>
    simp only at h
    split at h
    · cases h
    · rename_i f1 c2 s1 h1
      simp only [Except.ok.injEq, Prod.mk.injEq] at h
      obtain ⟨rfl, -, rfl, rfl⟩ := h
      rcases propTriClauseFull_step ho h1 with e | ⟨e1, e2, e3, e4⟩
      · exact Or.inl e
      · refine Or.inr ⟨?_, e2, e3, e4⟩
        rw [e1]; rfl
  | clause a b d =>
    simp only at h
    split at h
    · cases h
    · rename_i f1 j2 c2 s1 h1
      simp only [Except.ok.injEq, Prod.mk.injEq] at h
      obtain ⟨rfl, -, rfl, rfl⟩ := h
      rcases propNormalClauseFull_step ho h1 with e | ⟨e1, e2, e3, e4⟩
      · exact Or.inl e
      · refine Or.inr ⟨?_, e2, e3, e4⟩
        rw [e1]; rfl

theorem propagateFullWatches_step {o : FullPropOracle} (ho : HyperBinKeepsTrail o) {p : Lit}
    (n : Nat) {i j i1 j1 : Nat} {s t : Solver} {c c1 : PropBy}
    (h : Solver.propagateFullWatches o p n i j s c = .ok (i1, j1, c1, t)) :
    (c1 = c ∧ TrailMono s t) ∨
    (c1 ≠ .null ∧ t.qhead = t.trail.length ∧ s.trail.length ≤ t.trail.length) := by
  induction n generalizing i j s c with
  | zero =>
    simp only [Solver.propagateFullWatches, Except.ok.injEq, Prod.mk.injEq] at h
    obtain ⟨-, -, rfl, rfl⟩ := h
    exact Or.inl ⟨rfl, trailMono_refl _⟩
  | succ n ih =>
    rw [Solver.propagateFullWatches] at h
    split at h
    · cases h
    · split at h
      · cases h
      · rename_i h1
        rcases propagateFullWatch_step ho h1 with ⟨e1, e2⟩ | ⟨e1, -⟩
        · rcases ih h with ⟨a1, a2⟩ | ⟨a1, a2, a3⟩
          · exact Or.inl ⟨a1.trans e1, trailMono_trans e2 a2⟩
          · exact Or.inr ⟨a1, a2, Nat.le_trans e2.2 a3⟩
        · cases e1
      · rename_i h1
        simp only [Except.ok.injEq, Prod.mk.injEq] at h
        obtain ⟨-, -, rfl, rfl⟩ := h
        rcases propagateFullWatch_step ho h1 with e | ⟨-, e2, e3, e4⟩
        · exact Or.inl e
        · exact Or.inr ⟨e2, e3, e4⟩

theorem copyRest_qt (p : Lit) (n i j : Nat) (s : Solver) :
    (Solver.copyRest p n i j s).2.qhead = s.qhead ∧
    (Solver.copyRest p n i j s).2.trail = s.trail ∧
    (Solver.copyRest p n i j s).2.enqeuedSomething = s.enqeuedSomething := by
  induction n generalizing i j s with
  | zero => exact ⟨rfl, rfl, rfl⟩
  | succ n ih =>
    rw [Solver.copyRest]
    split
    · exact ⟨rfl, rfl, rfl⟩
    · exact ih _ _ _

theorem finish_qhead (p : Lit) (n i j k : Nat) (s : Solver) :
    ((Solver.copyRest p n i j s).2.shrinkWs p k).qhead = s.qhead :=
  (copyRest_qt p n i j s).1

theorem finish_trail (p : Lit) (n i j k : Nat) (s : Solver) :
    ((Solver.copyRest p n i j s).2.shrinkWs p k).trail = s.trail :=
  (copyRest_qt p n i j s).2.1

theorem finish_enqeued (p : Lit) (n i j k : Nat) (s : Solver) :
    ((Solver.copyRest p n i j s).2.shrinkWs p k).enqeuedSomething = s.enqeuedSomething :=
  (copyRest_qt p n i j s).2.2

theorem propagateFullLoop_qle {o : FullPropOracle} (ho : HyperBinKeepsTrail o) (fuel : Nat)
    {ph : FullPhase} {st st' : FullState} {l : Lit}
    (h : Solver.propagateFullLoop o fuel ph st = .ok (l, st')) (hq : QLe st.s) : QLe st'.s := by
  induction fuel generalizing ph st with
  | zero => cases ph <;> simp [Solver.propagateFullLoop] at h
  | succ fuel ih =>
    cases ph with
    | nlBin =>
      rw [Solver.propagateFullLoop] at h
      split_ifs at h
      · split at h
        · cases h
        · split_ifs at h
          dsimp only at h
          split at h
          · cases h
          · rename_i ret u1 s2 h1
            have hq2 : QLe s2 := trailMono_qle (propFullNLBinList_mono _ h1) hq
            split_ifs at h
            · simp only [Except.ok.injEq, Prod.mk.injEq] at h
              obtain ⟨-, rfl⟩ := h
              exact hq2
            · exact ih h hq2
      · exact ih h hq
    | lBin =>
      rw [Solver.propagateFullLoop] at h
      split_ifs at h
      · split at h
        · cases h
        · split_ifs at h
          dsimp only at h
          split at h
          · cases h
          · rename_i ret rs u1 s2 h1
            have hq2 : QLe s2 := trailMono_qle (propFullLBinList_mono _ h1) hq
            split_ifs at h
            · simp only [Except.ok.injEq, Prod.mk.injEq] at h
              obtain ⟨-, rfl⟩ := h
              exact hq2
            · exact ih h hq2
            · exact ih h hq2
      · exact ih h hq
    | nonBin =>
      rw [Solver.propagateFullLoop] at h
      split_ifs at h with hc
      · split at h
        · cases h
        · split_ifs at h
          dsimp only at h
          split at h
          · cases h
          · rename_i i j confl s2 h1
            have hs := propagateFullWatches_step ho _ h1
            split_ifs at h with h2 h3
            · simp only [Except.ok.injEq, Prod.mk.injEq] at h
              obtain ⟨-, rfl⟩ := h
              unfold QLe
              simp only [finish_qhead, finish_trail]
              rcases hs with ⟨-, e⟩ | ⟨-, e, -⟩
              · exact trailMono_qle e hq
              · omega
            · refine ih h ?_
              unfold QLe
              simp only [finish_qhead, finish_trail]
              rcases hs with ⟨-, e⟩ | ⟨-, e, -⟩
              · exact trailMono_qle e hq
              · omega
            · refine ih h ?_
              unfold QLe
              simp only [finish_qhead, finish_trail]
              rcases hs with ⟨-, e⟩ | ⟨e, -⟩
              · have e1 := e.1
                have e2 := e.2
                dsimp only at e1 e2
                omega
              · exact absurd e h2
      · simp only [Except.ok.injEq, Prod.mk.injEq] at h
        obtain ⟨-, rfl⟩ := h
        exact hq

/-! ## propagateFull: what it returns -/

theorem propagateFull_result (o : FullPropOracle) (s : Solver) (u : List BinaryClause)
    (l : Lit) (st : FullState) (h : s.propagateFull o u = .ok (l, st)) :
    ∃ r : PropBy,
      (∀ af, s.propagateFull { o with analyzeFail := af } u
        = .ok (if r = .null then lit_Undef else af st.s r, st)) ∧
      (r = .null → l = lit_Undef ∧ ¬ (st.s.qhead < st.s.trail.length) ∧
        (HyperBinKeepsTrail o → st.s.qhead = st.s.trail.length)) ∧
      (r ≠ .null → l = o.analyzeFail st.s r) := by
  unfold Solver.propagateFull at h
  split_ifs at h with h1 h2
  split at h
  · cases h
  · rename_i lim hlim
    split_ifs at h with h3
    split at h
    · cases h
    · rename_i root hroot
      split_ifs at h with h4
      dsimp only at h
      obtain ⟨r, a1, a2, a3⟩ := propagateFullLoop_result o _ _ _ _ _ h
      refine ⟨r, fun af => ?_, fun e => ⟨(a1 e).1, (a1 e).2, fun ho => ?_⟩, a2⟩
      · unfold Solver.propagateFull
        rw [if_neg (not_not.mpr h1), if_neg (not_not.mpr h2), hlim]
        dsimp only
        rw [if_neg (not_not.mpr h3), hroot]
        dsimp only
        rw [if_pos h4]
        exact a3 af
      · have hq : QLe st.s := by
          refine propagateFullLoop_qle ho _ h ?_
          unfold QLe
          dsimp only
          have := List.getElem?_eq_some_iff.mp hroot
          obtain ⟨hlt, -⟩ := this
          omega
        have := (a1 e).2
        unfold QLe at hq
        omega

/-! ## propagateNonLearntBin and the binary arm of propagate -/

theorem enqueue_bogo (s : Solver) (b : Nat) (l : Lit) (r : PropBy) :
    ({ s with bogoProps := b } : Solver).enqueue l r
      = (s.enqueue l r).map (fun t => { t with bogoProps := b }) := by
  unfold Solver.enqueue
  simp only [Solver.decisionLevel]
  split_ifs <;> rfl

theorem propBinaryClause_bogo (s : Solver) (b : Nat) (o p : Lit) (c : PropBy) :
    ({ s with bogoProps := b } : Solver).propBinaryClause o p c
      = (s.propBinaryClause o p c).map (fun r => (r.1, r.2.1, { r.2.2 with bogoProps := b })) := by
  unfold Solver.propBinaryClause
  simp only [Solver.value, Solver.enqueue, Solver.decisionLevel]
  split_ifs <;> rfl

theorem writeWs_same (s : Solver) (p : Lit) (i : Nat) (w : Watched)
    (h : (s.ws p)[i]? = some w) : s.writeWs p i w = s := by
  unfold Solver.writeWs Solver.setWs
  have e : (s.ws p).set i w = s.ws p := by
    apply List.ext_getElem?
    intro k
    rw [List.getElem?_set]
    split_ifs with h1 h2
    · subst h1; exact h.symm
    · subst h1
      rw [List.getElem?_eq_none (by omega)] at h
      cases h
    · rfl
  rw [e]
  unfold Solver.ws
  by_cases hp : p.toInt < s.watches.length
  · have e2 : s.watches.set p.toInt (s.watches.getD p.toInt []) = s.watches := by
      apply List.ext_getElem?
      intro k
      rw [List.getElem?_set]
      split_ifs with h1
      · subst h1
        rw [List.getD_eq_getElem?_getD, List.getElem?_eq_getElem hp]
        rfl
      · rfl
    rw [e2]
  · rw [List.set_eq_of_length_le (by omega)]

theorem isNonLearntBin_iff (w : Watched) :
    w.isNonLearntBin = true ↔ ∃ o, w = .binary o false := by
  cases w with
  | binary o l => cases l <;> simp [Watched.isNonLearntBin]
  | tri a b => simp [Watched.isNonLearntBin]
  | clause a b c => simp [Watched.isNonLearntBin]

theorem propBinaryClause_flag {s t : Solver} {o p : Lit} {c c1 : PropBy} {f : Bool}
    (h : s.propBinaryClause o p c = .ok (f, c1, t)) :
    t.watches = s.watches ∧ (f = true → c1 = c) ∧
      (f = false → c1 ≠ .null ∧ t.qhead = t.trail.length) := by
  obtain ⟨hw, h⟩ := propBinaryClause_inv h
  refine ⟨hw, ?_, ?_⟩
  · rcases h with ⟨-, -, e, -⟩ | ⟨-, e, -⟩ | ⟨-, -, e, -⟩
    · exact fun _ => e
    · intro e'; rw [e] at e'; cases e'
    · exact fun _ => e
  · rcases h with ⟨-, e, -⟩ | ⟨-, -, e, hs, hq, -⟩ | ⟨-, e, -⟩
    · intro e'; rw [e] at e'; cases e'
    · intro _
      refine ⟨by rw [e]; simp, ?_⟩
      rw [hq, hs.2.1]
    · intro e'; rw [e] at e'; cases e'

theorem scan_bin (p : Lit) (b : Nat) (n : Nat) : ∀ (i : Nat) (sp : Solver) (confl : PropBy),
    (∀ w ∈ sp.ws p, w.isNonLearntBin = true) → (sp.ws p).length = i + n →
    (∀ e, Solver.propNonLearntBinList p ((sp.ws p).drop i) (sp.withBogo b) confl = .error e →
      Solver.propagateWatches p n i i sp confl = .error e) ∧
    (∀ f c1 tn,
      Solver.propNonLearntBinList p ((sp.ws p).drop i) (sp.withBogo b) confl = .ok (f, c1, tn) →
      ∃ k tp, Solver.propagateWatches p n i i sp confl = .ok (k, k, c1, tp) ∧
        k ≤ i + n ∧ tn = tp.withBogo b ∧ tp.watches = sp.watches ∧
        (f = true → c1 = confl) ∧ (f = false → c1 ≠ .null ∧ tp.qhead = tp.trail.length)) := by
  induction n with
  | zero =>
    intro i sp confl _ hlen
    have hd : (sp.ws p).drop i = [] := List.drop_eq_nil_of_le (by omega)
    rw [hd]
    refine ⟨fun e h => ?_, fun f c1 tn h => ?_⟩
    · simp [Solver.propNonLearntBinList] at h
    · simp only [Solver.propNonLearntBinList, Except.ok.injEq, Prod.mk.injEq] at h
      obtain ⟨rfl, rfl, rfl⟩ := h
      exact ⟨i, sp, rfl, Nat.le_refl _, rfl, rfl, fun _ => rfl, fun e => (by cases e)⟩
  | succ n ih =>
    intro i sp confl hall hlen
    have hi : i < (sp.ws p).length := by omega
    have hget : (sp.ws p)[i]? = some ((sp.ws p)[i]) := List.getElem?_eq_getElem hi
    obtain ⟨o, ho⟩ := (isNonLearntBin_iff _).mp (hall _ (List.getElem_mem hi))
    rw [ho] at hget
    have hd : (sp.ws p).drop i = .binary o false :: (sp.ws p).drop (i + 1) := by
      rw [List.drop_eq_getElem_cons hi, ho]
    rw [hd]
    have hpw : Solver.propagateWatches p (n + 1) i i sp confl
        = match sp.propBinaryClause o p confl with
          | .error e => .error e
          | .ok (true, c1, s1) => Solver.propagateWatches p n (i + 1) (i + 1) s1 c1
          | .ok (false, c1, s1) => .ok (i + 1, i + 1, c1, s1) := by
      rw [Solver.propagateWatches, hget]
      simp only [Solver.propagateWatch, writeWs_same sp p i _ hget]
      cases hr : sp.propBinaryClause o p confl with
      | error e => rfl
      | ok r =>
        obtain ⟨f, c1, s1⟩ := r
        cases f <;> rfl
    have hnl : Solver.propNonLearntBinList p (.binary o false :: (sp.ws p).drop (i + 1))
          (sp.withBogo b) confl
        = match sp.propBinaryClause o p confl with
          | .error e => .error e
          | .ok (true, c1, s1) =>
            Solver.propNonLearntBinList p ((sp.ws p).drop (i + 1)) (s1.withBogo b) c1
          | .ok (false, c1, s1) => .ok (false, c1, s1.withBogo b) := by
      rw [Solver.propNonLearntBinList]
      simp only [Bool.false_eq_true, if_false]
      unfold Solver.withBogo
      rw [propBinaryClause_bogo]
      cases hr : sp.propBinaryClause o p confl with
      | error e => rfl
      | ok r =>
        obtain ⟨f, c1, s1⟩ := r
        cases f <;> rfl
    rw [hpw, hnl]
    cases hr : sp.propBinaryClause o p confl with
    | error e =>
      refine ⟨fun e' h => ?_, fun f c1 tn h => ?_⟩
      · simp only [Except.error.injEq] at h ⊢
        exact h
      · cases h
    | ok r =>
      obtain ⟨f, c1, s1⟩ := r
      obtain ⟨hw, hf1, hf2⟩ := propBinaryClause_flag hr
      have hws : s1.ws p = sp.ws p := by unfold Solver.ws; rw [hw]
      cases f with
      | true =>
        simp only
        have := ih (i + 1) s1 c1 (by rw [hws]; exact hall) (by rw [hws]; omega)
        rw [hws] at this
        obtain ⟨a1, a2⟩ := this
        refine ⟨a1, fun f c2 tn h => ?_⟩
        obtain ⟨k, tp, b1, b2, b3, b4, b5, b6⟩ := a2 f c2 tn h
        refine ⟨k, tp, b1, (by omega), b3, b4.trans hw, fun e => ?_, b6⟩
        rw [b5 e, hf1 rfl]
      | false =>
        simp only
        refine ⟨fun e' h => (by cases h), fun f c2 tn h => ?_⟩
        simp only [Except.ok.injEq, Prod.mk.injEq] at h
        obtain ⟨rfl, rfl, rfl⟩ := h
        exact ⟨i + 1, s1, rfl, (by omega), rfl, hw, fun e => (by cases e), fun _ => hf2 rfl⟩

theorem copyRest_same (p : Lit) (n : Nat) : ∀ (i : Nat) (s : Solver),
    Solver.copyRest p n i i s = (i + min n ((s.ws p).length - i), s) := by
  induction n with
  | zero => intro i s; simp [Solver.copyRest]
  | succ n ih =>
    intro i s
    rw [Solver.copyRest]
    by_cases hi : i < (s.ws p).length
    · rw [List.getElem?_eq_getElem hi]
      simp only
      rw [writeWs_same s p i _ (List.getElem?_eq_getElem hi), ih]
      congr 1
      omega
    · rw [List.getElem?_eq_none (by omega)]
      simp only
      congr 1
      omega

theorem shrinkWs_zero (s : Solver) (p : Lit) : s.shrinkWs p 0 = s := by
  unfold Solver.shrinkWs
  rw [Nat.sub_zero, List.take_length]
  exact Solver.setWs_ws_self s p

theorem finish_same (p : Lit) (k : Nat) (s : Solver) (hk : k ≤ (s.ws p).length) :
    (Solver.copyRest p ((s.ws p).length - k) k k s).2.shrinkWs p
      ((s.ws p).length - (Solver.copyRest p ((s.ws p).length - k) k k s).1) = s := by
  rw [copyRest_same]
  simp only
  have e : (s.ws p).length - (k + min ((s.ws p).length - k) ((s.ws p).length - k)) = 0 := by
    rw [Nat.min_self]; omega
  rw [e]
  exact shrinkWs_zero s p

theorem onlyNonLearntBin_ws {s : Solver} (h : OnlyNonLearntBin s) (p : Lit) :
    ∀ w ∈ s.ws p, w.isNonLearntBin = true := by
  intro w hw
  unfold Solver.ws at hw
  by_cases hp : p.toInt < s.watches.length
  · rw [List.getD_eq_getElem?_getD, List.getElem?_eq_getElem hp] at hw
    exact h _ (List.getElem_mem hp) w hw
  · rw [List.getD_eq_getElem?_getD, List.getElem?_eq_none (by omega)] at hw
    cases hw

theorem propagateLit_bin (sp : Solver) (b : Nat) (p : Lit) (hall : OnlyNonLearntBin sp)
    (hp : sp.trail[sp.qhead]? = some p) (hlt : p.toInt < sp.watches.length) :
    (∀ e, Solver.propNonLearntBinList p (sp.ws p)
        (({ sp with qhead := sp.qhead + 1 } : Solver).withBogo b) .null = .error e →
      sp.propagateLit .null = .error e) ∧
    (∀ f c1 tn, Solver.propNonLearntBinList p (sp.ws p)
        (({ sp with qhead := sp.qhead + 1 } : Solver).withBogo b) .null = .ok (f, c1, tn) →
      ∃ tp, sp.propagateLit .null = .ok (c1, tp) ∧ tn = tp.withBogo b ∧
        tp.watches = sp.watches ∧ (f = true → c1 = .null) ∧
        (f = false → c1 ≠ .null ∧ tp.qhead = tp.trail.length)) := by
  have hs := scan_bin p b (sp.ws p).length 0
    { sp with qhead := sp.qhead + 1, bogoProps := sp.bogoProps + ((sp.ws p).length / 4 + 1) }
    .null (onlyNonLearntBin_ws hall p) (by simp [Solver.ws])
  rw [List.drop_zero] at hs
  obtain ⟨h1, h2⟩ := hs
  have hl : sp.propagateLit .null
      = match Solver.propagateWatches p (sp.ws p).length 0 0
          { sp with qhead := sp.qhead + 1,
                    bogoProps := sp.bogoProps + ((sp.ws p).length / 4 + 1) } .null with
        | .error e => .error e
        | .ok (i, j, confl1, s2) =>
          .ok (confl1, (Solver.copyRest p ((sp.ws p).length - i) i j s2).2.shrinkWs p
            ((sp.ws p).length - (Solver.copyRest p ((sp.ws p).length - i) i j s2).1)) := by
    unfold Solver.propagateLit
    rw [hp]
    simp only
    rw [if_pos hlt]
    try rfl
  refine ⟨fun e h => ?_, fun f c1 tn h => ?_⟩
  · rw [hl, h1 e h]
  · obtain ⟨k, tp, a1, a2, a3, a4, a5, a6⟩ := h2 f c1 tn h
    refine ⟨tp, ?_, a3, a4, a5, a6⟩
    rw [hl, a1]
    simp only
    have hws : sp.ws p = tp.ws p := by
      unfold Solver.ws; rw [a4]
    rw [hws, finish_same p k tp (by rw [← hws]; simpa using a2)]

theorem propagateLoop_of_conflict (fuel : Nat) (s : Solver) (c : PropBy) (hc : c ≠ .null) :
    Solver.propagateLoop fuel s c = .ok (c, s) := by
  have hn : ¬ (s.qhead < s.trail.length ∧ c.isNULL = true) := by
    intro h
    cases c <;> simp_all [PropBy.isNULL]
  cases fuel with
  | zero => rw [Solver.propagateLoop, if_neg hn]
  | succ n => rw [Solver.propagateLoop, if_neg hn]

theorem loop_bin (b : Nat) (fuel : Nat) : ∀ (sp : Solver), OnlyNonLearntBin sp →
    Solver.propagateNonLearntBinLoop fuel (sp.withBogo b) .null
      = (Solver.propagateLoop fuel sp .null).map (fun r => (r.1, r.2.withBogo b)) := by
  induction fuel with
  | zero =>
    intro sp _
    rw [Solver.propagateNonLearntBinLoop, Solver.propagateLoop]
    by_cases hc : sp.qhead < sp.trail.length
    · rw [if_pos (by exact hc), if_pos ⟨hc, rfl⟩]; rfl
    · rw [if_neg (by exact hc), if_neg (fun h => hc h.1)]; rfl
  | succ fuel ih =>
    intro sp hall
    rw [Solver.propagateNonLearntBinLoop, Solver.propagateLoop]
    by_cases hc : sp.qhead < sp.trail.length
    · rw [if_pos (by exact hc), if_pos ⟨hc, rfl⟩]
      have hp : sp.trail[sp.qhead]? = some (sp.trail[sp.qhead]) := List.getElem?_eq_getElem hc
      have hp' : (sp.withBogo b).trail[(sp.withBogo b).qhead]? = some (sp.trail[sp.qhead]) := hp
      rw [hp']
      simp only
      by_cases hlt : (sp.trail[sp.qhead]).toInt < sp.watches.length
      · rw [if_pos (by exact hlt)]
        obtain ⟨h1, h2⟩ := propagateLit_bin sp b _ hall hp hlt
        cases hr : Solver.propNonLearntBinList (sp.trail[sp.qhead]) (sp.ws (sp.trail[sp.qhead]))
            (({ sp with qhead := sp.qhead + 1 } : Solver).withBogo b) .null with
        | error e =>
          have e1 := h1 e hr
          rw [e1]
          exact hr ▸ rfl
        | ok r =>
          obtain ⟨f, c1, tn⟩ := r
          obtain ⟨tp, a1, a2, a3, a4, a5⟩ := h2 f c1 tn hr
          rw [a1]
          have hr' : Solver.propNonLearntBinList (sp.trail[sp.qhead])
              (Solver.ws { sp.withBogo b with qhead := (sp.withBogo b).qhead + 1 }
                (sp.trail[sp.qhead]))
              { sp.withBogo b with qhead := (sp.withBogo b).qhead + 1 } .null
              = .ok (f, c1, tn) := hr
          rw [hr']
          cases f with
          | true =>
            simp only
            rw [a4 rfl, a2]
            exact ih tp (by unfold OnlyNonLearntBin; rw [a3]; exact hall)
          | false =>
            simp only
            rw [propagateLoop_of_conflict fuel tp c1 (a5 rfl).1, a2]
            rfl
      · rw [if_neg (by exact hlt)]
        have : sp.propagateLit .null = .error .bounds := by
          unfold Solver.propagateLit
          rw [hp]
          simp only
          rw [if_neg hlt]
        rw [this]
        rfl
    · rw [if_neg (by exact hc), if_neg (fun h => hc h.1)]; rfl

/-! ## propagateNonLearntBin: frame, skipped watchers, fuel -/

theorem count_set_undef (a : List lbool) (v : Nat) (x : lbool) (hv : a[v]? = some l_Undef)
    (hx : x ≠ l_Undef) : (a.set v x).count l_Undef + 1 = a.count l_Undef := by
  induction a generalizing v with
  | nil => simp at hv
  | cons y a ih =>
    cases v with
    | zero =>
      simp only [List.getElem?_cons_zero, Option.some.injEq] at hv
      subst hv
      simp [List.count_cons, hx]
    | succ v =>
      simp only [List.getElem?_cons_succ] at hv
      simp only [List.set_cons_succ, List.count_cons]
      have := ih v hv
      omega

theorem valueOf_undef {a : List lbool} {l : Lit} (h : valueOf a l = l_Undef)
    (hl : l.var < a.length) : a[l.var]? = some l_Undef := by
  unfold valueOf at h
  rw [List.getD_eq_getElem?_getD, List.getElem?_eq_getElem hl] at h
  rw [List.getElem?_eq_getElem hl]
  simp only [Option.getD_some] at h
  cases hv : a[l.var] <;> cases hs : l.sign <;> simp [hv, hs, lbool.xor] at h ⊢

theorem boolToLBool_ne_undef (b : Bool) : boolToLBool b ≠ l_Undef := by
  cases b <;> simp [boolToLBool]

theorem enqueue_measure {s t : Solver} {l : Lit} {r : PropBy} (h : s.enqueue l r = .ok t)
    (hv : s.value l = l_Undef) :
    undefCount t.assigns + 1 = undefCount s.assigns ∧
      t.trail.length = s.trail.length + 1 ∧ t.qhead = s.qhead := by
  unfold Solver.enqueue at h
  split at h
  · rename_i hl
    injection h with h
    subst h
    refine ⟨?_, by simp, rfl⟩
    exact count_set_undef _ _ _ (valueOf_undef hv hl.1) (boolToLBool_ne_undef _)
  · cases h

theorem propBinaryClause_measure {s t : Solver} {o p : Lit} {c c1 : PropBy} {f : Bool}
    (h : s.propBinaryClause o p c = .ok (f, c1, t)) :
    t.trail.length + undefCount t.assigns = s.trail.length + undefCount s.assigns ∧
      s.trail.length ≤ t.trail.length ∧ (f = true → t.qhead = s.qhead) := by
  unfold Solver.propBinaryClause at h
  split_ifs at h with h1 h2
  · split at h
    · cases h
    · rename_i s1 hs1
      simp only [Except.ok.injEq, Prod.mk.injEq] at h
      obtain ⟨rfl, -, rfl⟩ := h
      have := enqueue_measure hs1 h1
      simp only at this
      refine ⟨by omega, by omega, fun _ => this.2.2⟩
  · simp only [Except.ok.injEq, Prod.mk.injEq] at h
    obtain ⟨rfl, -, rfl⟩ := h
    exact ⟨rfl, Nat.le_refl _, fun e => by cases e⟩
  · simp only [Except.ok.injEq, Prod.mk.injEq] at h
    obtain ⟨rfl, -, rfl⟩ := h
    exact ⟨rfl, Nat.le_refl _, fun _ => rfl⟩

theorem propNonLearntBinList_measure (p : Lit) (ws : List Watched) : ∀ {s t : Solver}
    {c c1 : PropBy} {f : Bool},
    Solver.propNonLearntBinList p ws s c = .ok (f, c1, t) →
    t.watches = s.watches ∧
      t.trail.length + undefCount t.assigns = s.trail.length + undefCount s.assigns ∧
      s.trail.length ≤ t.trail.length ∧ (f = true → t.qhead = s.qhead) := by
  induction ws with
  | nil =>
    intro s t c c1 f h
    simp only [Solver.propNonLearntBinList, Except.ok.injEq, Prod.mk.injEq] at h
    obtain ⟨rfl, -, rfl⟩ := h
    exact ⟨rfl, rfl, Nat.le_refl _, fun _ => rfl⟩
  | cons w ws ih =>
    intro s t c c1 f h
    cases w with
    | binary o learnt =>
      cases learnt with
      | true =>
        simp only [Solver.propNonLearntBinList, if_true] at h
        exact ih h
      | false =>
        simp only [Solver.propNonLearntBinList, Bool.false_eq_true, if_false] at h
        split at h
        · cases h
        · rename_i c2 s1 h1
          obtain ⟨a1, a2, a3⟩ := propBinaryClause_measure h1
          obtain ⟨w1, -⟩ := propBinaryClause_flag h1
          obtain ⟨b0, b1, b2, b3⟩ := ih h
          exact ⟨b0.trans w1, by omega, by omega, fun e => (b3 e).trans (a3 rfl)⟩
        · rename_i c2 s1 h1
          obtain ⟨a1, a2, a3⟩ := propBinaryClause_measure h1
          obtain ⟨w1, -⟩ := propBinaryClause_flag h1
          simp only [Except.ok.injEq, Prod.mk.injEq] at h
          obtain ⟨rfl, -, rfl⟩ := h
          exact ⟨w1, a1, a2, fun e => by cases e⟩
    | tri a b => simp only [Solver.propNonLearntBinList] at h; exact ih h
    | clause a b d => simp only [Solver.propNonLearntBinList] at h; exact ih h

theorem propBinaryClause_error {s : Solver} {o p : Lit} {c : PropBy} {e : Fault}
    (h : s.propBinaryClause o p c = .error e) : e = .bounds := by
  unfold Solver.propBinaryClause at h
  split_ifs at h
  split at h
  · rename_i e1 h1
    injection h with h
    subst h
    exact (enqueue_error h1).1
  · cases h

theorem propNonLearntBinList_error (p : Lit) (ws : List Watched) : ∀ {s : Solver}
    {c : PropBy} {e : Fault},
    Solver.propNonLearntBinList p ws s c = .error e → e = .bounds := by
  induction ws with
  | nil => intro s c e h; simp [Solver.propNonLearntBinList] at h
  | cons w ws ih =>
    intro s c e h
    cases w with
    | binary o learnt =>
      cases learnt with
      | true =>
        simp only [Solver.propNonLearntBinList, if_true] at h
        exact ih h
      | false =>
        simp only [Solver.propNonLearntBinList, Bool.false_eq_true, if_false] at h
        split at h
        · rename_i e1 h1
          injection h with h
          subst h
          exact propBinaryClause_error h1
        · exact ih h
        · cases h
    | tri a b => simp only [Solver.propNonLearntBinList] at h; exact ih h
    | clause a b d => simp only [Solver.propNonLearntBinList] at h; exact ih h

theorem propagateNonLearntBinLoop_frame (fuel : Nat) : ∀ {s t : Solver} {c c1 : PropBy},
    Solver.propagateNonLearntBinLoop fuel s c = .ok (c1, t) → t.watches = s.watches := by
  induction fuel with
  | zero =>
    intro s t c c1 h
    rw [Solver.propagateNonLearntBinLoop] at h
    split_ifs at h
    simp only [Except.ok.injEq, Prod.mk.injEq] at h
    rw [← h.2]
  | succ fuel ih =>
    intro s t c c1 h
    rw [Solver.propagateNonLearntBinLoop] at h
    split_ifs at h
    · split at h
      · cases h
      · split_ifs at h
        simp only at h
        split at h
        · cases h
        · rename_i c2 s2 h1
          exact (ih h).trans (propNonLearntBinList_measure _ _ h1).1
        · rename_i c2 s2 h1
          simp only [Except.ok.injEq, Prod.mk.injEq] at h
          rw [← h.2]
          exact (propNonLearntBinList_measure _ _ h1).1
    · simp only [Except.ok.injEq, Prod.mk.injEq] at h
      rw [← h.2]

theorem propagateNonLearntBinLoop_fuel (fuel : Nat) : ∀ (s : Solver) (c : PropBy),
    (s.trail.length - s.qhead) + undefCount s.assigns ≤ fuel →
    Solver.propagateNonLearntBinLoop fuel s c ≠ .error .fuel := by
  induction fuel with
  | zero =>
    intro s c hm
    rw [Solver.propagateNonLearntBinLoop, if_neg (by omega)]
    exact fun h => by cases h
  | succ fuel ih =>
    intro s c hm
    rw [Solver.propagateNonLearntBinLoop]
    by_cases hc : s.qhead < s.trail.length
    · rw [if_pos hc]
      split
      · exact fun h => by cases h
      · split_ifs
        · simp only
          split
          · rename_i e he
            intro h
            injection h with h
            subst h
            cases propNonLearntBinList_error _ _ he
          · rename_i c2 s2 h1
            obtain ⟨-, a1, a2, a3⟩ := propNonLearntBinList_measure _ _ h1
            have a4 := a3 rfl
            simp only at a1 a2 a4
            exact ih s2 c2 (by omega)
          · exact fun h => by cases h
        · exact fun h => by cases h
    · rw [if_neg hc]
      exact fun h => by cases h

theorem propNonLearntBinList_filter (p : Lit) (ws : List Watched) : ∀ (s : Solver) (c : PropBy),
    Solver.propNonLearntBinList p (ws.filter Watched.isNonLearntBin) s c
      = Solver.propNonLearntBinList p ws s c := by
  induction ws with
  | nil => intro s c; rfl
  | cons w ws ih =>
    intro s c
    cases w with
    | binary o learnt =>
      cases learnt with
      | true =>
        rw [List.filter_cons_of_neg (by simp [Watched.isNonLearntBin])]
        simp only [Solver.propNonLearntBinList, if_true]
        exact ih s c
      | false =>
        rw [List.filter_cons_of_pos (by simp [Watched.isNonLearntBin])]
        simp only [Solver.propNonLearntBinList, Bool.false_eq_true, if_false]
        cases s.propBinaryClause o p c with
        | error e => rfl
        | ok r =>
          obtain ⟨f, c1, s1⟩ := r
          cases f with
          | true => exact ih s1 c1
          | false => rfl
    | tri a b =>
      rw [List.filter_cons_of_neg (by simp [Watched.isNonLearntBin])]
      simp only [Solver.propNonLearntBinList]
      exact ih s c
    | clause a b d =>
      rw [List.filter_cons_of_neg (by simp [Watched.isNonLearntBin])]
      simp only [Solver.propNonLearntBinList]
      exact ih s c

theorem propNonLearntBinList_withW (p : Lit) (W : List (List Watched)) (ws : List Watched) :
    ∀ (s : Solver) (c : PropBy),
    Solver.propNonLearntBinList p ws { s with watches := W } c
      = (Solver.propNonLearntBinList p ws s c).map
          (fun r => (r.1, r.2.1, { r.2.2 with watches := W })) := by
  induction ws with
  | nil => intro s c; rfl
  | cons w ws ih =>
    intro s c
    cases w with
    | binary o learnt =>
      cases learnt with
      | true =>
        simp only [Solver.propNonLearntBinList, if_true]
        exact ih s c
      | false =>
        simp only [Solver.propNonLearntBinList, Bool.false_eq_true, if_false]
        rw [propBinaryClause_withW]
        cases s.propBinaryClause o p c with
        | error e => rfl
        | ok r =>
          obtain ⟨f, c1, s1⟩ := r
          cases f with
          | true => exact ih s1 c1
          | false => rfl
    | tri a b =>
      simp only [Solver.propNonLearntBinList]
      exact ih s c
    | clause a b d =>
      simp only [Solver.propNonLearntBinList]
      exact ih s c

theorem propagateNonLearntBinLoop_withW (W : List (List Watched)) (fuel : Nat) :
    ∀ (s : Solver) (c : PropBy), W.length = s.watches.length →
    (∀ p : Lit, (W.getD p.toInt []).filter Watched.isNonLearntBin
      = (s.ws p).filter Watched.isNonLearntBin) →
    Solver.propagateNonLearntBinLoop fuel { s with watches := W } c
      = (Solver.propagateNonLearntBinLoop fuel s c).map
          (fun r => (r.1, { r.2 with watches := W })) := by
  induction fuel with
  | zero =>
    intro s c _ _
    rw [Solver.propagateNonLearntBinLoop, Solver.propagateNonLearntBinLoop]
    by_cases hc : s.qhead < s.trail.length
    · rw [if_pos (by exact hc), if_pos hc]; rfl
    · rw [if_neg (by exact hc), if_neg hc]; rfl
  | succ fuel ih =>
    intro s c hlen hW
    rw [Solver.propagateNonLearntBinLoop, Solver.propagateNonLearntBinLoop]
    by_cases hc : s.qhead < s.trail.length
    · rw [if_pos (by exact hc), if_pos hc]
      have hp : s.trail[s.qhead]? = some (s.trail[s.qhead]) := List.getElem?_eq_getElem hc
      have hp' : ({ s with watches := W } : Solver).trail[({ s with watches := W } :
          Solver).qhead]? = some (s.trail[s.qhead]) := hp
      rw [hp']
      try rw [hp]
      simp only
      by_cases hlt : (s.trail[s.qhead]).toInt < s.watches.length
      · rw [if_pos (by rw [hlen]; exact hlt), if_pos hlt]
        have e1 : Solver.propNonLearntBinList (s.trail[s.qhead]) (W.getD (s.trail[s.qhead]).toInt [])
            { s with watches := W, qhead := s.qhead + 1 } c
            = (Solver.propNonLearntBinList (s.trail[s.qhead]) (s.ws (s.trail[s.qhead]))
                { s with qhead := s.qhead + 1 } c).map
                (fun r => (r.1, r.2.1, { r.2.2 with watches := W })) := by
          rw [← propNonLearntBinList_filter, hW, propNonLearntBinList_filter]
          exact propNonLearntBinList_withW _ W _ { s with qhead := s.qhead + 1 } c
        have e2 : Solver.propNonLearntBinList (s.trail[s.qhead])
            (Solver.ws { ({ s with watches := W } : Solver) with
              qhead := ({ s with watches := W } : Solver).qhead + 1 } (s.trail[s.qhead]))
            { ({ s with watches := W } : Solver) with
              qhead := ({ s with watches := W } : Solver).qhead + 1 } c
            = (Solver.propNonLearntBinList (s.trail[s.qhead]) (s.ws (s.trail[s.qhead]))
                { s with qhead := s.qhead + 1 } c).map
                (fun r => (r.1, r.2.1, { r.2.2 with watches := W })) := e1
        rw [e2]
        cases hr : Solver.propNonLearntBinList (s.trail[s.qhead]) (s.ws (s.trail[s.qhead]))
            { s with qhead := s.qhead + 1 } c with
        | error e =>
          have hr' : Solver.propNonLearntBinList (s.trail[s.qhead])
              (Solver.ws { s with qhead := s.qhead + 1 } (s.trail[s.qhead]))
              { s with qhead := s.qhead + 1 } c = .error e := hr
          rw [hr']
          rfl
        | ok r =>
          obtain ⟨f, c1, s2⟩ := r
          have hr' : Solver.propNonLearntBinList (s.trail[s.qhead])
              (Solver.ws { s with qhead := s.qhead + 1 } (s.trail[s.qhead]))
              { s with qhead := s.qhead + 1 } c = .ok (f, c1, s2) := hr
          rw [hr']
          have hw2 : s2.watches = s.watches := (propNonLearntBinList_measure _ _ hr).1
          cases f with
          | true =>
            simp only [Except.map]
            exact ih s2 c1 (by rw [hw2]; exact hlen)
              (fun q => by rw [hW q]; unfold Solver.ws; rw [hw2])
          | false => rfl
      · rw [if_neg (by rw [hlen]; exact hlt), if_neg hlt]
        rfl
    · rw [if_neg (by exact hc), if_neg hc]; rfl

theorem keepNonLearntBin_getD (s : Solver) (p : Lit) :
    (s.keepNonLearntBin.watches.getD p.toInt []).filter Watched.isNonLearntBin
      = (s.ws p).filter Watched.isNonLearntBin := by
  unfold Solver.keepNonLearntBin Solver.ws
  simp only [List.getD_eq_getElem?_getD, List.getElem?_map]
  cases s.watches[p.toInt]? with
  | none => rfl
  | some ws => simp

/-! ## propagateNonLearntBin against propagate -/

theorem propagateNonLearntBin_eq (s : Solver) (h : OnlyNonLearntBin s) :
    s.propagateNonLearntBin
      = (s.propagate).map (fun r => (r.1, r.2.withBogo s.bogoProps)) := by
  unfold Solver.propagateNonLearntBin Solver.propagate
  exact loop_bin s.bogoProps s.propagateFuel s h

theorem propagateNonLearntBin_fuel (s : Solver) : s.propagateNonLearntBin ≠ .error .fuel := by
  unfold Solver.propagateNonLearntBin
  exact propagateNonLearntBinLoop_fuel _ s .null (Nat.le_refl _)

/-- C13: on a state whose watchlists hold non-learnt binary watchers only,
`propagateNonLearntBin` returns what `propagate` returns, with the same final
state up to the counter `bogoProps` (so the same conflict reason, trail,
assignments, reasons, `qhead`, `failBinLit` and watchlists), and neither runs
out of fuel. On every state `propagateNonLearntBin` terminates, leaves every
watchlist as it was, and gives the same result when all learnt and non-binary
watchers are removed beforehand: it never enqueues through one of them. -/
theorem propagateNonLearntBin_refines :
    (∀ s : Solver, OnlyNonLearntBin s →
      s.propagateNonLearntBin
        = (s.propagate).map (fun r => (r.1, r.2.withBogo s.bogoProps)) ∧
      (∀ c t, s.propagate = .ok (c, t) →
        ∃ t', s.propagateNonLearntBin = .ok (c, t') ∧ t'.trail = t.trail ∧
          t'.assigns = t.assigns ∧ t'.varData = t.varData ∧ t'.qhead = t.qhead ∧
          t'.failBinLit = t.failBinLit ∧ t'.watches = t.watches) ∧
      (∀ c t', s.propagateNonLearntBin = .ok (c, t') →
        ∃ t, s.propagate = .ok (c, t) ∧ t'.trail = t.trail ∧
          t'.assigns = t.assigns ∧ t'.varData = t.varData ∧ t'.qhead = t.qhead ∧
          t'.failBinLit = t.failBinLit ∧ t'.watches = t.watches) ∧
      s.propagate ≠ .error .fuel) ∧
    (∀ s : Solver, s.propagateNonLearntBin ≠ .error .fuel) ∧
    (∀ (s : Solver) (c : PropBy) (t : Solver),
      s.propagateNonLearntBin = .ok (c, t) → t.watches = s.watches) ∧
    (∀ s : Solver, s.keepNonLearntBin.propagateNonLearntBin
      = (s.propagateNonLearntBin).map
          (fun r => (r.1, { r.2 with watches := s.keepNonLearntBin.watches }))) := by
  refine ⟨fun s h => ?_, propagateNonLearntBin_fuel, fun s c t h => ?_, fun s => ?_⟩
  · have e := propagateNonLearntBin_eq s h
    refine ⟨e, fun c t ht => ?_, fun c t' ht' => ?_, fun hf => ?_⟩
    · rw [ht] at e
      exact ⟨_, e, rfl, rfl, rfl, rfl, rfl, rfl⟩
    · cases hp : s.propagate with
      | error x => rw [hp, ht'] at e; cases e
      | ok r =>
        obtain ⟨c1, t⟩ := r
        rw [hp, ht'] at e
        simp only [Except.map, Except.ok.injEq, Prod.mk.injEq] at e
        obtain ⟨rfl, rfl⟩ := e
        exact ⟨t, rfl, rfl, rfl, rfl, rfl, rfl, rfl⟩
    · rw [hf] at e
      exact propagateNonLearntBin_fuel s e
  · unfold Solver.propagateNonLearntBin at h
    exact propagateNonLearntBinLoop_frame _ h
  · unfold Solver.propagateNonLearntBin
    have hW := propagateNonLearntBinLoop_withW s.keepNonLearntBin.watches s.propagateFuel s .null
      (by simp [Solver.keepNonLearntBin]) (keepNonLearntBin_getD s)
    exact hW

theorem propagateNonLearntBin_refines_witness :
    OnlyNonLearntBin exS5 ∧
    exS5.propagateNonLearntBin
      = (exS5.propagate).map (fun r => (r.1, r.2.withBogo exS5.bogoProps)) ∧
    (exS5.propagateNonLearntBin).map (fun r => (r.1, r.2.trail, r.2.qhead))
      = .ok (.null, [posLit 1, posLit 2, posLit 3, posLit 4], 4) :=
  ⟨by unfold OnlyNonLearntBin; decide,
    (propagateNonLearntBin_refines.1 exS5 (by unfold OnlyNonLearntBin; decide)).1,
    by decide⟩

/-! ## propagate keeps the trail True and the binary watchers -/

theorem trailTrue_congr {s t : Solver} (ha : t.assigns = s.assigns) (ht : t.trail = s.trail)
    (h : TrailTrue s) : TrailTrue t := by
  intro l hl
  rw [ht] at hl
  rw [Solver.value_congr ha]
  exact h l hl

theorem trailTrue_enq {s t : Solver} {l : Lit} {r : PropBy} (he : Enq s t l r)
    (hl : s.value l = l_Undef) (h : TrailTrue s) : TrailTrue t := by
  intro x hx
  rw [he.2.2.2.1] at hx
  rcases List.mem_append.mp hx with hx | hx
  · rw [he.value_of_assigned hl (by rw [h x hx]; simp)]
    exact h x hx
  · simp only [List.mem_singleton] at hx
    subst hx
    exact he.value_self

theorem binSame_refl (s : Solver) : BinSame s s := ⟨rfl, fun _ => rfl⟩

theorem binSame_trans {s t u : Solver} (h1 : BinSame s t) (h2 : BinSame t u) : BinSame s u :=
  ⟨h2.1.trans h1.1, fun i => (h2.2 i).trans (h1.2 i)⟩

theorem binSame_of_watches {s t : Solver} (h : t.watches = s.watches) : BinSame s t := by
  unfold BinSame
  rw [h]
  exact ⟨rfl, fun _ => rfl⟩

theorem binsOf_set_ne (W : List (List Watched)) (P i : Nat) (x : List Watched) (h : P ≠ i) :
    binsOf (W.set P x) i = binsOf W i := by
  unfold binsOf
  rw [getD_set_ne _ _ _ _ _ h]

theorem binsOf_set_self (W : List (List Watched)) (P : Nat) (x : List Watched)
    (h : P < W.length) : binsOf (W.set P x) P = x.filter Watched.isBinary := by
  unfold binsOf
  rw [getD_set_self _ _ _ _ h]

theorem binsOf_set_same (W : List (List Watched)) (P : Nat) (x : List Watched)
    (hx : x.filter Watched.isBinary = binsOf W P) (i : Nat) :
    binsOf (W.set P x) i = binsOf W i := by
  by_cases hi : P = i
  · subst hi
    by_cases hP : P < W.length
    · rw [binsOf_set_self _ _ _ hP, hx]
    · rw [List.set_eq_of_length_le (by omega)]
  · exact binsOf_set_ne _ _ _ _ hi

theorem filter_eraseIdx_of_false {α : Type} (f : α → Bool) (l : List α) (k : Nat) (w : α)
    (hk : l[k]? = some w) (hw : f w = false) : (l.eraseIdx k).filter f = l.filter f := by
  induction l generalizing k with
  | nil => simp at hk
  | cons a l ih =>
    cases k with
    | zero =>
      simp only [List.getElem?_cons_zero, Option.some.injEq] at hk
      subst hk
      simp [List.eraseIdx_cons_zero, hw]
    | succ k =>
      simp only [List.getElem?_cons_succ] at hk
      simp only [List.eraseIdx_cons_succ, List.filter_cons]
      rw [ih k hk]

theorem binSame_setWs {s : Solver} (p : Lit) (x : List Watched)
    (hx : x.filter Watched.isBinary = (s.ws p).filter Watched.isBinary) :
    BinSame s (s.setWs p x) := by
  refine ⟨by simp [Solver.setWs], fun i => ?_⟩
  exact binsOf_set_same _ _ _ hx i

theorem binSame_pushWs {s t : Solver} {l : Lit} {w : Watched} (h : s.pushWs l w = .ok t)
    (hw : w.isBinary = false) : BinSame s t := by
  unfold Solver.pushWs at h
  split_ifs at h
  injection h with h
  subst h
  apply binSame_setWs
  rw [List.filter_append]
  simp [hw]

theorem propBinaryClause_trailTrue {s t : Solver} {o p : Lit} {c c1 : PropBy} {b : Bool}
    (h : s.propBinaryClause o p c = .ok (b, c1, t)) (hT : TrailTrue s) :
    TrailTrue t ∧ t.watches = s.watches := by
  obtain ⟨hw, h⟩ := propBinaryClause_inv h
  refine ⟨?_, hw⟩
  rcases h with ⟨hu, -, -, he⟩ | ⟨-, -, -, hs, -⟩ | ⟨-, -, -, rfl⟩
  · exact trailTrue_enq he hu hT
  · exact trailTrue_congr hs.1 hs.2.1 hT
  · exact hT

theorem propTriClause_trailTrue {s t : Solver} {a a2 p : Lit} {c c1 : PropBy} {b : Bool}
    (h : s.propTriClause a a2 p c = .ok (b, c1, t)) (hT : TrailTrue s) :
    TrailTrue t ∧ t.watches = s.watches := by
  obtain ⟨hw, h⟩ := propTriClause_inv h
  refine ⟨?_, hw⟩
  rcases h with ⟨hu, -, -, -, he⟩ | ⟨-, hu, -, -, he⟩ | ⟨-, -, -, -, hs, -⟩ | ⟨-, -, -, rfl⟩
  · exact trailTrue_enq he hu hT
  · exact trailTrue_enq he hu hT
  · exact trailTrue_congr hs.1 hs.2.1 hT
  · exact hT

theorem propNormalCore_trailTrue {s t : Solver} {off : Nat} {blk p : Lit} {wn : Bool}
    {c c1 : PropBy} {b : Bool} {act : LongAct}
    (h : s.propNormalCore off blk wn p c = .ok (b, act, c1, t)) (hT : TrailTrue s) :
    TrailTrue t ∧ t.watches = s.watches ∧
      (∀ l w1, act = .relocate l w1 → w1.isBinary = false) := by
  obtain ⟨hw, h⟩ := propNormalCore_inv h
  rcases h with ⟨-, -, ha, -, rfl⟩ | ⟨cl, d, lo, -, -, -, -, -, h⟩
  · exact ⟨hT, hw, fun l w1 e => by rw [ha] at e; cases e⟩
  · rcases h with ⟨-, -, ha, -, hs, -⟩ | ⟨-, k, -, -, ha, -, hr⟩ | ⟨-, -, -, ha, -, hs, -⟩ |
      ⟨-, hu, -, ha, -, he⟩
    · exact ⟨trailTrue_congr hs.1 hs.2.1 hT, hw, fun l w1 e => by rw [ha] at e; cases e⟩
    · refine ⟨trailTrue_congr hr.1 hr.2.1 hT, hw, fun l w1 e => ?_⟩
      rw [ha] at e
      injection e with _ e2
      rw [← e2]
      rfl
    · exact ⟨trailTrue_congr hs.1 hs.2.1 hT, hw, fun l w1 e => by rw [ha] at e; cases e⟩
    · exact ⟨trailTrue_enq he hu hT, hw, fun l w1 e => by rw [ha] at e; cases e⟩

theorem absStep_pres {s t : Solver} {p : Lit} {k k1 : Nat} {w : Watched} {c c1 : PropBy}
    {b : Bool} (h : s.absStep p k w c = .ok (b, k1, c1, t)) (hw : (s.ws p)[k]? = some w)
    (hT : TrailTrue s) : TrailTrue t ∧ BinSame s t := by
  unfold Solver.absStep at h
  cases w with
  | binary o lr =>
    simp only at h
    split at h
    · cases h
    · rename_i b2 c2 s1 h1
      simp only [Except.ok.injEq, Prod.mk.injEq] at h
      obtain ⟨-, -, -, rfl⟩ := h
      obtain ⟨a1, a2⟩ := propBinaryClause_trailTrue h1 hT
      exact ⟨a1, binSame_of_watches a2⟩
  | tri a a2 =>
    simp only at h
    split at h
    · cases h
    · rename_i b2 c2 s1 h1
      simp only [Except.ok.injEq, Prod.mk.injEq] at h
      obtain ⟨-, -, -, rfl⟩ := h
      obtain ⟨a1, a2⟩ := propTriClause_trailTrue h1 hT
      exact ⟨a1, binSame_of_watches a2⟩
  | clause off blk wn =>
    simp only at h
    split at h
    · cases h
    · rename_i b2 c2 s1 h1
      simp only [Except.ok.injEq, Prod.mk.injEq] at h
      obtain ⟨-, -, -, rfl⟩ := h
      obtain ⟨a1, a2, -⟩ := propNormalCore_trailTrue h1 hT
      exact ⟨a1, binSame_of_watches a2⟩
    · rename_i b2 l w1 c2 s1 h1
      obtain ⟨a1, a2, a3⟩ := propNormalCore_trailTrue h1 hT
      split at h
      · cases h
      · rename_i s2 h2
        simp only [Except.ok.injEq, Prod.mk.injEq] at h
        obtain ⟨-, -, -, rfl⟩ := h
        have hws : s1.ws p = s.ws p := by unfold Solver.ws; rw [a2]
        have e1 : BinSame s1 (s1.setWs p ((s1.ws p).eraseIdx k)) := by
          apply binSame_setWs
          exact filter_eraseIdx_of_false _ _ _ (.clause off blk wn) (by rw [hws]; exact hw) rfl
        have e2 := binSame_pushWs h2 (a3 l w1 rfl)
        have e0 : BinSame s s1 := binSame_of_watches a2
        refine ⟨?_, binSame_trans e0 (binSame_trans e1 e2)⟩
        obtain ⟨-, e⟩ := Solver.pushWs_ok h2
        rw [e]
        exact trailTrue_congr rfl rfl a1

theorem absScan_pres (p : Lit) (n : Nat) : ∀ {k : Nat} {s t : Solver} {c c1 : PropBy},
    Solver.absScan p n k s c = .ok (c1, t) → TrailTrue s → TrailTrue t ∧ BinSame s t := by
  induction n with
  | zero =>
    intro k s t c c1 h hT
    simp only [Solver.absScan, Except.ok.injEq, Prod.mk.injEq] at h
    obtain ⟨-, rfl⟩ := h
    exact ⟨hT, binSame_refl _⟩
  | succ n ih =>
    intro k s t c c1 h hT
    rw [Solver.absScan] at h
    split at h
    · cases h
    · rename_i w hw
      split at h
      · cases h
      · rename_i k1 c2 s1 h1
        obtain ⟨a1, a2⟩ := absStep_pres h1 hw hT
        obtain ⟨b1, b2⟩ := ih h a1
        exact ⟨b1, binSame_trans a2 b2⟩
      · rename_i k1 c2 s1 h1
        simp only [Except.ok.injEq, Prod.mk.injEq] at h
        obtain ⟨-, rfl⟩ := h
        exact absStep_pres h1 hw hT

theorem absLit_pres {s t : Solver} {c c1 : PropBy} (h : s.absLit c = .ok (c1, t))
    (hT : TrailTrue s) : TrailTrue t ∧ BinSame s t := by
  unfold Solver.absLit at h
  split at h
  · cases h
  · split_ifs at h
    simp only at h
    have := absScan_pres _ _ h (trailTrue_congr rfl rfl hT)
    exact ⟨this.1, binSame_trans (binSame_of_watches rfl) this.2⟩

theorem propagateLit_pres {s t : Solver} {c c1 : PropBy} (h : s.propagateLit c = .ok (c1, t))
    (hT : TrailTrue s) : TrailTrue t ∧ BinSame s t := by
  rw [propagateLit_eq_absLit s c (fun p hp => hT p (List.getElem?_mem hp))] at h
  exact absLit_pres h hT

theorem propagateLoop_pres (fuel : Nat) : ∀ {s t : Solver} {c c1 : PropBy},
    Solver.propagateLoop fuel s c = .ok (c1, t) → TrailTrue s → TrailTrue t ∧ BinSame s t := by
  induction fuel with
  | zero =>
    intro s t c c1 h hT
    rw [Solver.propagateLoop] at h
    split_ifs at h
    simp only [Except.ok.injEq, Prod.mk.injEq] at h
    obtain ⟨-, rfl⟩ := h
    exact ⟨hT, binSame_refl _⟩
  | succ fuel ih =>
    intro s t c c1 h hT
    rw [Solver.propagateLoop] at h
    split_ifs at h
    · split at h
      · cases h
      · rename_i c2 s1 h1
        obtain ⟨a1, a2⟩ := propagateLit_pres h1 hT
        obtain ⟨b1, b2⟩ := ih h a1
        exact ⟨b1, binSame_trans a2 b2⟩
    · simp only [Except.ok.injEq, Prod.mk.injEq] at h
      obtain ⟨-, rfl⟩ := h
      exact ⟨hT, binSame_refl _⟩

theorem propagate_pres {s t : Solver} {c : PropBy} (h : s.propagate = .ok (c, t))
    (hT : TrailTrue s) : TrailTrue t ∧ BinSame s t :=
  propagateLoop_pres _ h hT

/-! ## Counting binary watchers -/

theorem isBinary_of_isBinLearnt {b : Bool} {w : Watched} (h : w.isBinLearnt b = true) :
    w.isBinary = true := by
  cases w <;> simp_all [Watched.isBinLearnt, Watched.isBinary]

theorem countP_filter_isBinary (b : Bool) (ws : List Watched) :
    (ws.filter Watched.isBinary).countP (Watched.isBinLearnt b)
      = ws.countP (Watched.isBinLearnt b) := by
  induction ws with
  | nil => rfl
  | cons w ws ih =>
    by_cases hw : w.isBinary = true
    · rw [List.filter_cons_of_pos hw, List.countP_cons, List.countP_cons, ih]
    · rw [List.filter_cons_of_neg hw, List.countP_cons, ih]
      have : w.isBinLearnt b = false := by
        cases hb : w.isBinLearnt b
        · rfl
        · exact absurd (isBinary_of_isBinLearnt hb) hw
      simp [this]

theorem binWatchers_eq_of_binsOf (b : Bool) (W W' : List (List Watched))
    (hlen : W'.length = W.length) (h : ∀ i, binsOf W' i = binsOf W i) :
    binWatchers b W' = binWatchers b W := by
  unfold binWatchers
  congr 1
  apply List.ext_getElem (by simp [hlen])
  intro i h1 h2
  simp only [List.length_map] at h1 h2
  simp only [List.getElem_map]
  have e := h i
  unfold binsOf at e
  rw [List.getD_eq_getElem?_getD, List.getD_eq_getElem?_getD, List.getElem?_eq_getElem h1,
    List.getElem?_eq_getElem h2] at e
  simp only [Option.getD_some] at e
  rw [← countP_filter_isBinary b W'[i], ← countP_filter_isBinary b W[i], e]

theorem binWatchers_of_binSame (b : Bool) {s t : Solver} (h : BinSame s t) :
    binWatchers b t.watches = binWatchers b s.watches :=
  binWatchers_eq_of_binsOf b _ _ h.1 h.2

theorem sum_set_nat (l : List Nat) (i v : Nat) (h : i < l.length) :
    (l.set i v).sum + l[i] = l.sum + v := by
  induction l generalizing i with
  | nil => simp at h
  | cons a l ih =>
    cases i with
    | zero => simp; omega
    | succ i =>
      simp only [List.set_cons_succ, List.sum_cons, List.getElem_cons_succ]
      have := ih i (by simpa using h)
      omega

theorem binWatchers_set (b : Bool) (W : List (List Watched)) (i : Nat) (x : List Watched)
    (h : i < W.length) :
    binWatchers b (W.set i x) + (W.getD i []).countP (Watched.isBinLearnt b)
      = binWatchers b W + x.countP (Watched.isBinLearnt b) := by
  unfold binWatchers
  rw [List.map_set]
  have := sum_set_nat (W.map (fun ws => ws.countP (Watched.isBinLearnt b))) i
    (x.countP (Watched.isBinLearnt b)) (by simpa using h)
  rw [List.getElem_map] at this
  rw [List.getD_eq_getElem?_getD, List.getElem?_eq_getElem h]
  exact this

theorem countP_pushBinary (f : Watched → Bool) (ws : List Watched) (w : Watched)
    (hw : w.isBinary = true) :
    (pushBinary ws w).countP f = ws.countP f + (if f w = true then 1 else 0) := by
  obtain ⟨pre, post, h1, -, h3, -⟩ := binInserted_pushBinary ws w hw
  rw [h1, ← h3.countP_eq f]
  simp only [List.countP_append, List.countP_cons]
  omega

theorem attachBinClause_binWatchers (b : Bool) {s t : Solver} {x y : Lit} {learnt : Bool}
    (h : s.attachBinClause x y learnt = .ok t) :
    binWatchers b t.watches = binWatchers b s.watches + (if learnt = b then 2 else 0) ∧
      t.assigns = s.assigns ∧ t.trail = s.trail := by
  obtain ⟨hx, hy⟩ := attachBinClause_ok h
  rw [attachBinClause_of_lt s x y learnt hx hy] at h
  injection h with h
  subst h
  refine ⟨?_, rfl, rfl⟩
  simp only [Solver.setWs, Solver.ws]
  have e1 := binWatchers_set b s.watches x.neg.toInt
    (pushBinary (s.watches.getD x.neg.toInt []) (.binary y learnt)) hx
  have e2 := binWatchers_set b
    (s.watches.set x.neg.toInt (pushBinary (s.watches.getD x.neg.toInt []) (.binary y learnt)))
    y.neg.toInt
    (pushBinary ((s.watches.set x.neg.toInt
      (pushBinary (s.watches.getD x.neg.toInt []) (.binary y learnt))).getD y.neg.toInt [])
      (.binary x learnt)) (by simpa using hy)
  rw [countP_pushBinary _ _ (.binary y learnt) rfl] at e1
  rw [countP_pushBinary _ _ (.binary x learnt) rfl] at e2
  have f1 : (Watched.binary y learnt).isBinLearnt b = true ↔ learnt = b := by
    simp [Watched.isBinLearnt]
  have f2 : (Watched.binary x learnt).isBinLearnt b = true ↔ learnt = b := by
    simp [Watched.isBinLearnt]
  simp only [f1, f2] at e1 e2
  split_ifs at e1 e2 ⊢ <;> omega

theorem attachClause_binSame {s t : Solver} {off p1 p2 : Nat} {chk : Bool}
    (h : s.attachClause off p1 p2 chk = .ok t) :
    BinSame s t ∧ t.assigns = s.assigns ∧ t.trail = s.trail := by
  obtain ⟨c, l1, l2, -, -, -, -, -, -, h⟩ := attachClause_inv h
  rcases h with ⟨c0, c1, c2, s1, s2, -, h1, h2, h3⟩ | ⟨-, blk, s1, s2, -, h1, h2, rfl⟩
  · have e1 := binSame_pushWs h1 rfl
    have e2 := binSame_pushWs h2 rfl
    have e3 := binSame_pushWs h3 rfl
    obtain ⟨-, r1⟩ := Solver.pushWs_ok h1
    obtain ⟨-, r2⟩ := Solver.pushWs_ok h2
    obtain ⟨-, r3⟩ := Solver.pushWs_ok h3
    refine ⟨binSame_trans e1 (binSame_trans e2 e3), ?_, ?_⟩
    · rw [r3, r2, r1]; rfl
    · rw [r3, r2, r1]; rfl
  · have e1 := binSame_pushWs h1 rfl
    have e2 := binSame_pushWs h2 rfl
    obtain ⟨-, r1⟩ := Solver.pushWs_ok h1
    obtain ⟨-, r2⟩ := Solver.pushWs_ok h2
    refine ⟨binSame_trans e1 (binSame_trans e2 (binSame_of_watches rfl)), ?_, ?_⟩
    · show s2.assigns = s.assigns
      rw [r2, r1]; rfl
    · show s2.trail = s.trail
      rw [r2, r1]; rfl

theorem decide_pres {s t : Solver} {l : Lit} (hl : s.value l = l_Undef)
    (h : s.decide l = .ok t) (hT : TrailTrue s) : TrailTrue t ∧ t.watches = s.watches := by
  unfold Solver.decide at h
  obtain ⟨he, hw⟩ := enqueue_inv h
  exact ⟨trailTrue_enq he hl (trailTrue_congr rfl rfl hT), hw⟩

theorem valueOf_append {a : List lbool} {l : Lit} (x : List lbool) (h : l.var < a.length) :
    valueOf (a ++ x) l = valueOf a l := by
  unfold valueOf
  rw [List.getD_eq_getElem?_getD, List.getD_eq_getElem?_getD, List.getElem?_append_left h]

theorem binWatchers_append_nil (b : Bool) (W : List (List Watched)) :
    binWatchers b (W ++ [[], []]) = binWatchers b W := by
  unfold binWatchers
  simp

theorem newVar_pres {s t : Solver} {v : Nat} (h : s.newVar = .ok (v, t)) (hT : TrailTrue s)
    (b : Bool) : TrailTrue t ∧ binWatchers b t.watches = binWatchers b s.watches := by
  unfold Solver.newVar at h
  simp only at h
  split_ifs at h
  simp only [Except.ok.injEq, Prod.mk.injEq] at h
  obtain ⟨-, rfl⟩ := h
  refine ⟨?_, ?_⟩
  · intro l hl
    have := hT l hl
    show valueOf (s.assigns ++ [l_Undef]) l = l_True
    rw [valueOf_append _ (Solver.var_lt_of_value (by rw [this]; simp))]
    exact this
  · show binWatchers b (resizeList s.watches (s.watches.length + 2) []) = _
    unfold resizeList
    rw [List.take_of_length_le (by omega)]
    have e : s.watches.length + 2 - s.watches.length = 2 := by omega
    rw [e]
    exact binWatchers_append_nil b _

theorem binWatchers_of_all_nil (b : Bool) (W : List (List Watched)) (h : ∀ ws ∈ W, ws = []) :
    binWatchers b W = 0 := by
  unfold binWatchers
  apply List.sum_eq_zero
  intro x hx
  simp only [List.mem_map] at hx
  obtain ⟨ws, hws, rfl⟩ := hx
  rw [h ws hws]
  rfl

theorem reach_inv {nl nn : Nat} {s : Solver} (h : Reach nl nn s) :
    TrailTrue s ∧ binWatchers true s.watches = 2 * nl ∧
      binWatchers false s.watches = 2 * nn := by
  induction h with
  | init s h0 hT =>
    exact ⟨hT, by rw [binWatchers_of_all_nil _ _ h0], by rw [binWatchers_of_all_nil _ _ h0]⟩
  | attachBin a b learnt _ h ih =>
    obtain ⟨hT, h1, h2⟩ := ih
    obtain ⟨e1, e2, e3⟩ := attachBinClause_binWatchers true h
    obtain ⟨f1, -, -⟩ := attachBinClause_binWatchers false h
    refine ⟨trailTrue_congr e2 e3 hT, ?_, ?_⟩
    · rw [e1, h1]; cases learnt <;> simp <;> omega
    · rw [f1, h2]; cases learnt <;> simp <;> omega
  | attach off p1 p2 chk _ h ih =>
    obtain ⟨hT, h1, h2⟩ := ih
    obtain ⟨e1, e2, e3⟩ := attachClause_binSame h
    exact ⟨trailTrue_congr e2 e3 hT, by rw [binWatchers_of_binSame true e1, h1],
      by rw [binWatchers_of_binSame false e1, h2]⟩
  | propagate c _ h ih =>
    obtain ⟨hT, h1, h2⟩ := ih
    obtain ⟨e1, e2⟩ := propagate_pres h hT
    exact ⟨e1, by rw [binWatchers_of_binSame true e2, h1],
      by rw [binWatchers_of_binSame false e2, h2]⟩
  | decide l _ hl h ih =>
    obtain ⟨hT, h1, h2⟩ := ih
    obtain ⟨e1, e2⟩ := decide_pres hl h hT
    exact ⟨e1, by rw [e2, h1], by rw [e2, h2]⟩
  | newVar v _ h ih =>
    obtain ⟨hT, h1, h2⟩ := ih
    exact ⟨(newVar_pres h hT true).1, by rw [(newVar_pres h hT true).2, h1],
      by rw [(newVar_pres h hT false).2, h2]⟩

/-! ## countNumBinClauses -/

theorem countBinWs_eq (aL aN : Bool) (ws : List Watched) : ∀ (num : Nat), num < 2 ^ 32 →
    countBinWs aL aN ws num
      = (num + ((if aL then ws.countP (Watched.isBinLearnt true) else 0)
          + (if aN then ws.countP (Watched.isBinLearnt false) else 0))) % 2 ^ 32 := by
  induction ws with
  | nil =>
    intro num h
    simp only [countBinWs, List.countP_nil, ite_self, Nat.add_zero]
    exact (Nat.mod_eq_of_lt h).symm
  | cons w ws ih =>
    intro num h
    cases w with
    | binary o learnt =>
      cases learnt with
      | true =>
        simp only [countBinWs, if_true]
        rw [ih _ (Nat.mod_lt _ (by norm_num))]
        simp only [List.countP_cons, Watched.isBinLearnt, beq_self_eq_true, if_true]
        have e : (false == true) = false := rfl
        have e' : (true == false) = false := rfl
        simp only [e, e', Bool.false_eq_true, if_false, Nat.add_zero]
        cases aL <;> cases aN <;> simp [Nat.add_mod] <;> omega
      | false =>
        simp only [countBinWs, Bool.false_eq_true, if_false]
        rw [ih _ (Nat.mod_lt _ (by norm_num))]
        simp only [List.countP_cons, Watched.isBinLearnt, beq_self_eq_true, if_true]
        have e : (false == true) = false := rfl
        have e' : (true == false) = false := rfl
        simp only [e, e', Bool.false_eq_true, if_false, Nat.add_zero]
        cases aL <;> cases aN <;> simp [Nat.add_mod] <;> omega
    | tri a b =>
      simp only [countBinWs, List.countP_cons, Watched.isBinLearnt, Bool.false_eq_true,
        if_false, Nat.add_zero]
      exact ih num h
    | clause a b c =>
      simp only [countBinWs, List.countP_cons, Watched.isBinLearnt, Bool.false_eq_true,
        if_false, Nat.add_zero]
      exact ih num h

theorem countBinAll_eq (aL aN : Bool) (W : List (List Watched)) : ∀ (num : Nat), num < 2 ^ 32 →
    countBinAll aL aN W num
      = (num + ((if aL then binWatchers true W else 0)
          + (if aN then binWatchers false W else 0))) % 2 ^ 32 := by
  induction W with
  | nil =>
    intro num h
    simp only [countBinAll, binWatchers, List.map_nil, List.sum_nil, ite_self, Nat.add_zero]
    exact (Nat.mod_eq_of_lt h).symm
  | cons ws W ih =>
    intro num h
    rw [countBinAll, countBinWs_eq aL aN ws num h, ih _ (Nat.mod_lt _ (by norm_num))]
    simp only [binWatchers, List.map_cons, List.sum_cons]
    cases aL <;> cases aN <;> simp [Nat.add_mod] <;> omega

theorem countNumBinClauses_eq (s : Solver) (aL aN : Bool) (m : Nat)
    (h : (if aL then binWatchers true s.watches else 0)
      + (if aN then binWatchers false s.watches else 0) = 2 * m) :
    s.countNumBinClauses aL aN = .ok (m % 2 ^ 31) := by
  unfold Solver.countNumBinClauses
  simp only
  rw [countBinAll_eq aL aN s.watches 0 (by norm_num), Nat.zero_add, h]
  have e : (2 * m) % 2 ^ 32 = 2 * (m % 2 ^ 31) := by omega
  rw [e, if_pos (by omega)]
  congr 1
  omega

theorem countNumBinClauses_of_reach {nl nn : Nat} {s : Solver} (h : Reach nl nn s)
    (aL aN : Bool) :
    s.countNumBinClauses aL aN
      = .ok (((if aL then nl else 0) + (if aN then nn else 0)) % 2 ^ 31) := by
  obtain ⟨-, h1, h2⟩ := reach_inv h
  apply countNumBinClauses_eq
  rw [h1, h2]
  cases aL <;> cases aN <;> simp <;> omega

/-- C17 (as amended): in every state reached from empty watchlists by `nl`
calls of `attachBinClause` with `learnt = true` and `nn` calls with
`learnt = false`, interleaved with any calls of `attachClause`, `propagate`,
decisions and `newVar`, the assertion of `countNumBinClauses` holds and the
result is `(alsoLearnt ? nl : 0) + (alsoNonLearnt ? nn : 0)` reduced modulo
`2 ^ 31`, the counter being a `uint32_t`; it is the sum itself when the sum is
below `2 ^ 31`. -/
theorem countNumBinClauses_reach (nl nn : Nat) (s : Solver) (alsoLearnt alsoNonLearnt : Bool)
    (h : Reach nl nn s) :
    s.countNumBinClauses alsoLearnt alsoNonLearnt
      = .ok (((if alsoLearnt then nl else 0) + (if alsoNonLearnt then nn else 0)) % 2 ^ 31) ∧
    ((if alsoLearnt then nl else 0) + (if alsoNonLearnt then nn else 0) < 2 ^ 31 →
      s.countNumBinClauses alsoLearnt alsoNonLearnt
        = .ok ((if alsoLearnt then nl else 0) + (if alsoNonLearnt then nn else 0))) := by
  have e := countNumBinClauses_of_reach h alsoLearnt alsoNonLearnt
  refine ⟨e, fun hlt => ?_⟩
  rw [e, Nat.mod_eq_of_lt hlt]

theorem reach_exTwoBins : Reach 1 1 exTwoBins := by
  have h0 : Reach 0 0 (freshSolver 3) :=
    Reach.init _ (by decide) (by intro l hl; cases hl)
  have h1 := Reach.attachBin (negLit 1) (posLit 2) true h0
    (by decide : (freshSolver 3).attachBinClause (negLit 1) (posLit 2) true = .ok
      { freshSolver 3 with
        watches := [[], [], [.binary (posLit 2) true], [], [], [.binary (negLit 1) true]] })
  have h2 := Reach.attachBin (negLit 2) (posLit 1) false h1
    (by decide : Solver.attachBinClause _ (negLit 2) (posLit 1) false = .ok exTwoBins)
  exact h2

theorem countNumBinClauses_reach_witness :
    Reach 1 1 exTwoBins ∧
    (exTwoBins.countNumBinClauses true true
      = .ok (((if true then 1 else 0) + (if true then 1 else 0)) % 2 ^ 31) ∧
    ((if true then 1 else 0) + (if true then 1 else 0) < 2 ^ 31 →
      exTwoBins.countNumBinClauses true true
        = .ok ((if true then 1 else 0) + (if true then 1 else 0)))) :=
  ⟨reach_exTwoBins, countNumBinClauses_reach 1 1 exTwoBins true true reach_exTwoBins⟩

theorem firstNonBinary_of_all (l : List Watched) (h : ∀ x ∈ l, x.isBinary = true) :
    firstNonBinary l = l.length := by
  induction l with
  | nil => rfl
  | cons a l ih =>
    rw [firstNonBinary, if_pos (h a (List.mem_cons_self _ _)),
      ih (fun x hx => h x (List.mem_cons_of_mem _ hx))]
    rfl

theorem pushBinary_replicate (n : Nat) (w : Watched) (hw : w.isBinary = true) :
    pushBinary (List.replicate n w) w = List.replicate (n + 1) w := by
  unfold pushBinary
  simp only
  have e : List.replicate n w ++ [w] = List.replicate (n + 1) w := by
    rw [List.replicate_succ']
  rw [e, firstNonBinary_of_all _ (fun x hx => by rw [List.eq_of_mem_replicate hx]; exact hw)]
  simp

theorem attachBinClause_exManyBins (n : Nat) :
    (exManyBins n).attachBinClause (posLit 0) (posLit 1) true = .ok (exManyBins (n + 1)) := by
  rw [attachBinClause_of_lt _ _ _ _ (by show (1 : Nat) < 4; decide)
    (by show (3 : Nat) < 4; decide)]
  congr 1
  unfold exManyBins Solver.setWs Solver.ws
  have e1 : (posLit 0).neg.toInt = 1 := by decide
  have e2 : (posLit 1).neg.toInt = 3 := by decide
  simp only [e1, e2, List.getD_cons_succ, List.getD_cons_zero, List.set_cons_succ,
    List.set_cons_zero]
  rw [pushBinary_replicate n (.binary (posLit 1) true) rfl,
    pushBinary_replicate n (.binary (posLit 0) true) rfl]

theorem reach_exManyBins (n : Nat) : Reach n 0 (exManyBins n) := by
  induction n with
  | zero =>
    exact Reach.init _ (by decide) (by intro l hl; cases hl)
  | succ n ih =>
    exact Reach.attachBin (posLit 0) (posLit 1) true ih (attachBinClause_exManyBins n)

/-- C17, counterexample: after `2 ^ 31` calls of `attachBinClause` with
`learnt = true` the watchlists hold `2 ^ 32` learnt binary watchers, the
`uint32_t` counter wraps to 0 and `countNumBinClauses(true, false)` returns 0. -/
theorem countNumBinClauses_wrap_counterexample :
    Reach (2 ^ 31) 0 (exManyBins (2 ^ 31)) ∧
    (exManyBins (2 ^ 31)).countNumBinClauses true false = .ok 0 ∧
    (0 : Nat) ≠ (if true then 2 ^ 31 else 0) + (if false then 0 else 0) := by
  refine ⟨reach_exManyBins _, ?_, by norm_num⟩
  rw [countNumBinClauses_of_reach (reach_exManyBins (2 ^ 31)) true false]
  norm_num

/-! ## The divisions of `set_up_input` -/

theorem Dbl.isZero_fin (q : ℚ) : (Dbl.fin q).isZero = true ↔ q = 0 := by
  simp [Dbl.isZero]

theorem Dbl.isZero_fin_false {q : ℚ} (h : q ≠ 0) : (Dbl.fin q).isZero = false := by
  simp [Dbl.isZero, h]

theorem checkedDiv_of_nonzero {a b : Dbl} (h : b.isZero = false) :
    checkedDiv a b = .ok (a.div b) := by
  simp [checkedDiv, h]

/-- A non-zero finite value divided by a value that is neither zero nor infinite
is not zero. -/
theorem div_isZero_false {x : ℚ} {b : Dbl} (hx : x ≠ 0) (hb : b.isZero = false)
    (hi : b.isInf = false) : ((Dbl.fin x).div b).isZero = false := by
  cases b with
  | fin q =>
    have hq : q ≠ 0 := by
      intro e
      rw [e] at hb
      simp [Dbl.isZero] at hb
    simp [Dbl.div, Dbl.isZero, hq, hx]
  | inf n => cases hi
  | nan => rfl

theorem checkedDiv_ok {a b : ℚ} (h : b ≠ 0) :
    checkedDiv (.fin a) (.fin b) = .ok (.fin (a / b)) := by
  simp [checkedDiv, Dbl.isZero, Dbl.div, h]

theorem checkedLog2_ok (log2 : ℚ → ℚ) {x : ℚ} (h : x ≠ 0) :
    checkedLog2 log2 x = .ok (.fin (log2 x)) := by
  simp [checkedLog2, h]

theorem checkedDivDiv_ok {a b c d : ℚ} (hb : b ≠ 0) (hc : c ≠ 0) (hd : d ≠ 0) :
    checkedDivDiv (.fin a) (.fin b) (.fin c) (.fin d) = .ok (.fin ((a / b) / (c / d))) := by
  simp [checkedDivDiv, checkedDiv, Dbl.isZero, Dbl.div, hb, hc, hd]

theorem checkedLogDivDiv_ok (log2 : ℚ → ℚ) {g c d : ℚ} (hg : g ≠ 0) (hc : c ≠ 0)
    (hd : d ≠ 0) :
    checkedLogDivDiv log2 g (.fin c) (.fin d) = .ok (.fin (log2 g / (c / d))) := by
  by_cases hl : log2 g = 0 <;>
    simp [checkedLogDivDiv, checkedLog2, checkedDiv, Dbl.isZero, Dbl.div, hg, hc, hd, hl]

theorem checkedLogDiv_ok (log2 : ℚ → ℚ) {g b : ℚ} (hg : g ≠ 0) (hb : b ≠ 0) :
    checkedLogDiv log2 g (.fin b) = .ok (.fin (log2 g / b)) := by
  simp [checkedLogDiv, checkedLog2, checkedDiv, Dbl.isZero, Dbl.div, hg, hb]

theorem checkedDivOfDiv_ok {a c d : ℚ} (hc : c ≠ 0) (hd : d ≠ 0) :
    checkedDivOfDiv (.fin a) (.fin c) (.fin d) = .ok (.fin (a / (c / d))) := by
  simp [checkedDivOfDiv, checkedDiv, Dbl.isZero, Dbl.div, hc, hd]

theorem checkedDivThenDiv_ok {a b c : ℚ} (hb : b ≠ 0) (hc : c ≠ 0) :
    checkedDivThenDiv (.fin a) (.fin b) (.fin c) = .ok (.fin ((a / b) / c)) := by
  simp [checkedDivThenDiv, checkedDiv, Dbl.isZero, Dbl.div, hb, hc]

theorem collect_ok (l : List ℚ) :
    collect (l.map (fun x => Except.ok (Dbl.fin x))) = .ok (l.map Dbl.fin) := by
  induction l with
  | nil => rfl
  | cons x xs ih => simp [collect, ih]

theorem guarded_ok {g : Prop} [Decidable g] {x : Except ArithFault Dbl} {v : ℚ}
    (h : ¬ g → x = .ok (.fin v)) :
    (if g then Except.ok (Dbl.fin MISSING_VAL) else x)
      = .ok (.fin (if g then MISSING_VAL else v)) := by
  by_cases hg : g
  · simp [hg]
  · simp [hg, h hg]

theorem natCast_ne_zero_q {n : Nat} (h : n ≠ 0) : (n : ℚ) ≠ 0 := by
  exact_mod_cast h

theorem nnratCast_ne_zero_q {x : NNRat} (h : x ≠ 0) : (x : ℚ) ≠ 0 := by
  exact_mod_cast h

/-- On finite values the checked short features are the short features. -/
theorem shortFeaturesChecked_eq (cl : PredClause) (sumConflicts : Nat)
    (act uip1 prop avg_props : ℚ) :
    shortFeaturesChecked cl sumConflicts (.fin act) (.fin uip1) (.fin prop) (.fin avg_props)
      = .ok ((shortFeatures cl sumConflicts act uip1 prop avg_props).map Dbl.fin) := by
  unfold shortFeaturesChecked shortFeatures
  have h2 : (if last_touched_diff cl sumConflicts = 0 then Except.ok (Dbl.fin MISSING_VAL)
      else checkedDiv (.fin act) (.fin (last_touched_diff cl sumConflicts : ℚ)))
      = .ok (.fin (if last_touched_diff cl sumConflicts = 0 then MISSING_VAL
          else act / (last_touched_diff cl sumConflicts : ℚ))) :=
    guarded_ok (fun h => checkedDiv_ok (natCast_ne_zero_q h))
  have h4 : (if (Dbl.fin avg_props).isZero = true then Except.ok (Dbl.fin MISSING_VAL)
      else checkedDiv (.fin (cl.stats.props_made : ℚ)) (.fin avg_props))
      = .ok (.fin (if avg_props = 0 then MISSING_VAL
          else (cl.stats.props_made : ℚ) / avg_props)) := by
    simp only [Dbl.isZero_fin]
    exact guarded_ok (fun h => checkedDiv_ok h)
  simp only [h2, h4, List.map_cons, List.map_nil]

/-- On finite values the checked long features are the long features. -/
theorem longFeaturesChecked_eq (log2 : ℚ → ℚ) (cl : PredClause) (sumConflicts : Nat)
    (avg_props avg_glue : ℚ) :
    longFeaturesChecked log2 cl sumConflicts (.fin avg_props) (.fin avg_glue)
      = .ok ((longFeatures log2 cl sumConflicts avg_props avg_glue).map Dbl.fin) := by
  unfold longFeaturesChecked longFeatures
  simp only [Dbl.isZero_fin]
  rw [← collect_ok]
  simp only [List.map_cons, List.map_nil]
  congr 1
  refine congrArg₂ List.cons (guarded_ok (fun h => checkedDiv_ok (natCast_ne_zero_q h))) ?_
  refine congrArg₂ List.cons (guarded_ok (fun h => checkedDiv_ok h)) ?_
  refine congrArg₂ List.cons (guarded_ok (fun h => ?_)) ?_
  · push_neg at h
    exact checkedDivDiv_ok h.1 (natCast_ne_zero_q h.2.2) h.2.1
  refine congrArg₂ List.cons (guarded_ok (fun h => ?_)) ?_
  · push_neg at h
    exact checkedLogDivDiv_ok log2 (natCast_ne_zero_q h.2.2.1) (natCast_ne_zero_q h.2.1) h.1
  refine congrArg₂ List.cons ?_ ?_
  · by_cases h : cl.is_ternary_resolvent ≠ 0 <;> simp [h]
  refine congrArg₂ List.cons (guarded_ok (fun h => ?_)) ?_
  · push_neg at h
    exact checkedLogDiv_ok log2 (natCast_ne_zero_q h.1) (natCast_ne_zero_q h.2.1)
  refine congrArg₂ List.cons (guarded_ok (fun h => ?_)) ?_
  · push_neg at h
    exact checkedDiv_ok (natCast_ne_zero_q h.1)
  refine congrArg₂ List.cons (guarded_ok (fun h => checkedDiv_ok (natCast_ne_zero_q h))) ?_
  refine congrArg₂ List.cons (guarded_ok (fun h => ?_)) ?_
  · push_neg at h
    exact checkedDiv_ok (nnratCast_ne_zero_q h.1)
  refine congrArg₂ List.cons (guarded_ok (fun h => ?_)) ?_
  · push_neg at h
    exact checkedDivThenDiv_ok h.2 (nnratCast_ne_zero_q h.1)
  refine congrArg₂ List.cons (guarded_ok (fun h => ?_)) rfl
  · push_neg at h
    exact checkedDivOfDiv_ok (natCast_ne_zero_q h.2) h.1

theorem set_up_input_checked_eq (log2 : ℚ → ℚ) (cl : PredClause) (sumConflicts : Nat)
    (act uip1 prop avg_props avg_glue : ℚ) (cols : Nat) :
    set_up_input_checked log2 cl sumConflicts (.fin act) (.fin uip1) (.fin prop)
        (.fin avg_props) (.fin avg_glue) cols
      = liftFault (set_up_input log2 cl sumConflicts act uip1 prop avg_props avg_glue cols) := by
  unfold set_up_input_checked set_up_input
  rw [shortFeaturesChecked_eq, longFeaturesChecked_eq]
  by_cases h1 : cl.stats.orig_glue ≠ 1
  · simp only [h1, not_true_eq_false, if_false, List.length_map, List.length_append]
    split_ifs <;> simp [liftFault]
  · simp only [h1, not_false_eq_true, if_true]
    rfl

/-- A list of features that are all computed is collected in order. -/
theorem collect_spec : ∀ (l : List (Except ArithFault Dbl)),
    (∀ x ∈ l, ∃ v, x = .ok v) →
    ∃ vs, collect l = .ok vs ∧ vs.length = l.length ∧
      ∀ (i : Nat) (v : Dbl), l[i]? = some (Except.ok v) → vs[i]? = some v := by
  intro l
  induction l with
  | nil => intro _; exact ⟨[], rfl, rfl, fun i v h => by simp at h⟩
  | cons x xs ih =>
    intro h
    obtain ⟨v, rfl⟩ := h x (List.mem_cons_self _ _)
    obtain ⟨vs, h1, h2, h3⟩ := ih (fun y hy => h y (List.mem_cons_of_mem _ hy))
    refine ⟨v :: vs, by simp [collect, h1], by simp [h2], ?_⟩
    intro i w hi
    cases i with
    | zero =>
      simp only [List.getElem?_cons_zero, Option.some.injEq, Except.ok.injEq] at hi
      simp [hi]
    | succ i =>
      simp only [List.getElem?_cons_succ] at hi ⊢
      exact h3 i w hi

theorem guarded_computed {g : Prop} [Decidable g] {x : Except ArithFault Dbl}
    (h : ¬ g → ∃ v, x = .ok v) :
    ∃ v, (if g then Except.ok (Dbl.fin MISSING_VAL) else x) = .ok v := by
  by_cases hg : g
  · exact ⟨_, if_pos hg⟩
  · obtain ⟨v, hv⟩ := h hg
    exact ⟨v, by rw [if_neg hg, hv]⟩

/-- The checked short features are computed for all values of the arguments,
with the sentinel on the branches that skip a division. -/
theorem shortFeaturesChecked_spec (cl : PredClause) (n : Nat) (a u p v : Dbl) :
    ∃ f2 f4, shortFeaturesChecked cl n a u p v
        = .ok [u, f2, p, f4, .fin (last_touched_diff cl n : ℚ), .fin (cl.stats.ttl_stats : ℚ)] ∧
      (last_touched_diff cl n = 0 → f2 = .fin MISSING_VAL) ∧
      (v.isZero = true → f4 = .fin MISSING_VAL) := by
  unfold shortFeaturesChecked
  simp only
  by_cases h1 : last_touched_diff cl n = 0
  · by_cases h2 : v.isZero = true
    · exact ⟨.fin MISSING_VAL, .fin MISSING_VAL, by simp [h1, h2], fun _ => rfl, fun _ => rfl⟩
    · have h2' : v.isZero = false := by simpa using h2
      exact ⟨.fin MISSING_VAL, (Dbl.fin (cl.stats.props_made : ℚ)).div v,
        by simp [h1, h2', checkedDiv], fun _ => rfl, fun e => absurd e h2⟩
  · have h1' : (Dbl.fin (last_touched_diff cl n : ℚ)).isZero = false :=
      Dbl.isZero_fin_false (natCast_ne_zero_q h1)
    by_cases h2 : v.isZero = true
    · exact ⟨a.div (.fin (last_touched_diff cl n : ℚ)), .fin MISSING_VAL,
        by simp [h1, h2, checkedDiv, h1'], fun e => absurd e h1, fun _ => rfl⟩
    · have h2' : v.isZero = false := by simpa using h2
      exact ⟨a.div (.fin (last_touched_diff cl n : ℚ)),
        (Dbl.fin (cl.stats.props_made : ℚ)).div v,
        by simp [h1, h2', checkedDiv, h1'], fun e => absurd e h1, fun e => absurd e h2⟩

/-- With `avg_props` and `avg_glue` not infinite, every checked long feature is
computed. -/
theorem longFeaturesChecked_computed (log2 : ℚ → ℚ) (cl : PredClause) (n : Nat) (v g : Dbl)
    (hv : v.isInf = false) (hg : g.isInf = false) :
    ∃ vs, longFeaturesChecked log2 cl n v g = .ok vs ∧ vs.length = 11 ∧
      (cl.stats.conflicts_made = 0 → vs[0]? = some (.fin MISSING_VAL)) ∧
      (time_inside_solver cl n = 0 → vs[1]? = some (.fin MISSING_VAL)) ∧
      (time_inside_solver cl n = 0 ∨ g.isZero = true ∨ cl.stats.glue = 0 →
        vs[2]? = some (.fin MISSING_VAL)) ∧
      (time_inside_solver cl n = 0 ∨ cl.stats.sum_uip1_used = 0 ∨
        cl.stats.glue_before_minim = 0 ∨ cl.is_ternary_resolvent ≠ 0 →
        vs[3]? = some (.fin MISSING_VAL)) ∧
      (cl.stats.num_antecedents = 0 ∨ cl.stats.num_total_lits_antecedents = 0 ∨
        cl.is_ternary_resolvent ≠ 0 → vs[5]? = some (.fin MISSING_VAL)) ∧
      (cl.stats.glue_before_minim = 0 ∨ cl.is_ternary_resolvent ≠ 0 →
        vs[6]? = some (.fin MISSING_VAL)) ∧
      (cl.is_ternary_resolvent = 0 → vs[7]? = some (.fin MISSING_VAL)) ∧
      (cl.stats.num_resolutions_hist_lt = 0 ∨ cl.is_ternary_resolvent ≠ 0 →
        vs[8]? = some (.fin MISSING_VAL)) ∧
      (cl.stats.discounted_props_made = 0 ∨ time_inside_solver cl n = 0 →
        vs[9]? = some (.fin MISSING_VAL)) ∧
      (v.isZero = true ∨ cl.stats.props_made = 0 → vs[10]? = some (.fin MISSING_VAL)) := by
  unfold longFeaturesChecked
  simp only
  have hall : ∀ x ∈
      [ (if cl.stats.conflicts_made = 0 then Except.ok (Dbl.fin MISSING_VAL)
          else checkedDiv (.fin (cl.stats.glue : ℚ)) (.fin (cl.stats.conflicts_made : ℚ))),
        (if time_inside_solver cl n = 0 then .ok (.fin MISSING_VAL)
          else checkedDiv (.fin (cl.stats.sum_props_made : ℚ)) (.fin (time_inside_solver cl n))),
        (if time_inside_solver cl n = 0 ∨ g.isZero = true ∨ cl.stats.glue = 0
          then .ok (.fin MISSING_VAL)
          else checkedDivDiv (.fin (cl.stats.sum_props_made : ℚ))
            (.fin (time_inside_solver cl n)) (.fin (cl.stats.glue : ℚ)) g),
        (if time_inside_solver cl n = 0 ∨ cl.stats.sum_uip1_used = 0
            ∨ cl.stats.glue_before_minim = 0 ∨ cl.is_ternary_resolvent ≠ 0
          then .ok (.fin MISSING_VAL)
          else checkedLogDivDiv log2 (cl.stats.glue_before_minim : ℚ)
            (.fin (cl.stats.sum_uip1_used : ℚ)) (.fin (time_inside_solver cl n))),
        (if cl.is_ternary_resolvent ≠ 0 then .ok (.fin MISSING_VAL)
          else .ok (.fin (cl.stats.orig_glue : ℚ))),
        (if cl.stats.num_antecedents = 0 ∨ cl.stats.num_total_lits_antecedents = 0
            ∨ cl.is_ternary_resolvent ≠ 0 then .ok (.fin MISSING_VAL)
          else checkedLogDiv log2 (cl.stats.num_antecedents : ℚ)
            (.fin (cl.stats.num_total_lits_antecedents : ℚ))),
        (if cl.stats.glue_before_minim = 0 ∨ cl.is_ternary_resolvent ≠ 0
          then .ok (.fin MISSING_VAL)
          else checkedDiv (.fin (cl.stats.glue_hist_long : ℚ))
            (.fin (cl.stats.glue_before_minim : ℚ))),
        (if cl.is_ternary_resolvent = 0 then .ok (.fin MISSING_VAL)
          else checkedDiv (.fin (cl.stats.discounted_uip1_used3 : ℚ))
            (.fin (cl.is_ternary_resolvent : ℚ))),
        (if cl.stats.num_resolutions_hist_lt = 0 ∨ cl.is_ternary_resolvent ≠ 0
          then .ok (.fin MISSING_VAL)
          else checkedDiv (.fin (cl.stats.discounted_props_made : ℚ))
            (.fin (cl.stats.num_resolutions_hist_lt : ℚ))),
        (if cl.stats.discounted_props_made = 0 ∨ time_inside_solver cl n = 0
          then .ok (.fin MISSING_VAL)
          else checkedDivThenDiv (.fin (cl.stats.sum_uip1_used : ℚ))
            (.fin (time_inside_solver cl n)) (.fin (cl.stats.discounted_props_made : ℚ))),
        (if v.isZero = true ∨ cl.stats.props_made = 0 then .ok (.fin MISSING_VAL)
          else checkedDivOfDiv (.fin (cl.stats.glue : ℚ)) (.fin (cl.stats.props_made : ℚ))
            v) ], ∃ w, x = Except.ok w := by
    intro x hx
    simp only [List.mem_cons, List.mem_singleton, List.not_mem_nil, or_false] at hx
    rcases hx with rfl | rfl | rfl | rfl | rfl | rfl | rfl | rfl | rfl | rfl | rfl
    · exact guarded_computed (fun h => ⟨_, checkedDiv_ok (natCast_ne_zero_q h)⟩)
    · exact guarded_computed (fun h => ⟨_, checkedDiv_ok h⟩)
    · refine guarded_computed (fun h => ?_)
      push_neg at h
      have hgz : g.isZero = false := by simpa using h.2.1
      refine ⟨(Dbl.fin ((cl.stats.sum_props_made : ℚ) / time_inside_solver cl n)).div
        ((Dbl.fin (cl.stats.glue : ℚ)).div g), ?_⟩
      unfold checkedDivDiv
      rw [checkedDiv_ok h.1, checkedDiv_of_nonzero hgz]
      simp only
      exact checkedDiv_of_nonzero (div_isZero_false (natCast_ne_zero_q h.2.2) hgz hg)
    · refine guarded_computed (fun h => ?_)
      push_neg at h
      exact ⟨_, checkedLogDivDiv_ok log2 (natCast_ne_zero_q h.2.2.1)
        (natCast_ne_zero_q h.2.1) h.1⟩
    · by_cases h : cl.is_ternary_resolvent ≠ 0
      · exact ⟨_, if_pos h⟩
      · exact ⟨_, if_neg h⟩
    · refine guarded_computed (fun h => ?_)
      push_neg at h
      exact ⟨_, checkedLogDiv_ok log2 (natCast_ne_zero_q h.1) (natCast_ne_zero_q h.2.1)⟩
    · refine guarded_computed (fun h => ?_)
      push_neg at h
      exact ⟨_, checkedDiv_ok (natCast_ne_zero_q h.1)⟩
    · exact guarded_computed (fun h => ⟨_, checkedDiv_ok (natCast_ne_zero_q h)⟩)
    · refine guarded_computed (fun h => ?_)
      push_neg at h
      exact ⟨_, checkedDiv_ok (nnratCast_ne_zero_q h.1)⟩
    · refine guarded_computed (fun h => ?_)
      push_neg at h
      exact ⟨_, checkedDivThenDiv_ok h.2 (nnratCast_ne_zero_q h.1)⟩
    · refine guarded_computed (fun h => ?_)
      push_neg at h
      have hvz : v.isZero = false := by simpa using h.1
      refine ⟨(Dbl.fin (cl.stats.glue : ℚ)).div ((Dbl.fin (cl.stats.props_made : ℚ)).div v), ?_⟩
      unfold checkedDivOfDiv
      rw [checkedDiv_of_nonzero hvz]
      simp only
      exact checkedDiv_of_nonzero (div_isZero_false (natCast_ne_zero_q h.2) hvz hv)
  obtain ⟨vs, h1, h2, h3⟩ := collect_spec _ hall
  refine ⟨vs, h1, h2, ?_, ?_, ?_, ?_, ?_, ?_, ?_, ?_, ?_, ?_⟩ <;> intro h <;> apply h3 <;>
    simp only [List.getElem?_cons_succ, List.getElem?_cons_zero] <;> rw [if_pos h]

/-- C27 (as amended): in `set_up_input`, for every clause and all values of the
counters, with the `double` arguments `avg_props` and `avg_glue` not infinite,
no division is executed with a zero divisor and `log2` is never applied to
zero: the code with every division and every `log2` checked never reports one
of the two faults, and on finite arguments it computes what `set_up_input`
computes. On the branch that skips the division the feature is the sentinel
`-1.0`: features 2 and 4, and in the full vector features 7, 8, 9, 10, 12, 13,
14, 15, 16 and 17. -/
theorem set_up_input_divisions_guarded (log2 : ℚ → ℚ) (cl : PredClause) (n : Nat)
    (a u p v g : Dbl) (cols : Nat) (hv : v.isInf = false) (hg : g.isInf = false) :
    set_up_input_checked log2 cl n a u p v g cols ≠ .error .divByZero ∧
    set_up_input_checked log2 cl n a u p v g cols ≠ .error .logOfZero ∧
    (∀ a' u' p' v' g' : ℚ, a = .fin a' → u = .fin u' → p = .fin p' → v = .fin v' →
      g = .fin g' → set_up_input_checked log2 cl n a u p v g cols
        = liftFault (set_up_input log2 cl n a' u' p' v' g' cols)) ∧
    ∀ out, set_up_input_checked log2 cl n a u p v g cols = .ok out →
      (last_touched_diff cl n = 0 → out[1]? = some (.fin MISSING_VAL)) ∧
      (v.isZero = true → out[3]? = some (.fin MISSING_VAL)) ∧
      (cols = PRED_COLS →
        (cl.stats.conflicts_made = 0 → out[6]? = some (.fin MISSING_VAL)) ∧
        (time_inside_solver cl n = 0 → out[7]? = some (.fin MISSING_VAL)) ∧
        (time_inside_solver cl n = 0 ∨ g.isZero = true ∨ cl.stats.glue = 0 →
          out[8]? = some (.fin MISSING_VAL)) ∧
        (time_inside_solver cl n = 0 ∨ cl.stats.sum_uip1_used = 0 ∨
          cl.stats.glue_before_minim = 0 ∨ cl.is_ternary_resolvent ≠ 0 →
          out[9]? = some (.fin MISSING_VAL)) ∧
        (cl.stats.num_antecedents = 0 ∨ cl.stats.num_total_lits_antecedents = 0 ∨
          cl.is_ternary_resolvent ≠ 0 → out[11]? = some (.fin MISSING_VAL)) ∧
        (cl.stats.glue_before_minim = 0 ∨ cl.is_ternary_resolvent ≠ 0 →
          out[12]? = some (.fin MISSING_VAL)) ∧
        (cl.is_ternary_resolvent = 0 → out[13]? = some (.fin MISSING_VAL)) ∧
        (cl.stats.num_resolutions_hist_lt = 0 ∨ cl.is_ternary_resolvent ≠ 0 →
          out[14]? = some (.fin MISSING_VAL)) ∧
        (cl.stats.discounted_props_made = 0 ∨ time_inside_solver cl n = 0 →
          out[15]? = some (.fin MISSING_VAL)) ∧
        (v.isZero = true ∨ cl.stats.props_made = 0 → out[16]? = some (.fin MISSING_VAL))) := by
  obtain ⟨f2, f4, hs, hs2, hs4⟩ := shortFeaturesChecked_spec cl n a u p v
  obtain ⟨vs, hl, hlen, l0, l1, l2, l3, l5, l6, l7, l8, l9, l10⟩ :=
    longFeaturesChecked_computed log2 cl n v g hv hg
  have hcases : set_up_input_checked log2 cl n a u p v g cols = .error (.fault .assertion) ∨
      (cols = PRED_COLS_SHORT ∧ set_up_input_checked log2 cl n a u p v g cols
        = .ok [u, f2, p, f4, .fin (last_touched_diff cl n : ℚ), .fin (cl.stats.ttl_stats : ℚ)]) ∨
      (cols = PRED_COLS ∧ set_up_input_checked log2 cl n a u p v g cols
        = .ok ([u, f2, p, f4, .fin (last_touched_diff cl n : ℚ),
            .fin (cl.stats.ttl_stats : ℚ)] ++ vs)) := by
    unfold set_up_input_checked
    rw [hs, hl]
    simp only
    by_cases h1 : cl.stats.orig_glue ≠ 1
    · rw [if_neg (not_not.mpr h1)]
      by_cases h2 : cols = PRED_COLS_SHORT
      · rw [if_pos h2]
        by_cases h3 : cols = [u, f2, p, f4, Dbl.fin (last_touched_diff cl n : ℚ),
            Dbl.fin (cl.stats.ttl_stats : ℚ)].length
        · rw [if_pos h3]
          exact Or.inr (Or.inl ⟨h2, rfl⟩)
        · rw [if_neg h3]
          exact Or.inl rfl
      · rw [if_neg h2]
        by_cases h4 : ([u, f2, p, f4, Dbl.fin (last_touched_diff cl n : ℚ),
            Dbl.fin (cl.stats.ttl_stats : ℚ)] ++ vs).length = cols
        · rw [if_pos h4]
          refine Or.inr (Or.inr ⟨?_, rfl⟩)
          rw [← h4, List.length_append, hlen]
          rfl
        · rw [if_neg h4]
          exact Or.inl rfl
    · rw [if_pos h1]
      exact Or.inl rfl
  refine ⟨?_, ?_, ?_, ?_⟩
  · rcases hcases with e | ⟨-, e⟩ | ⟨-, e⟩ <;> rw [e] <;> simp
  · rcases hcases with e | ⟨-, e⟩ | ⟨-, e⟩ <;> rw [e] <;> simp
  · rintro a' u' p' v' g' rfl rfl rfl rfl rfl
    exact set_up_input_checked_eq log2 cl n a' u' p' v' g' cols
  · intro out h
    rcases hcases with e | ⟨hc, e⟩ | ⟨hc, e⟩
    · rw [e] at h; cases h
    · rw [e] at h
      injection h with h
      subst h
      refine ⟨fun h => by rw [← hs2 h]; rfl, fun h => by rw [← hs4 h]; rfl, ?_⟩
      intro h2
      rw [hc] at h2
      exact absurd h2 (by decide)
    · rw [e] at h
      injection h with h
      subst h
      refine ⟨fun h => by rw [← hs2 h]; rfl, fun h => by rw [← hs4 h]; rfl, ?_⟩
      intro _
      have hsh : ∀ k, ([u, f2, p, f4, Dbl.fin (last_touched_diff cl n : ℚ),
          Dbl.fin (cl.stats.ttl_stats : ℚ)] ++ vs)[6 + k]? = vs[k]? := by
        intro k
        rw [List.getElem?_append_right (by simp)]
        congr 1
        simp
      exact ⟨fun h => (hsh 0).trans (l0 h), fun h => (hsh 1).trans (l1 h),
        fun h => (hsh 2).trans (l2 h), fun h => (hsh 3).trans (l3 h),
        fun h => (hsh 5).trans (l5 h), fun h => (hsh 6).trans (l6 h),
        fun h => (hsh 7).trans (l7 h), fun h => (hsh 8).trans (l8 h),
        fun h => (hsh 9).trans (l9 h), fun h => (hsh 10).trans (l10 h)⟩

theorem set_up_input_divisions_guarded_witness :
    (Dbl.fin 10).isInf = false ∧ (Dbl.fin 5).isInf = false ∧
    set_up_input_checked exLog2 exPredClause 100 (.fin (1 / 2)) (.fin (1 / 4)) (.fin (3 / 4))
      (.fin 10) (.fin 5) PRED_COLS ≠ .error .divByZero :=
  ⟨rfl, rfl, (set_up_input_divisions_guarded exLog2 exPredClause 100 (.fin (1 / 2))
    (.fin (1 / 4)) (.fin (3 / 4)) (.fin 10) (.fin 5) PRED_COLS rfl rfl).1⟩

theorem time_inside_exPredClause : time_inside_solver exPredClause 100 = 50 := by
  have e : ((((100 : Nat) : Int) - ((50 : Nat) : Int)) % 2 ^ 64).toNat = 50 := by decide
  unfold time_inside_solver
  show (((((100 : Nat) : Int) - ((50 : Nat) : Int)) % 2 ^ 64).toNat : ℚ) = 50
  rw [e]
  norm_num

theorem collect_error_after (pre : List Dbl) (e : ArithFault)
    (rest : List (Except ArithFault Dbl)) :
    collect (pre.map Except.ok ++ .error e :: rest) = .error e := by
  induction pre with
  | nil => rfl
  | cons x xs ih => simp [collect, ih]

/-- C27, counterexample: with `avg_glue = +inf` the divisor `glue / avg_glue` of
feature 9 is zero for a clause with a non-zero glue, and the division by it is
executed; with `avg_props = +inf` the same holds for the divisor
`props_made / avg_props` of feature 17. -/
theorem set_up_input_infinite_average_counterexample :
    set_up_input_checked exLog2 exPredClause 100 (.fin (1 / 2)) (.fin (1 / 4)) (.fin (3 / 4))
      (.fin 10) (.inf false) PRED_COLS = .error .divByZero ∧
    set_up_input_checked exLog2 exPredClause 100 (.fin (1 / 2)) (.fin (1 / 4)) (.fin (3 / 4))
      (.inf false) (.fin 5) PRED_COLS = .error .divByZero := by
  have ht := time_inside_exPredClause
  have h7 : (if exPredClause.stats.conflicts_made = 0 then Except.ok (Dbl.fin MISSING_VAL)
      else checkedDiv (.fin (exPredClause.stats.glue : ℚ))
        (.fin (exPredClause.stats.conflicts_made : ℚ))) = .ok (.fin 1) := by
    simp [exPredClause, checkedDiv, Dbl.isZero, Dbl.div]
  have h8 : (if (50 : ℚ) = 0 then Except.ok (Dbl.fin MISSING_VAL)
      else checkedDiv (.fin (exPredClause.stats.sum_props_made : ℚ)) (.fin 50))
      = .ok (.fin (40 / 50)) := by
    simp [exPredClause, checkedDiv, Dbl.isZero, Dbl.div]
  constructor
  · have hl : longFeaturesChecked exLog2 exPredClause 100 (.fin 10) (.inf false)
        = .error .divByZero := by
      unfold longFeaturesChecked
      simp only [ht]
      have h9 : (if (50 : ℚ) = 0 ∨ (Dbl.inf false).isZero = true ∨ exPredClause.stats.glue = 0
          then Except.ok (Dbl.fin MISSING_VAL)
          else checkedDivDiv (.fin (exPredClause.stats.sum_props_made : ℚ)) (.fin 50)
            (.fin (exPredClause.stats.glue : ℚ)) (.inf false)) = .error .divByZero := by
        simp [exPredClause, checkedDivDiv, checkedDiv, Dbl.isZero, Dbl.div]
      rw [h7, h8, h9]
      exact collect_error_after [.fin 1, .fin (40 / 50)] _ _
    obtain ⟨f2, f4, hs, -⟩ := shortFeaturesChecked_spec exPredClause 100 (.fin (1 / 2))
      (.fin (1 / 4)) (.fin (3 / 4)) (.fin 10)
    unfold set_up_input_checked
    rw [hs, hl]
    simp [exPredClause, PRED_COLS, PRED_COLS_SHORT]
  · have hl : longFeaturesChecked exLog2 exPredClause 100 (.inf false) (.fin 5)
        = .error .divByZero := by
      unfold longFeaturesChecked
      simp only [ht]
      have h9 : (if (50 : ℚ) = 0 ∨ (Dbl.fin 5).isZero = true ∨ exPredClause.stats.glue = 0
          then Except.ok (Dbl.fin MISSING_VAL)
          else checkedDivDiv (.fin (exPredClause.stats.sum_props_made : ℚ)) (.fin 50)
            (.fin (exPredClause.stats.glue : ℚ)) (.fin 5))
          = .ok (.fin ((40 / 50) / (3 / 5))) := by
        simp [exPredClause, checkedDivDiv, checkedDiv, Dbl.isZero, Dbl.div]
      have h10 : (if (50 : ℚ) = 0 ∨ exPredClause.stats.sum_uip1_used = 0
            ∨ exPredClause.stats.glue_before_minim = 0 ∨ exPredClause.is_ternary_resolvent ≠ 0
          then Except.ok (Dbl.fin MISSING_VAL)
          else checkedLogDivDiv exLog2 (exPredClause.stats.glue_before_minim : ℚ)
            (.fin (exPredClause.stats.sum_uip1_used : ℚ)) (.fin 50))
          = .ok (.fin (exLog2 ((4 : Nat) : ℚ) / (((5 : Nat) : ℚ) / 50))) := by
        rw [if_neg (by simp [exPredClause])]
        exact checkedLogDivDiv_ok exLog2 (by simp [exPredClause]) (by simp [exPredClause])
          (by norm_num)
      have h11 : (if exPredClause.is_ternary_resolvent ≠ 0 then Except.ok (Dbl.fin MISSING_VAL)
          else .ok (.fin (exPredClause.stats.orig_glue : ℚ)))
          = (Except.ok (Dbl.fin 4) : Except ArithFault Dbl) := by
        simp [exPredClause]
      have h12 : (if exPredClause.stats.num_antecedents = 0
            ∨ exPredClause.stats.num_total_lits_antecedents = 0
            ∨ exPredClause.is_ternary_resolvent ≠ 0 then Except.ok (Dbl.fin MISSING_VAL)
          else checkedLogDiv exLog2 (exPredClause.stats.num_antecedents : ℚ)
            (.fin (exPredClause.stats.num_total_lits_antecedents : ℚ)))
          = .ok (.fin (exLog2 ((4 : Nat) : ℚ) / ((16 : Nat) : ℚ))) := by
        rw [if_neg (by simp [exPredClause])]
        exact checkedLogDiv_ok exLog2 (by simp [exPredClause]) (by simp [exPredClause])
      have h13 : (if exPredClause.stats.glue_before_minim = 0
            ∨ exPredClause.is_ternary_resolvent ≠ 0 then Except.ok (Dbl.fin MISSING_VAL)
          else checkedDiv (.fin (exPredClause.stats.glue_hist_long : ℚ))
            (.fin (exPredClause.stats.glue_before_minim : ℚ)))
          = .ok (.fin (((5 : NNRat) : ℚ) / ((4 : Nat) : ℚ))) := by
        rw [if_neg (by simp [exPredClause])]
        exact checkedDiv_ok (by simp [exPredClause])
      have h14 : (if exPredClause.is_ternary_resolvent = 0 then Except.ok (Dbl.fin MISSING_VAL)
          else checkedDiv (.fin (exPredClause.stats.discounted_uip1_used3 : ℚ))
            (.fin (exPredClause.is_ternary_resolvent : ℚ))) = .ok (.fin MISSING_VAL) := by
        rw [if_pos (by simp [exPredClause])]
      have h15 : (if exPredClause.stats.num_resolutions_hist_lt = 0
            ∨ exPredClause.is_ternary_resolvent ≠ 0 then Except.ok (Dbl.fin MISSING_VAL)
          else checkedDiv (.fin (exPredClause.stats.discounted_props_made : ℚ))
            (.fin (exPredClause.stats.num_resolutions_hist_lt : ℚ)))
          = .ok (.fin (((6 : NNRat) : ℚ) / ((7 : NNRat) : ℚ))) := by
        rw [if_neg (by simp [exPredClause])]
        exact checkedDiv_ok (by simp [exPredClause])
      have h16 : (if exPredClause.stats.discounted_props_made = 0 ∨ (50 : ℚ) = 0
          then Except.ok (Dbl.fin MISSING_VAL)
          else checkedDivThenDiv (.fin (exPredClause.stats.sum_uip1_used : ℚ)) (.fin 50)
            (.fin (exPredClause.stats.discounted_props_made : ℚ)))
          = .ok (.fin ((((5 : Nat) : ℚ) / 50) / ((6 : NNRat) : ℚ))) := by
        rw [if_neg (by simp [exPredClause])]
        exact checkedDivThenDiv_ok (by norm_num) (by simp [exPredClause])
      have h17 : (if (Dbl.inf false).isZero = true ∨ exPredClause.stats.props_made = 0
          then Except.ok (Dbl.fin MISSING_VAL)
          else checkedDivOfDiv (.fin (exPredClause.stats.glue : ℚ))
            (.fin (exPredClause.stats.props_made : ℚ)) (.inf false)) = .error .divByZero := by
        simp [exPredClause, checkedDivOfDiv, checkedDiv, Dbl.isZero, Dbl.div]
      rw [h7, h8, h9, h10, h11, h12, h13, h14, h15, h16, h17]
      exact collect_error_after [.fin 1, .fin (40 / 50), .fin ((40 / 50) / (3 / 5)),
        .fin (exLog2 ((4 : Nat) : ℚ) / (((5 : Nat) : ℚ) / 50)), .fin 4,
        .fin (exLog2 ((4 : Nat) : ℚ) / ((16 : Nat) : ℚ)),
        .fin (((5 : NNRat) : ℚ) / ((4 : Nat) : ℚ)), .fin MISSING_VAL,
        .fin (((6 : NNRat) : ℚ) / ((7 : NNRat) : ℚ)),
        .fin ((((5 : Nat) : ℚ) / 50) / ((6 : NNRat) : ℚ))] _ _
    obtain ⟨f2, f4, hs, -⟩ := shortFeaturesChecked_spec exPredClause 100 (.fin (1 / 2))
      (.fin (1 / 4)) (.fin (3 / 4)) (.inf false)
    unfold set_up_input_checked
    rw [hs, hl]
    simp [exPredClause, PRED_COLS, PRED_COLS_SHORT]

/-! ## propBin on a literal that is already True -/

theorem mem_setInsert {u : List BinaryClause} {b x : BinaryClause} :
    x ∈ setInsert u b ↔ x ∈ u ∨ x = b := by
  unfold setInsert
  split_ifs with h
  · constructor
    · exact Or.inl
    · rintro (h1 | rfl)
      · exact h1
      · exact h
  · simp

/-- C24 (as amended): `propBin(p, watcher)` with `lit = watcher.other` True.
At a non-zero level: if `removeWhich` answers `p` and `lit` has a recorded
ancestor `old`, the clause `(¬old, lit, old learnt step)` is inserted into
`uselessBin` exactly when the `hyperBin` flag of `lit` is false, and the
`PropData` of `lit` becomes `(p, watcher.learnt, false, false)`; if it answers
`p` and no ancestor is recorded, the assertion fails; if it answers a literal
other than `p` and `lit_Undef`, the clause `(¬p, lit, watcher.learnt)` is
inserted and nothing else changes; if it answers `lit_Undef`, or `lit` is at
level 0, nothing changes. Whenever `propBin` returns here, it returns no
conflict, the trail, the assignment, `qhead` and the watchlists are unchanged,
`uselessBin` loses no element and the `PropData` of the other variables is
unchanged. -/
theorem propBin_true_cases (o : FullPropOracle) (s : Solver) (p lit : Lit) (learnt : Bool)
    (u : List BinaryClause) (vd : VarData) (pd : PropData)
    (hval : s.value lit = l_True) (hvd : s.varData[lit.var]? = some vd)
    (hpd : s.propData[lit.var]? = some pd) :
    (vd.level ≠ 0 → o.removeWhich s lit p learnt = p → pd.ancestor ≠ lit_Undef →
      s.propBin o p lit learnt u = .ok (.null,
        (if pd.hyperBin = true then u
          else setInsert u (BinaryClause.mk pd.ancestor.neg lit pd.learntStep)),
        { s with propData := s.propData.set lit.var (PropData.mk p learnt false false) })) ∧
    (vd.level ≠ 0 → o.removeWhich s lit p learnt = p → pd.ancestor = lit_Undef →
      s.propBin o p lit learnt u = .error .assertion) ∧
    (vd.level ≠ 0 → o.removeWhich s lit p learnt ≠ p →
      o.removeWhich s lit p learnt ≠ lit_Undef →
      s.propBin o p lit learnt u
        = .ok (.null, setInsert u (BinaryClause.mk p.neg lit learnt), s)) ∧
    (vd.level ≠ 0 → o.removeWhich s lit p learnt ≠ p →
      o.removeWhich s lit p learnt = lit_Undef →
      s.propBin o p lit learnt u = .ok (.null, u, s)) ∧
    (vd.level = 0 → s.propBin o p lit learnt u = .ok (.null, u, s)) ∧
    (∀ c u1 t, s.propBin o p lit learnt u = .ok (c, u1, t) →
      c = .null ∧ t.trail = s.trail ∧ t.assigns = s.assigns ∧ t.qhead = s.qhead ∧
      t.watches = s.watches ∧ (∀ b ∈ u, b ∈ u1) ∧
      (∀ x, x ≠ lit.var → t.propData[x]? = s.propData[x]?)) := by
  have e : s.propBin o p lit learnt u =
      (if vd.level ≠ 0 then
        (if o.removeWhich s lit p learnt = p then
          (if ¬ (pd.ancestor ≠ lit_Undef) then .error .assertion else
            .ok (.null,
              (if ¬ pd.hyperBin = true then
                setInsert u (BinaryClause.mk pd.ancestor.neg lit pd.learntStep)
                else u),
              { s with propData := s.propData.set lit.var (PropData.mk p learnt false false) }))
        else if o.removeWhich s lit p learnt ≠ lit_Undef then
          .ok (.null, setInsert u (BinaryClause.mk p.neg lit learnt), s)
        else .ok (.null, u, s))
      else .ok (.null, u, s)) := by
    unfold Solver.propBin
    simp only [hval, hvd, hpd]
    rw [if_neg (by decide), if_neg (by decide)]
    simp only [not_true_eq_false, if_false]
  refine ⟨?_, ?_, ?_, ?_, ?_, ?_⟩
  · intro h1 h2 h3
    rw [e, if_pos h1, if_pos h2, if_neg (not_not.mpr h3)]
    by_cases hh : pd.hyperBin = true
    · rw [if_neg (not_not.mpr hh), if_pos hh]
    · rw [if_pos hh, if_neg hh]
  · intro h1 h2 h3
    rw [e, if_pos h1, if_pos h2, if_pos (not_not.mpr h3)]
  · intro h1 h2 h3
    rw [e, if_pos h1, if_neg h2, if_pos h3]
  · intro h1 h2 h3
    rw [e, if_pos h1, if_neg h2, if_neg (not_not.mpr h3)]
  · intro h1
    rw [e, if_neg (not_not.mpr h1)]
  · intro c u1 t h
    rw [e] at h
    split_ifs at h with h1 h2 h3 h4 h5
    · injection h with h
      injection h with hc h
      injection h with hu ht
      subst hc hu ht
      refine ⟨rfl, rfl, rfl, rfl, rfl, fun b hb => hb, ?_⟩
      intro x hx
      exact List.getElem?_set_ne (Ne.symm hx)
    · injection h with h
      injection h with hc h
      injection h with hu ht
      subst hc hu ht
      refine ⟨rfl, rfl, rfl, rfl, rfl, fun b hb => mem_setInsert.mpr (Or.inl hb), ?_⟩
      intro x hx
      exact List.getElem?_set_ne (Ne.symm hx)
    · injection h with h
      injection h with hc h
      injection h with hu ht
      subst hc hu ht
      exact ⟨rfl, rfl, rfl, rfl, rfl, fun b hb => mem_setInsert.mpr (Or.inl hb), fun _ _ => rfl⟩
    · injection h with h
      injection h with hc h
      injection h with hu ht
      subst hc hu ht
      exact ⟨rfl, rfl, rfl, rfl, rfl, fun b hb => hb, fun _ _ => rfl⟩
    · injection h with h
      injection h with hc h
      injection h with hu ht
      subst hc hu ht
      exact ⟨rfl, rfl, rfl, rfl, rfl, fun b hb => hb, fun _ _ => rfl⟩

theorem propBin_true_cases_witness :
    exRootImplied.value (posLit 2) = l_True ∧
    exRootImplied.varData[(posLit 2).var]?
      = some { level := 1, reason := .binary (negLit 1) } ∧
    exRootImplied.propData[(posLit 2).var]? = some { ancestor := posLit 1 } ∧
    exRootImplied.propBin removePropagatedOracle (posLit 3) (posLit 2) true []
      = .ok (.null, [BinaryClause.mk (negLit 1) (posLit 2) false],
          { exRootImplied with
            propData := [{}, {}, PropData.mk (posLit 3) true false false,
              { ancestor := posLit 1 }] }) :=
  ⟨by decide, by decide, by decide,
    (propBin_true_cases removePropagatedOracle exRootImplied (posLit 3) (posLit 2) true []
      { level := 1, reason := .binary (negLit 1) } { ancestor := posLit 1 }
      (by decide) (by decide) (by decide)).1 (by decide) (by decide) (by decide)⟩

/-- C24, counterexample: the probe `+1` is True at level 1 and has no recorded
ancestor; when `+2` is propagated through a binary clause `(-2, +1)` and
`removeWhich` answers with the propagated literal, the assertion
`origAnc != lit_Undef` fails, so the `PropData` of `+1` is not updated. -/
theorem propBin_root_counterexample :
    exRootImplied.value (posLit 1) = l_True ∧
    (exRootImplied.varData[(posLit 1).var]?).map (fun d => d.level) = some 1 ∧
    removePropagatedOracle.removeWhich exRootImplied (posLit 1) (posLit 2) false = posLit 2 ∧
    exRootImplied.propBin removePropagatedOracle (posLit 2) (posLit 1) false []
      = .error .assertion := by
  decide

/-! ## The relocation of a watch -/

theorem ws_congr {s t : Solver} (h : t.watches = s.watches) (l : Lit) : t.ws l = s.ws l := by
  unfold Solver.ws
  rw [h]

/-- A relocation by `propNormalClause<false>` is the relocation that
`propNormalClause<true>` does. -/
theorem propNormalClauseFull_relocate_eq {o : FullPropOracle} {s t : Solver} {w : Watched}
    {off : Nat} {blk p : Lit} {wn : Bool} {j : Nat} {c c1 : PropBy} {b : Bool}
    (h : s.propNormalClauseFull o w off blk wn j p c = .ok (b, j, c1, t)) :
    s.propNormalClause w off blk wn j p c = .ok (b, j, c1, t) := by
  unfold Solver.propNormalClauseFull at h
  unfold Solver.propNormalClause
  simp only at h ⊢
  repeat' split at h
  all_goals try (cases h; done)
  all_goals simp only [Except.ok.injEq, Prod.mk.injEq] at h
  rename_i hb _ cl hcl _ d hd _ _ lw lo hlw hlo hne hlo2 _ k hk _ s1 hs1
  obtain ⟨rfl, -, rfl, rfl⟩ := h
  rw [if_neg hb]
  try simp only [hcl, hd, hlw, hlo]
  rw [if_neg hne, if_neg hlo2]
  try simp only [hk, hs1]

/-- A relocation by `propNormalClause<true>` never targets the list of a True
literal: the entry is dropped from the scan (`j` is not advanced) only when a
watcher is pushed onto the list of `l = ¬c[k]` with `c[k]` not False. -/
theorem propNormalClause_relocated {s t : Solver} {w : Watched} {off : Nat} {blk p : Lit}
    {wn : Bool} {j : Nat} {c c1 : PropBy} {b : Bool} (hv : s.value p = l_True)
    (h : s.propNormalClause w off blk wn j p c = .ok (b, j, c1, t)) :
    ∃ l w1, l ≠ p ∧ l.toInt ≠ p.toInt ∧ s.value l.neg ≠ l_False ∧
      t.ws l = s.ws l ++ [w1] ∧ t.ws p = s.ws p ∧ (∀ x, x ≠ l → t.ws x = s.ws x) ∧
      t.watches.length = s.watches.length ∧ t.assigns = s.assigns := by
  rw [propNormalClause_eq_core] at h
  cases hA : s.propNormalCore off blk wn p c with
  | error e => rw [hA] at h; cases h
  | ok r =>
    obtain ⟨b0, act, c0, t0⟩ := r
    rw [hA] at h
    cases act with
    | keep =>
      simp only [Except.ok.injEq, Prod.mk.injEq] at h
      omega
    | relocate l w1 =>
      simp only at h
      cases hp : t0.pushWs l w1 with
      | error e => rw [hp] at h; cases h
      | ok t2 =>
        rw [hp] at h
        simp only [Except.ok.injEq, Prod.mk.injEq] at h
        obtain ⟨-, -, -, rfl⟩ := h
        obtain ⟨hlt, rfl⟩ := Solver.pushWs_ok hp
        have hne : l ≠ p := propNormalCore_relocate_ne hA hv
        obtain ⟨hw, hc⟩ := propNormalCore_inv hA
        have hval : s.value l.neg ≠ l_False ∧ t0.assigns = s.assigns := by
          rcases hc with ⟨-, -, ha, -⟩ | ⟨cl, d, lo, -, -, -, -, -, hc⟩
          · cases ha
          · rcases hc with ⟨-, -, ha, -⟩ | ⟨-, k, hk, -, ha, -, hr⟩ | ⟨-, -, -, ha, -⟩ |
              ⟨-, -, -, ha, -⟩
            · cases ha
            · injection ha with hl _
              obtain ⟨-, -, -, -, hval, -⟩ := findNewWatch_some hk
              rw [hl, Lit.neg_neg]
              exact ⟨hval, hr.1⟩
            · cases ha
            · cases ha
        refine ⟨l, w1, hne, fun e => hne (Lit.toInt_inj.mp e), hval.1, ?_, ?_, ?_, ?_, hval.2⟩
        · rw [Solver.ws_setWs_self _ _ _ hlt, ws_congr hw]
        · rw [Solver.ws_setWs_ne _ _ _ _ (Ne.symm hne), ws_congr hw]
        · intro x hx
          rw [Solver.ws_setWs_ne _ _ _ _ hx, ws_congr hw]
        · simp [hw]

theorem propTriClauseFull_frame {o : FullPropOracle} (ho : HyperBinKeepsWatches o)
    {s t : Solver} {a b p : Lit} {c c1 : PropBy} {f : Bool} (hv : s.value p = l_True)
    (h : s.propTriClauseFull o a b p c = .ok (f, c1, t)) :
    t.watches = s.watches ∧ t.value p = l_True := by
  unfold Solver.propTriClauseFull at h
  simp only at h
  split_ifs at h
  · cases h; exact ⟨rfl, hv⟩
  · split at h
    · cases h
    · rename_i s1 h1
      cases h
      have e := ho.1 _ _ _ _ _ h1
      exact ⟨e.1, e.2 p hv⟩
  · split at h
    · cases h
    · rename_i s1 h1
      cases h
      have e := ho.1 _ _ _ _ _ h1
      exact ⟨e.1, e.2 p hv⟩
  · cases h
    exact ⟨rfl, hv⟩
  · cases h; exact ⟨rfl, hv⟩

theorem propNormalClauseFull_frame {o : FullPropOracle} (ho : HyperBinKeepsWatches o)
    {s t : Solver} {w : Watched} {off : Nat} {blk p : Lit} {wn : Bool} {j j1 : Nat}
    {c c1 : PropBy} {b : Bool} (hv : s.value p = l_True)
    (h : s.propNormalClauseFull o w off blk wn j p c = .ok (b, j1, c1, t)) :
    (t.ws p).length = (s.ws p).length ∧ t.value p = l_True := by
  by_cases hj : j1 = j
  · subst hj
    obtain ⟨l, w1, -, -, -, -, e1, -, -, e2⟩ :=
      propNormalClause_relocated hv (propNormalClauseFull_relocate_eq h)
    exact ⟨by rw [e1], by rw [Solver.value_congr e2, hv]⟩
  · unfold Solver.propNormalClauseFull at h
    simp only at h
    repeat' split at h
    all_goals try (cases h; done)
    all_goals simp only [Except.ok.injEq, Prod.mk.injEq] at h
    all_goals obtain ⟨-, hj1, -, rfl⟩ := h
    all_goals try (exact absurd hj1.symm hj)
    all_goals first
      | exact ⟨writeWs_ws_length _ _ _ _, hv⟩
      | (rename_i s4 h4
         have e := ho.2 _ _ _ _ h4
         refine ⟨?_, e.2 p ?_⟩
         · rw [ws_congr e.1]
           split_ifs <;> exact writeWs_ws_length _ _ _ _
         · split_ifs <;> exact hv)

theorem propBinaryClause_keeps_true {s t : Solver} {o p x : Lit} {c c1 : PropBy} {b : Bool}
    (h : s.propBinaryClause o p c = .ok (b, c1, t)) (hx : s.value x = l_True) :
    t.value x = l_True := by
  obtain ⟨-, hc⟩ := propBinaryClause_inv h
  rcases hc with ⟨hu, -, -, he⟩ | ⟨-, -, -, hs, -⟩ | ⟨-, -, -, rfl⟩
  · rw [he.value_of_assigned hu (by rw [hx]; simp), hx]
  · rw [hs.value_eq, hx]
  · exact hx

theorem propTriClause_keeps_true {s t : Solver} {a a2 p x : Lit} {c c1 : PropBy} {b : Bool}
    (h : s.propTriClause a a2 p c = .ok (b, c1, t)) (hx : s.value x = l_True) :
    t.value x = l_True := by
  obtain ⟨-, hc⟩ := propTriClause_inv h
  rcases hc with ⟨hu, -, -, -, he⟩ | ⟨-, hu, -, -, he⟩ | ⟨-, -, -, -, hs, -⟩ | ⟨-, -, -, rfl⟩
  · rw [he.value_of_assigned hu (by rw [hx]; simp), hx]
  · rw [he.value_of_assigned hu (by rw [hx]; simp), hx]
  · rw [hs.value_eq, hx]
  · exact hx

theorem propNormalClause_frame {s t : Solver} {w : Watched} {off : Nat} {blk p : Lit}
    {wn : Bool} {j j1 : Nat} {c c1 : PropBy} {b : Bool} (hv : s.value p = l_True)
    (h : s.propNormalClause w off blk wn j p c = .ok (b, j1, c1, t)) :
    (t.ws p).length = (s.ws p).length ∧ t.value p = l_True := by
  rw [propNormalClause_eq_core] at h
  cases hA : s.propNormalCore off blk wn p c with
  | error e => rw [hA] at h; cases h
  | ok r =>
    obtain ⟨b0, act, c0, t0⟩ := r
    rw [hA] at h
    have hw : t0.watches = s.watches := (propNormalCore_inv hA).1
    have hvt : t0.value p = l_True := by
      rw [propNormalCore_value hA (by rw [hv]; simp), hv]
    cases act with
    | keep =>
      simp only [Except.ok.injEq, Prod.mk.injEq] at h
      obtain ⟨-, -, -, rfl⟩ := h
      exact ⟨by rw [writeWs_ws_length, ws_congr hw], hvt⟩
    | relocate l w1 =>
      simp only at h
      cases hp : t0.pushWs l w1 with
      | error e => rw [hp] at h; cases h
      | ok t2 =>
        rw [hp] at h
        simp only [Except.ok.injEq, Prod.mk.injEq] at h
        obtain ⟨-, -, -, rfl⟩ := h
        obtain ⟨hlt, rfl⟩ := Solver.pushWs_ok hp
        have hne : l ≠ p := propNormalCore_relocate_ne hA hv
        exact ⟨by rw [Solver.ws_setWs_ne _ _ _ _ (Ne.symm hne), ws_congr hw], hvt⟩

/-- One arm of the scan of `propagate` keeps the length of the scanned list and
keeps the scanned literal True. -/
theorem propagateWatch_frame {s t : Solver} {p : Lit} {j j1 : Nat} {w : Watched}
    {c c1 : PropBy} {b : Bool} (hv : s.value p = l_True)
    (h : s.propagateWatch p j w c = .ok (b, j1, c1, t)) :
    (t.ws p).length = (s.ws p).length ∧ t.value p = l_True := by
  unfold Solver.propagateWatch at h
  cases w with
  | binary a lr =>
    simp only at h
    split at h
    · cases h
    · rename_i b1 c2 s1 h1
      simp only [Except.ok.injEq, Prod.mk.injEq] at h
      obtain ⟨-, -, -, rfl⟩ := h
      refine ⟨?_, propBinaryClause_keeps_true h1 hv⟩
      rw [ws_congr (propBinaryClause_inv h1).1, writeWs_ws_length]
  | tri a a2 =>
    simp only at h
    split at h
    · cases h
    · rename_i b1 c2 s1 h1
      simp only [Except.ok.injEq, Prod.mk.injEq] at h
      obtain ⟨-, -, -, rfl⟩ := h
      refine ⟨?_, propTriClause_keeps_true h1 hv⟩
      rw [ws_congr (propTriClause_inv h1).1, writeWs_ws_length]
  | clause off blk wn => exact propNormalClause_frame hv h

theorem propagateWatches_frame {p : Lit} (n : Nat) {i j i1 j1 : Nat} {s t : Solver}
    {c c1 : PropBy} (hv : s.value p = l_True)
    (h : Solver.propagateWatches p n i j s c = .ok (i1, j1, c1, t)) :
    (t.ws p).length = (s.ws p).length ∧ t.value p = l_True := by
  induction n generalizing i j s c with
  | zero =>
    simp only [Solver.propagateWatches, Except.ok.injEq, Prod.mk.injEq] at h
    obtain ⟨-, -, -, rfl⟩ := h
    exact ⟨rfl, hv⟩
  | succ n ih =>
    rw [Solver.propagateWatches] at h
    split at h
    · cases h
    · split at h
      · cases h
      · rename_i h1
        obtain ⟨e1, e2⟩ := propagateWatch_frame hv h1
        obtain ⟨a1, a2⟩ := ih e2 h
        exact ⟨a1.trans e1, a2⟩
      · rename_i h1
        simp only [Except.ok.injEq, Prod.mk.injEq] at h
        obtain ⟨-, -, -, rfl⟩ := h
        exact propagateWatch_frame hv h1

theorem propagateFullWatch_frame {o : FullPropOracle} (ho : HyperBinKeepsWatches o)
    {s t : Solver} {p : Lit} {j j1 : Nat} {w : Watched} {c c1 : PropBy} {b : Bool}
    (hv : s.value p = l_True)
    (h : s.propagateFullWatch o p j w c = .ok (b, j1, c1, t)) :
    (t.ws p).length = (s.ws p).length ∧ t.value p = l_True := by
  unfold Solver.propagateFullWatch at h
  cases w with
  | binary a lr =>
    simp only [Except.ok.injEq, Prod.mk.injEq] at h
    obtain ⟨-, -, -, rfl⟩ := h
    exact ⟨writeWs_ws_length _ _ _ _, hv⟩
  | tri a a2 =>
    simp only at h
    split at h
    · cases h
    · rename_i b1 c2 s1 h1
      simp only [Except.ok.injEq, Prod.mk.injEq] at h
      obtain ⟨-, -, -, rfl⟩ := h
      obtain ⟨e1, e2⟩ := propTriClauseFull_frame ho
        (show (s.writeWs p j (.tri a a2)).value p = l_True from hv) h1
      exact ⟨by rw [ws_congr e1, writeWs_ws_length], e2⟩
  | clause off blk wn =>
    simp only at h
    split at h
    · cases h
    · rename_i b1 j2 c2 s1 h1
      simp only [Except.ok.injEq, Prod.mk.injEq] at h
      obtain ⟨-, -, -, rfl⟩ := h
      exact propNormalClauseFull_frame ho hv h1

theorem propagateFullWatches_frame {o : FullPropOracle} (ho : HyperBinKeepsWatches o)
    {p : Lit} (n : Nat) {i j i1 j1 : Nat} {s t : Solver} {c c1 : PropBy}
    (hv : s.value p = l_True)
    (h : Solver.propagateFullWatches o p n i j s c = .ok (i1, j1, c1, t)) :
    (t.ws p).length = (s.ws p).length ∧ t.value p = l_True := by
  induction n generalizing i j s c with
  | zero =>
    simp only [Solver.propagateFullWatches, Except.ok.injEq, Prod.mk.injEq] at h
    obtain ⟨-, -, -, rfl⟩ := h
    exact ⟨rfl, hv⟩
  | succ n ih =>
    rw [Solver.propagateFullWatches] at h
    split at h
    · cases h
    · split at h
      · cases h
      · rename_i h1
        obtain ⟨e1, e2⟩ := propagateFullWatch_frame ho hv h1
        obtain ⟨a1, a2⟩ := ih e2 h
        exact ⟨a1.trans e1, a2⟩
      · rename_i h1
        simp only [Except.ok.injEq, Prod.mk.injEq] at h
        obtain ⟨-, -, -, rfl⟩ := h
        exact propagateFullWatch_frame ho hv h1

/-- C26: while `propagate` or `propagateFull` scans `watches[p]` for a literal
`p` that is True, a relocated Long watcher is never appended to that list. An
arm of either function that relocates (it returns with the write cursor `j` not
advanced) pushes the watcher onto `watches[l]` with `¬l = c[k]` not False, so
`l ≠ p` and `watches[p]` is left as it was. Over any part of the scan of
`propagate`, and of `propagateFull` when `addHyperBin` leaves the watchlists
alone and keeps True literals True, `watches[p]` keeps its length, so the
cursors stay valid, and `p` stays True. -/
theorem relocation_avoids_scanned_list (o : FullPropOracle) (s : Solver) (p : Lit)
    (hv : s.value p = l_True) :
    (∀ w off blk wn j c b c1 t,
      (s.propNormalClause w off blk wn j p c = .ok (b, j, c1, t) ∨
        s.propNormalClauseFull o w off blk wn j p c = .ok (b, j, c1, t)) →
      ∃ l w1, l ≠ p ∧ l.toInt ≠ p.toInt ∧ s.value l.neg ≠ l_False ∧
        t.ws l = s.ws l ++ [w1] ∧ t.ws p = s.ws p) ∧
    (∀ n i j c i1 j1 c1 t, Solver.propagateWatches p n i j s c = .ok (i1, j1, c1, t) →
      (t.ws p).length = (s.ws p).length ∧ t.value p = l_True) ∧
    (HyperBinKeepsWatches o →
      ∀ n i j c i1 j1 c1 t, Solver.propagateFullWatches o p n i j s c = .ok (i1, j1, c1, t) →
        (t.ws p).length = (s.ws p).length ∧ t.value p = l_True) := by
  refine ⟨?_, ?_, ?_⟩
  · intro w off blk wn j c b c1 t h
    have h1 : s.propNormalClause w off blk wn j p c = .ok (b, j, c1, t) := by
      rcases h with h | h
      · exact h
      · exact propNormalClauseFull_relocate_eq h
    obtain ⟨l, w1, a1, a2, a3, a4, a5, -⟩ := propNormalClause_relocated hv h1
    exact ⟨l, w1, a1, a2, a3, a4, a5⟩
  · intro n i j c i1 j1 c1 t h
    exact propagateWatches_frame n hv h
  · intro ho n i j c i1 j1 c1 t h
    exact propagateFullWatches_frame ho n hv h

theorem relocation_avoids_scanned_list_witness :
    exS4.value (negLit 1) = l_True ∧
    exS4.propNormalClause (.clause 0 (posLit 3) false) 0 (posLit 3) false 0 (negLit 1) .null
      = .ok (true, 0, .null, exS4Relocated) ∧
    ∃ l w1, l ≠ negLit 1 ∧ l.toInt ≠ (negLit 1).toInt ∧ exS4.value l.neg ≠ l_False ∧
      exS4Relocated.ws l = exS4.ws l ++ [w1] ∧
      exS4Relocated.ws (negLit 1)
        = exS4.ws (negLit 1) :=
  ⟨by decide, by decide,
    (relocation_avoids_scanned_list echoOracle exS4 (negLit 1) (by decide)).1
      (.clause 0 (posLit 3) false) 0 (posLit 3) false 0 .null true .null
      exS4Relocated (Or.inl (by decide))⟩

/-! ## The watchlist after the scan -/

theorem numWatchers_set (W : List (List Watched)) (i : Nat) (x : List Watched)
    (h : i < W.length) :
    numWatchers (W.set i x) + (W.getD i []).length = numWatchers W + x.length := by
  unfold numWatchers
  rw [List.map_set]
  have := sum_set_nat (W.map List.length) i x.length (by simpa using h)
  simp only [List.getElem_map] at this
  rw [List.getD_eq_getElem _ _ h]
  exact this

theorem drop_eq_cons_of_get {α : Type} (l : List α) (k : Nat) (w : α) (h : l[k]? = some w) :
    l.drop k = w :: l.drop (k + 1) := by
  have hk : k < l.length := by
    by_contra hn
    rw [List.getElem?_eq_none (by omega)] at h
    cases h
  rw [List.getElem?_eq_getElem hk] at h
  injection h with h
  rw [← h]
  exact List.drop_eq_getElem_cons hk

theorem take_eraseIdx_self {α : Type} (l : List α) (k : Nat) :
    (l.eraseIdx k).take k = l.take k := by
  rw [List.eraseIdx_eq_take_drop_succ]
  by_cases hk : k ≤ l.length
  · rw [List.take_append_of_le_length (by simp [hk])]
    rw [List.take_take]
    simp
  · rw [List.take_of_length_le (by simp; omega), List.drop_of_length_le (by omega)]
    simp

theorem drop_eraseIdx_ge {α : Type} (l : List α) (k m : Nat) (hk : k < l.length)
    (hm : k ≤ m) : (l.eraseIdx k).drop m = l.drop (m + 1) := by
  rw [List.eraseIdx_eq_take_drop_succ]
  rw [List.drop_append_eq_append_drop]
  rw [List.drop_of_length_le (by simp; omega)]
  simp only [List.length_take, List.nil_append, List.drop_drop]
  congr 1
  omega

/-- One step of the functional scan: the entry is kept and the watchlists are
unchanged, or it is a Long entry that is erased and pushed onto another list. -/
theorem absStep_frame {s t : Solver} {p : Lit} {k k1 : Nat} {w : Watched} {c c1 : PropBy}
    {b : Bool} (hv : s.value p = l_True)
    (h : s.absStep p k w c = .ok (b, k1, c1, t)) :
    t.value p = l_True ∧
    ((k1 = k + 1 ∧ t.watches = s.watches ∧ (b = true → c1 = c) ∧
        (b = false → c1 = w.conflictReason p ∧ t.qhead = t.trail.length)) ∨
     (k1 = k ∧ b = true ∧ c1 = c ∧ w.isClause = true ∧
        ∃ l w1, l ≠ p ∧ w1.isClause = true ∧ l.toInt < s.watches.length ∧
          t.watches = (s.watches.set p.toInt ((s.ws p).eraseIdx k)).set l.toInt
            (s.ws l ++ [w1]))) := by
  unfold Solver.absStep at h
  cases w with
  | binary o lr =>
    simp only at h
    split at h
    · cases h
    · rename_i b2 c2 s1 h1
      simp only [Except.ok.injEq, Prod.mk.injEq] at h
      obtain ⟨rfl, rfl, rfl, rfl⟩ := h
      refine ⟨propBinaryClause_keeps_true h1 hv, Or.inl ?_⟩
      obtain ⟨hw, hc⟩ := propBinaryClause_inv h1
      refine ⟨rfl, hw, ?_, ?_⟩
      · intro hb
        rcases hc with ⟨-, -, e, -⟩ | ⟨-, e, -⟩ | ⟨-, -, e, -⟩
        · exact e
        · rw [hb] at e; cases e
        · exact e
      · intro hb
        rcases hc with ⟨-, e, -⟩ | ⟨-, -, e, hs, hq, -⟩ | ⟨-, e, -⟩
        · rw [hb] at e; cases e
        · exact ⟨e, by rw [hq, hs.2.1]⟩
        · rw [hb] at e; cases e
  | tri a a2 =>
    simp only at h
    split at h
    · cases h
    · rename_i b2 c2 s1 h1
      simp only [Except.ok.injEq, Prod.mk.injEq] at h
      obtain ⟨rfl, rfl, rfl, rfl⟩ := h
      refine ⟨propTriClause_keeps_true h1 hv, Or.inl ?_⟩
      obtain ⟨hw, hc⟩ := propTriClause_inv h1
      refine ⟨rfl, hw, ?_, ?_⟩
      · intro hb
        rcases hc with ⟨-, -, -, e, -⟩ | ⟨-, -, -, e, -⟩ | ⟨-, -, e, -⟩ | ⟨-, -, e, -⟩
        · exact e
        · exact e
        · rw [hb] at e; cases e
        · exact e
      · intro hb
        rcases hc with ⟨-, -, e, -⟩ | ⟨-, -, e, -⟩ | ⟨-, -, -, e, hs, hq, -⟩ | ⟨-, e, -⟩
        · rw [hb] at e; cases e
        · rw [hb] at e; cases e
        · exact ⟨e, by rw [hq, hs.2.1]⟩
        · rw [hb] at e; cases e
  | clause off blk wn =>
    simp only at h
    split at h
    · cases h
    · rename_i b2 c2 s1 h1
      simp only [Except.ok.injEq, Prod.mk.injEq] at h
      obtain ⟨rfl, rfl, rfl, rfl⟩ := h
      have hvt : s1.value p = l_True := by
        rw [propNormalCore_value h1 (by rw [hv]; simp), hv]
      refine ⟨hvt, Or.inl ?_⟩
      obtain ⟨hw, hc⟩ := propNormalCore_inv h1
      refine ⟨rfl, hw, ?_, ?_⟩
      · intro hb
        rcases hc with ⟨-, -, -, e, -⟩ | ⟨cl, d, lo, -, -, -, -, -, hc⟩
        · exact e
        · rcases hc with ⟨-, -, -, e, -⟩ | ⟨-, k, -, -, ha, -⟩ | ⟨-, -, e, -⟩ | ⟨-, -, -, -, e, -⟩
          · exact e
          · cases ha
          · rw [hb] at e; cases e
          · exact e
      · intro hb
        rcases hc with ⟨-, e, -⟩ | ⟨cl, d, lo, -, -, -, -, -, hc⟩
        · rw [hb] at e; cases e
        · rcases hc with ⟨-, e, -⟩ | ⟨-, k, -, -, ha, -⟩ | ⟨-, -, -, -, e, hs, hq⟩ | ⟨-, -, e, -⟩
          · rw [hb] at e; cases e
          · cases ha
          · exact ⟨e, by rw [hq, hs.2.1]⟩
          · rw [hb] at e; cases e
    · rename_i b2 l w1 c2 s1 h1
      split at h
      · cases h
      · rename_i s2 h2
        simp only [Except.ok.injEq, Prod.mk.injEq] at h
        obtain ⟨rfl, rfl, rfl, rfl⟩ := h
        have hvt : s1.value p = l_True := by
          rw [propNormalCore_value h1 (by rw [hv]; simp), hv]
        have hne : l ≠ p := propNormalCore_relocate_ne h1 hv
        obtain ⟨hw, hc⟩ := propNormalCore_inv h1
        obtain ⟨hlt, e⟩ := Solver.pushWs_ok h2
        have hfacts : b2 = true ∧ c2 = c ∧ w1.isClause = true := by
          rcases hc with ⟨-, -, ha, -⟩ | ⟨cl, d, lo, -, -, -, -, -, hc⟩
          · cases ha
          · rcases hc with ⟨-, -, ha, -⟩ | ⟨-, k, -, hb, ha, hcc, -⟩ | ⟨-, -, -, ha, -⟩ |
              ⟨-, -, -, ha, -⟩
            · cases ha
            · injection ha with _ hw1
              rw [hw1]
              exact ⟨hb, hcc, rfl⟩
            · cases ha
            · cases ha
        refine ⟨?_, Or.inr ⟨rfl, hfacts.1, hfacts.2.1, rfl, l, w1, hne, hfacts.2.2, ?_, ?_⟩⟩
        · rw [e]
          exact hvt
        · simpa [hw] using hlt
        · rw [e]
          simp only [Solver.setWs, Solver.ws, hw]
          congr 2
          rw [getD_set_ne _ _ _ _ _ (fun e => hne (Lit.toInt_inj.mp e.symm))]

/-- The functional scan from position `k`: the final list is the entries before
`k` followed by a sublist `kept` of the entries from `k` on that holds every
entry that is not Long; the other lists only receive Long watchers at the end;
the number of watchers is unchanged; a conflict at position `m` leaves the
watcher at `m` and everything after it in place. -/
theorem absScan_frame (p : Lit) (n : Nat) : ∀ {k : Nat} {s t : Solver} {c c1 : PropBy},
    s.value p = l_True → p.toInt < s.watches.length → k + n = (s.ws p).length →
    Solver.absScan p n k s c = .ok (c1, t) →
    ∃ kept, t.ws p = (s.ws p).take k ++ kept ∧ kept.Sublist ((s.ws p).drop k) ∧
      kept.filter (fun w => !w.isClause) = ((s.ws p).drop k).filter (fun w => !w.isClause) ∧
      (∀ l, l ≠ p → ∃ added, t.ws l = s.ws l ++ added ∧ ∀ w ∈ added, w.isClause = true) ∧
      numWatchers t.watches = numWatchers s.watches ∧ t.watches.length = s.watches.length ∧
      (c1 ≠ c → t.qhead = t.trail.length ∧ ∃ m w, k ≤ m ∧ (s.ws p)[m]? = some w ∧
        c1 = w.conflictReason p ∧ List.IsSuffix ((s.ws p).drop m) kept) := by
  induction n with
  | zero =>
    intro k s t c c1 hv hP hlen h
    simp only [Solver.absScan, Except.ok.injEq, Prod.mk.injEq] at h
    obtain ⟨rfl, rfl⟩ := h
    refine ⟨[], ?_, List.nil_sublist _, ?_, ?_, rfl, rfl, fun hc => absurd rfl hc⟩
    · rw [List.append_nil, List.take_of_length_le (by omega)]
    · rw [List.drop_of_length_le (by omega)]
    · intro l _
      exact ⟨[], by simp, by simp⟩
  | succ n ih =>
    intro k s t c c1 hv hP hlen h
    rw [Solver.absScan] at h
    split at h
    · cases h
    · rename_i w hw
      have hdrop := drop_eq_cons_of_get _ _ _ hw
      have hk : k < (s.ws p).length := by omega
      split at h
      · cases h
      · -- the scan goes on
        rename_i k1 c2 s1 h1
        obtain ⟨hv1, hcase⟩ := absStep_frame hv h1
        rcases hcase with ⟨rfl, hW, hc2, -⟩ | ⟨hk1, -, hc2, hwc, l, w1, hne, hw1, hlt, hW⟩
        · -- the entry is kept
          have hws : ∀ x, s1.ws x = s.ws x := fun x => ws_congr hW x
          obtain ⟨kept, a1, a2, a3, a4, a5, a6, a7⟩ :=
            ih hv1 (by rw [hW]; exact hP) (by rw [hws]; omega) h
          have hc : c2 = c := hc2 rfl
          subst hc
          rw [hws] at a1 a2 a3
          refine ⟨w :: kept, ?_, ?_, ?_, ?_, ?_, ?_, ?_⟩
          · rw [a1, List.take_succ, hw]
            simp
          · rw [hdrop]
            exact a2.cons₂ w
          · rw [hdrop, List.filter_cons, List.filter_cons, a3]
          · intro x hx
            obtain ⟨added, b1, b2⟩ := a4 x hx
            exact ⟨added, by rw [b1, hws], b2⟩
          · rw [a5, hW]
          · rw [a6, hW]
          · intro hne
            obtain ⟨b1, m, w2, b2, b3, b4, b5⟩ := a7 hne
            rw [hws] at b3 b5
            refine ⟨b1, m, w2, by omega, b3, b4, ?_⟩
            exact b5.trans (List.suffix_cons w kept)
        · -- the entry is relocated
          have hk1s := hk1.symm
          subst hk1s
          have hlp : l.toInt ≠ p.toInt := fun e => hne (Lit.toInt_inj.mp e)
          have hwsp : s1.ws p = (s.ws p).eraseIdx k := by
            unfold Solver.ws
            rw [hW, getD_set_ne _ _ _ _ _ hlp, getD_set_self _ _ _ _ hP]
            rfl
          have hwsl : s1.ws l = s.ws l ++ [w1] := by
            unfold Solver.ws
            rw [hW, getD_set_self _ _ _ _ (by simpa using hlt)]
            rfl
          have hwso : ∀ x, x ≠ p → x ≠ l → s1.ws x = s.ws x := by
            intro x hx1 hx2
            unfold Solver.ws
            rw [hW, getD_set_ne _ _ _ _ _ (fun e => hx2 (Lit.toInt_inj.mp e.symm)),
              getD_set_ne _ _ _ _ _ (fun e => hx1 (Lit.toInt_inj.mp e.symm))]
            try rfl
          have hlen1 : s1.watches.length = s.watches.length := by
            rw [hW]; simp
          have hnum : numWatchers s1.watches = numWatchers s.watches := by
            have e1 := numWatchers_set (s.watches.set p.toInt ((s.ws p).eraseIdx k)) l.toInt
              (s.ws l ++ [w1]) (by simpa using hlt)
            have e2 := numWatchers_set s.watches p.toInt ((s.ws p).eraseIdx k) hP
            rw [getD_set_ne _ _ _ _ _ (Ne.symm hlp)] at e1
            rw [List.length_eraseIdx_of_lt hk] at e2
            rw [hW]
            simp only [List.length_append, List.length_singleton] at e1
            have e3 : (s.watches.getD p.toInt []).length = (s.ws p).length := rfl
            have e4 : (s.watches.getD l.toInt []).length = (s.ws l).length := rfl
            omega
          obtain ⟨kept, a1, a2, a3, a4, a5, a6, a7⟩ :=
            ih hv1 (by rw [hlen1]; exact hP)
              (by rw [hwsp, List.length_eraseIdx_of_lt hk]; omega) h
          have hc : c2 = c := hc2
          subst hc
          rw [hwsp, take_eraseIdx_self] at a1
          rw [hwsp, drop_eraseIdx_ge _ _ _ hk (Nat.le_refl _)] at a2 a3
          refine ⟨kept, a1, ?_, ?_, ?_, ?_, ?_, ?_⟩
          · rw [hdrop]
            exact a2.cons w
          · rw [hdrop, List.filter_cons, a3]
            simp [hwc]
          · intro x hx
            obtain ⟨added, b1, b2⟩ := a4 x hx
            by_cases hxl : x = l
            · subst hxl
              refine ⟨w1 :: added, ?_, ?_⟩
              · rw [b1, hwsl]
                simp
              · intro y hy
                rcases List.mem_cons.mp hy with e | e
                · rw [e]; exact hw1
                · exact b2 y e
            · exact ⟨added, by rw [b1, hwso x hx hxl], b2⟩
          · rw [a5, hnum]
          · rw [a6, hlen1]
          · intro hne2
            obtain ⟨b1, m, w2, b2, b3, b4, b5⟩ := a7 hne2
            rw [hwsp, List.getElem?_eraseIdx_of_ge _ _ _ b2] at b3
            rw [hwsp, drop_eraseIdx_ge _ _ _ hk b2] at b5
            exact ⟨b1, m + 1, w2, by omega, b3, b4, b5⟩
      · -- the scan stops
        rename_i k1 c2 s1 h1
        simp only [Except.ok.injEq, Prod.mk.injEq] at h
        obtain ⟨rfl, rfl⟩ := h
        obtain ⟨hv1, hcase⟩ := absStep_frame hv h1
        rcases hcase with ⟨-, hW, -, hc2⟩ | ⟨-, hb, -⟩
        · have hws : ∀ x, s1.ws x = s.ws x := fun x => ws_congr hW x
          obtain ⟨e1, e2⟩ := hc2 rfl
          refine ⟨(s.ws p).drop k, ?_, List.Sublist.refl _, rfl, ?_, by rw [hW], by rw [hW], ?_⟩
          · rw [hws, List.take_append_drop]
          · intro x _
            exact ⟨[], by rw [hws]; simp, by simp⟩
          · intro _
            exact ⟨e2, k, w, Nat.le_refl _, hw, e1, List.suffix_refl _⟩
        · cases hb

/-- C22: one iteration of the loop of `propagate`, on a state whose trail
literals are all True, for the literal `p` that it dequeues. The watchlist
`watches[p]` after the scan is the original list with Long entries removed and
all other entries in their original order: it is a sublist of the original
list, it holds every Binary and Ternary entry, every other list only receives
Long watchers at its end, and the number of watchers in all lists is unchanged,
so the removed entries are the relocated ones. When a conflict stops the scan at
position `m`, the conflicting watcher and every entry after it are retained
verbatim as the tail of the list (a list that holds only the conflicting watcher
is unchanged), and `qhead` is the trail length. The trail literals are all True
afterwards, so the same holds for the next iteration. -/
theorem propagateLit_watchlist_frame (s t : Solver) (p : Lit) (c1 : PropBy)
    (hp : s.trail[s.qhead]? = some p) (hT : TrailTrue s)
    (h : s.propagateLit .null = .ok (c1, t)) :
    TrailTrue t ∧ (t.ws p).Sublist (s.ws p) ∧
    (t.ws p).filter (fun w => !w.isClause) = (s.ws p).filter (fun w => !w.isClause) ∧
    (∀ l, l ≠ p → ∃ added, t.ws l = s.ws l ++ added ∧ ∀ w ∈ added, w.isClause = true) ∧
    numWatchers t.watches = numWatchers s.watches ∧
    (c1 ≠ .null → t.qhead = t.trail.length ∧
      ∃ m w, (s.ws p)[m]? = some w ∧ c1 = w.conflictReason p ∧
        List.IsSuffix ((s.ws p).drop m) (t.ws p) ∧ (s.ws p = [w] → t.ws p = [w])) := by
  have hv : s.value p = l_True := hT p (List.getElem?_mem hp)
  have hT1 := (propagateLit_pres h hT).1
  rw [propagateLit_eq_absLit s .null (fun q hq => by rw [hp] at hq; cases hq; exact hv)] at h
  unfold Solver.absLit at h
  rw [hp] at h
  simp only at h
  split_ifs at h with hP
  obtain ⟨s1, h, hw1, ha1⟩ : ∃ s1 : Solver,
      Solver.absScan p (s.ws p).length 0 s1 .null = .ok (c1, t) ∧ s1.watches = s.watches ∧
        s1.assigns = s.assigns := ⟨_, h, rfl, rfl⟩
  have hws : ∀ x, s1.ws x = s.ws x := fun x => ws_congr hw1 x
  obtain ⟨kept, a1, a2, a3, a4, a5, a6, a7⟩ := absScan_frame p (s.ws p).length
    (by rw [Solver.value_congr ha1, hv]) (by rw [hw1]; exact hP)
    (by rw [hws]; exact Nat.zero_add _) h
  simp only [hws, hw1] at a1 a2 a3 a4 a5 a7
  have e1 : t.ws p = kept := by
    rw [a1]
    exact List.nil_append _
  have a2' : kept.Sublist (s.ws p) := a2
  have a3' : kept.filter (fun w => !w.isClause) = (s.ws p).filter (fun w => !w.isClause) := a3
  refine ⟨hT1, by rw [e1]; exact a2', by rw [e1]; exact a3', a4, a5, ?_⟩
  intro hc
  obtain ⟨b1, m, w, -, b3, b4, b5⟩ := a7 hc
  have b3' : (s.ws p)[m]? = some w := b3
  have b5' : List.IsSuffix ((s.ws p).drop m) kept := b5
  refine ⟨b1, m, w, b3', b4, by rw [e1]; exact b5', ?_⟩
  intro hone
  rw [e1]
  rw [hone] at a2' b5' b3'
  have hm : m = 0 := by
    by_contra hn
    rw [List.getElem?_eq_none (by simp; omega)] at b3'
    cases b3'
  subst hm
  exact List.Sublist.antisymm a2' b5'.sublist

theorem trailTrue_exS4 : TrailTrue exS4 := by
  unfold TrailTrue
  decide

theorem propagateLit_watchlist_frame_witness :
    exS4.trail[exS4.qhead]? = some (negLit 1) ∧ TrailTrue exS4 ∧
    exS4.propagateLit .null = .ok (.null, exS4Final) ∧
    TrailTrue exS4Final ∧ (exS4Final.ws (negLit 1)).Sublist (exS4.ws (negLit 1)) ∧
    (exS4Final.ws (negLit 1)).filter (fun w => !w.isClause)
      = (exS4.ws (negLit 1)).filter (fun w => !w.isClause) ∧
    (∀ l, l ≠ negLit 1 →
      ∃ added, exS4Final.ws l = exS4.ws l ++ added ∧ ∀ w ∈ added, w.isClause = true) ∧
    numWatchers exS4Final.watches = numWatchers exS4.watches ∧
    ((PropBy.null) ≠ .null → exS4Final.qhead = exS4Final.trail.length ∧
      ∃ m w, (exS4.ws (negLit 1))[m]? = some w ∧ PropBy.null = w.conflictReason (negLit 1) ∧
        List.IsSuffix ((exS4.ws (negLit 1)).drop m) (exS4Final.ws (negLit 1)) ∧
        (exS4.ws (negLit 1) = [w] → exS4Final.ws (negLit 1) = [w])) :=
  ⟨by decide, trailTrue_exS4, by decide,
    propagateLit_watchlist_frame exS4 exS4Final (negLit 1) .null (by decide) trailTrue_exS4
      (by decide)⟩

/-! ## Termination of `propagateFull` -/

/-- The loop of `propagateFull` runs one pass for each unit of fuel. -/
theorem propagateFullLoop_succ (o : FullPropOracle) (fuel : Nat) (ph : FullPhase)
    (st : FullState) :
    Solver.propagateFullLoop o (fuel + 1) ph st =
      match Solver.propagateFullStep o ph st with
      | .error e => .error e
      | .ok (.inl r) => .ok r
      | .ok (.inr (ph1, st1)) => Solver.propagateFullLoop o fuel ph1 st1 := by
  cases ph
  · rw [Solver.propagateFullLoop, Solver.propagateFullStep]
    split_ifs with h1
    · cases h2 : st.s.trail[st.nlBinQHead]? with
      | none => rfl
      | some p =>
        simp only
        split_ifs with h3
        · split
          · rename_i e he
            try simp only [he]
            try rfl
          · rename_i he
            try simp only [he]
            split_ifs <;> rfl
        · rfl
    · rfl
  · rw [Solver.propagateFullLoop, Solver.propagateFullStep]
    split_ifs with h1
    · cases h2 : st.s.trail[st.lBinQHead]? with
      | none => rfl
      | some p =>
        simp only
        split_ifs with h3
        · split
          · rename_i e he
            try simp only [he]
            try rfl
          · rename_i he
            try simp only [he]
            split_ifs <;> rfl
        · rfl
    · rfl
  · rw [Solver.propagateFullLoop, Solver.propagateFullStep]
    split_ifs with h1
    · cases h2 : st.s.trail[st.s.qhead]? with
      | none => rfl
      | some p =>
        simp only
        split_ifs with h3
        · split
          · rename_i e he
            try simp only [he]
            try rfl
          · rename_i he
            try simp only [he]
            split_ifs <;> rfl
        · rfl
    · rfl

theorem progress_refl (s : Solver) : Progress s s :=
  ⟨Nat.le_refl _, Nat.le_refl _, Or.inl⟩

theorem progress_undef_le {s t : Solver} (h : Progress s t) :
    undefCount t.assigns ≤ undefCount s.assigns := by
  obtain ⟨h1, h2, -⟩ := h
  omega

theorem progress_trans {s t u : Solver} (h1 : Progress s t) (h2 : Progress t u) :
    Progress s u := by
  have a := progress_undef_le h1
  have b := progress_undef_le h2
  obtain ⟨a1, a2, a3⟩ := h1
  obtain ⟨b1, b2, b3⟩ := h2
  refine ⟨by omega, by omega, ?_⟩
  intro hu
  rcases b3 hu with e | e
  · rcases a3 e with e2 | e2
    · exact Or.inl e2
    · exact Or.inr (by omega)
  · exact Or.inr (by omega)

theorem progress_of_eq {s t : Solver} (h1 : t.trail = s.trail) (h2 : t.assigns = s.assigns)
    (h3 : t.enqeuedSomething = s.enqeuedSomething) : Progress s t := by
  unfold Progress
  rw [h1, h2, h3]
  exact ⟨Nat.le_refl _, Nat.le_refl _, Or.inl⟩

theorem hyperBinKeepsTrail_of_fresh {o : FullPropOracle} (ho : HyperBinEnqueuesFresh o) :
    HyperBinKeepsTrail o :=
  ⟨fun s a b c t h => ⟨(ho.2.2.1 s a b c t h).1, (ho.2.2.1 s a b c t h).2.1⟩,
    fun s a off t h => ⟨(ho.2.2.2 s a off t h).1, (ho.2.2.2 s a off t h).2.1⟩⟩

theorem enqueueComplex_progress {s t : Solver} {l a : Lit} {b : Bool}
    (h : s.enqueueComplex l a b = .ok t) (hv : s.value l = l_Undef) : Progress s t := by
  unfold Solver.enqueueComplex at h
  split at h
  · cases h
  · rename_i s1 h1
    split at h
    · injection h with h
      subst h
      obtain ⟨e1, e2, -⟩ := enqueue_measure h1 hv
      refine ⟨?_, ?_, fun _ => Or.inr ?_⟩
      · show s.trail.length ≤ s1.trail.length
        omega
      · show s1.trail.length + undefCount s1.assigns ≤ _
        omega
      · show undefCount s1.assigns < _
        omega
    · cases h

theorem enqueueComplex_ne_fuel (s : Solver) (l a : Lit) (b : Bool) :
    s.enqueueComplex l a b ≠ .error .fuel := by
  unfold Solver.enqueueComplex
  split
  · rename_i e he
    rw [(enqueue_error he).1]
    simp
  · split <;> simp

theorem propBin_progress {o : FullPropOracle} {s t : Solver} {p lit : Lit} {learnt : Bool}
    {u u1 : List BinaryClause} {ret : PropBy}
    (h : s.propBin o p lit learnt u = .ok (ret, u1, t)) : Progress s t := by
  unfold Solver.propBin at h
  simp only at h
  by_cases h1 : s.value lit = l_Undef
  · rw [if_pos h1] at h
    split at h
    · cases h
    · rename_i s1 hs1
      simp only [Except.ok.injEq, Prod.mk.injEq] at h
      obtain ⟨-, -, rfl⟩ := h
      have e := enqueueComplex_progress hs1 h1
      exact progress_trans (progress_of_eq rfl rfl rfl) e
  · rw [if_neg h1] at h
    repeat' split at h
    all_goals (cases h; try exact progress_of_eq rfl rfl rfl)

theorem propBin_ne_fuel (o : FullPropOracle) (s : Solver) (p lit : Lit) (learnt : Bool)
    (u : List BinaryClause) : s.propBin o p lit learnt u ≠ .error .fuel := by
  intro h
  unfold Solver.propBin at h
  simp only at h
  by_cases h1 : s.value lit = l_Undef
  · rw [if_pos h1] at h
    split at h
    · rename_i e he
      injection h with h
      subst h
      exact enqueueComplex_ne_fuel _ _ _ _ he
    · cases h
  · rw [if_neg h1] at h
    repeat' split at h
    all_goals cases h

theorem propFullNLBinList_progress {o : FullPropOracle} {p : Lit} (ws : List Watched)
    {s t : Solver} {u u1 : List BinaryClause} {ret : PropBy}
    (h : Solver.propFullNLBinList o p ws s u = .ok (ret, u1, t)) : Progress s t := by
  induction ws generalizing s u with
  | nil =>
    simp only [Solver.propFullNLBinList, Except.ok.injEq, Prod.mk.injEq] at h
    obtain ⟨-, -, rfl⟩ := h
    exact progress_refl _
  | cons w ws ih =>
    cases w with
    | binary lit learnt =>
      cases learnt with
      | true =>
        simp only [Solver.propFullNLBinList, if_true] at h
        exact ih h
      | false =>
        simp only [Solver.propFullNLBinList, Bool.false_eq_true, if_false] at h
        split at h
        · cases h
        · rename_i ret1 u2 s1 h1
          have hq1 := propBin_progress h1
          split_ifs at h
          · simp only [Except.ok.injEq, Prod.mk.injEq] at h
            obtain ⟨-, -, rfl⟩ := h
            exact hq1
          · exact progress_trans hq1 (ih h)
    | tri a b => simp only [Solver.propFullNLBinList] at h; exact ih h
    | clause a b c => simp only [Solver.propFullNLBinList] at h; exact ih h

theorem propFullNLBinList_ne_fuel (o : FullPropOracle) (p : Lit) (ws : List Watched)
    (s : Solver) (u : List BinaryClause) :
    Solver.propFullNLBinList o p ws s u ≠ .error .fuel := by
  induction ws generalizing s u with
  | nil => simp [Solver.propFullNLBinList]
  | cons w ws ih =>
    cases w with
    | binary lit learnt =>
      cases learnt with
      | true =>
        simp only [Solver.propFullNLBinList, if_true]
        exact ih _ _
      | false =>
        simp only [Solver.propFullNLBinList, Bool.false_eq_true, if_false]
        split
        · rename_i e he
          intro h
          injection h with h
          subst h
          exact propBin_ne_fuel _ _ _ _ _ _ he
        · split_ifs
          · simp
          · exact ih _ _
    | tri a b => simp only [Solver.propFullNLBinList]; exact ih _ _
    | clause a b c => simp only [Solver.propFullNLBinList]; exact ih _ _

theorem propFullLBinList_progress {o : FullPropOracle} {p : Lit} (ws : List Watched)
    {s t : Solver} {u u1 : List BinaryClause} {ret : PropBy} {b : Bool}
    (h : Solver.propFullLBinList o p ws s u = .ok (ret, b, u1, t)) :
    Progress s t ∧ (b = true → t.enqeuedSomething = true) := by
  induction ws generalizing s u with
  | nil =>
    simp only [Solver.propFullLBinList, Except.ok.injEq, Prod.mk.injEq] at h
    obtain ⟨-, rfl, -, rfl⟩ := h
    exact ⟨progress_refl _, fun e => by cases e⟩
  | cons w ws ih =>
    cases w with
    | binary lit learnt =>
      cases learnt with
      | false =>
        simp only [Solver.propFullLBinList, Bool.false_eq_true, not_false_eq_true, if_true] at h
        exact ih h
      | true =>
        simp only [Solver.propFullLBinList, not_true_eq_false, if_false] at h
        split at h
        · cases h
        · rename_i ret1 u2 s1 h1
          have hq1 := propBin_progress h1
          split_ifs at h with e1 e2
          · simp only [Except.ok.injEq, Prod.mk.injEq] at h
            obtain ⟨-, rfl, -, rfl⟩ := h
            exact ⟨hq1, fun e => by cases e⟩
          · simp only [Except.ok.injEq, Prod.mk.injEq] at h
            obtain ⟨-, -, -, rfl⟩ := h
            exact ⟨hq1, fun _ => e2⟩
          · obtain ⟨a1, a2⟩ := ih h
            exact ⟨progress_trans hq1 a1, a2⟩
    | tri a b => simp only [Solver.propFullLBinList] at h; exact ih h
    | clause a b c => simp only [Solver.propFullLBinList] at h; exact ih h

theorem propFullLBinList_ne_fuel (o : FullPropOracle) (p : Lit) (ws : List Watched)
    (s : Solver) (u : List BinaryClause) :
    Solver.propFullLBinList o p ws s u ≠ .error .fuel := by
  induction ws generalizing s u with
  | nil => simp [Solver.propFullLBinList]
  | cons w ws ih =>
    cases w with
    | binary lit learnt =>
      cases learnt with
      | false =>
        simp only [Solver.propFullLBinList, Bool.false_eq_true, not_false_eq_true, if_true]
        exact ih _ _
      | true =>
        simp only [Solver.propFullLBinList, not_true_eq_false, if_false]
        split
        · rename_i e he
          intro h
          injection h with h
          subst h
          exact propBin_ne_fuel _ _ _ _ _ _ he
        · split_ifs
          · simp
          · simp
          · exact ih _ _
    | tri a b => simp only [Solver.propFullLBinList]; exact ih _ _
    | clause a b c => simp only [Solver.propFullLBinList]; exact ih _ _

theorem propTriClauseFull_progress {o : FullPropOracle} (ho : HyperBinEnqueuesFresh o)
    {s t : Solver} {a b p : Lit} {c c1 : PropBy} {f : Bool}
    (h : s.propTriClauseFull o a b p c = .ok (f, c1, t)) : Progress s t := by
  unfold Solver.propTriClauseFull at h
  simp only at h
  split_ifs at h
  · cases h; exact progress_refl _
  · split at h
    · cases h
    · rename_i s1 h1
      cases h
      have e := (ho.2.2.1 _ _ _ _ _ h1).2
      exact progress_trans (progress_of_eq rfl rfl rfl) e
  · split at h
    · cases h
    · rename_i s1 h1
      cases h
      have e := (ho.2.2.1 _ _ _ _ _ h1).2
      exact progress_trans (progress_of_eq rfl rfl rfl) e
  · cases h
    exact progress_of_eq rfl rfl rfl
  · cases h; exact progress_refl _

theorem propTriClauseFull_ne_fuel {o : FullPropOracle} (ho : HyperBinEnqueuesFresh o)
    (s : Solver) (a b p : Lit) (c : PropBy) :
    s.propTriClauseFull o a b p c ≠ .error .fuel := by
  intro h
  unfold Solver.propTriClauseFull at h
  simp only at h
  split_ifs at h
  · split at h
    · rename_i e he
      injection h with h
      subst h
      exact ho.1 _ _ _ _ he
    · cases h
  · split at h
    · rename_i e he
      injection h with h
      subst h
      exact ho.1 _ _ _ _ he
    · cases h

theorem pushWs_fields {s t : Solver} {l : Lit} {w : Watched} (h : s.pushWs l w = .ok t) :
    t.trail = s.trail ∧ t.assigns = s.assigns ∧ t.enqeuedSomething = s.enqeuedSomething := by
  obtain ⟨-, rfl⟩ := Solver.pushWs_ok h
  exact ⟨rfl, rfl, rfl⟩

theorem pushWs_ne_fuel (s : Solver) (l : Lit) (w : Watched) : s.pushWs l w ≠ .error .fuel := by
  unfold Solver.pushWs
  split_ifs <;> simp

theorem propNormalClauseFull_progress {o : FullPropOracle} (ho : HyperBinEnqueuesFresh o)
    {s t : Solver} {w : Watched} {off : Nat} {blk p : Lit} {wn : Bool} {j j1 : Nat}
    {c c1 : PropBy} {f : Bool}
    (h : s.propNormalClauseFull o w off blk wn j p c = .ok (f, j1, c1, t)) :
    Progress s t := by
  unfold Solver.propNormalClauseFull at h
  simp only at h
  repeat' split at h
  all_goals try (cases h; done)
  all_goals simp only [Except.ok.injEq, Prod.mk.injEq] at h
  all_goals obtain ⟨-, -, -, rfl⟩ := h
  all_goals first
    | exact progress_of_eq rfl rfl rfl
    | (rename_i s3 h3
       have e := pushWs_fields h3
       exact progress_of_eq e.1 e.2.1 e.2.2)
    | (rename_i s4 h4
       have e := (ho.2.2.2 _ _ _ _ h4).2
       refine progress_trans ?_ e
       split_ifs <;> exact progress_of_eq rfl rfl rfl)

theorem propNormalClauseFull_ne_fuel {o : FullPropOracle} (ho : HyperBinEnqueuesFresh o)
    (s : Solver) (w : Watched) (off : Nat) (blk p : Lit) (wn : Bool) (j : Nat) (c : PropBy) :
    s.propNormalClauseFull o w off blk wn j p c ≠ .error .fuel := by
  intro h
  unfold Solver.propNormalClauseFull at h
  simp only at h
  repeat' split at h
  all_goals try (cases h; done)
  all_goals first
    | (rename_i e he
       injection h with h
       subst h
       first
         | exact pushWs_ne_fuel _ _ _ he
         | exact ho.2.1 _ _ _ he)

theorem propagateFullWatch_progress {o : FullPropOracle} (ho : HyperBinEnqueuesFresh o)
    {s t : Solver} {p : Lit} {j j1 : Nat} {w : Watched} {c c1 : PropBy} {f : Bool}
    (h : s.propagateFullWatch o p j w c = .ok (f, j1, c1, t)) : Progress s t := by
  unfold Solver.propagateFullWatch at h
  cases w with
  | binary a b =>
    simp only [Except.ok.injEq, Prod.mk.injEq] at h
    obtain ⟨-, -, -, rfl⟩ := h
    exact progress_of_eq rfl rfl rfl
  | tri a b =>
    simp only at h
    split at h
    · cases h
    · rename_i f1 c2 s1 h1
      simp only [Except.ok.injEq, Prod.mk.injEq] at h
      obtain ⟨-, -, -, rfl⟩ := h
      have e := propTriClauseFull_progress ho h1
      exact progress_trans (progress_of_eq rfl rfl rfl) e
  | clause a b d =>
    simp only at h
    split at h
    · cases h
    · rename_i f1 j2 c2 s1 h1
      simp only [Except.ok.injEq, Prod.mk.injEq] at h
      obtain ⟨-, -, -, rfl⟩ := h
      exact propNormalClauseFull_progress ho h1

theorem propagateFullWatch_ne_fuel {o : FullPropOracle} (ho : HyperBinEnqueuesFresh o)
    (s : Solver) (p : Lit) (j : Nat) (w : Watched) (c : PropBy) :
    s.propagateFullWatch o p j w c ≠ .error .fuel := by
  intro h
  unfold Solver.propagateFullWatch at h
  cases w with
  | binary a b => cases h
  | tri a b =>
    simp only at h
    split at h
    · rename_i e he
      injection h with h
      subst h
      exact propTriClauseFull_ne_fuel ho _ _ _ _ _ he
    · cases h
  | clause a b d =>
    simp only at h
    split at h
    · rename_i e he
      injection h with h
      subst h
      exact propNormalClauseFull_ne_fuel ho _ _ _ _ _ _ _ _ he
    · cases h

theorem propagateFullWatches_progress {o : FullPropOracle} (ho : HyperBinEnqueuesFresh o)
    {p : Lit} (n : Nat) {i j i1 j1 : Nat} {s t : Solver} {c c1 : PropBy}
    (h : Solver.propagateFullWatches o p n i j s c = .ok (i1, j1, c1, t)) : Progress s t := by
  induction n generalizing i j s c with
  | zero =>
    simp only [Solver.propagateFullWatches, Except.ok.injEq, Prod.mk.injEq] at h
    obtain ⟨-, -, -, rfl⟩ := h
    exact progress_refl _
  | succ n ih =>
    rw [Solver.propagateFullWatches] at h
    split at h
    · cases h
    · split at h
      · cases h
      · rename_i h1
        exact progress_trans (propagateFullWatch_progress ho h1) (ih h)
      · rename_i h1
        simp only [Except.ok.injEq, Prod.mk.injEq] at h
        obtain ⟨-, -, -, rfl⟩ := h
        exact propagateFullWatch_progress ho h1

theorem propagateFullWatches_ne_fuel {o : FullPropOracle} (ho : HyperBinEnqueuesFresh o)
    (p : Lit) (n i j : Nat) (s : Solver) (c : PropBy) :
    Solver.propagateFullWatches o p n i j s c ≠ .error .fuel := by
  induction n generalizing i j s c with
  | zero => simp [Solver.propagateFullWatches]
  | succ n ih =>
    rw [Solver.propagateFullWatches]
    split
    · simp
    · split
      · rename_i e he
        intro h
        injection h with h
        subst h
        exact propagateFullWatch_ne_fuel ho _ _ _ _ _ he
      · exact ih _ _ _ _
      · simp

theorem copyRest_assigns (p : Lit) (n i j : Nat) (s : Solver) :
    (Solver.copyRest p n i j s).2.assigns = s.assigns := by
  induction n generalizing i j s with
  | zero => rfl
  | succ n ih =>
    rw [Solver.copyRest]
    split
    · rfl
    · exact ih _ _ _

theorem finish_progress (p : Lit) (n i j k : Nat) (s : Solver) :
    Progress s ((Solver.copyRest p n i j s).2.shrinkWs p k) :=
  progress_of_eq (finish_trail p n i j k s) (copyRest_assigns p n i j s)
    (finish_enqeued p n i j k s)

theorem progress_reset (s : Solver) (b : Nat) :
    Progress s { s with bogoProps := b, enqeuedSomething := false } :=
  ⟨Nat.le_refl _, Nat.le_refl _, fun h => by cases h⟩

theorem progress_restart {s1 t : Solver} (h : Progress s1 t) (h1 : s1.enqeuedSomething = false)
    (h2 : t.enqeuedSomething = true) : undefCount t.assigns < undefCount s1.assigns := by
  rcases h.2.2 h2 with e | e
  · rw [h1] at e; cases e
  · exact e

/-- Every pass through the loops of `propagateFull` that does not return is of
one of the kinds of `PassKind`. -/
theorem propagateFullStep_pass {o : FullPropOracle} (ho : HyperBinEnqueuesFresh o)
    {ph ph1 : FullPhase} {st st1 : FullState}
    (h : Solver.propagateFullStep o ph st = .ok (.inr (ph1, st1))) :
    PassKind ph st ph1 st1 := by
  unfold PassKind
  cases ph with
  | nlBin =>
    rw [Solver.propagateFullStep] at h
    split_ifs at h with h1
    · split at h
      · cases h
      · split_ifs at h
        simp only at h
        split at h
        · cases h
        · rename_i ret u1 s2 hl
          split_ifs at h
          · exact absurd h (by simp)
          · simp only [Except.ok.injEq, Sum.inr.injEq, Prod.mk.injEq] at h
            obtain ⟨rfl, rfl⟩ := h
            have e1 := propFullNLBinList_progress _ hl
            have e2 := propFullNLBinList_mono _ hl
            exact Or.inl ⟨rfl, rfl, h1, rfl, rfl, e2.1,
              progress_trans (progress_of_eq rfl rfl rfl) e1⟩
    · simp only [Except.ok.injEq, Sum.inr.injEq, Prod.mk.injEq] at h
      obtain ⟨rfl, rfl⟩ := h
      exact Or.inr (Or.inl ⟨rfl, rfl, h1, rfl⟩)
  | lBin =>
    rw [Solver.propagateFullStep] at h
    split_ifs at h with h1
    · split at h
      · cases h
      · split_ifs at h
        simp only at h
        split at h
        · cases h
        · rename_i ret restart u1 s2 hl
          obtain ⟨e1, e3⟩ := propFullLBinList_progress _ hl
          have e2 := propFullLBinList_mono _ hl
          have e0 := progress_reset st.s (st.s.bogoProps + 1)
          split_ifs at h with h3 h4
          · exact absurd h (by simp)
          · simp only [Except.ok.injEq, Sum.inr.injEq, Prod.mk.injEq] at h
            obtain ⟨rfl, rfl⟩ := h
            refine Or.inr (Or.inr (Or.inr (Or.inl
              ⟨rfl, rfl, rfl, rfl, e2.1, progress_trans e0 e1, ?_⟩)))
            have e4 := progress_restart e1 rfl (e3 h4)
            exact e4
          · simp only [Except.ok.injEq, Sum.inr.injEq, Prod.mk.injEq] at h
            obtain ⟨rfl, rfl⟩ := h
            exact Or.inr (Or.inr (Or.inl
              ⟨rfl, rfl, h1, rfl, rfl, e2.1, progress_trans e0 e1⟩))
    · simp only [Except.ok.injEq, Sum.inr.injEq, Prod.mk.injEq] at h
      obtain ⟨rfl, rfl⟩ := h
      exact Or.inr (Or.inr (Or.inr (Or.inr (Or.inl ⟨rfl, rfl, h1, rfl⟩))))
  | nonBin =>
    rw [Solver.propagateFullStep] at h
    split_ifs at h with h1
    · split at h
      · cases h
      · rename_i p hp
        split_ifs at h
        simp only at h
        split at h
        · cases h
        · rename_i i j confl s2 hl
          have e1 := propagateFullWatches_progress ho _ hl
          have e0 := progress_reset st.s (st.s.bogoProps + 1)
          have ef := finish_progress p ((st.s.ws p).length - i) i j
            ((st.s.ws p).length - (Solver.copyRest p ((st.s.ws p).length - i) i j s2).1) s2
          have eq := finish_qhead p ((st.s.ws p).length - i) i j
            ((st.s.ws p).length - (Solver.copyRest p ((st.s.ws p).length - i) i j s2).1) s2
          have ee := finish_enqeued p ((st.s.ws p).length - i) i j
            ((st.s.ws p).length - (Solver.copyRest p ((st.s.ws p).length - i) i j s2).1) s2
          have e3 := progress_trans e0 (progress_trans e1 ef)
          split_ifs at h with h3 h4
          · exact absurd h (by simp)
          · simp only [Except.ok.injEq, Sum.inr.injEq, Prod.mk.injEq] at h
            obtain ⟨rfl, rfl⟩ := h
            have hq : s2.qhead = st.s.qhead := by
              rcases propagateFullWatches_step (hyperBinKeepsTrail_of_fresh ho) _ hl with
                ⟨-, a⟩ | ⟨a, -⟩
              · exact a.1
              · exact absurd (not_not.mp h3) a
            refine Or.inr (Or.inr (Or.inr (Or.inr (Or.inr (Or.inr
              ⟨rfl, rfl, rfl, rfl, ?_, e3, ?_⟩)))))
            · exact eq.trans hq
            · have e4 := progress_restart (progress_trans e1 ef) rfl h4
              exact e4
          · simp only [Except.ok.injEq, Sum.inr.injEq, Prod.mk.injEq] at h
            obtain ⟨rfl, rfl⟩ := h
            have hq : s2.qhead = st.s.qhead := by
              rcases propagateFullWatches_step (hyperBinKeepsTrail_of_fresh ho) _ hl with
                ⟨-, a⟩ | ⟨a, -⟩
              · exact a.1
              · exact absurd (not_not.mp h3) a
            refine Or.inr (Or.inr (Or.inr (Or.inr (Or.inr (Or.inl
              ⟨rfl, rfl, h1, ?_, rfl, rfl, ?_⟩)))))
            · have e5 := eq.trans hq
              exact congrArg (fun x => x + 1) e5
            · exact progress_trans e3 (progress_of_eq rfl rfl rfl)
    · exact absurd h (by simp)

theorem propagateFullStep_ne_fuel {o : FullPropOracle} (ho : HyperBinEnqueuesFresh o)
    (ph : FullPhase) (st : FullState) :
    Solver.propagateFullStep o ph st ≠ .error .fuel := by
  intro h
  cases ph with
  | nlBin =>
    rw [Solver.propagateFullStep] at h
    split_ifs at h with h1
    split at h
    · cases h
    · split_ifs at h
      · simp only at h
        split at h
        · rename_i e he
          injection h with h
          subst h
          exact propFullNLBinList_ne_fuel _ _ _ _ _ he
        · split_ifs at h
      · cases h
  | lBin =>
    rw [Solver.propagateFullStep] at h
    split_ifs at h with h1
    split at h
    · cases h
    · split_ifs at h
      · simp only at h
        split at h
        · rename_i e he
          injection h with h
          subst h
          exact propFullLBinList_ne_fuel _ _ _ _ _ he
        · split_ifs at h
      · cases h
  | nonBin =>
    rw [Solver.propagateFullStep] at h
    split_ifs at h with h1
    split at h
    · cases h
    · split_ifs at h
      · simp only at h
        split at h
        · rename_i e he
          injection h with h
          subst h
          exact propagateFullWatches_ne_fuel ho _ _ _ _ _ _ he
        · split_ifs at h
      · cases h

theorem passKind_measure {ph ph1 : FullPhase} {st st1 : FullState}
    (h : PassKind ph st ph1 st1) : fullMeasure ph1 st1 < fullMeasure ph st := by
  unfold fullMeasure
  rcases h with ⟨rfl, rfl, a1, a2, a3, a4, a5⟩ | ⟨rfl, rfl, -, rfl⟩ |
    ⟨rfl, rfl, a1, a2, a3, a4, a5⟩ | ⟨rfl, rfl, a2, a3, a4, a5, a6⟩ | ⟨rfl, rfl, -, rfl⟩ |
    ⟨rfl, rfl, a1, a2, a3, a4, a5⟩ | ⟨rfl, rfl, a2, a3, a4, a5, a6⟩
  all_goals simp only [FullPhase.rank]
  all_goals try omega
  all_goals
    have hu := progress_undef_le a5
    obtain ⟨b1, b2, -⟩ := a5
    rw [a2, a3, a4]
    omega

/-- Enough fuel: the loop of `propagateFull` does not run out of fuel when it
starts with more fuel than the measure. -/
theorem propagateFullLoop_ne_fuel {o : FullPropOracle} (ho : HyperBinEnqueuesFresh o)
    (fuel : Nat) : ∀ (ph : FullPhase) (st : FullState), fullMeasure ph st < fuel →
      Solver.propagateFullLoop o fuel ph st ≠ .error .fuel := by
  induction fuel with
  | zero => intro ph st h; omega
  | succ fuel ih =>
    intro ph st hm
    rw [propagateFullLoop_succ]
    cases hs : Solver.propagateFullStep o ph st with
    | error e =>
      simp only
      intro h
      injection h with h
      subst h
      exact propagateFullStep_ne_fuel ho _ _ hs
    | ok r =>
      cases r with
      | inl r => simp
      | inr r =>
        obtain ⟨ph1, st1⟩ := r
        simp only
        have := passKind_measure (propagateFullStep_pass ho hs)
        exact ih ph1 st1 (by omega)

theorem hyperBinEnqueuesFresh_echo : HyperBinEnqueuesFresh echoOracle := by
  refine ⟨?_, ?_, ?_, ?_⟩
  · intro s a b c h
    cases h
  · intro s a off h
    cases h
  · intro s a b c t h
    cases h
    exact ⟨rfl, progress_refl _⟩
  · intro s a off t h
    cases h
    exact ⟨rfl, progress_refl _⟩

/-- C25: `propagateFull` terminates on every state, for every `removeWhich`
and `analyzeFail`, provided `addHyperBin` returns, keeps `qhead` and each of its
enqueues assigns a previously unassigned variable (and raises the flag
`enqeuedSomething`, which it does not raise otherwise): with the fuel
`propagateFullFuel` the run never stops for lack of fuel. The loop runs one pass
for each unit of fuel; every pass that does not return advances one of the
cursors `nlBinQHead`, `lBinQHead`, `qhead`, which was below the trail length,
by one, or has enqueued a previously unassigned literal and restarts, or leaves
a loop whose condition is false for the next one with the state unchanged; each
of these lowers `fullMeasure`, and more fuel than the measure is enough. -/
theorem propagateFull_terminates (o : FullPropOracle) (ho : HyperBinEnqueuesFresh o) :
    (∀ s u, Solver.propagateFull o s u ≠ .error .fuel) ∧
    (∀ fuel ph st, Solver.propagateFullLoop o (fuel + 1) ph st =
      match Solver.propagateFullStep o ph st with
      | .error e => .error e
      | .ok (.inl r) => .ok r
      | .ok (.inr (ph1, st1)) => Solver.propagateFullLoop o fuel ph1 st1) ∧
    (∀ ph st ph1 st1, Solver.propagateFullStep o ph st = .ok (.inr (ph1, st1)) →
      PassKind ph st ph1 st1 ∧ fullMeasure ph1 st1 < fullMeasure ph st) ∧
    (∀ ph st, Solver.propagateFullStep o ph st ≠ .error .fuel) ∧
    (∀ fuel ph st, fullMeasure ph st < fuel →
      Solver.propagateFullLoop o fuel ph st ≠ .error .fuel) := by
  refine ⟨?_, propagateFullLoop_succ o, ?_, propagateFullStep_ne_fuel ho,
    propagateFullLoop_ne_fuel ho⟩
  · intro s u h
    unfold Solver.propagateFull at h
    repeat' split at h
    all_goals try cases h
    revert h
    apply propagateFullLoop_ne_fuel ho
    unfold fullMeasure Solver.propagateFullFuel
    simp only [FullPhase.rank]
    omega
  · intro ph st ph1 st1 h
    have hk := propagateFullStep_pass ho h
    exact ⟨hk, passKind_measure hk⟩

theorem propagateFull_terminates_witness :
    HyperBinEnqueuesFresh echoOracle ∧
    Solver.propagateFull echoOracle exS5 [] ≠ .error .fuel ∧
    Solver.propagateFull echoOracle exS5 [] = .ok (lit_Undef, exS5Final) :=
  ⟨hyperBinEnqueuesFresh_echo,
    (propagateFull_terminates echoOracle hyperBinEnqueuesFresh_echo).1 exS5 [], by decide⟩

/-! ## The order of the phases of `propagateFull` -/

theorem enqueueComplex_raises {s t : Solver} {l a : Lit} {b : Bool}
    (h : s.enqueueComplex l a b = .ok t) : t.enqeuedSomething = true := by
  unfold Solver.enqueueComplex at h
  split at h
  · cases h
  · split at h
    · injection h with h
      subst h
      rfl
    · cases h

/-- When `propBin` leaves the flag `enqeuedSomething` down, it has enqueued
nothing. -/
theorem propBin_quiet {o : FullPropOracle} {s t : Solver} {p lit : Lit} {learnt : Bool}
    {u u1 : List BinaryClause} {ret : PropBy}
    (h : s.propBin o p lit learnt u = .ok (ret, u1, t)) (hq : t.enqeuedSomething = false) :
    t.trail = s.trail := by
  unfold Solver.propBin at h
  simp only at h
  by_cases h1 : s.value lit = l_Undef
  · rw [if_pos h1] at h
    split at h
    · cases h
    · rename_i s1 hs1
      simp only [Except.ok.injEq, Prod.mk.injEq] at h
      obtain ⟨-, -, rfl⟩ := h
      rw [enqueueComplex_raises hs1] at hq
      cases hq
  · rw [if_neg h1] at h
    repeat' split at h
    all_goals (cases h; try rfl)

theorem propFullLBinList_quiet {o : FullPropOracle} {p : Lit} (ws : List Watched)
    {s t : Solver} {u u1 : List BinaryClause}
    (h : Solver.propFullLBinList o p ws s u = .ok (.null, false, u1, t)) :
    t.trail = s.trail := by
  induction ws generalizing s u with
  | nil =>
    simp only [Solver.propFullLBinList, Except.ok.injEq, Prod.mk.injEq] at h
    obtain ⟨-, -, -, rfl⟩ := h
    rfl
  | cons w ws ih =>
    cases w with
    | binary lit learnt =>
      cases learnt with
      | false =>
        simp only [Solver.propFullLBinList, Bool.false_eq_true, not_false_eq_true, if_true] at h
        exact ih h
      | true =>
        simp only [Solver.propFullLBinList, not_true_eq_false, if_false] at h
        split at h
        · cases h
        · rename_i ret1 u2 s1 h1
          split_ifs at h with e1 e2
          · simp only [Except.ok.injEq, Prod.mk.injEq] at h
            exact absurd h.1 e1
          · simp only [Except.ok.injEq, Prod.mk.injEq] at h
            have := h.2.1
            cases this
          · have hq : s1.enqeuedSomething = false := by
              cases hx : s1.enqeuedSomething
              · rfl
              · exact absurd hx e2
            rw [ih h, propBin_quiet h1 hq]
    | tri a b => simp only [Solver.propFullLBinList] at h; exact ih h
    | clause a b c => simp only [Solver.propFullLBinList] at h; exact ih h

/-- Every learnt Binary watcher of the second loop is examined with the trail
that the scan started with. -/
theorem lBinExamined_trail {o : FullPropOracle} {p : Lit} {ws : List Watched} {s : Solver}
    {u : List BinaryClause} {w : Watched} {sx : Solver}
    (h : LBinExamined o p ws s u w sx) : sx.trail = s.trail := by
  induction h with
  | here lit ws s u => rfl
  | skip _ _ ih => exact ih
  | next h1 hq _ ih => rw [ih, propBin_quiet h1 hq]

theorem propTriClauseFull_quiet {o : FullPropOracle} (hf : HyperBinRaisesFlag o)
    {s t : Solver} {a b p : Lit} {c c1 : PropBy} {f : Bool}
    (h : s.propTriClauseFull o a b p c = .ok (f, c1, t)) (hq : t.enqeuedSomething = false) :
    t.trail.length = s.trail.length := by
  unfold Solver.propTriClauseFull at h
  simp only at h
  split_ifs at h
  · cases h; rfl
  · split at h
    · cases h
    · rename_i s1 h1
      cases h
      have e := hf.1 _ _ _ _ _ h1 hq
      exact e
  · split at h
    · cases h
    · rename_i s1 h1
      cases h
      have e := hf.1 _ _ _ _ _ h1 hq
      exact e
  · cases h
    rfl
  · cases h; rfl

theorem propNormalClauseFull_quiet {o : FullPropOracle} (hf : HyperBinRaisesFlag o)
    {s t : Solver} {w : Watched} {off : Nat} {blk p : Lit} {wn : Bool} {j j1 : Nat}
    {c c1 : PropBy} {f : Bool}
    (h : s.propNormalClauseFull o w off blk wn j p c = .ok (f, j1, c1, t))
    (hq : t.enqeuedSomething = false) : t.trail.length = s.trail.length := by
  unfold Solver.propNormalClauseFull at h
  simp only at h
  repeat' split at h
  all_goals try (cases h; done)
  all_goals simp only [Except.ok.injEq, Prod.mk.injEq] at h
  all_goals obtain ⟨-, -, -, rfl⟩ := h
  all_goals first
    | rfl
    | (rename_i s3 h3
       have e := pushWs_fields h3
       exact congrArg List.length e.1)
    | (rename_i s4 h4
       have e := hf.2 _ _ _ _ h4 hq
       rw [e]
       split_ifs <;> rfl)

/-- An arm of the third loop that lets the scan go on, or leaves the flag down,
has enqueued nothing. -/
theorem propagateFullWatch_quiet {o : FullPropOracle} (hf : HyperBinRaisesFlag o)
    {s t : Solver} {p : Lit} {j j1 : Nat} {w : Watched} {c c1 : PropBy} {f : Bool}
    (h : s.propagateFullWatch o p j w c = .ok (f, j1, c1, t))
    (hq : f = true ∨ t.enqeuedSomething = false) : t.trail.length = s.trail.length := by
  unfold Solver.propagateFullWatch at h
  cases w with
  | binary a b =>
    simp only [Except.ok.injEq, Prod.mk.injEq] at h
    obtain ⟨-, -, -, rfl⟩ := h
    rfl
  | tri a b =>
    simp only at h
    split at h
    · cases h
    · rename_i f1 c2 s1 h1
      simp only [Except.ok.injEq, Prod.mk.injEq] at h
      obtain ⟨rfl, -, -, rfl⟩ := h
      have hq2 : s1.enqeuedSomething = false := by
        rcases hq with e | e
        · cases hx : s1.enqeuedSomething
          · rfl
          · rw [hx] at e
            simp at e
        · exact e
      have e := propTriClauseFull_quiet hf h1 hq2
      exact e
  | clause a b d =>
    simp only at h
    split at h
    · cases h
    · rename_i f1 j2 c2 s1 h1
      simp only [Except.ok.injEq, Prod.mk.injEq] at h
      obtain ⟨rfl, -, -, rfl⟩ := h
      have hq2 : s1.enqeuedSomething = false := by
        rcases hq with e | e
        · cases hx : s1.enqeuedSomething
          · rfl
          · rw [hx] at e
            simp at e
        · exact e
      exact propNormalClauseFull_quiet hf h1 hq2

theorem propagateFullWatches_quiet {o : FullPropOracle} (hf : HyperBinRaisesFlag o)
    {p : Lit} (n : Nat) {i j i1 j1 : Nat} {s t : Solver} {c c1 : PropBy}
    (h : Solver.propagateFullWatches o p n i j s c = .ok (i1, j1, c1, t))
    (hq : t.enqeuedSomething = false) : t.trail.length = s.trail.length := by
  induction n generalizing i j s c with
  | zero =>
    simp only [Solver.propagateFullWatches, Except.ok.injEq, Prod.mk.injEq] at h
    obtain ⟨-, -, -, rfl⟩ := h
    rfl
  | succ n ih =>
    rw [Solver.propagateFullWatches] at h
    split at h
    · cases h
    · split at h
      · cases h
      · rename_i h1
        rw [ih h, propagateFullWatch_quiet hf h1 (Or.inl rfl)]
      · rename_i h1
        simp only [Except.ok.injEq, Prod.mk.injEq] at h
        obtain ⟨-, -, -, rfl⟩ := h
        exact propagateFullWatch_quiet hf h1 (Or.inr hq)

/-- Every Ternary or Long watcher of the third loop is examined with a trail as
long as the one that the scan started with. -/
theorem watchExamined_trail {o : FullPropOracle} (hf : HyperBinRaisesFlag o) {p : Lit}
    {n i j : Nat} {s : Solver} {c : PropBy} {w : Watched} {sx : Solver}
    (h : WatchExamined o p n i j s c w sx) : sx.trail.length = s.trail.length := by
  induction h with
  | here _ _ => rfl
  | next _ h1 _ ih => rw [ih, propagateFullWatch_quiet hf h1 (Or.inl rfl)]

/-- A pass of the second or third loop leaves `nlBinQHead` alone, and it goes
back to the first loop unless the trail has kept its length. -/
theorem propagateFullStep_later {o : FullPropOracle} (hf : HyperBinRaisesFlag o)
    {ph ph1 : FullPhase} {st st1 : FullState}
    (h : Solver.propagateFullStep o ph st = .ok (.inr (ph1, st1))) (hph : ph ≠ .nlBin) :
    st1.nlBinQHead = st.nlBinQHead ∧
      (ph1 = .nlBin ∨ st1.s.trail.length = st.s.trail.length) := by
  cases ph with
  | nlBin => exact absurd rfl hph
  | lBin =>
    rw [Solver.propagateFullStep] at h
    split_ifs at h with h1
    · split at h
      · cases h
      · split_ifs at h
        simp only at h
        split at h
        · cases h
        · rename_i ret restart u1 s2 hl
          split_ifs at h with h3 h4
          · exact absurd h (by simp)
          · simp only [Except.ok.injEq, Sum.inr.injEq, Prod.mk.injEq] at h
            obtain ⟨rfl, rfl⟩ := h
            exact ⟨rfl, Or.inl rfl⟩
          · simp only [Except.ok.injEq, Sum.inr.injEq, Prod.mk.injEq] at h
            obtain ⟨rfl, rfl⟩ := h
            have e1 : ret = .null := not_not.mp h3
            have e2 : restart = false := by
              cases restart
              · rfl
              · exact absurd rfl h4
            subst e1 e2
            have e := propFullLBinList_quiet _ hl
            exact ⟨rfl, Or.inr (congrArg List.length e)⟩
    · simp only [Except.ok.injEq, Sum.inr.injEq, Prod.mk.injEq] at h
      obtain ⟨rfl, rfl⟩ := h
      exact ⟨rfl, Or.inr rfl⟩
  | nonBin =>
    rw [Solver.propagateFullStep] at h
    split_ifs at h with h1
    · split at h
      · cases h
      · rename_i p hp
        split_ifs at h
        simp only at h
        split at h
        · cases h
        · rename_i i j confl s2 hl
          have et := finish_trail p ((st.s.ws p).length - i) i j
            ((st.s.ws p).length - (Solver.copyRest p ((st.s.ws p).length - i) i j s2).1) s2
          have ee := finish_enqeued p ((st.s.ws p).length - i) i j
            ((st.s.ws p).length - (Solver.copyRest p ((st.s.ws p).length - i) i j s2).1) s2
          split_ifs at h with h3 h4
          · exact absurd h (by simp)
          · simp only [Except.ok.injEq, Sum.inr.injEq, Prod.mk.injEq] at h
            obtain ⟨rfl, rfl⟩ := h
            exact ⟨rfl, Or.inl rfl⟩
          · simp only [Except.ok.injEq, Sum.inr.injEq, Prod.mk.injEq] at h
            obtain ⟨rfl, rfl⟩ := h
            have hq : s2.enqeuedSomething = false := by
              cases hx : s2.enqeuedSomething
              · rfl
              · rw [hx] at ee
                exact absurd ee h4
            have e := propagateFullWatches_quiet hf _ hl hq
            refine ⟨rfl, Or.inr ?_⟩
            have e5 := (congrArg List.length et).trans e
            exact e5
    · exact absurd h (by simp)

/-- A pass of the first loop: the loop is left for the second one when
`nlBinQHead` has reached the trail length, or `nlBinQHead` advances by one after
every non-learnt Binary watcher of `trail[nlBinQHead]` was examined. -/
theorem propFullNLBinList_all {o : FullPropOracle} {p : Lit} (ws : List Watched)
    {s t : Solver} {u u1 : List BinaryClause}
    (h : Solver.propFullNLBinList o p ws s u = .ok (.null, u1, t)) :
    NLBinAllExamined o p ws s u := by
  induction ws generalizing s u with
  | nil =>
    intro pre lit post hws
    cases pre <;> cases hws
  | cons w ws ih =>
    intro pre lit post hws
    cases pre with
    | nil =>
      simp only [List.nil_append, List.cons.injEq] at hws
      obtain ⟨rfl, rfl⟩ := hws
      simp only [Solver.propFullNLBinList, Bool.false_eq_true, if_false] at h
      split at h
      · cases h
      · rename_i ret1 u2 s1 h1
        split_ifs at h with e1
        · simp only [Except.ok.injEq, Prod.mk.injEq] at h
          exact absurd h.1 e1
        · have e2 : ret1 = .null := not_not.mp e1
          subst e2
          exact ⟨s, u, s1, u2, rfl, h1⟩
    | cons w0 pre =>
      simp only [List.cons_append, List.cons.injEq] at hws
      obtain ⟨rfl, rfl⟩ := hws
      cases w with
      | binary lit0 learnt0 =>
        cases learnt0 with
        | true =>
          simp only [Solver.propFullNLBinList, if_true] at h ⊢
          exact ih h pre lit post rfl
        | false =>
          simp only [Solver.propFullNLBinList, Bool.false_eq_true, if_false] at h ⊢
          split at h
          · cases h
          · rename_i ret1 u2 s1 h1
            split_ifs at h with e1
            · simp only [Except.ok.injEq, Prod.mk.injEq] at h
              exact absurd h.1 e1
            · obtain ⟨sa, ua, sb, ub, a1, a2⟩ := ih h pre lit post rfl
              refine ⟨sa, ua, sb, ub, ?_, a2⟩
              rw [if_neg e1]
              exact a1
      | tri a b =>
        simp only [Solver.propFullNLBinList] at h ⊢
        exact ih h pre lit post rfl
      | clause a b c =>
        simp only [Solver.propFullNLBinList] at h ⊢
        exact ih h pre lit post rfl

theorem propagateFullStep_first {o : FullPropOracle} {ph1 : FullPhase} {st st1 : FullState}
    (h : Solver.propagateFullStep o .nlBin st = .ok (.inr (ph1, st1))) :
    (ph1 = .lBin ∧ st1 = st ∧ st.s.trail.length ≤ st.nlBinQHead) ∨
    (ph1 = .nlBin ∧ st1.nlBinQHead = st.nlBinQHead + 1 ∧
      ∃ p, st.s.trail[st.nlBinQHead]? = some p ∧
        NLBinAllExamined o p (st.s.ws p) { st.s with bogoProps := st.s.bogoProps + 1 }
          st.uselessBin) := by
  rw [Solver.propagateFullStep] at h
  split_ifs at h with h1
  · split at h
    · cases h
    · rename_i p hp
      split_ifs at h
      simp only at h
      split at h
      · cases h
      · rename_i ret u1 s2 hl
        split_ifs at h with h3
        · exact absurd h (by simp)
        · simp only [Except.ok.injEq, Sum.inr.injEq, Prod.mk.injEq] at h
          obtain ⟨rfl, rfl⟩ := h
          have e1 : ret = .null := not_not.mp h3
          subst e1
          exact Or.inr ⟨rfl, rfl, p, hp, propFullNLBinList_all _ hl⟩
  · simp only [Except.ok.injEq, Sum.inr.injEq, Prod.mk.injEq] at h
    obtain ⟨rfl, rfl⟩ := h
    exact Or.inl ⟨rfl, rfl, by omega⟩

/-- In every configuration that a run passes through, the second and the third
loop run only when `nlBinQHead` has reached the trail length. -/
theorem fullReach_inv {o : FullPropOracle} (hf : HyperBinRaisesFlag o)
    {ph0 ph : FullPhase} {st0 st : FullState} (h : FullReach o ph0 st0 ph st)
    (h0 : ph0 ≠ .nlBin → st0.s.trail.length ≤ st0.nlBinQHead) :
    ph ≠ .nlBin → st.s.trail.length ≤ st.nlBinQHead := by
  induction h with
  | refl => exact h0
  | @step pb pc sb sc hr hs ih =>
    intro hne
    by_cases hb : pb = .nlBin
    · subst hb
      rcases propagateFullStep_first hs with ⟨-, rfl, e⟩ | ⟨e, -⟩
      · exact e
      · exact absurd e hne
    · obtain ⟨e1, e2⟩ := propagateFullStep_later hf hs hb
      rcases e2 with e2 | e2
      · exact absurd e2 hne
      · have := ih hb
        omega

theorem laterExamined_trail {o : FullPropOracle} (hf : HyperBinRaisesFlag o)
    {ph : FullPhase} {st : FullState} {w : Watched} {sx : Solver}
    (h : LaterExamined o ph st w sx) : sx.trail.length = st.s.trail.length := by
  cases ph with
  | nlBin => exact absurd h (by simp [LaterExamined])
  | lBin =>
    obtain ⟨-, p, -, he⟩ := h
    have e := lBinExamined_trail he
    exact congrArg List.length e
  | nonBin =>
    obtain ⟨-, p, -, he⟩ := h
    have e := watchExamined_trail hf he
    exact e

theorem hyperBinRaisesFlag_echo : HyperBinRaisesFlag echoOracle := by
  refine ⟨?_, ?_⟩
  · intro s a b c t h _
    cases h
    rfl
  · intro s a off t h _
    cases h
    rfl

/-- C23: in `propagateFull`, when `addHyperBin` raises the flag
`enqeuedSomething` with every enqueue, the non-learnt binary implications are
exhausted before any other reasoning. The run starts in the first loop, and
each unit of fuel is one pass through a loop. In every configuration that the
run passes through, whenever a learnt Binary watcher (second loop) or a Ternary
or Long watcher (third loop) is examined, the trail is the one the pass started
with and `nlBinQHead` has reached its length. Only the first loop advances
`nlBinQHead`, by one, after it has handed every non-learnt Binary watcher of
`trail[nlBinQHead]` to `propBin`; so every literal on the trail has had its
non-learnt Binary watchers examined. A pass of the second or third loop that
lengthens the trail goes back to the first loop, and no further learnt,
Ternary or Long watcher is examined before `nlBinQHead` has caught up. -/
theorem propagateFull_phase_order (o : FullPropOracle) (hf : HyperBinRaisesFlag o) :
    (∀ st0 ph st w sx, FullReach o .nlBin st0 ph st → LaterExamined o ph st w sx →
      sx.trail.length = st.s.trail.length ∧ sx.trail.length ≤ st.nlBinQHead) ∧
    (∀ ph st ph1 st1, Solver.propagateFullStep o ph st = .ok (.inr (ph1, st1)) →
      ph ≠ .nlBin →
      st1.nlBinQHead = st.nlBinQHead ∧
        (st1.s.trail.length ≠ st.s.trail.length → ph1 = .nlBin)) ∧
    (∀ st ph1 st1, Solver.propagateFullStep o .nlBin st = .ok (.inr (ph1, st1)) →
      (ph1 = .lBin ∧ st1 = st ∧ st.s.trail.length ≤ st.nlBinQHead) ∨
      (ph1 = .nlBin ∧ st1.nlBinQHead = st.nlBinQHead + 1 ∧
        ∃ p, st.s.trail[st.nlBinQHead]? = some p ∧
          NLBinAllExamined o p (st.s.ws p) { st.s with bogoProps := st.s.bogoProps + 1 }
            st.uselessBin)) ∧
    (∀ fuel ph st, Solver.propagateFullLoop o (fuel + 1) ph st =
      match Solver.propagateFullStep o ph st with
      | .error e => .error e
      | .ok (.inl r) => .ok r
      | .ok (.inr (ph1, st1)) => Solver.propagateFullLoop o fuel ph1 st1) := by
  refine ⟨?_, ?_, ?_, propagateFullLoop_succ o⟩
  · intro st0 ph st w sx hr he
    have e1 := laterExamined_trail hf he
    have hne : ph ≠ .nlBin := by
      intro e
      subst e
      exact absurd he (by simp [LaterExamined])
    have e2 := fullReach_inv hf hr (fun h => absurd rfl h) hne
    exact ⟨e1, by omega⟩
  · intro ph st ph1 st1 h hph
    obtain ⟨e1, e2⟩ := propagateFullStep_later hf h hph
    refine ⟨e1, fun hne => ?_⟩
    rcases e2 with e2 | e2
    · exact e2
    · exact absurd e2 hne
  · intro st ph1 st1 h
    exact propagateFullStep_first h

theorem exLearnt_reach : FullReach echoOracle .nlBin exLearntStart .lBin exLearntSecond :=
  @FullReach.step echoOracle .nlBin exLearntStart .nlBin .lBin exLearntSecond exLearntSecond
    (@FullReach.step echoOracle .nlBin exLearntStart .nlBin .nlBin exLearntStart exLearntSecond
      FullReach.refl (by decide))
    (by decide)

theorem exLearnt_examined :
    LaterExamined echoOracle .lBin exLearntSecond (.binary (posLit 2) true)
      { exLearntSecond.s with bogoProps := 2, enqeuedSomething := false } :=
  ⟨by decide, posLit 1, by decide, LBinExamined.here _ _ _ _⟩

theorem propagateFull_phase_order_witness :
    HyperBinRaisesFlag echoOracle ∧
    FullReach echoOracle .nlBin exLearntStart .lBin exLearntSecond ∧
    LaterExamined echoOracle .lBin exLearntSecond (.binary (posLit 2) true)
      { exLearntSecond.s with bogoProps := 2, enqeuedSomething := false } ∧
    (({ exLearntSecond.s with bogoProps := 2, enqeuedSomething := false } : Solver).trail.length
        = exLearntSecond.s.trail.length ∧
      ({ exLearntSecond.s with bogoProps := 2, enqeuedSomething := false } : Solver).trail.length
        ≤ exLearntSecond.nlBinQHead) :=
  ⟨hyperBinRaisesFlag_echo, exLearnt_reach, exLearnt_examined,
    (propagateFull_phase_order echoOracle hyperBinRaisesFlag_echo).1 exLearntStart .lBin
      exLearntSecond (.binary (posLit 2) true)
      { exLearntSecond.s with bogoProps := 2, enqeuedSomething := false }
      exLearnt_reach exLearnt_examined⟩

/-! ## `propagate` at quiescence -/

/-- An arm of the scan of `propagate` passes the conflict on, or it has found a
conflict and set `qhead` to the trail length. -/
theorem propagateWatch_conflict {s t : Solver} {p : Lit} {j j1 : Nat} {w : Watched}
    {c c1 : PropBy} {b : Bool} (h : s.propagateWatch p j w c = .ok (b, j1, c1, t)) :
    (b = true ∧ c1 = c ∧ t.qhead = s.qhead) ∨
      (b = false ∧ c1 ≠ .null ∧ t.qhead = t.trail.length) := by
  unfold Solver.propagateWatch at h
  cases w with
  | binary a lr =>
    simp only at h
    split at h
    · cases h
    · rename_i b1 c2 s1 h1
      simp only [Except.ok.injEq, Prod.mk.injEq] at h
      obtain ⟨rfl, -, rfl, rfl⟩ := h
      obtain ⟨-, hc⟩ := propBinaryClause_inv h1
      rcases hc with ⟨-, e1, e2, he⟩ | ⟨-, e1, e2, hs, hq, -⟩ | ⟨-, e1, e2, rfl⟩
      · exact Or.inl ⟨e1, e2, he.2.2.2.2.2.2.2.1⟩
      · refine Or.inr ⟨e1, by rw [e2]; simp, ?_⟩
        rw [hq, hs.2.1]
      · exact Or.inl ⟨e1, e2, rfl⟩
  | tri a a2 =>
    simp only at h
    split at h
    · cases h
    · rename_i b1 c2 s1 h1
      simp only [Except.ok.injEq, Prod.mk.injEq] at h
      obtain ⟨rfl, -, rfl, rfl⟩ := h
      obtain ⟨-, hc⟩ := propTriClause_inv h1
      rcases hc with ⟨-, -, e1, e2, he⟩ | ⟨-, -, e1, e2, he⟩ | ⟨-, -, e1, e2, hs, hq, -⟩ |
        ⟨-, e1, e2, rfl⟩
      · exact Or.inl ⟨e1, e2, he.2.2.2.2.2.2.2.1⟩
      · exact Or.inl ⟨e1, e2, he.2.2.2.2.2.2.2.1⟩
      · refine Or.inr ⟨e1, by rw [e2]; simp, ?_⟩
        rw [hq, hs.2.1]
      · exact Or.inl ⟨e1, e2, rfl⟩
  | clause off blk wn =>
    simp only at h
    rw [propNormalClause_eq_core] at h
    cases hA : s.propNormalCore off blk wn p c with
    | error e => rw [hA] at h; cases h
    | ok r =>
      obtain ⟨b0, act, c0, t0⟩ := r
      rw [hA] at h
      obtain ⟨-, hc⟩ := propNormalCore_inv hA
      have hcore : (b0 = true ∧ c0 = c ∧ t0.qhead = s.qhead) ∨
          (b0 = false ∧ c0 ≠ .null ∧ t0.qhead = t0.trail.length) := by
        rcases hc with ⟨-, e1, -, e2, rfl⟩ | ⟨cl, d, lo, -, -, -, -, -, hc⟩
        · exact Or.inl ⟨e1, e2, rfl⟩
        · rcases hc with ⟨-, e1, -, e2, -, hq⟩ | ⟨-, k, -, e1, -, e2, hr⟩ |
            ⟨-, -, e1, -, e2, hs, hq⟩ | ⟨-, -, e1, -, e2, he⟩
          · exact Or.inl ⟨e1, e2, hq⟩
          · exact Or.inl ⟨e1, e2, hr.2.2.2.2.2.1⟩
          · refine Or.inr ⟨e1, by rw [e2]; simp, ?_⟩
            rw [hq, hs.2.1]
          · exact Or.inl ⟨e1, e2, he.2.2.2.2.2.2.2.1⟩
      cases act with
      | keep =>
        simp only [Except.ok.injEq, Prod.mk.injEq] at h
        obtain ⟨rfl, -, rfl, rfl⟩ := h
        exact hcore
      | relocate l w1 =>
        simp only at h
        cases hp : t0.pushWs l w1 with
        | error e => rw [hp] at h; cases h
        | ok t2 =>
          rw [hp] at h
          simp only [Except.ok.injEq, Prod.mk.injEq] at h
          obtain ⟨rfl, -, rfl, rfl⟩ := h
          obtain ⟨-, rfl⟩ := Solver.pushWs_ok hp
          exact hcore

theorem propagateWatches_conflict {p : Lit} (n : Nat) {i j i1 j1 : Nat} {s t : Solver}
    {c c1 : PropBy} (h : Solver.propagateWatches p n i j s c = .ok (i1, j1, c1, t)) :
    (c1 = c ∧ t.qhead = s.qhead) ∨ (c1 ≠ .null ∧ t.qhead = t.trail.length) := by
  induction n generalizing i j s c with
  | zero =>
    simp only [Solver.propagateWatches, Except.ok.injEq, Prod.mk.injEq] at h
    obtain ⟨-, -, rfl, rfl⟩ := h
    exact Or.inl ⟨rfl, rfl⟩
  | succ n ih =>
    rw [Solver.propagateWatches] at h
    split at h
    · cases h
    · split at h
      · cases h
      · rename_i h1
        rcases propagateWatch_conflict h1 with ⟨-, e1, e2⟩ | ⟨e1, -⟩
        · rcases ih h with ⟨a1, a2⟩ | a
          · exact Or.inl ⟨a1.trans e1, a2.trans e2⟩
          · exact Or.inr a
        · cases e1
      · rename_i h1
        simp only [Except.ok.injEq, Prod.mk.injEq] at h
        obtain ⟨-, -, rfl, rfl⟩ := h
        rcases propagateWatch_conflict h1 with ⟨e1, -⟩ | ⟨-, e2, e3⟩
        · cases e1
        · exact Or.inr ⟨e2, e3⟩

/-- One iteration of the loop of `propagate` that starts without a conflict
ends without one, or with `qhead` at the trail length. -/
theorem propagateLit_conflict {s t : Solver} {c1 : PropBy}
    (h : s.propagateLit .null = .ok (c1, t)) :
    c1 = .null ∨ t.qhead = t.trail.length := by
  unfold Solver.propagateLit at h
  split at h
  · cases h
  · rename_i p hp
    split_ifs at h
    simp only at h
    split at h
    · cases h
    · rename_i i j c2 s2 hl
      simp only [Except.ok.injEq, Prod.mk.injEq] at h
      obtain ⟨rfl, rfl⟩ := h
      rcases propagateWatches_conflict _ hl with ⟨e, -⟩ | ⟨-, e⟩
      · exact Or.inl e
      · right
        rw [finish_qhead, finish_trail]
        exact e

theorem propagateLoop_exit (fuel : Nat) : ∀ {s t : Solver} {c c1 : PropBy},
    Solver.propagateLoop fuel s c = .ok (c1, t) →
    (c ≠ .null → ¬ s.qhead < s.trail.length) → ¬ t.qhead < t.trail.length := by
  induction fuel with
  | zero =>
    intro s t c c1 h hc
    unfold Solver.propagateLoop at h
    split_ifs at h with h1
    simp only [Except.ok.injEq, Prod.mk.injEq] at h
    obtain ⟨rfl, rfl⟩ := h
    by_cases hn : c = .null
    · subst hn
      intro hlt
      exact h1 ⟨hlt, rfl⟩
    · exact hc hn
  | succ fuel ih =>
    intro s t c c1 h hc
    unfold Solver.propagateLoop at h
    split_ifs at h with h1
    · have hn : c = .null := by
        cases c <;> simp [PropBy.isNULL] at h1 ⊢
      subst hn
      split at h
      · cases h
      · rename_i c2 s1 hl
        refine ih h ?_
        intro hc2
        rcases propagateLit_conflict hl with e | e
        · exact absurd e hc2
        · omega
    · simp only [Except.ok.injEq, Prod.mk.injEq] at h
      obtain ⟨rfl, rfl⟩ := h
      by_cases hn : c = .null
      · subst hn
        intro hlt
        exact h1 ⟨hlt, rfl⟩
      · exact hc hn

theorem propagateLoop_quiescent (fuel : Nat) (t : Solver) (h : ¬ t.qhead < t.trail.length) :
    Solver.propagateLoop fuel t .null = .ok (.null, t) := by
  cases fuel with
  | zero =>
    unfold Solver.propagateLoop
    rw [if_neg (fun e => h e.1)]
  | succ fuel =>
    unfold Solver.propagateLoop
    rw [if_neg (fun e => h e.1)]

/-- C5: `propagate` is idempotent at quiescence. After a call of `propagate`
has returned, with or without a conflict, `qhead` is not below the trail
length, and a second call on the returned state returns the null reason at once
and returns that state unchanged: trail, assignment, `qhead`, every watchlist
and the clause data are the same. -/
theorem propagate_idempotent (s t : Solver) (c : PropBy) (h : s.propagate = .ok (c, t)) :
    ¬ t.qhead < t.trail.length ∧ t.propagate = .ok (.null, t) := by
  unfold Solver.propagate at h
  have hq := propagateLoop_exit _ h (fun e => absurd rfl e)
  exact ⟨hq, propagateLoop_quiescent _ t hq⟩

theorem propagate_idempotent_witness :
    exS4.propagate = .ok (.null, exS4Final) ∧ ¬ exS4Final.qhead < exS4Final.trail.length ∧
    exS4Final.propagate = .ok (.null, exS4Final) :=
  ⟨by decide, propagate_idempotent exS4 exS4Final .null (by decide)⟩

/-! ## Binary watch symmetry -/

theorem mem_pushBinary (ws : List Watched) (w x : Watched) (hw : w.isBinary = true) :
    x ∈ pushBinary ws w ↔ x ∈ ws ∨ x = w := by
  obtain ⟨pre, post, e, -, hp, -⟩ := binInserted_pushBinary ws w hw
  rw [e, ← hp.mem_iff]
  simp only [List.mem_append, List.mem_cons]
  tauto

theorem mem_attachBinClause {s t : Solver} {a b : Lit} {learnt : Bool}
    (h : s.attachBinClause a b learnt = .ok t) (x : Lit) (w : Watched) :
    w ∈ t.ws x ↔ w ∈ s.ws x ∨ (x = a.neg ∧ w = .binary b learnt) ∨
      (x = b.neg ∧ w = .binary a learnt) := by
  obtain ⟨ha, hb⟩ := attachBinClause_ok h
  rw [attachBinClause_of_lt s a b learnt ha hb] at h
  injection h with h
  subst h
  rw [Solver.ws_setWs _ _ _ _ (by rw [Solver.setWs_watches_length]; exact hb)]
  by_cases hxb : x = b.neg
  · rw [if_pos hxb, mem_pushBinary _ (.binary _ _) _ rfl, Solver.ws_setWs _ _ _ _ ha]
    by_cases hba : b.neg = a.neg
    · rw [if_pos hba, mem_pushBinary _ (.binary _ _) _ rfl]
      have hxa : x = a.neg := hxb.trans hba
      subst hxb
      rw [← hba]
      tauto
    · rw [if_neg hba]
      have hxa : x ≠ a.neg := fun e => hba (hxb.symm.trans e)
      subst hxb
      tauto
  · rw [if_neg hxb, Solver.ws_setWs _ _ _ _ ha]
    by_cases hxa : x = a.neg
    · rw [if_pos hxa, mem_pushBinary _ (.binary _ _) _ rfl]
      subst hxa
      tauto
    · rw [if_neg hxa]
      tauto

theorem binSym_attachBinClause {s t : Solver} {a b : Lit} {learnt : Bool}
    (h : s.attachBinClause a b learnt = .ok t) (hs : BinSym s) : BinSym t := by
  intro x y r
  rw [mem_attachBinClause h, mem_attachBinClause h, hs x y r]
  simp only [Watched.binary.injEq]
  constructor
  · rintro (h1 | ⟨h1, h2, h3⟩ | ⟨h1, h2, h3⟩)
    · exact Or.inl h1
    · have := Lit.neg_inj h1
      subst this; subst h2; subst h3
      exact Or.inr (Or.inr ⟨rfl, rfl, rfl⟩)
    · have := Lit.neg_inj h1
      subst this; subst h2; subst h3
      exact Or.inr (Or.inl ⟨rfl, rfl, rfl⟩)
  · rintro (h1 | ⟨h1, h2, h3⟩ | ⟨h1, h2, h3⟩)
    · exact Or.inl h1
    · have := Lit.neg_inj h1
      subst this; subst h2; subst h3
      exact Or.inr (Or.inr ⟨rfl, rfl, rfl⟩)
    · have := Lit.neg_inj h1
      subst this; subst h2; subst h3
      exact Or.inr (Or.inl ⟨rfl, rfl, rfl⟩)

theorem mem_binary_of_binSame {s t : Solver} (h : BinSame s t) (x b : Lit) (r : Bool) :
    Watched.binary b r ∈ t.ws x ↔ Watched.binary b r ∈ s.ws x := by
  have e := h.2 x.toInt
  unfold binsOf at e
  have m1 : Watched.binary b r ∈ t.ws x ↔
      Watched.binary b r ∈ (t.watches.getD x.toInt []).filter Watched.isBinary := by
    rw [List.mem_filter]
    unfold Solver.ws
    simp [Watched.isBinary]
  have m2 : Watched.binary b r ∈ s.ws x ↔
      Watched.binary b r ∈ (s.watches.getD x.toInt []).filter Watched.isBinary := by
    rw [List.mem_filter]
    unfold Solver.ws
    simp [Watched.isBinary]
  rw [m1, m2, e]

theorem binSym_of_binSame {s t : Solver} (h : BinSame s t) (hs : BinSym s) : BinSym t := by
  intro a b r
  rw [mem_binary_of_binSame h, mem_binary_of_binSame h]
  exact hs a b r

theorem binSym_of_watches {s t : Solver} (h : t.watches = s.watches) (hs : BinSym s) :
    BinSym t :=
  binSym_of_binSame (binSame_of_watches h) hs

theorem newVar_ws {s t : Solver} {v : Nat} (h : s.newVar = .ok (v, t)) (x : Lit) :
    t.ws x = s.ws x := by
  unfold Solver.newVar at h
  simp only at h
  split_ifs at h
  simp only [Except.ok.injEq, Prod.mk.injEq] at h
  obtain ⟨-, rfl⟩ := h
  show (resizeList s.watches (s.watches.length + 2) []).getD x.toInt [] =
    s.watches.getD x.toInt []
  unfold resizeList
  rw [List.take_of_length_le (by omega)]
  simp only [List.getD_eq_getElem?_getD]
  by_cases hx : x.toInt < s.watches.length
  · rw [List.getElem?_append_left hx]
  · rw [List.getElem?_append_right (by omega), List.getElem?_eq_none (by omega : s.watches.length ≤ x.toInt)]
    cases hg : (List.replicate (s.watches.length + 2 - s.watches.length) ([] : List Watched))[x.toInt - s.watches.length]? with
    | none => rfl
    | some y =>
      have := List.getElem?_mem hg
      rw [List.mem_replicate] at this
      rw [this.2]
      rfl

theorem binSym_of_reach {nl nn : Nat} {s : Solver} (h : Reach nl nn s) : BinSym s := by
  induction h with
  | init s h0 hT =>
    have hnil : ∀ x, s.ws x = [] := by
      intro x
      unfold Solver.ws
      rw [List.getD_eq_getElem?_getD]
      cases hg : s.watches[x.toInt]? with
      | none => rfl
      | some y => exact h0 y (List.getElem?_mem hg)
    intro a b r
    rw [hnil, hnil]
    simp
  | attachBin a b learnt _ h ih => exact binSym_attachBinClause h ih
  | attach off p1 p2 chk _ h ih => exact binSym_of_binSame (attachClause_binSame h).1 ih
  | propagate c hr h ih => exact binSym_of_binSame (propagate_pres h (reach_inv hr).1).2 ih
  | decide l hr hl h ih => exact binSym_of_watches (decide_pres hl h (reach_inv hr).1).2 ih
  | newVar v _ h ih =>
    intro a b r
    rw [newVar_ws h, newVar_ws h]
    exact ih a b r

/-- C8: binary watch symmetry holds in every state reached from empty
watchlists (and a trail whose literals are True) by `attachBinClause`,
`attachClause`, `propagate`, decisions and `newVar`: for all literals `a`, `b`
and each learnt flag `r`, `watches[~a]` contains a Binary watcher with payload
`b` and flag `r` if and only if `watches[~b]` contains a Binary watcher with
payload `a` and flag `r`. -/
theorem binary_watch_symmetry (nl nn : Nat) (s : Solver) (h : Reach nl nn s)
    (a b : Lit) (r : Bool) :
    Watched.binary b r ∈ s.ws a.neg ↔ Watched.binary a r ∈ s.ws b.neg :=
  binSym_of_reach h a b r

theorem binary_watch_symmetry_witness :
    Reach 1 1 exTwoBins ∧
    (Watched.binary (posLit 2) true ∈ exTwoBins.ws (negLit 1).neg ↔
      Watched.binary (negLit 1) true ∈ exTwoBins.ws (posLit 2).neg) :=
  ⟨reach_exTwoBins,
    binary_watch_symmetry 1 1 exTwoBins reach_exTwoBins (negLit 1) (posLit 2) true⟩

/-! ## Falsified conflicts and unit reasons -/

theorem value_undef_of_var {s : Solver} {x y : Lit} (h : x.var = y.var)
    (hy : s.value y = l_Undef) : s.value x = l_Undef := by
  cases x with | mk xv xs =>
  cases y with | mk yv ys =>
  simp only at h
  subst h
  unfold Solver.value valueOf at hy ⊢
  simp only at hy ⊢
  cases hg : s.assigns.getD xv l_Undef <;> rw [hg] at hy <;>
    cases xs <;> cases ys <;> simp_all [lbool.xor]

theorem unitReason_mono {s t : Solver} {l : Lit} {r : PropBy} (ha : t.arena = s.arena)
    (ht : ∀ x ∈ s.trail, x ∈ t.trail) (hv : ∀ x, s.value x = l_False → t.value x = l_False)
    (h : UnitReason s l r) : UnitReason t l r := by
  cases r with
  | null => exact h
  | binary x => exact ⟨ht _ h.1, hv _ h.2⟩
  | tertiary x q => exact ⟨ht _ h.1, hv _ h.2.1, hv _ h.2.2⟩
  | clause off wn =>
    obtain ⟨cl, h1, h2, h3⟩ := h
    exact ⟨cl, by rw [ha]; exact h1, h2, fun x hx hne => hv _ (h3 x hx hne)⟩

theorem unitRun_of_eq {s t : Solver} (ha : t.arena = s.arena) (hs : t.assigns = s.assigns)
    (ht : t.trail = s.trail) (hd : t.varData = s.varData) : UnitRun s t := by
  refine ⟨ha, fun x _ => ⟨Solver.value_congr hs x, ?_⟩, [], by rw [ht, List.append_nil],
    by simp, ?_⟩
  · unfold Solver.reasonOf; rw [hd]
  · intro l hl; cases hl

theorem unitRun_refl (s : Solver) : UnitRun s s := unitRun_of_eq rfl rfl rfl rfl

theorem unitRun_trans {s t u : Solver} (h1 : UnitRun s t) (h2 : UnitRun t u) : UnitRun s u := by
  obtain ⟨a1, p1, new1, t1, n1, u1⟩ := h1
  obtain ⟨a2, p2, new2, t2, n2, u2⟩ := h2
  have hkeep : ∀ x, s.value x ≠ l_Undef → t.value x ≠ l_Undef := by
    intro x hx
    rw [(p1 x hx).1]
    exact hx
  refine ⟨a2.trans a1, ?_, new1 ++ new2, by rw [t2, t1, List.append_assoc], ?_, ?_⟩
  · intro x hx
    exact ⟨((p2 x (hkeep x hx)).1).trans (p1 x hx).1, ((p2 x (hkeep x hx)).2).trans (p1 x hx).2⟩
  · rw [List.map_append, List.nodup_append]
    refine ⟨n1, n2, ?_⟩
    intro v hv1 hv2
    obtain ⟨l1, hl1, rfl⟩ := List.mem_map.mp hv1
    obtain ⟨l2, hl2, e⟩ := List.mem_map.mp hv2
    have h1 := (u1 l1 hl1).2.1
    have h2 := (u2 l2 hl2).1
    have := value_undef_of_var e.symm h2
    rw [h1] at this
    cases this
  · intro l hl
    rcases List.mem_append.mp hl with hl | hl
    · obtain ⟨b1, b2, b3⟩ := u1 l hl
      have hne : t.value l ≠ l_Undef := by rw [b2]; simp
      refine ⟨b1, by rw [(p2 l hne).1, b2], ?_⟩
      rw [(p2 l hne).2]
      refine unitReason_mono a2 ?_ ?_ b3
      · intro x hx
        rw [t2]
        exact List.mem_append_left _ hx
      · intro x hx
        rw [(p2 x (by rw [hx]; simp)).1, hx]
    · obtain ⟨b1, b2, b3⟩ := u2 l hl
      refine ⟨?_, b2, b3⟩
      by_contra hne
      have := (p1 l hne).1
      rw [b1] at this
      exact hne this.symm

theorem unitRun_enq {s t : Solver} {l : Lit} {r : PropBy} (he : Enq s t l r)
    (hl : s.value l = l_Undef) (hu : UnitReason s l r) : UnitRun s t := by
  have hval : ∀ x, s.value x ≠ l_Undef → t.value x = s.value x :=
    fun x hx => he.value_of_assigned hl hx
  obtain ⟨h1, h2, h3, h4, h5, h6, -⟩ := he
  have hself : t.value l = l_True := by
    unfold Solver.value
    rw [h3, valueOf_set _ _ _ h1]
    simp
  refine ⟨h6, fun x hx => ⟨hval x hx, ?_⟩, [l], h4, by simp, ?_⟩
  · have hne : x.var ≠ l.var := fun e => hx (value_undef_of_var e hl)
    unfold Solver.reasonOf
    rw [h5]
    simp only [List.getD_eq_getElem?_getD]
    rw [List.getElem?_set_ne (Ne.symm hne)]
  · intro y hy
    rw [List.mem_singleton] at hy
    subst hy
    refine ⟨hl, hself, ?_⟩
    have hr : t.reasonOf y = r := by
      unfold Solver.reasonOf
      rw [h5, List.getD_eq_getElem?_getD, List.getElem?_set_self h2]
      rfl
    rw [hr]
    refine unitReason_mono h6 ?_ ?_ hu
    · intro x hx
      rw [h4]
      exact List.mem_append_left _ hx
    · intro x hx
      rw [hval x (by rw [hx]; simp), hx]

theorem armUnit_unitReason {s : Solver} {p l : Lit} {w : Watched} {r : PropBy}
    (hp : p ∈ s.trail) (h : ArmUnit s p w l r) : UnitReason s l r := by
  cases w with
  | binary o lr =>
    obtain ⟨-, rfl, hf⟩ := h
    exact ⟨by rw [Lit.neg_neg]; exact hp, hf⟩
  | tri a a2 =>
    obtain ⟨h | h, hf⟩ := h
    · obtain ⟨-, rfl, h2⟩ := h
      exact ⟨by rw [Lit.neg_neg]; exact hp, hf, h2⟩
    · obtain ⟨-, rfl, h2⟩ := h
      exact ⟨by rw [Lit.neg_neg]; exact hp, hf, h2⟩
  | clause off blk wn =>
    obtain ⟨rfl, cl, d, ha, -, -, hl, hoth⟩ := h
    refine ⟨cl, ha, List.getElem?_mem hl, ?_⟩
    intro x hx hne
    obtain ⟨i, hi⟩ := List.mem_iff_getElem?.mp hx
    refine hoth i x hi ?_
    intro e
    rw [e, hl] at hi
    injection hi with hi
    exact hne hi.symm

theorem long_others_false {a : List lbool} {lits : List Lit} {d : ClauseData} {wn : Bool}
    {pn : Lit}
    (hnone : findNewWatch a lits d.lit0 d.lit1 lits.length 0 = none)
    (hw : lits[d.get wn]? = some pn) (hpn : valueOf a pn = l_False) :
    ∀ i x, lits[i]? = some x → i ≠ d.get (!wn) → valueOf a x = l_False := by
  intro i x hx hne
  have hi : i < lits.length := by
    by_contra hc
    rw [List.getElem?_eq_none (by omega)] at hx
    cases hx
  have hgx : lits.getD i lit_Undef = x := by
    rw [List.getD_eq_getElem?_getD, hx]; rfl
  have h0 : d.get false = d.lit0 := rfl
  have h1 : d.get true = d.lit1 := rfl
  rcases findNewWatch_none hnone i (Nat.zero_le _) (by omega) with e | e | e
  · cases wn
    · rw [h0, ← e, hx] at hw
      injection hw with hw
      rw [hw]; exact hpn
    · exact absurd (e.trans h0.symm) hne
  · cases wn
    · exact absurd (e.trans h1.symm) hne
    · rw [h1, ← e, hx] at hw
      injection hw with hw
      rw [hw]; exact hpn
  · rw [← hgx]; exact e

/-- The three outcomes of the Long arm without its watchlist writes: nothing is
assigned, one unassigned literal is enqueued as the unit literal of the clause,
or the clause is falsified. -/
theorem propNormalCore_unit {s t : Solver} {off : Nat} {blk p : Lit} {wn : Bool}
    {c c1 : PropBy} {b : Bool} {act : LongAct} (hv : s.value p = l_True) (hsz : ShortClauses s)
    (h : s.propNormalCore off blk wn p c = .ok (b, act, c1, t)) :
    t.arena = s.arena ∧
    ((b = true ∧ c1 = c ∧ t.assigns = s.assigns ∧ t.trail = s.trail ∧ t.varData = s.varData) ∨
     (b = true ∧ c1 = c ∧ ∃ l r, Enq s t l r ∧ s.value l = l_Undef ∧
        ArmUnit s p (.clause off blk wn) l r) ∨
     (b = false ∧ t.assigns = s.assigns ∧ t.trail = s.trail ∧ t.varData = s.varData ∧
        ConflictFalsified t p c1)) := by
  have hpn : s.value p.neg = l_False := Solver.value_neg_false.mpr hv
  obtain ⟨-, hc⟩ := propNormalCore_inv h
  rcases hc with ⟨-, e1, -, e2, rfl⟩ | ⟨cl, d, lo, harena, hdata, hlw, hlo, -, hc⟩
  · exact ⟨rfl, Or.inl ⟨e1, e2, rfl, rfl, rfl⟩⟩
  · have hsize : cl.size % 65536 = cl.lits.length := Nat.mod_eq_of_lt (hsz off cl harena)
    rcases hc with ⟨-, e1, -, e2, hs, -⟩ | ⟨-, k, -, e1, -, e2, hr⟩ |
        ⟨hnone, hloF, e1, -, e2, hs, -⟩ | ⟨hnone, hloU, e1, -, e2, he⟩
    · exact ⟨hs.2.2.2.1, Or.inl ⟨e1, e2, hs.1, hs.2.1, hs.2.2.1⟩⟩
    · exact ⟨hr.2.2.2.1, Or.inl ⟨e1, e2, hr.1, hr.2.1, hr.2.2.1⟩⟩
    · rw [hsize] at hnone
      have hoth := long_others_false hnone hlw hpn
      refine ⟨hs.2.2.2.1, Or.inr (Or.inr ⟨e1, hs.1, hs.2.1, hs.2.2.1, ?_⟩)⟩
      rw [e2]
      refine ⟨cl, by rw [hs.2.2.2.1]; exact harena, List.getElem?_mem hlw, ?_⟩
      intro l hl
      rw [hs.value_eq]
      obtain ⟨i, hi⟩ := List.mem_iff_getElem?.mp hl
      by_cases hne : i = d.get (!wn)
      · rw [hne, hlo] at hi
        injection hi with hi
        rw [← hi]; exact hloF
      · exact hoth i l hi hne
    · rw [hsize] at hnone
      have hoth := long_others_false hnone hlw hpn
      exact ⟨he.2.2.2.2.2.1, Or.inr (Or.inl ⟨e1, e2, lo, _, he, hloU, rfl, cl, d, harena, hdata,
        hlw, hlo, hoth⟩)⟩

/-- The three outcomes of one arm of the scan of `propagate`. -/
theorem propagateWatch_unit {s t : Solver} {p : Lit} {j j1 : Nat} {w : Watched}
    {c c1 : PropBy} {b : Bool} (hv : s.value p = l_True) (hsz : ShortClauses s)
    (h : s.propagateWatch p j w c = .ok (b, j1, c1, t)) :
    t.arena = s.arena ∧
    ((b = true ∧ c1 = c ∧ t.assigns = s.assigns ∧ t.trail = s.trail ∧ t.varData = s.varData) ∨
     (b = true ∧ c1 = c ∧ ∃ l r, Enq s t l r ∧ s.value l = l_Undef ∧ ArmUnit s p w l r) ∨
     (b = false ∧ t.assigns = s.assigns ∧ t.trail = s.trail ∧ t.varData = s.varData ∧
        ConflictFalsified t p c1)) := by
  have hpn : s.value p.neg = l_False := Solver.value_neg_false.mpr hv
  unfold Solver.propagateWatch at h
  cases w with
  | binary o lr =>
    simp only at h
    split at h
    · cases h
    · rename_i b1 c2 s1 h1
      simp only [Except.ok.injEq, Prod.mk.injEq] at h
      obtain ⟨rfl, -, rfl, rfl⟩ := h
      obtain ⟨-, hc⟩ := propBinaryClause_inv h1
      rcases hc with ⟨hu, e1, e2, he⟩ | ⟨hf, e1, e2, hs, -, hfb⟩ | ⟨-, e1, e2, rfl⟩
      · exact ⟨he.2.2.2.2.2.1, Or.inr (Or.inl ⟨e1, e2, o, _, he, hu, rfl, rfl, hpn⟩)⟩
      · refine ⟨hs.2.2.2.1, Or.inr (Or.inr ⟨e1, hs.1, hs.2.1, hs.2.2.1, ?_⟩)⟩
        rw [e2]
        refine ⟨rfl, ?_, ?_⟩
        · rw [hs.value_eq]; exact hpn
        · rw [hfb, hs.value_eq]; exact hf
      · exact ⟨rfl, Or.inl ⟨e1, e2, rfl, rfl, rfl⟩⟩
  | tri a a2 =>
    simp only at h
    split at h
    · cases h
    · rename_i b1 c2 s1 h1
      simp only [Except.ok.injEq, Prod.mk.injEq] at h
      obtain ⟨rfl, -, rfl, rfl⟩ := h
      obtain ⟨-, hc⟩ := propTriClause_inv h1
      rcases hc with ⟨hu, hf, e1, e2, he⟩ | ⟨hf, hu, e1, e2, he⟩ |
        ⟨hf, hf2, e1, e2, hs, -, hfb⟩ | ⟨-, e1, e2, rfl⟩
      · exact ⟨he.2.2.2.2.2.1,
          Or.inr (Or.inl ⟨e1, e2, a, _, he, hu, Or.inl ⟨rfl, rfl, hf⟩, hpn⟩)⟩
      · exact ⟨he.2.2.2.2.2.1,
          Or.inr (Or.inl ⟨e1, e2, a2, _, he, hu, Or.inr ⟨rfl, rfl, hf⟩, hpn⟩)⟩
      · refine ⟨hs.2.2.2.1, Or.inr (Or.inr ⟨e1, hs.1, hs.2.1, hs.2.2.1, ?_⟩)⟩
        rw [e2]
        refine ⟨rfl, ?_, ?_, ?_⟩
        · rw [hs.value_eq]; exact hpn
        · rw [hfb, hs.value_eq]; exact hf
        · rw [hs.value_eq]; exact hf2
      · exact ⟨rfl, Or.inl ⟨e1, e2, rfl, rfl, rfl⟩⟩
  | clause off blk wn =>
    simp only at h
    rw [propNormalClause_eq_core] at h
    cases hA : s.propNormalCore off blk wn p c with
    | error e => rw [hA] at h; cases h
    | ok r =>
      obtain ⟨b0, act, c0, t0⟩ := r
      rw [hA] at h
      have hcore := propNormalCore_unit hv hsz hA
      cases act with
      | keep =>
        simp only [Except.ok.injEq, Prod.mk.injEq] at h
        obtain ⟨rfl, -, rfl, rfl⟩ := h
        exact hcore
      | relocate l w1 =>
        simp only at h
        cases hp : t0.pushWs l w1 with
        | error e => rw [hp] at h; cases h
        | ok t2 =>
          rw [hp] at h
          simp only [Except.ok.injEq, Prod.mk.injEq] at h
          obtain ⟨rfl, -, rfl, rfl⟩ := h
          obtain ⟨-, rfl⟩ := Solver.pushWs_ok hp
          exact hcore

theorem shortClauses_of_arena {s t : Solver} (ha : t.arena = s.arena) (h : ShortClauses s) :
    ShortClauses t := by
  intro off cl hc
  rw [ha] at hc
  exact h off cl hc

theorem unitRun_mem_trail {s t : Solver} (h : UnitRun s t) {p : Lit} (hp : p ∈ s.trail) :
    p ∈ t.trail := by
  obtain ⟨-, -, new, e, -⟩ := h
  rw [e]
  exact List.mem_append_left _ hp

theorem propagateWatches_unit {p : Lit} (n : Nat) {i j i1 j1 : Nat} {s t : Solver}
    {c c1 : PropBy} (h : Solver.propagateWatches p n i j s c = .ok (i1, j1, c1, t))
    (hv : s.value p = l_True) (hsz : ShortClauses s) (hp : p ∈ s.trail) :
    UnitRun s t ∧ (c1 = c ∨ ConflictFalsified t p c1) := by
  induction n generalizing i j s c with
  | zero =>
    simp only [Solver.propagateWatches, Except.ok.injEq, Prod.mk.injEq] at h
    obtain ⟨-, -, rfl, rfl⟩ := h
    exact ⟨unitRun_refl _, Or.inl rfl⟩
  | succ n ih =>
    rw [Solver.propagateWatches] at h
    split at h
    · cases h
    · split at h
      · cases h
      · rename_i h1
        obtain ⟨ha, hc⟩ := propagateWatch_unit hv hsz h1
        have hv1 := (propagateWatch_frame hv h1).2
        rename_i j2 c2 s1
        have hrun : UnitRun s s1 ∧ c2 = c := by
          rcases hc with ⟨-, e2, a1, a2, a3⟩ | ⟨-, e2, l, r, he, hu, har⟩ | ⟨e1, -⟩
          · exact ⟨unitRun_of_eq ha a1 a2 a3, e2⟩
          · exact ⟨unitRun_enq he hu (armUnit_unitReason hp har), e2⟩
          · cases e1
        obtain ⟨b1, b2⟩ := ih h hv1 (shortClauses_of_arena ha hsz) (unitRun_mem_trail hrun.1 hp)
        refine ⟨unitRun_trans hrun.1 b1, ?_⟩
        rcases b2 with b2 | b2
        · exact Or.inl (b2.trans hrun.2)
        · exact Or.inr b2
      · rename_i h1
        simp only [Except.ok.injEq, Prod.mk.injEq] at h
        obtain ⟨-, -, rfl, rfl⟩ := h
        obtain ⟨ha, hc⟩ := propagateWatch_unit hv hsz h1
        rcases hc with ⟨e1, -⟩ | ⟨e1, -⟩ | ⟨-, a1, a2, a3, hf⟩
        · cases e1
        · cases e1
        · exact ⟨unitRun_of_eq ha a1 a2 a3, Or.inr hf⟩

theorem copyRest_onlyWatches (p : Lit) (n i j : Nat) (s : Solver) :
    ∃ W, (Solver.copyRest p n i j s).2 = { s with watches := W } := by
  induction n generalizing i j s with
  | zero => exact ⟨s.watches, rfl⟩
  | succ n ih =>
    rw [Solver.copyRest]
    split
    · exact ⟨s.watches, rfl⟩
    · rename_i w hw
      obtain ⟨W, e⟩ := ih (i + 1) (j + 1) (s.writeWs p j w)
      exact ⟨W, e⟩

theorem finish_onlyWatches (p : Lit) (n i j k : Nat) (s : Solver) :
    ∃ W, (Solver.copyRest p n i j s).2.shrinkWs p k = { s with watches := W } := by
  obtain ⟨W, e⟩ := copyRest_onlyWatches p n i j s
  rw [e]
  exact ⟨_, rfl⟩

theorem conflictFalsified_watches {t : Solver} {p : Lit} {c : PropBy} (W : List (List Watched))
    (h : ConflictFalsified t p c) : ConflictFalsified { t with watches := W } p c := by
  cases c <;> exact h

theorem unitRun_watches {s t : Solver} (W : List (List Watched)) (h : UnitRun s t) :
    UnitRun s { t with watches := W } :=
  unitRun_trans h (unitRun_of_eq rfl rfl rfl rfl)

/-- One iteration of the loop of `propagate` on a state whose trail literals are
True: the trail grows by unit literals, and a conflict is a falsified clause. -/
theorem propagateLit_unit {s t : Solver} {c1 : PropBy} (hT : TrailTrue s)
    (hsz : ShortClauses s) (h : s.propagateLit .null = .ok (c1, t)) :
    UnitRun s t ∧
      (c1 = .null ∨ ∃ p ∈ t.trail, t.value p = l_True ∧ ConflictFalsified t p c1) := by
  unfold Solver.propagateLit at h
  split at h
  · cases h
  · rename_i p hp
    split_ifs at h
    simp only at h
    split at h
    · cases h
    · rename_i i j c2 s2 hl
      simp only [Except.ok.injEq, Prod.mk.injEq] at h
      obtain ⟨rfl, rfl⟩ := h
      have hpm : p ∈ s.trail := List.getElem?_mem hp
      have hvp : s.value p = l_True := hT p hpm
      obtain ⟨hU, hC⟩ := propagateWatches_unit _ hl hvp hsz hpm
      have hvp1 : s2.value p = l_True := by
        have e := propagateWatches_frame _ (by exact hvp) hl
        exact e.2
      obtain ⟨W, e⟩ := finish_onlyWatches p ((s.ws p).length - i) i j
        ((s.ws p).length - (Solver.copyRest p ((s.ws p).length - i) i j s2).1) s2
      rw [e]
      have hU1 : UnitRun s s2 := hU
      refine ⟨unitRun_watches W hU1, ?_⟩
      rcases hC with hC | hC
      · exact Or.inl hC
      · exact Or.inr ⟨p, unitRun_mem_trail hU1 hpm, hvp1, conflictFalsified_watches W hC⟩

theorem propagateLoop_unit (fuel : Nat) : ∀ {s t : Solver} {c1 : PropBy},
    TrailTrue s → ShortClauses s → Solver.propagateLoop fuel s .null = .ok (c1, t) →
    UnitRun s t ∧
      (c1 = .null ∨ ∃ p ∈ t.trail, t.value p = l_True ∧ ConflictFalsified t p c1) := by
  induction fuel with
  | zero =>
    intro s t c1 hT hsz h
    unfold Solver.propagateLoop at h
    split_ifs at h
    simp only [Except.ok.injEq, Prod.mk.injEq] at h
    obtain ⟨rfl, rfl⟩ := h
    exact ⟨unitRun_refl _, Or.inl rfl⟩
  | succ fuel ih =>
    intro s t c1 hT hsz h
    unfold Solver.propagateLoop at h
    split_ifs at h
    · split at h
      · cases h
      · rename_i c2 s1 hl
        obtain ⟨hU, hC⟩ := propagateLit_unit hT hsz hl
        by_cases hc2 : c2 = .null
        · subst hc2
          obtain ⟨b1, b2⟩ := ih (propagateLit_pres hl hT).1 (shortClauses_of_arena hU.1 hsz) h
          exact ⟨unitRun_trans hU b1, b2⟩
        · rw [propagateLoop_of_conflict fuel s1 c2 hc2] at h
          simp only [Except.ok.injEq, Prod.mk.injEq] at h
          obtain ⟨rfl, rfl⟩ := h
          exact ⟨hU, hC⟩
    · simp only [Except.ok.injEq, Prod.mk.injEq] at h
      obtain ⟨rfl, rfl⟩ := h
      exact ⟨unitRun_refl _, Or.inl rfl⟩

theorem watchLit_of_data {s : Solver} {off : Nat} {cl : Clause} {d : ClauseData} (wn : Bool)
    (ha : s.arena[off]? = some cl) (hd : s.clauseData[cl.num]? = some d) :
    s.watchLit off wn = cl.lits[d.get wn]? := by
  unfold Solver.watchLit Solver.watchPos
  rw [ha]
  simp only [hd, Option.map_some']
  cases wn <;> rfl

theorem watchLit_congr {s t : Solver} (ha : t.arena = s.arena)
    (hp : ∀ n, t.watchPos n = s.watchPos n) (off : Nat) (wn : Bool) :
    t.watchLit off wn = s.watchLit off wn := by
  unfold Solver.watchLit
  rw [ha]
  cases s.arena[off]? with
  | none => rfl
  | some cl => simp only [hp]

theorem watchLit_reloc {s t : Solver} {num k : Nat} {wn : Bool} {off : Nat} {cl : Clause}
    {pn : Lit} (hr : Reloc s t num wn k) (hN : NumInj s) (ha : s.arena[off]? = some cl)
    (hnum : cl.num = num) (hpn : s.watchLit off wn = some pn) (hv : s.value pn ≠ l_True)
    (off' : Nat) (wn' : Bool) (lo : Lit) (h : s.watchLit off' wn' = some lo)
    (hlo : s.value lo = l_True) : t.watchLit off' wn' = some lo := by
  obtain ⟨-, -, -, harena, -, -, -, hpos, hoth⟩ := hr
  unfold Solver.watchLit at h ⊢
  rw [harena]
  cases ha' : s.arena[off']? with
  | none => rw [ha'] at h; cases h
  | some cl' =>
    rw [ha'] at h
    simp only at h ⊢
    by_cases hn : cl'.num = num
    · have hoff : off' = off := hN off' off cl' cl ha' ha (hn.trans hnum.symm)
      subst hoff
      rw [ha] at ha'
      injection ha' with ha'
      subst ha'
      by_cases hw : wn' = wn
      · subst hw
        exfalso
        apply hv
        unfold Solver.watchLit at hpn
        rw [ha] at hpn
        simp only at hpn
        rw [hpn] at h
        injection h with h
        rw [h]; exact hlo
      · rw [hn] at h ⊢
        rw [hpos]
        unfold Solver.watchPos at h
        cases hd : s.clauseData[num]? with
        | none => rw [hd] at h; simp at h
        | some d =>
          rw [hd] at h
          simp only [Option.map_some'] at h ⊢
          rw [← h]
          cases wn <;> cases wn' <;> simp [ClauseData.set] at hw ⊢
    · rw [hoth _ hn]
      exact h

theorem good_mono {s t : Solver} {E : Lit → Prop} {w : Watched}
    (hval : ∀ x, s.value x ≠ l_Undef → t.value x = s.value x)
    (hE : ∀ x, E x → s.value x = l_True)
    (hwl : ∀ off wn lo, s.watchLit off wn = some lo → s.value lo = l_True →
      t.watchLit off wn = some lo)
    (h : w.Good s E) : w.Good t E := by
  have hT : ∀ x, s.value x = l_True → t.value x = l_True := by
    intro x hx
    rw [hval x (by rw [hx]; simp), hx]
  have hF : ∀ a, E a.neg → s.value a = l_False := by
    intro a ha
    have := Solver.value_neg_false.mpr (hE _ ha)
    rwa [Lit.neg_neg] at this
  cases w with
  | binary o lr => exact hT o h
  | tri a a2 => exact ⟨fun _ hd => hT _ (h.1 (hF a hd) hd), fun _ hd => hT _ (h.2 (hF a2 hd) hd)⟩
  | clause off blk wn =>
    rcases h with h | ⟨lo, h1, h2⟩
    · exact Or.inl (hT _ h)
    · exact Or.inr ⟨lo, hwl _ _ _ h1 h2, hT _ h2⟩

theorem good_watches {t : Solver} {E : Lit → Prop} {w : Watched} (W : List (List Watched))
    (h : w.Good t E) : w.Good { t with watches := W } E := by
  cases w <;> exact h

theorem advance_refl (s : Solver) : Advance s s :=
  ⟨rfl, fun _ _ => rfl, ⟨[], by simp, fun _ h => Or.inl h⟩, fun _ _ _ h => h⟩

theorem advance_trans {s t u : Solver} (h1 : Advance s t) (h2 : Advance t u) : Advance s u := by
  obtain ⟨a1, b1, ⟨n1, c1, d1⟩, e1⟩ := h1
  obtain ⟨a2, b2, ⟨n2, c2, d2⟩, e2⟩ := h2
  have hkeep : ∀ x, s.value x ≠ l_Undef → t.value x ≠ l_Undef := by
    intro x hx
    rw [b1 x hx]
    exact hx
  refine ⟨a2.trans a1, fun x hx => (b2 x (hkeep x hx)).trans (b1 x hx),
    ⟨n1 ++ n2, by rw [c2, c1, List.append_assoc], ?_⟩, ?_⟩
  · intro x hx
    rcases d2 x hx with h | h
    · rcases d1 x h with h | h
      · exact Or.inl h
      · exact Or.inr (List.mem_append_left _ h)
    · exact Or.inr (List.mem_append_right _ h)
  · intro E w hE hg
    refine e2 E w ?_ (e1 E w hE hg)
    intro x hx
    rw [b1 x (by rw [hE x hx]; simp)]
    exact hE x hx

theorem advance_watches {s t : Solver} (W : List (List Watched)) (h : Advance s t) :
    Advance s { t with watches := W } :=
  ⟨h.1, h.2.1, h.2.2.1, fun E w hE hg => good_watches W (h.2.2.2 E w hE hg)⟩

theorem advance_of_same {s t : Solver} (h : Same s t) : Advance s t := by
  refine ⟨h.2.2.2.1, fun x _ => h.value_eq x, ⟨[], by rw [h.2.1, List.append_nil], ?_⟩, ?_⟩
  · intro x hx
    rw [h.value_eq] at hx
    exact Or.inl hx
  · intro E w hE hg
    refine good_mono (fun x _ => h.value_eq x) hE ?_ hg
    intro off wn lo h1 _
    rw [watchLit_congr h.2.2.2.1 h.2.2.2.2.2.2]
    exact h1

theorem advance_of_enq {s t : Solver} {l : Lit} {r : PropBy} (h : Enq s t l r)
    (hl : s.value l = l_Undef) : Advance s t := by
  refine ⟨h.2.2.2.2.2.1, fun x hx => h.value_of_assigned hl hx, ⟨[l], h.2.2.2.1, ?_⟩, ?_⟩
  · intro x hx
    rw [h.value_other] at hx
    by_cases e : x.var = l.var
    · rw [if_pos e] at hx
      by_cases e2 : x = l
      · right; rw [e2]; simp
      · rw [if_neg e2] at hx; cases hx
    · rw [if_neg e] at hx
      exact Or.inl hx
  · intro E w hE hg
    refine good_mono (fun x hx => h.value_of_assigned hl hx) hE ?_ hg
    intro off wn lo h1 _
    rw [watchLit_congr h.2.2.2.2.2.1 h.2.2.2.2.2.2.2.2.2]
    exact h1

theorem advance_of_reloc {s t : Solver} {num k : Nat} {wn : Bool} {off : Nat} {cl : Clause}
    {pn : Lit} (hr : Reloc s t num wn k) (hN : NumInj s) (ha : s.arena[off]? = some cl)
    (hnum : cl.num = num) (hpn : s.watchLit off wn = some pn) (hv : s.value pn ≠ l_True) :
    Advance s t := by
  have hval : ∀ x, t.value x = s.value x := fun x => Solver.value_congr hr.1 x
  refine ⟨hr.2.2.2.1, fun x _ => hval x, ⟨[], by rw [hr.2.1, List.append_nil], ?_⟩, ?_⟩
  · intro x hx
    rw [hval] at hx
    exact Or.inl hx
  · intro E w hE hg
    exact good_mono (fun x _ => hval x) hE (watchLit_reloc hr hN ha hnum hpn hv) hg

/-- One step of the scan of the list of a True literal `p`: either the watcher is
kept, and is `Good` when the scan goes on, or a Long watcher is moved to the list
of a literal that is not True. -/
theorem absStep_sem {s t : Solver} {p : Lit} {k k1 : Nat} {w : Watched} {c c1 : PropBy}
    {b : Bool} (hv : s.value p = l_True) (hN : NumInj s)
    (h : s.absStep p k w c = .ok (b, k1, c1, t)) :
    Advance s t ∧
    ((k1 = k + 1 ∧ t.watches = s.watches ∧
        (b = true → c1 = c ∧ t.qhead = s.qhead ∧
          ∀ E : Lit → Prop, (∀ x, E x → s.value x = l_True) → w.Good t E) ∧
        (b = false → c1 ≠ .null)) ∨
     (k1 = k ∧ b = true ∧ c1 = c ∧ t.qhead = s.qhead ∧ w.isClause = true ∧
        ∃ l off lo wn cl, (∀ q, s.value q = l_True → l ≠ q) ∧ l.toInt < s.watches.length ∧
          s.arena[off]? = some cl ∧ lo ∈ cl.lits ∧
          t.watches = (s.watches.set p.toInt ((s.ws p).eraseIdx k)).set l.toInt
            (s.ws l ++ [.clause off lo wn]))) := by
  have hpn : s.value p.neg = l_False := Solver.value_neg_false.mpr hv
  have hFE : ∀ (E : Lit → Prop), (∀ x, E x → s.value x = l_True) → ∀ a, E a.neg →
      s.value a = l_False := by
    intro E hE a ha
    have := Solver.value_neg_false.mpr (hE _ ha)
    rwa [Lit.neg_neg] at this
  unfold Solver.absStep at h
  cases w with
  | binary o lr =>
    simp only at h
    split at h
    · cases h
    · rename_i b2 c2 s1 h1
      simp only [Except.ok.injEq, Prod.mk.injEq] at h
      obtain ⟨rfl, rfl, rfl, rfl⟩ := h
      obtain ⟨hw, hc⟩ := propBinaryClause_inv h1
      rcases hc with ⟨hu, e1, e2, he⟩ | ⟨-, e1, e2, hs, -, -⟩ | ⟨ht, e1, e2, rfl⟩
      · refine ⟨advance_of_enq he hu, Or.inl ⟨rfl, hw, fun _ => ⟨e2, he.2.2.2.2.2.2.2.1, ?_⟩,
          fun hb => (by rw [hb] at e1; cases e1)⟩⟩
        intro E _
        exact he.value_self
      · refine ⟨advance_of_same hs, Or.inl ⟨rfl, hw, fun hb => (by rw [hb] at e1; cases e1),
          fun _ => (by rw [e2]; simp)⟩⟩
      · refine ⟨advance_refl _, Or.inl ⟨rfl, rfl, fun _ => ⟨e2, rfl, fun E _ => ht⟩,
          fun hb => (by rw [hb] at e1; cases e1)⟩⟩
  | tri a a2 =>
    simp only at h
    split at h
    · cases h
    · rename_i b2 c2 s1 h1
      simp only [Except.ok.injEq, Prod.mk.injEq] at h
      obtain ⟨rfl, rfl, rfl, rfl⟩ := h
      obtain ⟨hw, hc⟩ := propTriClause_inv h1
      rcases hc with ⟨hu, hf, e1, e2, he⟩ | ⟨hf, hu, e1, e2, he⟩ |
        ⟨-, -, e1, e2, hs, -, -⟩ | ⟨ht, e1, e2, rfl⟩
      · refine ⟨advance_of_enq he hu, Or.inl ⟨rfl, hw, fun _ => ⟨e2, he.2.2.2.2.2.2.2.1, ?_⟩,
          fun hb => (by rw [hb] at e1; cases e1)⟩⟩
        intro E _
        refine ⟨fun ha _ => ?_, fun _ _ => he.value_self⟩
        rw [he.value_self] at ha
        cases ha
      · refine ⟨advance_of_enq he hu, Or.inl ⟨rfl, hw, fun _ => ⟨e2, he.2.2.2.2.2.2.2.1, ?_⟩,
          fun hb => (by rw [hb] at e1; cases e1)⟩⟩
        intro E _
        refine ⟨fun _ _ => he.value_self, fun ha _ => ?_⟩
        rw [he.value_self] at ha
        cases ha
      · refine ⟨advance_of_same hs, Or.inl ⟨rfl, hw, fun hb => (by rw [hb] at e1; cases e1),
          fun _ => (by rw [e2]; simp)⟩⟩
      · refine ⟨advance_refl _, Or.inl ⟨rfl, rfl, fun _ => ⟨e2, rfl, ?_⟩,
          fun hb => (by rw [hb] at e1; cases e1)⟩⟩
        intro E hE
        refine ⟨fun ha _ => ?_, fun ha _ => ?_⟩
        · rcases ht with h | h | ⟨h, -⟩
          · rw [h] at ha; cases ha
          · exact h
          · rw [h] at ha; cases ha
        · rcases ht with h | h | ⟨-, h⟩
          · exact h
          · rw [h] at ha; cases ha
          · rw [h] at ha; cases ha
  | clause off blk wn =>
    simp only at h
    split at h
    · cases h
    · rename_i b2 c2 s1 h1
      simp only [Except.ok.injEq, Prod.mk.injEq] at h
      obtain ⟨rfl, rfl, rfl, rfl⟩ := h
      obtain ⟨hw, hc⟩ := propNormalCore_inv h1
      rcases hc with ⟨hblk, e1, -, e2, rfl⟩ | ⟨cl, d, lo, harena, hdata, hlw, hlo, -, hc⟩
      · exact ⟨advance_refl _, Or.inl ⟨rfl, rfl, fun _ => ⟨e2, rfl, fun E _ => Or.inl hblk⟩,
          fun hb => (by rw [hb] at e1; cases e1)⟩⟩
      · have hwl : s.watchLit off (!wn) = some lo := by
          rw [watchLit_of_data _ harena hdata]; exact hlo
        rcases hc with ⟨hloT, e1, -, e2, hs, hq⟩ | ⟨-, k, -, -, ha, -⟩ |
            ⟨-, -, e1, -, e2, hs, -⟩ | ⟨-, hloU, e1, -, e2, he⟩
        · refine ⟨advance_of_same hs, Or.inl ⟨rfl, hw, fun _ => ⟨e2, hq, ?_⟩,
            fun hb => (by rw [hb] at e1; cases e1)⟩⟩
          intro E _
          refine Or.inr ⟨lo, ?_, ?_⟩
          · rw [watchLit_congr hs.2.2.2.1 hs.2.2.2.2.2.2]; exact hwl
          · rw [hs.value_eq]; exact hloT
        · cases ha
        · refine ⟨advance_of_same hs, Or.inl ⟨rfl, hw, fun hb => (by rw [hb] at e1; cases e1),
            fun _ => (by rw [e2]; simp)⟩⟩
        · refine ⟨advance_of_enq he hloU, Or.inl ⟨rfl, hw,
            fun _ => ⟨e2, he.2.2.2.2.2.2.2.1, ?_⟩, fun hb => (by rw [hb] at e1; cases e1)⟩⟩
          intro E _
          refine Or.inr ⟨lo, ?_, he.value_self⟩
          rw [watchLit_congr he.2.2.2.2.2.1 he.2.2.2.2.2.2.2.2.2]; exact hwl
    · rename_i b2 l w1 c2 s1 h1
      split at h
      · cases h
      · rename_i s2 h2
        simp only [Except.ok.injEq, Prod.mk.injEq] at h
        obtain ⟨rfl, rfl, rfl, rfl⟩ := h
        have hne : ∀ q, s.value q = l_True → l ≠ q :=
          fun q hq => propNormalCore_relocate_ne h1 hq
        obtain ⟨hw, hc⟩ := propNormalCore_inv h1
        obtain ⟨hlt, e⟩ := Solver.pushWs_ok h2
        rcases hc with ⟨-, -, ha, -⟩ | ⟨cl, d, lo, harena, hdata, hlw, hlo, -, hc⟩
        · cases ha
        · rcases hc with ⟨-, -, ha, -⟩ | ⟨-, kn, -, hb, ha, hcc, hr⟩ | ⟨-, -, -, ha, -⟩ |
            ⟨-, -, -, ha, -⟩
          · cases ha
          · injection ha with hl hw1
            have hwlp : s.watchLit off wn = some p.neg := by
              rw [watchLit_of_data _ harena hdata]; exact hlw
            have hadv : Advance s s1 :=
              advance_of_reloc hr hN harena rfl hwlp (by rw [hpn]; simp)
            refine ⟨?_, Or.inr ⟨rfl, hb, hcc, ?_, rfl, l, off, lo, wn, cl, hne, ?_, harena,
              List.getElem?_mem hlo, ?_⟩⟩
            · rw [e]
              exact advance_watches _ hadv
            · rw [e]
              exact hr.2.2.2.2.2.1
            · simpa [hw] using hlt
            · rw [e, hw1]
              simp only [Solver.setWs, Solver.ws, hw]
              congr 2
              rw [getD_set_ne _ _ _ _ _ (fun e => hne p hv (Lit.toInt_inj.mp e.symm))]
          · cases ha
          · cases ha

/-! ## Propagation without a conflict reaches a fixpoint -/

theorem numInj_of_arena {s t : Solver} (ha : t.arena = s.arena) (h : NumInj s) : NumInj t := by
  intro off off' cl cl' h1 h2 h3
  rw [ha] at h1 h2
  exact h off off' cl cl' h1 h2 h3

theorem good_anti {s : Solver} {D D' : Lit → Prop} {w : Watched} (hD : ∀ x, D' x → D x)
    (h : w.Good s D) : w.Good s D' := by
  cases w with
  | binary o lr => exact h
  | tri a a2 => exact ⟨fun ha hd => h.1 ha (hD _ hd), fun ha hd => h.2 ha (hD _ hd)⟩
  | clause off blk wn => exact h

theorem advance_true {s t : Solver} (h : Advance s t) {x : Lit} (hx : s.value x = l_True) :
    t.value x = l_True := by
  rw [h.2.1 x (by rw [hx]; simp), hx]

theorem ws_of_reloc {s t : Solver} {p l : Lit} {k : Nat} {w1 : Watched} (hne : l ≠ p)
    (hP : p.toInt < s.watches.length) (hlt : l.toInt < s.watches.length)
    (hW : t.watches = (s.watches.set p.toInt ((s.ws p).eraseIdx k)).set l.toInt
      (s.ws l ++ [w1])) :
    t.ws p = (s.ws p).eraseIdx k ∧ t.ws l = s.ws l ++ [w1] ∧
      (∀ x, x ≠ p → x ≠ l → t.ws x = s.ws x) ∧ t.watches.length = s.watches.length := by
  have hlp : l.toInt ≠ p.toInt := fun e => hne (Lit.toInt_inj.mp e)
  refine ⟨?_, ?_, ?_, ?_⟩
  · unfold Solver.ws
    rw [hW, getD_set_ne _ _ _ _ _ hlp, getD_set_self _ _ _ _ hP]
    rfl
  · unfold Solver.ws
    rw [hW, getD_set_self _ _ _ _ (by simpa using hlt)]
    rfl
  · intro x hx1 hx2
    unfold Solver.ws
    rw [hW, getD_set_ne _ _ _ _ _ (fun e => hx2 (Lit.toInt_inj.mp e.symm)),
      getD_set_ne _ _ _ _ _ (fun e => hx1 (Lit.toInt_inj.mp e.symm))]
  · rw [hW]; simp

theorem mem_eraseIdx_of_ne {α : Type} (l : List α) (k : Nat) (w x : α) (hw : l[k]? = some w)
    (hne : x ≠ w) : x ∈ l.eraseIdx k ↔ x ∈ l := by
  constructor
  · exact List.mem_of_mem_eraseIdx
  · intro hx
    rw [List.mem_eraseIdx_iff_getElem?]
    obtain ⟨i, hi⟩ := List.mem_iff_getElem?.mp hx
    refine ⟨i, ?_, hi⟩
    intro e
    rw [e, hw] at hi
    injection hi with hi
    exact hne hi.symm

/-- The scan of the list of a True literal `p` that ends without a conflict
leaves only `Good` watchers in the list. -/
theorem absScan_good (p : Lit) (E : Lit → Prop) (n : Nat) :
    ∀ {k : Nat} {s t : Solver},
    s.value p = l_True → NumInj s → BlkIn s → p.toInt < s.watches.length →
    k + n = (s.ws p).length → (∀ x, E x → s.value x = l_True) →
    (∀ i w, i < k → (s.ws p)[i]? = some w → w.Good s E) →
    Solver.absScan p n k s .null = .ok (.null, t) →
    Advance s t ∧ t.qhead = s.qhead ∧ (∀ w ∈ t.ws p, w.Good t E) ∧ BlkIn t ∧
      (∀ l, s.value l = l_True → ∀ w ∈ t.ws l, w ∈ s.ws l) ∧
      (∀ l w, w.isClause = false → (w ∈ t.ws l ↔ w ∈ s.ws l)) := by
  induction n with
  | zero =>
    intro k s t hv hN hB hP hlen hE hpre h
    simp only [Solver.absScan, Except.ok.injEq, Prod.mk.injEq] at h
    obtain ⟨-, rfl⟩ := h
    refine ⟨advance_refl _, rfl, ?_, hB, fun _ _ _ h => h, fun _ _ _ => Iff.rfl⟩
    intro w hw
    obtain ⟨i, hi⟩ := List.mem_iff_getElem?.mp hw
    have hlt : i < (s.ws p).length := by
      by_contra hc
      rw [List.getElem?_eq_none (by omega)] at hi
      cases hi
    exact hpre i w (by omega) hi
  | succ n ih =>
    intro k s t hv hN hB hP hlen hE hpre h
    rw [Solver.absScan] at h
    split at h
    · cases h
    · rename_i w hw
      have hk : k < (s.ws p).length := by omega
      split at h
      · cases h
      · rename_i k1 c2 s1 h1
        obtain ⟨hA, hcase⟩ := absStep_sem hv hN h1
        have hv1 : s1.value p = l_True := advance_true hA hv
        have hN1 : NumInj s1 := numInj_of_arena hA.1 hN
        have hE1 : ∀ x, E x → s1.value x = l_True := fun x hx => advance_true hA (hE x hx)
        rcases hcase with ⟨hk1, hW, hb, -⟩ |
          ⟨hk1, -, hc2, hq, hwc, l, off, lo, wn, cl, hne, hlt, harena, hlo, hW⟩
        · obtain ⟨hc2, hq, hg⟩ := hb rfl
          subst hc2
          subst hk1
          have hws : ∀ x, s1.ws x = s.ws x := fun x => ws_congr hW x
          have hB1 : BlkIn s1 := by
            intro l off blk wn hm
            rw [hws] at hm
            obtain ⟨cl, a1, a2⟩ := hB l off blk wn hm
            exact ⟨cl, by rw [hA.1]; exact a1, a2⟩
          have hpre1 : ∀ i w', i < k + 1 → (s1.ws p)[i]? = some w' → w'.Good s1 E := by
            intro i w' hi hw'
            rw [hws] at hw'
            by_cases e : i = k
            · subst e
              rw [hw] at hw'
              injection hw' with hw'
              subst hw'
              exact hg E hE
            · exact hA.2.2.2 E w' hE (hpre i w' (by omega) hw')
          obtain ⟨b1, b2, b3, b4, b5, b6⟩ :=
            ih hv1 hN1 hB1 (by rw [hW]; exact hP) (by rw [hws]; omega) hE1 hpre1 h
          refine ⟨advance_trans hA b1, b2.trans hq, b3, b4, ?_, ?_⟩
          · intro l hl w' hw'
            rw [← hws]
            exact b5 l (advance_true hA hl) w' hw'
          · intro l w' hw'
            rw [b6 l w' hw', hws]
        · subst hc2
          have hk1s := hk1.symm
          subst hk1s
          have hnep : l ≠ p := hne p hv
          obtain ⟨hwsp, hwsl, hwso, hlen1⟩ := ws_of_reloc hnep hP hlt hW
          have hB1 : BlkIn s1 := by
            intro x off' blk' wn' hm
            by_cases hx : x = p
            · rw [hx, hwsp] at hm
              obtain ⟨cl', a1, a2⟩ := hB _ off' blk' wn' (List.mem_of_mem_eraseIdx hm)
              exact ⟨cl', by rw [hA.1]; exact a1, a2⟩
            · by_cases hxl : x = l
              · subst hxl
                rw [hwsl] at hm
                rcases List.mem_append.mp hm with hm | hm
                · obtain ⟨cl', a1, a2⟩ := hB _ off' blk' wn' hm
                  exact ⟨cl', by rw [hA.1]; exact a1, a2⟩
                · rw [List.mem_singleton] at hm
                  injection hm with e1 e2 e3
                  subst e1
                  subst e2
                  exact ⟨cl, by rw [hA.1]; exact harena, hlo⟩
              · rw [hwso x hx hxl] at hm
                obtain ⟨cl', a1, a2⟩ := hB _ off' blk' wn' hm
                exact ⟨cl', by rw [hA.1]; exact a1, a2⟩
          have hpre1 : ∀ i w', i < k → (s1.ws p)[i]? = some w' → w'.Good s1 E := by
            intro i w' hi hw'
            rw [hwsp, List.getElem?_eraseIdx_of_lt _ _ _ hi] at hw'
            exact hA.2.2.2 E w' hE (hpre i w' hi hw')
          obtain ⟨b1, b2, b3, b4, b5, b6⟩ :=
            ih hv1 hN1 hB1 (by rw [hlen1]; exact hP)
              (by rw [hwsp, List.length_eraseIdx_of_lt hk]; omega) hE1 hpre1 h
          refine ⟨advance_trans hA b1, b2.trans hq, b3, b4, ?_, ?_⟩
          · intro x hx w' hw'
            have hm1 := b5 x (advance_true hA hx) w' hw'
            by_cases hxp : x = p
            · rw [hxp] at hm1 ⊢
              rw [hwsp] at hm1
              exact List.mem_of_mem_eraseIdx hm1
            · have hxl : x ≠ l := fun e => hne x hx e.symm
              rw [hwso x hxp hxl] at hm1
              exact hm1
          · intro x w' hw'
            rw [b6 x w' hw']
            by_cases hxp : x = p
            · rw [hxp, hwsp]
              refine mem_eraseIdx_of_ne _ _ w w' hw ?_
              intro e
              rw [e, hwc] at hw'
              cases hw'
            · by_cases hxl : x = l
              · subst hxl
                rw [hwsl, List.mem_append, List.mem_singleton]
                constructor
                · rintro (h | h)
                  · exact h
                  · rw [h] at hw'
                    cases hw'
                · exact Or.inl
              · rw [hwso x hxp hxl]
      · rename_i k1 c2 s1 h1
        simp only [Except.ok.injEq, Prod.mk.injEq] at h
        obtain ⟨rfl, rfl⟩ := h
        obtain ⟨-, hcase⟩ := absStep_sem hv hN h1
        rcases hcase with ⟨-, -, -, hb⟩ | ⟨-, hb, -⟩
        · exact absurd rfl (hb rfl)
        · cases hb

theorem done_true {s : Solver} (hT : TrailTrue s) {x : Lit} (h : s.Done x) :
    s.value x = l_True := by
  obtain ⟨i, -, hi⟩ := h
  exact hT x (List.getElem?_mem hi)

/-- One iteration of the loop of `propagate` that ends without a conflict keeps
the invariants, with the dequeued literal propagated. -/
theorem propagateLit_inv {s t : Solver} (hI : PropInv s)
    (h : s.propagateLit .null = .ok (.null, t)) : PropInv t := by
  obtain ⟨hT, hA, hq, hN, hB, hTri, hBin, hP⟩ := hI
  have hT1 := (propagateLit_pres h hT).1
  rw [propagateLit_eq_absLit s .null (fun p hp => hT p (List.getElem?_mem hp))] at h
  unfold Solver.absLit at h
  split at h
  · cases h
  · rename_i p hp
    split_ifs at h with hPb
    simp only at h
    have hpm : p ∈ s.trail := List.getElem?_mem hp
    have hvp : s.value p = l_True := hT p hpm
    have hqlt : s.qhead < s.trail.length := by
      by_contra hc
      rw [List.getElem?_eq_none (by omega)] at hp
      cases hp
    have hE : ∀ x, (s.Done x ∨ x = p) → s.value x = l_True := by
      rintro x (hx | rfl)
      · exact done_true hT hx
      · exact hvp
    obtain ⟨a1, a2, a3, a4, a5, a6⟩ := absScan_good p (fun x => s.Done x ∨ x = p) _
      (by exact hvp) (by exact hN) (by exact hB) (by exact hPb) (by exact Nat.zero_add _)
      (by exact hE) (by intro i w hi; omega) h
    have a1' : Advance s t := a1
    have a2' : t.qhead = s.qhead + 1 := a2
    have a5' : ∀ l, s.value l = l_True → ∀ w ∈ t.ws l, w ∈ s.ws l := a5
    have a6' : ∀ l w, w.isClause = false → (w ∈ t.ws l ↔ w ∈ s.ws l) := a6
    obtain ⟨new, e, hnew⟩ := a1'.2.2.1
    have htri : ∀ l a a2, Watched.tri a a2 ∈ t.ws l ↔ Watched.tri a a2 ∈ s.ws l :=
      fun l a a2 => a6' l (.tri a a2) rfl
    have hbin : ∀ l o r, Watched.binary o r ∈ t.ws l ↔ Watched.binary o r ∈ s.ws l :=
      fun l o r => a6' l (.binary o r) rfl
    have hTri_t : TriSym t := by
      intro l a a2 hm
      have hm' := (htri l a a2).mp hm
      obtain ⟨h1, h2⟩ := hTri l a a2 hm'
      exact ⟨h1.imp (fun m => (htri _ _ _).mpr m) (fun m => (htri _ _ _).mpr m),
        h2.imp (fun m => (htri _ _ _).mpr m) (fun m => (htri _ _ _).mpr m)⟩
    have hDone : ∀ x, t.Done x → (s.Done x ∨ x = p) := by
      rintro x ⟨i, hi, hx⟩
      rw [a2'] at hi
      rw [e, List.getElem?_append_left (by omega)] at hx
      by_cases hiq : i < s.qhead
      · exact Or.inl ⟨i, hiq, hx⟩
      · have hiq2 : i = s.qhead := by omega
        subst hiq2
        rw [hp] at hx
        injection hx with hx
        exact Or.inr hx.symm
    refine ⟨hT1, ?_, ?_, numInj_of_arena a1'.1 hN, a4, hTri_t, ?_, ?_⟩
    · intro x hx
      rw [e]
      rcases hnew x hx with h1 | h1
      · exact List.mem_append_left _ (hA x h1)
      · exact List.mem_append_right _ h1
    · rw [a2', e, List.length_append]
      omega
    · intro a b r
      rw [hbin, hbin]
      exact hBin a b r
    · intro l hl w hw
      apply good_anti hDone
      rcases hDone l hl with hd | hd
      · have hlT : s.value l = l_True := done_true hT hd
        have hws : w ∈ s.ws l := a5' l hlT w hw
        have g0 : w.Good s s.Done := hP l hd w hws
        have g1 : w.Good t s.Done := a1'.2.2.2 s.Done w (fun x hx => done_true hT hx) g0
        cases w with
        | binary o lr => exact g1
        | clause off blk wn => exact g1
        | tri a a2 =>
          have hsym := hTri_t l a a2 hw
          have hlF : t.value l.neg = l_False :=
            Solver.value_neg_false.mpr (advance_true a1' hlT)
          have hdl : s.Done l.neg.neg ∨ l.neg.neg = p := Or.inl (by rw [Lit.neg_neg]; exact hd)
          refine ⟨fun ha hd' => ?_, fun ha hd' => ?_⟩
          · rcases hd' with hd' | hd'
            · exact g1.1 ha hd'
            · rcases hsym.1 with m | m
              · rw [hd'] at m
                exact (a3 _ m).1 hlF hdl
              · rw [hd'] at m
                exact (a3 _ m).2 hlF hdl
          · rcases hd' with hd' | hd'
            · exact g1.2 ha hd'
            · rcases hsym.2 with m | m
              · rw [hd'] at m
                exact (a3 _ m).1 hlF hdl
              · rw [hd'] at m
                exact (a3 _ m).2 hlF hdl
      · subst hd
        exact a3 w hw

theorem propagateLoop_inv (fuel : Nat) : ∀ {s t : Solver}, PropInv s →
    Solver.propagateLoop fuel s .null = .ok (.null, t) →
    PropInv t ∧ ¬ t.qhead < t.trail.length := by
  induction fuel with
  | zero =>
    intro s t hI h
    unfold Solver.propagateLoop at h
    split_ifs at h with hg
    simp only [Except.ok.injEq, Prod.mk.injEq] at h
    obtain ⟨-, rfl⟩ := h
    exact ⟨hI, fun hlt => hg ⟨hlt, rfl⟩⟩
  | succ fuel ih =>
    intro s t hI h
    unfold Solver.propagateLoop at h
    split_ifs at h with hg
    · split at h
      · cases h
      · rename_i c2 s1 hl
        by_cases hc2 : c2 = .null
        · subst hc2
          exact ih (propagateLit_inv hI hl) h
        · rw [propagateLoop_of_conflict fuel s1 c2 hc2] at h
          simp only [Except.ok.injEq, Prod.mk.injEq] at h
          exact absurd h.1 hc2
    · simp only [Except.ok.injEq, Prod.mk.injEq] at h
      obtain ⟨-, rfl⟩ := h
      exact ⟨hI, fun hlt => hg ⟨hlt, rfl⟩⟩

theorem watchLit_mem {s : Solver} {off : Nat} {wn : Bool} {x : Lit} {cl : Clause}
    (ha : s.arena[off]? = some cl) (h : s.watchLit off wn = some x) : x ∈ cl.lits := by
  unfold Solver.watchLit at h
  rw [ha] at h
  simp only at h
  split at h
  · cases h
  · exact List.getElem?_mem h

theorem value_cases (s : Solver) (x : Lit) :
    s.value x = l_True ∨ s.value x = l_False ∨ s.value x = l_Undef := by
  cases s.value x
  · exact Or.inl rfl
  · exact Or.inr (Or.inl rfl)
  · exact Or.inr (Or.inr rfl)

theorem value_false_neg {s : Solver} {x : Lit} (h : s.value x = l_False) :
    s.value x.neg = l_True := by
  have := (Solver.value_neg_false (s := s) (l := x.neg))
  rw [Lit.neg_neg] at this
  exact this.mp h

theorem mem_ws_watches {s : Solver} {l : Lit} {w : Watched} (h : w ∈ s.ws l) :
    ∃ ws ∈ s.watches, w ∈ ws := by
  unfold Solver.ws at h
  rw [List.getD_eq_getElem?_getD] at h
  cases hg : s.watches[l.toInt]? with
  | none => rw [hg] at h; cases h
  | some ws => rw [hg] at h; exact ⟨ws, List.getElem?_mem hg, h⟩

/-- From a state with the invariants `PropInv`, a call of `propagate` that
returns no conflict returns a state with `qhead` at the trail length in which
the invariants hold again and every clause that is attached in the returned
state contains a True literal or has two non-False literals. -/
theorem propagate_fixpoint_returned (s t : Solver) (hI : PropInv s)
    (h : s.propagate = .ok (.null, t)) :
    t.qhead = t.trail.length ∧ PropInv t ∧
    (∀ l o r, Watched.binary o r ∈ t.ws l →
      t.value l.neg = l_True ∨ t.value o = l_True ∨
        (t.value l.neg = l_Undef ∧ t.value o = l_Undef)) ∧
    (∀ l a a2, Watched.tri a a2 ∈ t.ws l →
      (t.value l.neg = l_True ∨ t.value a = l_True ∨ t.value a2 = l_True) ∨
        (t.value l.neg ≠ l_False ∧ t.value a ≠ l_False) ∨
        (t.value l.neg ≠ l_False ∧ t.value a2 ≠ l_False) ∨
        (t.value a ≠ l_False ∧ t.value a2 ≠ l_False)) ∧
    (∀ off cl x0 x1, t.arena[off]? = some cl → AttachedLong t off x0 x1 →
      (∃ x ∈ cl.lits, t.value x = l_True) ∨
        (t.value x0 = l_Undef ∧ t.value x1 = l_Undef)) := by
  obtain ⟨hJ, hq⟩ := propagateLoop_inv _ hI h
  obtain ⟨hT, hA, hql, hN, hB, hTri, hBin, hP⟩ := hJ
  have hqe : t.qhead = t.trail.length := by omega
  have hdone : ∀ x, t.value x = l_True → t.Done x := by
    intro x hx
    obtain ⟨i, hi⟩ := List.mem_iff_getElem?.mp (hA x hx)
    refine ⟨i, ?_, hi⟩
    rw [hqe]
    by_contra hc
    rw [List.getElem?_eq_none (by omega)] at hi
    cases hi
  have hgood : ∀ l, t.value l.neg = l_False → ∀ w ∈ t.ws l, w.Good t t.Done := by
    intro l hl w hw
    exact hP l (hdone l (Solver.value_neg_false.mp hl)) w hw
  refine ⟨hqe, ⟨hT, hA, hql, hN, hB, hTri, hBin, hP⟩, ?_, ?_, ?_⟩
  · intro l o r hm
    rcases value_cases t l.neg with h1 | h1 | h1
    · exact Or.inl h1
    · exact Or.inr (Or.inl (hgood l h1 _ hm))
    · rcases value_cases t o with h2 | h2 | h2
      · exact Or.inr (Or.inl h2)
      · exfalso
        have hm2 : Watched.binary l.neg r ∈ t.ws o.neg := by
          have := hBin l.neg o r
          rw [Lit.neg_neg] at this
          exact this.mp hm
        have hg := hgood o.neg (by rw [Lit.neg_neg]; exact h2) _ hm2
        have hg' : t.value l.neg = l_True := hg
        rw [h1] at hg'
        cases hg'
      · exact Or.inr (Or.inr ⟨h1, h2⟩)
  · intro l a a2 hm
    by_cases hl : t.value l.neg = l_False
    · have hg := hgood l hl _ hm
      by_cases ha : t.value a = l_False
      · exact Or.inl (Or.inr (Or.inr (hg.1 ha (hdone _ (value_false_neg ha)))))
      · by_cases ha2 : t.value a2 = l_False
        · exact Or.inl (Or.inr (Or.inl (hg.2 ha2 (hdone _ (value_false_neg ha2)))))
        · exact Or.inr (Or.inr (Or.inr ⟨ha, ha2⟩))
    · by_cases ha : t.value a = l_False
      · by_cases ha2 : t.value a2 = l_False
        · left; left
          have hd2 := hdone _ (value_false_neg ha2)
          rcases (hTri l a a2 hm).1 with m | m
          · have hg := hgood a.neg (by rw [Lit.neg_neg]; exact ha) _ m
            exact hg.2 ha2 hd2
          · have hg := hgood a.neg (by rw [Lit.neg_neg]; exact ha) _ m
            exact hg.1 ha2 hd2
        · exact Or.inr (Or.inr (Or.inl ⟨hl, ha2⟩))
      · exact Or.inr (Or.inl ⟨hl, ha⟩)
  · intro off cl x0 x1 ha hatt
    obtain ⟨h0, h1, ⟨blk0, m0⟩, ⟨blk1, m1⟩⟩ := hatt
    by_cases hex : ∃ x ∈ cl.lits, t.value x = l_True
    · exact Or.inl hex
    · right
      have hno : ∀ x ∈ cl.lits, t.value x ≠ l_True := fun x hx hv => hex ⟨x, hx, hv⟩
      have hx0 := watchLit_mem ha h0
      have hx1 := watchLit_mem ha h1
      have key : ∀ (wn : Bool) (x blk : Lit), t.watchLit off wn = some x →
          Watched.clause off blk wn ∈ t.ws x.neg → t.value x = l_False → False := by
        intro wn x blk hwl hm hv
        have hg := hgood x.neg (by rw [Lit.neg_neg]; exact hv) _ hm
        rcases hg with hg | ⟨lo, hg1, hg2⟩
        · obtain ⟨cl', a1, a2⟩ := hB _ _ _ _ hm
          rw [ha] at a1
          injection a1 with a1
          subst a1
          exact hno blk a2 hg
        · exact hno lo (watchLit_mem ha hg1) hg2
      constructor
      · rcases value_cases t x0 with e | e | e
        · exact absurd e (hno x0 hx0)
        · exact absurd e (fun e => key false x0 blk0 h0 m0 e)
        · exact e
      · rcases value_cases t x1 with e | e | e
        · exact absurd e (hno x1 hx1)
        · exact absurd e (fun e => key true x1 blk1 h1 m1 e)
        · exact e

/-! ## The watcher invariant in reachable states -/

theorem isLongOf_iff {off : Nat} {wn : Bool} {w : Watched} :
    w.isLongOf off wn = true ↔ ∃ blk, w = .clause off blk wn := by
  cases w with
  | binary o lr => simp [Watched.isLongOf]
  | tri a a2 => simp [Watched.isLongOf]
  | clause o blk w1 =>
    simp only [Watched.isLongOf, Bool.and_eq_true, beq_iff_eq, Watched.clause.injEq]
    constructor
    · rintro ⟨rfl, rfl⟩
      exact ⟨blk, rfl, rfl, rfl⟩
    · rintro ⟨b, rfl, -, rfl⟩
      exact ⟨rfl, rfl⟩

theorem longCount_set (W : List (List Watched)) (i : Nat) (x : List Watched) (off : Nat)
    (wn : Bool) (h : i < W.length) :
    longCount (W.set i x) off wn + (W.getD i []).countP (Watched.isLongOf off wn)
      = longCount W off wn + x.countP (Watched.isLongOf off wn) := by
  unfold longCount
  rw [List.map_set]
  have := sum_set_nat (W.map (fun ws => ws.countP (Watched.isLongOf off wn))) i
    (x.countP (Watched.isLongOf off wn)) (by simpa using h)
  rw [List.getElem_map] at this
  rw [List.getD_eq_getElem?_getD, List.getElem?_eq_getElem h]
  exact this

theorem countP_eraseIdx (f : Watched → Bool) (l : List Watched) (k : Nat) (w : Watched)
    (h : l[k]? = some w) :
    l.countP f = (l.eraseIdx k).countP f + (if f w = true then 1 else 0) := by
  induction l generalizing k with
  | nil => simp at h
  | cons a l ih =>
    cases k with
    | zero =>
      simp only [List.getElem?_cons_zero, Option.some.injEq] at h
      subst h
      simp [List.countP_cons]
    | succ k =>
      simp only [List.getElem?_cons_succ] at h
      simp only [List.eraseIdx_cons_succ, List.countP_cons]
      rw [ih k h]
      omega

theorem longCount_pos_of_mem {W : List (List Watched)} {ws : List Watched} {w : Watched}
    {off : Nat} {wn : Bool} (h1 : ws ∈ W) (h2 : w ∈ ws) (h3 : w.isLongOf off wn = true) :
    0 < longCount W off wn := by
  induction W with
  | nil => cases h1
  | cons a W ih =>
    unfold longCount
    simp only [List.map_cons, List.sum_cons]
    rcases List.mem_cons.mp h1 with e | e
    · subst e
      have : 0 < List.countP (Watched.isLongOf off wn) ws :=
        List.countP_pos_iff.mpr ⟨w, h2, h3⟩
      omega
    · have := ih e
      unfold longCount at this
      omega

theorem exists_of_longCount_pos {W : List (List Watched)} {off : Nat} {wn : Bool}
    (h : 0 < longCount W off wn) :
    ∃ ws ∈ W, ∃ w ∈ ws, w.isLongOf off wn = true := by
  induction W with
  | nil => simp [longCount] at h
  | cons a W ih =>
    unfold longCount at h
    simp only [List.map_cons, List.sum_cons] at h
    by_cases ha : 0 < List.countP (Watched.isLongOf off wn) a
    · obtain ⟨w, h1, h2⟩ := List.countP_pos_iff.mp ha
      exact ⟨a, List.mem_cons_self _ _, w, h1, h2⟩
    · have : 0 < longCount W off wn := by
        unfold longCount
        omega
      obtain ⟨ws, h1, w, h2, h3⟩ := ih this
      exact ⟨ws, List.mem_cons_of_mem _ h1, w, h2, h3⟩

theorem Lit.exists_toInt (i : Nat) : ∃ l : Lit, l.toInt = i := by
  refine ⟨⟨i / 2, decide (i % 2 = 1)⟩, ?_⟩
  unfold Lit.toInt
  by_cases h : i % 2 = 1
  · simp [h]; omega
  · simp [h]; omega

theorem longCount_zero_of_notAttached {s : Solver} {off : Nat} (h : NotAttached s off)
    (wn : Bool) : longCount s.watches off wn = 0 := by
  by_contra hc
  obtain ⟨ws, h1, w, h2, h3⟩ := exists_of_longCount_pos (Nat.pos_of_ne_zero hc)
  obtain ⟨blk, rfl⟩ := isLongOf_iff.mp h3
  obtain ⟨i, hi⟩ := List.mem_iff_getElem?.mp h1
  obtain ⟨l, rfl⟩ := Lit.exists_toInt i
  apply h l blk wn
  unfold Solver.ws
  rw [List.getD_eq_getElem?_getD, hi]
  exact h2

theorem mem_ws_of_longCount_zero {s : Solver} {off : Nat} {wn : Bool}
    (h : longCount s.watches off wn = 0) (l : Lit) (blk : Lit) :
    Watched.clause off blk wn ∉ s.ws l := by
  intro hm
  obtain ⟨ws, h1, h2⟩ := mem_ws_watches hm
  have := longCount_pos_of_mem h1 h2 (isLongOf_iff.mpr ⟨blk, rfl⟩)
  omega

theorem watchLit_reloc_other {s t : Solver} {num k : Nat} {wn : Bool} {off : Nat}
    {cl : Clause} (hr : Reloc s t num wn k) (hN : NumInj s) (ha : s.arena[off]? = some cl)
    (hnum : cl.num = num) (off' : Nat) (wn' : Bool) (hne : off' ≠ off ∨ wn' ≠ wn) :
    t.watchLit off' wn' = s.watchLit off' wn' := by
  obtain ⟨-, -, -, harena, -, -, -, hpos, hoth⟩ := hr
  unfold Solver.watchLit
  rw [harena]
  cases ha' : s.arena[off']? with
  | none => rfl
  | some cl' =>
    simp only
    by_cases hn : cl'.num = num
    · have hoff : off' = off := hN off' off cl' cl ha' ha (hn.trans hnum.symm)
      have hw : wn' ≠ wn := by
        rcases hne with h | h
        · exact absurd hoff h
        · exact h
      rw [hn, hpos]
      unfold Solver.watchPos
      cases hd : s.clauseData[num]? with
      | none => rfl
      | some d =>
        simp only [Option.map_some']
        cases wn <;> cases wn' <;> simp [ClauseData.set] at hw ⊢
    · rw [hoth _ hn]

theorem watchLit_reloc_self {s t : Solver} {num k : Nat} {wn : Bool} {off : Nat}
    {cl : Clause} {d : ClauseData} (hr : Reloc s t num wn k) (ha : s.arena[off]? = some cl)
    (hnum : cl.num = num) (hd : s.clauseData[num]? = some d) :
    t.watchLit off wn = cl.lits[k]? := by
  obtain ⟨-, -, -, harena, -, -, -, hpos, -⟩ := hr
  unfold Solver.watchLit
  rw [harena, ha]
  simp only
  rw [hnum, hpos, hd]
  simp only [Option.map_some']
  cases wn <;> simp [ClauseData.set]

theorem propBinaryClause_watchLit {s t : Solver} {o p : Lit} {c c1 : PropBy} {b : Bool}
    (h : s.propBinaryClause o p c = .ok (b, c1, t)) (off : Nat) (wn : Bool) :
    t.watchLit off wn = s.watchLit off wn := by
  obtain ⟨-, hc⟩ := propBinaryClause_inv h
  rcases hc with ⟨-, -, -, he⟩ | ⟨-, -, -, hs, -⟩ | ⟨-, -, -, rfl⟩
  · exact watchLit_congr he.2.2.2.2.2.1 he.2.2.2.2.2.2.2.2.2 off wn
  · exact watchLit_congr hs.2.2.2.1 hs.2.2.2.2.2.2 off wn
  · rfl

theorem propTriClause_watchLit {s t : Solver} {a a2 p : Lit} {c c1 : PropBy} {b : Bool}
    (h : s.propTriClause a a2 p c = .ok (b, c1, t)) (off : Nat) (wn : Bool) :
    t.watchLit off wn = s.watchLit off wn := by
  obtain ⟨-, hc⟩ := propTriClause_inv h
  rcases hc with ⟨-, -, -, -, he⟩ | ⟨-, -, -, -, he⟩ | ⟨-, -, -, -, hs, -⟩ | ⟨-, -, -, rfl⟩
  · exact watchLit_congr he.2.2.2.2.2.1 he.2.2.2.2.2.2.2.2.2 off wn
  · exact watchLit_congr he.2.2.2.2.2.1 he.2.2.2.2.2.2.2.2.2 off wn
  · exact watchLit_congr hs.2.2.2.1 hs.2.2.2.2.2.2 off wn
  · rfl

/-- One step of the scan, seen from the watch positions: they are unchanged, or
the step moves the watch of the scanned watcher to a literal `~l` and the watcher
to the list of `l`. -/
theorem absStep_watchLit {s t : Solver} {p : Lit} {k k1 : Nat} {w : Watched} {c c1 : PropBy}
    {b : Bool} (hv : s.value p = l_True) (hN : NumInj s)
    (h : s.absStep p k w c = .ok (b, k1, c1, t)) :
    (t.watches = s.watches ∧ ∀ off wn, t.watchLit off wn = s.watchLit off wn) ∨
    (∃ l off lo wn blk, w = .clause off blk wn ∧ l ≠ p ∧ l.toInt < s.watches.length ∧
        t.watchLit off wn = some l.neg ∧
        (∀ off' wn', (off' ≠ off ∨ wn' ≠ wn) → t.watchLit off' wn' = s.watchLit off' wn') ∧
        t.watches = (s.watches.set p.toInt ((s.ws p).eraseIdx k)).set l.toInt
          (s.ws l ++ [.clause off lo wn])) := by
  unfold Solver.absStep at h
  cases w with
  | binary o lr =>
    simp only at h
    split at h
    · cases h
    · rename_i b2 c2 s1 h1
      simp only [Except.ok.injEq, Prod.mk.injEq] at h
      obtain ⟨rfl, rfl, rfl, rfl⟩ := h
      exact Or.inl ⟨(propBinaryClause_inv h1).1, propBinaryClause_watchLit h1⟩
  | tri a a2 =>
    simp only at h
    split at h
    · cases h
    · rename_i b2 c2 s1 h1
      simp only [Except.ok.injEq, Prod.mk.injEq] at h
      obtain ⟨rfl, rfl, rfl, rfl⟩ := h
      exact Or.inl ⟨(propTriClause_inv h1).1, propTriClause_watchLit h1⟩
  | clause off blk wn =>
    simp only at h
    split at h
    · cases h
    · rename_i b2 c2 s1 h1
      simp only [Except.ok.injEq, Prod.mk.injEq] at h
      obtain ⟨rfl, rfl, rfl, rfl⟩ := h
      obtain ⟨hw, hc⟩ := propNormalCore_inv h1
      refine Or.inl ⟨hw, ?_⟩
      rcases hc with ⟨-, -, -, -, rfl⟩ | ⟨cl, d, lo, -, -, -, -, -, hc⟩
      · intro _ _; rfl
      · rcases hc with ⟨-, -, -, -, hs, -⟩ | ⟨-, k, -, -, ha, -⟩ | ⟨-, -, -, -, -, hs, -⟩ |
          ⟨-, -, -, -, -, he⟩
        · exact watchLit_congr hs.2.2.2.1 hs.2.2.2.2.2.2
        · cases ha
        · exact watchLit_congr hs.2.2.2.1 hs.2.2.2.2.2.2
        · exact watchLit_congr he.2.2.2.2.2.1 he.2.2.2.2.2.2.2.2.2
    · rename_i b2 l w1 c2 s1 h1
      split at h
      · cases h
      · rename_i s2 h2
        simp only [Except.ok.injEq, Prod.mk.injEq] at h
        obtain ⟨rfl, rfl, rfl, rfl⟩ := h
        have hne : l ≠ p := propNormalCore_relocate_ne h1 hv
        obtain ⟨hw, hc⟩ := propNormalCore_inv h1
        obtain ⟨hlt, e⟩ := Solver.pushWs_ok h2
        rcases hc with ⟨-, -, ha, -⟩ | ⟨cl, d, lo, harena, hdata, hlw, hlo, -, hc⟩
        · cases ha
        · rcases hc with ⟨-, -, ha, -⟩ | ⟨-, kn, hkn, -, ha, -, hr⟩ | ⟨-, -, -, ha, -⟩ |
            ⟨-, -, -, ha, -⟩
          · cases ha
          · injection ha with hl hw1
            obtain ⟨-, hk2, -⟩ := findNewWatch_some hkn
            have hkl : kn < cl.lits.length := by
              have h1 : cl.size % 65536 ≤ cl.size := Nat.mod_le _ _
              have h2 : cl.size = cl.lits.length := rfl
              omega
            refine Or.inr ⟨l, off, lo, wn, blk, rfl, hne, ?_, ?_, ?_, ?_⟩
            · simpa [hw] using hlt
            · have e1 : s2.watchLit off wn = s1.watchLit off wn := by rw [e]; rfl
              rw [e1, watchLit_reloc_self hr harena rfl hdata, hl, Lit.neg_neg,
                List.getD_eq_getElem _ _ hkl, List.getElem?_eq_getElem hkl]
            · intro off' wn' hne'
              have e1 : s2.watchLit off' wn' = s1.watchLit off' wn' := by rw [e]; rfl
              rw [e1]
              exact watchLit_reloc_other hr hN harena rfl off' wn' hne'
            · rw [e, hw1]
              simp only [Solver.setWs, Solver.ws, hw]
              congr 2
              rw [getD_set_ne _ _ _ _ _ (fun e => hne (Lit.toInt_inj.mp e.symm))]
          · cases ha
          · cases ha

/-! ## Clauses of 2^16 literals and more: the loop counter of the Long arm wraps -/

theorem propTriClauseFull_flag {o : FullPropOracle} {s t : Solver} {a b p : Lit}
    {c c1 : PropBy} {f : Bool} (h : s.propTriClauseFull o a b p c = .ok (f, c1, t))
    (hf : f = true) : c1 = c := by
  unfold Solver.propTriClauseFull at h
  dsimp only at h
  split_ifs at h
  all_goals first
    | (injection h with h; injection h with h1 h; injection h with h2 h3
       first | exact h2.symm | (rw [← h1] at hf; cases hf))
    | (split at h
       · cases h
       · injection h with h; injection h with h1 h; injection h with h2 h3; exact h2.symm)

theorem propNormalClauseFull_flag {o : FullPropOracle} {s t : Solver} {w : Watched}
    {off : Nat} {blk p : Lit} {wn : Bool} {j j1 : Nat} {c c1 : PropBy} {f : Bool}
    (h : s.propNormalClauseFull o w off blk wn j p c = .ok (f, j1, c1, t))
    (hf : f = true) : c1 = c := by
  unfold Solver.propNormalClauseFull at h
  dsimp only at h
  split at h
  · injection h with h; injection h with h1 h; injection h with h2 h; injection h with h3 h4
    exact h3.symm
  · split at h
    · cases h
    · split at h
      · cases h
      · split at h
        · split at h
          · cases h
          · split at h
            · injection h with h; injection h with h1 h; injection h with h2 h
              injection h with h3 h4
              exact h3.symm
            · split at h
              · split at h
                · cases h
                · injection h with h; injection h with h1 h; injection h with h2 h
                  injection h with h3 h4
                  exact h3.symm
              · split at h
                · injection h with h; injection h with h1 h
                  rw [← h1] at hf
                  cases hf
                · split at h
                  · cases h
                  · injection h with h; injection h with h1 h; injection h with h2 h
                    injection h with h3 h4
                    exact h3.symm
        · cases h

theorem propagateFullWatch_flag {o : FullPropOracle} {s t : Solver} {p : Lit} {j j1 : Nat}
    {w : Watched} {c c1 : PropBy} (h : s.propagateFullWatch o p j w c = .ok (true, j1, c1, t)) :
    c1 = c := by
  unfold Solver.propagateFullWatch at h
  cases w with
  | binary a l =>
    injection h with h; injection h with h1 h; injection h with h2 h; injection h with h3 h4
    exact h3.symm
  | tri a b =>
    dsimp only at h
    split at h
    · cases h
    · rename_i f c2 s2 hh
      injection h with h; injection h with h1 h; injection h with h2 h; injection h with h3 h4
      subst h3
      refine propTriClauseFull_flag hh ?_
      cases f
      · simp at h1
      · rfl
  | clause off blk wn =>
    dsimp only at h
    split at h
    · cases h
    · rename_i f j2 c2 s2 hh
      injection h with h; injection h with h1 h; injection h with h2 h; injection h with h3 h4
      subst h3
      refine propNormalClauseFull_flag hh ?_
      cases f
      · simp at h1
      · rfl

theorem nlBinYields_spec {o : FullPropOracle} {p : Lit} : ∀ (ws : List Watched) {s : Solver}
    {u : List BinaryClause} {ret : PropBy} {u1 : List BinaryClause} {s1 : Solver},
    Solver.propFullNLBinList o p ws s u = .ok (ret, u1, s1) →
    (∀ w r, NLBinYields o p ws s u w r → r ≠ .null → r = ret) ∧
    (ret ≠ .null → ∃ w, NLBinYields o p ws s u w ret) := by
  intro ws
  induction ws with
  | nil =>
    intro s u ret u1 s1 h
    rw [Solver.propFullNLBinList] at h
    injection h with h
    injection h with h1 h2
    subst h1
    exact ⟨fun w r hy => (by cases hy), fun hne => absurd rfl hne⟩
  | cons w ws ih =>
    intro s u ret u1 s1 h
    cases w with
    | binary lit learnt =>
      cases learnt with
      | true =>
        rw [Solver.propFullNLBinList] at h
        simp only [if_true] at h
        obtain ⟨i1, i2⟩ := ih h
        refine ⟨fun w r hy hr => ?_, fun hne => ?_⟩
        · cases hy with
          | skip _ hy => exact i1 _ _ hy hr
        · obtain ⟨w, hw⟩ := i2 hne
          exact ⟨w, .skip (fun l e => by cases e) hw⟩
      | false =>
        rw [Solver.propFullNLBinList] at h
        simp only [Bool.false_eq_true, if_false] at h
        cases hpb : s.propBin o p lit false u with
        | error e => rw [hpb] at h; cases h
        | ok res =>
          obtain ⟨ret0, u0, s0⟩ := res
          rw [hpb] at h
          dsimp only at h
          by_cases hret : ret0 ≠ .null
          · rw [if_pos hret] at h
            injection h with h
            injection h with h1 h2
            subst h1
            refine ⟨fun w r hy hr => ?_, fun _ => ⟨_, .here hpb⟩⟩
            cases hy with
            | here hy =>
              rw [hpb] at hy
              injection hy with hy
              injection hy with e1 e2
              exact e1.symm
            | skip hne _ => exact absurd rfl (hne lit)
            | next hy _ =>
              rw [hpb] at hy
              injection hy with hy
              injection hy with e1 e2
              exact absurd e1 hret
          · rw [if_neg hret] at h
            have hnull : ret0 = .null := not_not.mp hret
            obtain ⟨i1, i2⟩ := ih h
            refine ⟨fun w r hy hr => ?_, fun hne => ?_⟩
            · cases hy with
              | here hy =>
                rw [hpb] at hy
                injection hy with hy
                injection hy with e1 e2
                exact absurd (e1.symm.trans hnull) hr
              | skip hne _ => exact absurd rfl (hne lit)
              | next hy hrest =>
                rw [hpb] at hy
                injection hy with hy
                injection hy with e1 e2
                injection e2 with e2 e3
                subst e2 e3
                exact i1 _ _ hrest hr
            · obtain ⟨w, hw⟩ := i2 hne
              subst hnull
              exact ⟨w, .next hpb hw⟩
    | tri a b =>
      simp only [Solver.propFullNLBinList] at h
      obtain ⟨i1, i2⟩ := ih h
      refine ⟨fun w r hy hr => ?_, fun hne => ?_⟩
      · cases hy with
        | skip _ hy => exact i1 _ _ hy hr
      · obtain ⟨w, hw⟩ := i2 hne
        exact ⟨w, .skip (fun l e => by cases e) hw⟩
    | clause off blk wn =>
      simp only [Solver.propFullNLBinList] at h
      obtain ⟨i1, i2⟩ := ih h
      refine ⟨fun w r hy hr => ?_, fun hne => ?_⟩
      · cases hy with
        | skip _ hy => exact i1 _ _ hy hr
      · obtain ⟨w, hw⟩ := i2 hne
        exact ⟨w, .skip (fun l e => by cases e) hw⟩

theorem lBinYields_spec {o : FullPropOracle} {p : Lit} : ∀ (ws : List Watched) {s : Solver}
    {u : List BinaryClause} {ret : PropBy} {rs : Bool} {u1 : List BinaryClause} {s1 : Solver},
    Solver.propFullLBinList o p ws s u = .ok (ret, rs, u1, s1) →
    (∀ w r, LBinYields o p ws s u w r → r ≠ .null → r = ret) ∧
    (ret ≠ .null → ∃ w, LBinYields o p ws s u w ret) := by
  intro ws
  induction ws with
  | nil =>
    intro s u ret rs u1 s1 h
    rw [Solver.propFullLBinList] at h
    injection h with h
    injection h with h1 h2
    subst h1
    exact ⟨fun w r hy => (by cases hy), fun hne => absurd rfl hne⟩
  | cons w ws ih =>
    intro s u ret rs u1 s1 h
    cases w with
    | binary lit learnt =>
      cases learnt with
      | false =>
        rw [Solver.propFullLBinList] at h
        simp only [Bool.false_eq_true, not_false_eq_true, if_true] at h
        obtain ⟨i1, i2⟩ := ih h
        refine ⟨fun w r hy hr => ?_, fun hne => ?_⟩
        · cases hy with
          | skip _ hy => exact i1 _ _ hy hr
        · obtain ⟨w, hw⟩ := i2 hne
          exact ⟨w, .skip (fun l e => by cases e) hw⟩
      | true =>
        rw [Solver.propFullLBinList] at h
        simp only [not_true_eq_false, if_false] at h
        cases hpb : s.propBin o p lit true u with
        | error e => rw [hpb] at h; cases h
        | ok res =>
          obtain ⟨ret0, u0, s0⟩ := res
          rw [hpb] at h
          dsimp only at h
          by_cases hret : ret0 ≠ .null
          · rw [if_pos hret] at h
            injection h with h
            injection h with h1 h2
            subst h1
            refine ⟨fun w r hy hr => ?_, fun _ => ⟨_, .here hpb⟩⟩
            cases hy with
            | here hy =>
              rw [hpb] at hy
              injection hy with hy
              injection hy with e1 e2
              exact e1.symm
            | skip hne _ => exact absurd rfl (hne lit)
            | next hy _ _ =>
              rw [hpb] at hy
              injection hy with hy
              injection hy with e1 e2
              exact absurd e1 hret
          · rw [if_neg hret] at h
            have hnull : ret0 = .null := not_not.mp hret
            by_cases hen : s0.enqeuedSomething = true
            · rw [if_pos hen] at h
              injection h with h
              injection h with h1 h2
              subst h1
              refine ⟨fun w r hy hr => ?_, fun hne => absurd rfl hne⟩
              cases hy with
              | here hy =>
                rw [hpb] at hy
                injection hy with hy
                injection hy with e1 e2
                exact absurd (e1.symm.trans hnull) hr
              | skip hne _ => exact absurd rfl (hne lit)
              | next hy hq _ =>
                rw [hpb] at hy
                injection hy with hy
                injection hy with e1 e2
                injection e2 with e2 e3
                subst e3
                rw [hen] at hq
                cases hq
            · rw [if_neg hen] at h
              obtain ⟨i1, i2⟩ := ih h
              refine ⟨fun w r hy hr => ?_, fun hne => ?_⟩
              · cases hy with
                | here hy =>
                  rw [hpb] at hy
                  injection hy with hy
                  injection hy with e1 e2
                  exact absurd (e1.symm.trans hnull) hr
                | skip hne _ => exact absurd rfl (hne lit)
                | next hy _ hrest =>
                  rw [hpb] at hy
                  injection hy with hy
                  injection hy with e1 e2
                  injection e2 with e2 e3
                  subst e2 e3
                  exact i1 _ _ hrest hr
              · obtain ⟨w, hw⟩ := i2 hne
                subst hnull
                exact ⟨w, .next hpb (by simpa using hen) hw⟩
    | tri a b =>
      simp only [Solver.propFullLBinList] at h
      obtain ⟨i1, i2⟩ := ih h
      refine ⟨fun w r hy hr => ?_, fun hne => ?_⟩
      · cases hy with
        | skip _ hy => exact i1 _ _ hy hr
      · obtain ⟨w, hw⟩ := i2 hne
        exact ⟨w, .skip (fun l e => by cases e) hw⟩
    | clause off blk wn =>
      simp only [Solver.propFullLBinList] at h
      obtain ⟨i1, i2⟩ := ih h
      refine ⟨fun w r hy hr => ?_, fun hne => ?_⟩
      · cases hy with
        | skip _ hy => exact i1 _ _ hy hr
      · obtain ⟨w, hw⟩ := i2 hne
        exact ⟨w, .skip (fun l e => by cases e) hw⟩

theorem watchYields_spec {o : FullPropOracle} {p : Lit} : ∀ (n : Nat) {i j : Nat} {s : Solver}
    {i1 j1 : Nat} {confl : PropBy} {s1 : Solver},
    Solver.propagateFullWatches o p n i j s .null = .ok (i1, j1, confl, s1) →
    (∀ w r, WatchYields o p n i j s .null w r → r ≠ .null → r = confl) ∧
    (confl ≠ .null → ∃ w, WatchYields o p n i j s .null w confl) := by
  intro n
  induction n with
  | zero =>
    intro i j s i1 j1 confl s1 h
    rw [Solver.propagateFullWatches] at h
    injection h with h
    injection h with h1 h2
    injection h2 with h2 h3
    injection h3 with h3 h4
    subst h3
    exact ⟨fun w r hy => (by cases hy), fun hne => absurd rfl hne⟩
  | succ n ih =>
    intro i j s i1 j1 confl s1 h
    rw [Solver.propagateFullWatches] at h
    cases hw : (s.ws p)[i]? with
    | none => rw [hw] at h; cases h
    | some w0 =>
      rw [hw] at h
      dsimp only at h
      cases hst : s.propagateFullWatch o p j w0 .null with
      | error e => rw [hst] at h; cases h
      | ok res =>
        obtain ⟨f, j2, c2, s2⟩ := res
        rw [hst] at h
        cases f with
        | true =>
          dsimp only at h
          have hc2 : c2 = .null := propagateFullWatch_flag hst
          subst hc2
          obtain ⟨k1, k2⟩ := ih h
          have harm : ∀ w r, WatchYields o p (n + 1) i j s .null w r → r ≠ .null →
              WatchYields o p n (i + 1) j2 s2 .null w r := by
            intro w r hy hr
            cases hy with
            | tri hg ha =>
              rw [hw] at hg
              injection hg with hg
              subst hg
              unfold Solver.propagateFullWatch at hst
              dsimp only at hst
              rw [ha] at hst
              dsimp only at hst
              injection hst with hst
              injection hst with e1 e2
              injection e2 with e2 e3
              injection e3 with e3 e4
              exact absurd e3 hr
            | long hg ha =>
              rw [hw] at hg
              injection hg with hg
              subst hg
              unfold Solver.propagateFullWatch at hst
              dsimp only at hst
              rw [ha] at hst
              dsimp only at hst
              injection hst with hst
              injection hst with e1 e2
              injection e2 with e2 e3
              injection e3 with e3 e4
              exact absurd e3 hr
            | next hg ha hrest =>
              rw [hw] at hg
              injection hg with hg
              subst hg
              rw [hst] at ha
              injection ha with ha
              injection ha with e1 e2
              injection e2 with e2 e3
              injection e3 with e3 e4
              subst e2 e3 e4
              exact hrest
          refine ⟨fun w r hy hr => k1 _ _ (harm w r hy hr) hr, fun hne => ?_⟩
          obtain ⟨w, hy⟩ := k2 hne
          exact ⟨w, .next hw hst hy⟩
        | false =>
          dsimp only at h
          injection h with h
          injection h with h1 h2
          injection h2 with h2 h3
          injection h3 with h3 h4
          subst h3
          refine ⟨fun w r hy hr => ?_, fun hne => ?_⟩
          · cases hy with
            | tri hg ha =>
              rw [hw] at hg
              injection hg with hg
              subst hg
              unfold Solver.propagateFullWatch at hst
              dsimp only at hst
              rw [ha] at hst
              dsimp only at hst
              injection hst with hst
              injection hst with e1 e2
              injection e2 with e2 e3
              injection e3 with e3 e4
              try exact e3
            | long hg ha =>
              rw [hw] at hg
              injection hg with hg
              subst hg
              unfold Solver.propagateFullWatch at hst
              dsimp only at hst
              rw [ha] at hst
              dsimp only at hst
              injection hst with hst
              injection hst with e1 e2
              injection e2 with e2 e3
              injection e3 with e3 e4
              try exact e3
            | next hg ha _ =>
              rw [hw] at hg
              injection hg with hg
              subst hg
              rw [hst] at ha
              injection ha with ha
              injection ha with e1 e2
              cases e1
          · cases w0 with
            | binary a l =>
              unfold Solver.propagateFullWatch at hst
              cases hst
            | tri a b =>
              have hst2 := hst
              unfold Solver.propagateFullWatch at hst2
              dsimp only at hst2
              split at hst2
              · cases hst2
              · rename_i f0 c0 s0 hh
                injection hst2 with hst2
                injection hst2 with e1 e2
                injection e2 with e2 e3
                injection e3 with e3 e4
                subst e3
                exact ⟨_, .tri hw hh⟩
            | clause off blk wn =>
              have hst2 := hst
              unfold Solver.propagateFullWatch at hst2
              dsimp only at hst2
              split at hst2
              · cases hst2
              · rename_i f0 j0 c0 s0 hh
                injection hst2 with hst2
                injection hst2 with e1 e2
                injection e2 with e2 e3
                injection e3 with e3 e4
                subst e3
                exact ⟨_, .long hw hh⟩

theorem null_of_forall {r ret : PropBy} (h : r ≠ .null → r = ret) (hret : ret = .null) :
    r = .null := by
  by_contra hr
  exact hr ((h hr).trans hret)

theorem passYields_inr {o : FullPropOracle} {ph ph1 : FullPhase} {st st1 : FullState}
    (h : Solver.propagateFullStep o ph st = .ok (.inr (ph1, st1))) :
    ∀ w r, PassYields o ph st w r → r = .null := by
  intro w r hy
  cases ph with
  | nlBin =>
    obtain ⟨hlt, p, hp, hy⟩ := hy
    rw [Solver.propagateFullStep] at h
    rw [if_pos hlt, hp] at h
    dsimp only at h
    split_ifs at h with hw
    · split at h
      · cases h
      · rename_i ret u1 s2 hscan
        split_ifs at h with hret
        · cases h
        · exact null_of_forall ((nlBinYields_spec _ hscan).1 w r hy) (not_not.mp hret)
  | lBin =>
    obtain ⟨hlt, p, hp, hy⟩ := hy
    rw [Solver.propagateFullStep] at h
    rw [if_pos hlt, hp] at h
    dsimp only at h
    split_ifs at h with hw
    · split at h
      · cases h
      · rename_i ret rs u1 s2 hscan
        have hret : ret = .null := by
          by_contra hne
          rw [if_pos hne] at h
          cases h
        exact null_of_forall ((lBinYields_spec _ hscan).1 w r hy) hret
  | nonBin =>
    obtain ⟨hlt, p, hp, hy⟩ := hy
    rw [Solver.propagateFullStep] at h
    rw [if_pos hlt, hp] at h
    dsimp only at h
    split_ifs at h with hw
    · split at h
      · cases h
      · rename_i i j confl s2 hscan
        have hret : confl = .null := by
          by_contra hne
          rw [if_pos hne] at h
          cases h
        exact null_of_forall ((watchYields_spec _ hscan).1 w r hy) hret

theorem passYields_inl {o : FullPropOracle} {ph : FullPhase} {st st1 : FullState} {l : Lit}
    (h : Solver.propagateFullStep o ph st = .ok (.inl (l, st1))) :
    ((∀ w r, PassYields o ph st w r → r = .null) ∧ l = lit_Undef ∧
      ¬ (st1.s.qhead < st1.s.trail.length)) ∨
    (∃ w r, PassYields o ph st w r ∧ r ≠ .null ∧ l = o.analyzeFail st1.s r ∧
      ∀ w1 r1, PassYields o ph st w1 r1 → r1 ≠ .null → r1 = r) := by
  cases ph with
  | nlBin =>
    rw [Solver.propagateFullStep] at h
    split_ifs at h with hlt
    · split at h
      · cases h
      · rename_i p hp
        dsimp only at h
        split_ifs at h with hw
        split at h
        · cases h
        · rename_i ret u1 s2 hscan
          split_ifs at h with hret
          · injection h with h
            injection h with h
            injection h with e1 e2
            subst e1 e2
            obtain ⟨k1, k2⟩ := nlBinYields_spec _ hscan
            obtain ⟨w, hy⟩ := k2 hret
            refine Or.inr ⟨w, ret, ⟨hlt, p, hp, hy⟩, hret, rfl, ?_⟩
            rintro w1 r1 ⟨-, p1, hp1, hy1⟩ hr1
            rw [hp] at hp1
            injection hp1 with hp1
            subst hp1
            exact k1 _ _ hy1 hr1
          · exact absurd h (by simp)
    · exact absurd h (by simp)
  | lBin =>
    rw [Solver.propagateFullStep] at h
    split_ifs at h with hlt
    · split at h
      · cases h
      · rename_i p hp
        dsimp only at h
        split_ifs at h with hw
        split at h
        · cases h
        · rename_i ret rs u1 s2 hscan
          split_ifs at h with hret
          · injection h with h
            injection h with h
            injection h with e1 e2
            subst e1 e2
            obtain ⟨k1, k2⟩ := lBinYields_spec _ hscan
            obtain ⟨w, hy⟩ := k2 hret
            refine Or.inr ⟨w, ret, ⟨hlt, p, hp, hy⟩, hret, rfl, ?_⟩
            rintro w1 r1 ⟨-, p1, hp1, hy1⟩ hr1
            rw [hp] at hp1
            injection hp1 with hp1
            subst hp1
            exact k1 _ _ hy1 hr1
          all_goals exact absurd h (by simp)
    · exact absurd h (by simp)
  | nonBin =>
    rw [Solver.propagateFullStep] at h
    split_ifs at h with hlt
    · split at h
      · cases h
      · rename_i p hp
        dsimp only at h
        split_ifs at h with hw
        split at h
        · cases h
        · rename_i i j confl s2 hscan
          split_ifs at h with hret
          · injection h with h
            injection h with h
            injection h with e1 e2
            subst e1 e2
            obtain ⟨k1, k2⟩ := watchYields_spec _ hscan
            obtain ⟨w, hy⟩ := k2 hret
            refine Or.inr ⟨w, confl, ⟨hlt, p, hp, hy⟩, hret, rfl, ?_⟩
            rintro w1 r1 ⟨-, p1, hp1, hy1⟩ hr1
            rw [hp] at hp1
            injection hp1 with hp1
            subst hp1
            exact k1 _ _ hy1 hr1
          all_goals exact absurd h (by simp)
    · injection h with h
      injection h with h
      injection h with e1 e2
      subst e1 e2
      exact Or.inl ⟨fun w r hy => absurd hy.1 hlt, rfl, hlt⟩

theorem fullReach_head {o : FullPropOracle} {ph ph2 : FullPhase} {st st2 : FullState}
    (h : FullReach o ph st ph2 st2) :
    (ph2 = ph ∧ st2 = st) ∨
    ∃ ph1 st1, Solver.propagateFullStep o ph st = .ok (.inr (ph1, st1)) ∧
      FullReach o ph1 st1 ph2 st2 := by
  induction h with
  | refl => exact Or.inl ⟨rfl, rfl⟩
  | step hr hs ih =>
    rcases ih with ⟨e1, e2⟩ | ⟨ph1, st1, h1, h2⟩
    · subst e1 e2
      exact Or.inr ⟨_, _, hs, FullReach.refl⟩
    · exact Or.inr ⟨ph1, st1, h1, FullReach.step h2 hs⟩

theorem propagateFullLoop_yields (o : FullPropOracle) : ∀ (fuel : Nat) (ph : FullPhase)
    (st : FullState) (l : Lit) (st' : FullState),
    Solver.propagateFullLoop o fuel ph st = .ok (l, st') →
    ((∀ w r ph1 st1, FullReach o ph st ph1 st1 → PassYields o ph1 st1 w r → r = .null) ∧
      l = lit_Undef ∧ ¬ (st'.s.qhead < st'.s.trail.length)) ∨
    (∃ w r, (∃ ph1 st1, FullReach o ph st ph1 st1 ∧ PassYields o ph1 st1 w r) ∧ r ≠ .null ∧
      l = o.analyzeFail st'.s r ∧
      ∀ w1 r1 ph1 st1, FullReach o ph st ph1 st1 → PassYields o ph1 st1 w1 r1 →
        r1 ≠ .null → r1 = r) := by
  intro fuel
  induction fuel with
  | zero =>
    intro ph st l st' h
    cases ph <;> simp [Solver.propagateFullLoop] at h
  | succ fuel ih =>
    intro ph st l st' h
    rw [propagateFullLoop_succ] at h
    cases hs : Solver.propagateFullStep o ph st with
    | error e => rw [hs] at h; cases h
    | ok res =>
      rw [hs] at h
      cases res with
      | inl res =>
        obtain ⟨l0, st0⟩ := res
        dsimp only at h
        injection h with h
        injection h with e1 e2
        subst e1 e2
        have hsame : ∀ ph1 st1, FullReach o ph st ph1 st1 → ph1 = ph ∧ st1 = st := by
          intro ph1 st1 hr
          rcases fullReach_head hr with e | ⟨ph2, st2, h2, -⟩
          · exact e
          · rw [hs] at h2
            cases h2
        rcases passYields_inl hs with ⟨a1, a2, a3⟩ | ⟨w, r, b1, b2, b3, b4⟩
        · refine Or.inl ⟨fun w r ph1 st1 hr hy => ?_, a2, a3⟩
          obtain ⟨e1, e2⟩ := hsame _ _ hr
          subst e1 e2
          exact a1 _ _ hy
        · refine Or.inr ⟨w, r, ⟨ph, st, FullReach.refl, b1⟩, b2, b3, ?_⟩
          intro w1 r1 ph1 st1 hr hy hr1
          obtain ⟨e1, e2⟩ := hsame _ _ hr
          subst e1 e2
          exact b4 _ _ hy hr1
      | inr res =>
        obtain ⟨ph0, st0⟩ := res
        dsimp only at h
        have hnull := passYields_inr hs
        have hsplit : ∀ ph1 st1, FullReach o ph st ph1 st1 →
            (ph1 = ph ∧ st1 = st) ∨ FullReach o ph0 st0 ph1 st1 := by
          intro ph1 st1 hr
          rcases fullReach_head hr with e | ⟨ph2, st2, h2, h3⟩
          · exact Or.inl e
          · rw [hs] at h2
            injection h2 with h2
            injection h2 with h2
            injection h2 with e1 e2
            subst e1 e2
            exact Or.inr h3
        have hcons : ∀ ph1 st1, FullReach o ph0 st0 ph1 st1 → FullReach o ph st ph1 st1 := by
          intro ph1 st1 hr
          induction hr with
          | refl => exact FullReach.step FullReach.refl hs
          | step _ hs2 ih2 => exact FullReach.step ih2 hs2
        rcases ih _ _ _ _ h with ⟨a1, a2, a3⟩ | ⟨w, r, ⟨ph1, st1, b0, b1⟩, b2, b3, b4⟩
        · refine Or.inl ⟨fun w r ph1 st1 hr hy => ?_, a2, a3⟩
          rcases hsplit _ _ hr with ⟨e1, e2⟩ | hr2
          · subst e1 e2
            exact hnull _ _ hy
          · exact a1 _ _ _ _ hr2 hy
        · refine Or.inr ⟨w, r, ⟨ph1, st1, hcons _ _ b0, b1⟩, b2, b3, ?_⟩
          intro w1 r1 ph2 st2 hr hy hr1
          rcases hsplit _ _ hr with ⟨e1, e2⟩ | hr2
          · subst e1 e2
            exact absurd (hnull _ _ hy) hr1
          · exact b4 _ _ _ _ hr2 hy hr1

theorem propagateFull_start {o : FullPropOracle} {s : Solver} {u : List BinaryClause} {l : Lit}
    {st : FullState} (h : s.propagateFull o u = .ok (l, st)) :
    Solver.propagateFullLoop o (s.fullStart u).s.propagateFullFuel .nlBin (s.fullStart u)
      = .ok (l, st) ∧ QLe (s.fullStart u).s := by
  unfold Solver.propagateFull at h
  split_ifs at h with h1 h2
  split at h
  · cases h
  · rename_i lim hlim
    split_ifs at h with h3
    split at h
    · cases h
    · rename_i root hroot
      split_ifs at h with h4
      dsimp only at h
      have hg : s.trail.getD s.qhead lit_Undef = root := by
        rw [List.getD_eq_getElem?_getD, hroot]
        rfl
      have hlt := (List.getElem?_eq_some_iff.mp hroot).1
      unfold Solver.fullStart
      dsimp only
      rw [hg]
      refine ⟨h, ?_⟩
      unfold QLe
      dsimp only
      omega

theorem exS6_yields :
    RunYields echoOracle (exS6.fullStart []) (.binary (negLit 2) false) (.binary (negLit 1)) := by
  refine ⟨.nlBin, _, FullReach.refl, by decide, posLit 1, by decide, ?_⟩
  show NLBinYields echoOracle (posLit 1)
    [.binary (posLit 2) false, .binary (negLit 2) false] _ _ _ _
  exact @NLBinYields.next echoOracle (posLit 1) (posLit 2) _ _
    { exS6Final.s with failBinLit := lit_Undef } _ [] _ _ (by decide)
    (@NLBinYields.here echoOracle (posLit 1) (negLit 2) _ _ exS6Final.s _ [] _ (by decide))

/-- C14: `propagateFull` returns the undefined literal if and only if no
examined watcher yields a conflict, and otherwise exactly the literal that
`analyzeFail` returns for the conflict reason. A watcher is examined when it is
handed to its arm (`propBin` for a Binary watcher of the first or second loop,
`propTriClause<false>` or `propNormalClause<false>` for a Ternary or Long
watcher of the third), and it yields the reason that this arm reports
(`RunYields`). When `propagateFull` returns the literal `l` in the state `st`,
its loops have run from the configuration `fullStart`, and either no examined
watcher yields a reason other than `PropBy()`, `l` is `lit_Undef` and `qhead` is
not below the trail length (it equals it when `addHyperBin` keeps `qhead` and
the trail), or some examined watcher yields a conflict reason `r`, no examined
watcher yields another one, and `l` is the answer of `analyzeFail` on `r`. So
for an analyzer that answers every conflict with a literal other than
`lit_Undef`, the failed literal, the result is `lit_Undef` exactly when no
examined watcher yields a conflict. In scenario S6 (binaries `{-1, +2}`,
`{-1, -2}`, probe `+1`) the watcher `Binary(-2)` of `watches[+1]` yields the
reason `Binary(-1)`, and the result with the echoing analyzer is its literal
`-1`. -/
theorem propagateFull_returns :
    (∀ (o : FullPropOracle) (s : Solver) (u : List BinaryClause) (l : Lit) (st : FullState),
      s.propagateFull o u = .ok (l, st) →
      Solver.propagateFullLoop o (s.fullStart u).s.propagateFullFuel .nlBin (s.fullStart u)
        = .ok (l, st) ∧
      (((∀ w r, RunYields o (s.fullStart u) w r → r = .null) ∧ l = lit_Undef ∧
          ¬ (st.s.qhead < st.s.trail.length) ∧
          (HyperBinKeepsTrail o → st.s.qhead = st.s.trail.length)) ∨
        (∃ w r, RunYields o (s.fullStart u) w r ∧ r ≠ .null ∧ l = o.analyzeFail st.s r ∧
          ∀ w1 r1, RunYields o (s.fullStart u) w1 r1 → r1 ≠ .null → r1 = r)) ∧
      ((∀ t r, r ≠ .null → o.analyzeFail t r ≠ lit_Undef) →
        (l = lit_Undef ↔ ∀ w r, RunYields o (s.fullStart u) w r → r = .null))) ∧
    ((match exS6Attached with
      | .ok s => s.decide (posLit 1)
      | .error e => .error e) = .ok exS6 ∧
     RunYields echoOracle (exS6.fullStart []) (.binary (negLit 2) false) (.binary (negLit 1)) ∧
     exS6.propagateFull echoOracle [] = .ok (negLit 1, exS6Final) ∧
     (∀ af, exS6.propagateFull { echoOracle with analyzeFail := af } []
        = .ok (af exS6Final.s (.binary (negLit 1)), exS6Final))) := by
  refine ⟨fun o s u l st h => ?_, by decide, exS6_yields, by decide, fun af => by rfl⟩
  obtain ⟨hloop, hq0⟩ := propagateFull_start h
  have hmain : ((∀ w r, RunYields o (s.fullStart u) w r → r = .null) ∧ l = lit_Undef ∧
        ¬ (st.s.qhead < st.s.trail.length) ∧
        (HyperBinKeepsTrail o → st.s.qhead = st.s.trail.length)) ∨
      (∃ w r, RunYields o (s.fullStart u) w r ∧ r ≠ .null ∧ l = o.analyzeFail st.s r ∧
        ∀ w1 r1, RunYields o (s.fullStart u) w1 r1 → r1 ≠ .null → r1 = r) := by
    rcases propagateFullLoop_yields o _ _ _ _ _ hloop with ⟨a1, a2, a3⟩ | ⟨w, r, b1, b2, b3, b4⟩
    · refine Or.inl ⟨?_, a2, a3, fun ho => ?_⟩
      · rintro w r ⟨ph1, st1, hr, hy⟩
        exact a1 _ _ _ _ hr hy
      · have hq : QLe st.s := propagateFullLoop_qle ho _ hloop hq0
        unfold QLe at hq
        omega
    · refine Or.inr ⟨w, r, b1, b2, b3, ?_⟩
      rintro w1 r1 ⟨ph1, st1, hr, hy⟩ hr1
      exact b4 _ _ _ _ hr hy hr1
  refine ⟨hloop, hmain, fun haf => ?_⟩
  rcases hmain with ⟨a1, a2, -, -⟩ | ⟨w, r, b1, b2, b3, -⟩
  · exact ⟨fun _ => a1, fun _ => a2⟩
  · constructor
    · intro e
      exact absurd (b3.symm.trans e) (haf _ _ b2)
    · intro hall
      exact absurd (hall _ _ b1) b2

theorem probeOracle_defined (t : Solver) (r : PropBy) (_ : r ≠ .null) :
    probeOracle.analyzeFail t r ≠ lit_Undef := by
  show negLit 1 ≠ lit_Undef
  decide

theorem propagateFull_returns_witness :
    exS6.propagateFull probeOracle [] = .ok (negLit 1, exS6Final) ∧
    (∀ (t : Solver) (r : PropBy), r ≠ .null → probeOracle.analyzeFail t r ≠ lit_Undef) ∧
    (negLit 1 = lit_Undef ↔
      ∀ w r, RunYields probeOracle (exS6.fullStart []) w r → r = .null) ∧
    exS5.propagateFull probeOracle [] = .ok (lit_Undef, exS5Final) ∧
    (lit_Undef = lit_Undef ↔
      ∀ w r, RunYields probeOracle (exS5.fullStart []) w r → r = .null) :=
  ⟨by decide, probeOracle_defined,
    (propagateFull_returns.1 probeOracle exS6 [] (negLit 1) exS6Final (by decide)).2.2
      probeOracle_defined,
    by decide,
    (propagateFull_returns.1 probeOracle exS5 [] lit_Undef exS5Final (by decide)).2.2
      probeOracle_defined⟩

/-! ## Attached clauses stay attached during propagation -/

theorem watchersKept_refl (s : Solver) : WatchersKept s s :=
  ⟨rfl, rfl, fun _ _ => rfl, fun _ _ _ => Iff.rfl⟩

theorem watchersKept_trans {s t u : Solver} (h1 : WatchersKept s t) (h2 : WatchersKept t u) :
    WatchersKept s u :=
  ⟨h2.1.trans h1.1, h2.2.1.trans h1.2.1, fun off wn => (h2.2.2.1 off wn).trans (h1.2.2.1 off wn),
    fun l w hw => (h2.2.2.2 l w hw).trans (h1.2.2.2 l w hw)⟩

theorem watchersKept_of_eq {s t : Solver} (ha : t.arena = s.arena) (hw : t.watches = s.watches) :
    WatchersKept s t := by
  refine ⟨ha, by rw [hw], fun off wn => by rw [hw], fun l w _ => ?_⟩
  rw [ws_congr hw]

theorem lt_of_mem_getD {W : List (List Watched)} {i : Nat} {w : Watched}
    (h : w ∈ W.getD i []) : i < W.length := by
  by_contra hc
  rw [List.getD_eq_getElem?_getD, List.getElem?_eq_none (by omega)] at h
  cases h

theorem longCount_ge_two {W : List (List Watched)} {i j : Nat} {w1 w2 : Watched} {off : Nat}
    {wn : Bool} (hij : i ≠ j) (h1 : w1 ∈ W.getD i []) (h2 : w2 ∈ W.getD j [])
    (f1 : w1.isLongOf off wn = true) (f2 : w2.isLongOf off wn = true) :
    2 ≤ longCount W off wn := by
  have hi := lt_of_mem_getD h1
  have hj := lt_of_mem_getD h2
  have e := longCount_set W i [] off wn hi
  have c1 : 0 < (W.getD i []).countP (Watched.isLongOf off wn) :=
    List.countP_pos_iff.mpr ⟨w1, h1, f1⟩
  have h2' : w2 ∈ (W.set i []).getD j [] := by
    rw [getD_set_ne _ _ _ _ _ hij]
    exact h2
  have hmem : (W.set i []).getD j [] ∈ W.set i [] := by
    rw [List.getD_eq_getElem?_getD, List.getElem?_eq_getElem (by simpa using hj)]
    exact List.getElem_mem _
  have c2 := longCount_pos_of_mem hmem h2' f2
  simp only [List.countP_nil] at e
  omega

theorem isLongOf_clause (off off1 : Nat) (wn wn1 : Bool) (b1 b2 : Lit) :
    (Watched.clause off1 b1 wn1).isLongOf off wn = (Watched.clause off1 b2 wn1).isLongOf off wn :=
  rfl

/-- One step of the scan keeps the watchers: a Long watcher is at most moved to
another list, together with its watch. -/
theorem absStep_kept {s t : Solver} {p : Lit} {k k1 : Nat} {w : Watched} {c c1 : PropBy}
    {b : Bool} (hv : s.value p = l_True) (hN : NumInj s) (hP : p.toInt < s.watches.length)
    (hw : (s.ws p)[k]? = some w) (h : s.absStep p k w c = .ok (b, k1, c1, t)) :
    WatchersKept s t ∧ t.value p = l_True ∧ (WInv s → LongUnique s → WInv t) := by
  obtain ⟨hA, -⟩ := absStep_sem hv hN h
  have hvt : t.value p = l_True := advance_true hA hv
  rcases absStep_watchLit hv hN h with ⟨hW, hwl⟩ |
    ⟨l, off, lo, wn, blk, hweq, hne, hlt, hnew, hoth, hW⟩
  · refine ⟨watchersKept_of_eq hA.1 hW, hvt, fun hI _ => ?_⟩
    intro x off blk wn hm
    rw [ws_congr hW] at hm
    rw [hwl]
    exact hI x off blk wn hm
  · obtain ⟨hwsp, hwsl, hwso, hlen1⟩ := ws_of_reloc hne hP hlt hW
    have hlp : l.toInt ≠ p.toInt := fun e => hne (Lit.toInt_inj.mp e)
    have hcount : ∀ off1 wn1, longCount t.watches off1 wn1 = longCount s.watches off1 wn1 := by
      intro off1 wn1
      have eA := longCount_set s.watches p.toInt ((s.ws p).eraseIdx k) off1 wn1 hP
      have eB := longCount_set (s.watches.set p.toInt ((s.ws p).eraseIdx k)) l.toInt
        (s.ws l ++ [.clause off lo wn]) off1 wn1 (by simpa using hlt)
      rw [getD_set_ne _ _ _ _ _ (fun e => hlp e.symm)] at eB
      have eC := countP_eraseIdx (Watched.isLongOf off1 wn1) (s.ws p) k w hw
      rw [hW]
      rw [List.countP_append, List.countP_singleton] at eB
      have eD : Watched.isLongOf off1 wn1 w = Watched.isLongOf off1 wn1 (.clause off lo wn) := by
        rw [hweq]
        rfl
      rw [eD] at eC
      have e1 : s.watches.getD p.toInt [] = s.ws p := rfl
      have e2 : s.watches.getD l.toInt [] = s.ws l := rfl
      rw [e1] at eA
      rw [e2] at eB
      omega
    have hmem : ∀ x w1, w1 ∈ t.ws x → w1 ∈ s.ws x ∨ (x = l ∧ w1 = .clause off lo wn) := by
      intro x w1 hm
      by_cases hx : x = p
      · rw [hx, hwsp] at hm
        rw [hx]
        exact Or.inl (List.mem_of_mem_eraseIdx hm)
      · by_cases hx2 : x = l
        · rw [hx2, hwsl] at hm
          rcases List.mem_append.mp hm with m | m
          · rw [hx2]
            exact Or.inl m
          · exact Or.inr ⟨hx2, List.mem_singleton.mp m⟩
        · rw [hwso x hx hx2] at hm
          exact Or.inl hm
    refine ⟨⟨hA.1, hlen1, hcount, ?_⟩, hvt, fun hI hU => ?_⟩
    · intro x w1 hw1
      have hne1 : w1 ≠ w := by
        intro e
        rw [e, hweq] at hw1
        cases hw1
      by_cases hx : x = p
      · rw [hx, hwsp]
        exact mem_eraseIdx_of_ne _ _ _ _ hw hne1
      · by_cases hx2 : x = l
        · rw [hx2, hwsl, List.mem_append]
          constructor
          · rintro (m | m)
            · exact m
            · rw [List.mem_singleton.mp m] at hw1
              cases hw1
          · exact fun m => Or.inl m
        · rw [hwso x hx hx2]
    · intro x off1 blk1 wn1 hm
      have hnewmem : Watched.clause off lo wn ∈ t.ws l := by
        rw [hwsl]
        exact List.mem_append_right _ (List.mem_singleton.mpr rfl)
      by_cases hsame : off1 = off ∧ wn1 = wn
      · obtain ⟨e1, e2⟩ := hsame
        subst e1 e2
        by_cases hxl : x = l
        · rw [hxl]
          exact hnew
        · exfalso
          have h2 := @longCount_ge_two t.watches x.toInt l.toInt _ _ off1 wn1
            (fun e => hxl (Lit.toInt_inj.mp e)) hm hnewmem
            (isLongOf_iff.mpr ⟨blk1, rfl⟩) (isLongOf_iff.mpr ⟨lo, rfl⟩)
          have h3 := hU off1 wn1
          rw [hcount] at h2
          omega
      · have hne2 : off1 ≠ off ∨ wn1 ≠ wn := by
          by_contra hc
          push_neg at hc
          exact hsame hc
        rw [hoth off1 wn1 hne2]
        rcases hmem x _ hm with m | ⟨-, m⟩
        · exact hI x off1 blk1 wn1 m
        · injection m with m1 m2 m3
          exact absurd ⟨m1, m3⟩ hsame

theorem longUnique_of_kept {s t : Solver} (h : WatchersKept s t) (hU : LongUnique s) :
    LongUnique t := by
  intro off wn
  rw [h.2.2.1]
  exact hU off wn

theorem absScan_kept (p : Lit) (n : Nat) : ∀ {k : Nat} {s t : Solver} {c c1 : PropBy},
    s.value p = l_True → NumInj s → p.toInt < s.watches.length →
    Solver.absScan p n k s c = .ok (c1, t) →
    WatchersKept s t ∧ (WInv s → LongUnique s → WInv t) := by
  induction n with
  | zero =>
    intro k s t c c1 hv hN hP h
    simp only [Solver.absScan, Except.ok.injEq, Prod.mk.injEq] at h
    obtain ⟨-, rfl⟩ := h
    exact ⟨watchersKept_refl _, fun hI _ => hI⟩
  | succ n ih =>
    intro k s t c c1 hv hN hP h
    rw [Solver.absScan] at h
    split at h
    · cases h
    · rename_i w hw
      split at h
      · cases h
      · rename_i k1 c2 s1 h1
        obtain ⟨a1, a2, a3⟩ := absStep_kept hv hN hP hw h1
        obtain ⟨b1, b2⟩ := ih a2 (numInj_of_arena a1.1 hN) (by rw [a1.2.1]; exact hP) h
        exact ⟨watchersKept_trans a1 b1,
          fun hI hU => b2 (a3 hI hU) (longUnique_of_kept a1 hU)⟩
      · rename_i k1 c2 s1 h1
        obtain ⟨a1, a2, a3⟩ := absStep_kept hv hN hP hw h1
        simp only [Except.ok.injEq, Prod.mk.injEq] at h
        obtain ⟨-, rfl⟩ := h
        exact ⟨a1, a3⟩

theorem propagateLit_kept {s t : Solver} {c c1 : PropBy} (hT : TrailTrue s) (hN : NumInj s)
    (h : s.propagateLit c = .ok (c1, t)) :
    WatchersKept s t ∧ (WInv s → LongUnique s → WInv t) := by
  rw [propagateLit_eq_absLit s c (fun p hp => hT p (List.getElem?_mem hp))] at h
  unfold Solver.absLit at h
  split at h
  · cases h
  · rename_i p hp
    split_ifs at h with hPb
    simp only at h
    have hvp : s.value p = l_True := hT p (List.getElem?_mem hp)
    obtain ⟨a1, a2⟩ := absScan_kept p _ (by exact hvp) (by exact hN) (by exact hPb) h
    exact ⟨a1, a2⟩

theorem propagateLoop_kept (fuel : Nat) : ∀ {s t : Solver} {c c1 : PropBy},
    TrailTrue s → NumInj s → Solver.propagateLoop fuel s c = .ok (c1, t) →
    WatchersKept s t ∧ (WInv s → LongUnique s → WInv t) := by
  induction fuel with
  | zero =>
    intro s t c c1 hT hN h
    unfold Solver.propagateLoop at h
    split_ifs at h
    simp only [Except.ok.injEq, Prod.mk.injEq] at h
    obtain ⟨-, rfl⟩ := h
    exact ⟨watchersKept_refl _, fun hI _ => hI⟩
  | succ fuel ih =>
    intro s t c c1 hT hN h
    unfold Solver.propagateLoop at h
    split_ifs at h
    · split at h
      · cases h
      · rename_i c2 s1 h1
        obtain ⟨a1, a2⟩ := propagateLit_kept hT hN h1
        obtain ⟨b1, b2⟩ := ih (propagateLit_pres h1 hT).1 (numInj_of_arena a1.1 hN) h
        exact ⟨watchersKept_trans a1 b1,
          fun hI hU => b2 (a2 hI hU) (longUnique_of_kept a1 hU)⟩
    · simp only [Except.ok.injEq, Prod.mk.injEq] at h
      obtain ⟨-, rfl⟩ := h
      exact ⟨watchersKept_refl _, fun hI _ => hI⟩

theorem attachedLong_kept {s t : Solver} (hK : WatchersKept s t) (hW : WInv t) {off : Nat}
    {x0 x1 : Lit} (h : AttachedLong s off x0 x1) :
    ∃ cl y0 y1, s.arena[off]? = some cl ∧ t.arena[off]? = some cl ∧ AttachedLong t off y0 y1 := by
  obtain ⟨h0, h1, ⟨blk0, m0⟩, ⟨blk1, m1⟩⟩ := h
  have key : ∀ (wn : Bool) (x blk : Lit), Watched.clause off blk wn ∈ s.ws x →
      ∃ y, t.watchLit off wn = some y ∧ ∃ blk', Watched.clause off blk' wn ∈ t.ws y.neg := by
    intro wn x blk hm
    obtain ⟨ws, a1, a2⟩ := mem_ws_watches hm
    have hpos := longCount_pos_of_mem a1 a2 (isLongOf_iff.mpr ⟨blk, rfl⟩)
    rw [← hK.2.2.1] at hpos
    obtain ⟨ws', b1, w', b2, b3⟩ := exists_of_longCount_pos hpos
    obtain ⟨blk', rfl⟩ := isLongOf_iff.mp b3
    obtain ⟨i, hi⟩ := List.mem_iff_getElem?.mp b1
    obtain ⟨l, rfl⟩ := Lit.exists_toInt i
    have hm' : Watched.clause off blk' wn ∈ t.ws l := by
      unfold Solver.ws
      rw [List.getD_eq_getElem?_getD, hi]
      exact b2
    refine ⟨l.neg, hW l off blk' wn hm', blk', ?_⟩
    rw [Lit.neg_neg]
    exact hm'
  obtain ⟨y0, c0, d0⟩ := key false _ _ m0
  obtain ⟨y1, c1, d1⟩ := key true _ _ m1
  have harena : ∃ cl, s.arena[off]? = some cl := by
    unfold Solver.watchLit at h0
    cases ha : s.arena[off]? with
    | none => rw [ha] at h0; cases h0
    | some cl => exact ⟨cl, rfl⟩
  obtain ⟨cl, ha⟩ := harena
  exact ⟨cl, y0, y1, ha, by rw [hK.1]; exact ha, c0, c1, d0, d1⟩

theorem longCount_pushWs {s t : Solver} {l : Lit} {w : Watched} (h : s.pushWs l w = .ok t)
    (off : Nat) (wn : Bool) :
    longCount t.watches off wn
      = longCount s.watches off wn + (if w.isLongOf off wn = true then 1 else 0) := by
  obtain ⟨hl, rfl⟩ := Solver.pushWs_ok h
  have e := longCount_set s.watches l.toInt (s.ws l ++ [w]) off wn hl
  rw [List.countP_append, List.countP_singleton] at e
  have e1 : s.watches.getD l.toInt [] = s.ws l := rfl
  rw [e1] at e
  show longCount (s.watches.set l.toInt (s.ws l ++ [w])) off wn = _
  omega

theorem longCount_attachBinClause {s t : Solver} {a b : Lit} {learnt : Bool}
    (h : s.attachBinClause a b learnt = .ok t) (off : Nat) (wn : Bool) :
    longCount t.watches off wn = longCount s.watches off wn := by
  obtain ⟨ha, hb⟩ := attachBinClause_ok h
  rw [attachBinClause_of_lt s a b learnt ha hb] at h
  injection h with h
  subst h
  have e1 := longCount_set s.watches a.neg.toInt
    (pushBinary (s.ws a.neg) (.binary b learnt)) off wn ha
  have e2 := longCount_set (s.watches.set a.neg.toInt (pushBinary (s.ws a.neg) (.binary b learnt)))
    b.neg.toInt
    (pushBinary ((s.setWs a.neg (pushBinary (s.ws a.neg) (.binary b learnt))).ws b.neg)
      (.binary a learnt)) off wn (by simpa using hb)
  rw [countP_pushBinary _ _ (.binary b learnt) rfl] at e1
  rw [countP_pushBinary _ _ (.binary a learnt) rfl] at e2
  have f1 : Watched.isLongOf off wn (.binary b learnt) = false := rfl
  have f2 : Watched.isLongOf off wn (.binary a learnt) = false := rfl
  rw [f1] at e1
  rw [f2] at e2
  have g1 : s.watches.getD a.neg.toInt [] = s.ws a.neg := rfl
  have g2 : (s.watches.set a.neg.toInt (pushBinary (s.ws a.neg) (.binary b learnt))).getD
      b.neg.toInt [] = (s.setWs a.neg (pushBinary (s.ws a.neg) (.binary b learnt))).ws b.neg :=
    rfl
  rw [g1] at e1
  rw [g2] at e2
  simp only [Bool.false_eq_true, if_false, Nat.add_zero] at e1 e2
  show longCount ((s.watches.set a.neg.toInt (pushBinary (s.ws a.neg) (.binary b learnt))).set
    b.neg.toInt _) off wn = _
  omega

theorem attachBinClause_fields {s t : Solver} {a b : Lit} {learnt : Bool}
    (h : s.attachBinClause a b learnt = .ok t) :
    t.arena = s.arena ∧ t.clauseData = s.clauseData ∧ t.trail = s.trail ∧
      t.assigns = s.assigns := by
  obtain ⟨ha, hb⟩ := attachBinClause_ok h
  rw [attachBinClause_of_lt s a b learnt ha hb] at h
  injection h with h
  subst h
  exact ⟨rfl, rfl, rfl, rfl⟩

theorem watchLit_of_fields {s t : Solver} (ha : t.arena = s.arena)
    (hd : t.clauseData = s.clauseData) (off : Nat) (wn : Bool) :
    t.watchLit off wn = s.watchLit off wn := by
  unfold Solver.watchLit Solver.watchPos
  rw [ha, hd]

/-- `attachBinClause` keeps the watcher invariant. -/
theorem attachBinClause_wInv {s t : Solver} {a b : Lit} {learnt : Bool}
    (h : s.attachBinClause a b learnt = .ok t) :
    (TrailTrue s → TrailTrue t) ∧ (NumInj s → NumInj t) ∧ (WInv s → WInv t) ∧
      (LongUnique s → LongUnique t) := by
  obtain ⟨f1, f2, f3, f4⟩ := attachBinClause_fields h
  refine ⟨fun hT => trailTrue_congr f4 f3 hT, numInj_of_arena f1, fun hW => ?_, fun hU => ?_⟩
  · intro l off blk wn hm
    rw [watchLit_of_fields f1 f2]
    rcases (mem_attachBinClause h l _).mp hm with m | ⟨-, m⟩ | ⟨-, m⟩
    · exact hW l off blk wn m
    · cases m
    · cases m
  · intro off wn
    rw [longCount_attachBinClause h]
    exact hU off wn

theorem mem_pushWs {s t : Solver} {l : Lit} {w : Watched} (h : s.pushWs l w = .ok t)
    {x : Lit} {m : Watched} (hm : m ∈ t.ws x) : m ∈ s.ws x ∨ (x = l ∧ m = w) := by
  rw [pushWs_ws h x] at hm
  split_ifs at hm with e
  · rcases List.mem_append.mp hm with a | a
    · rw [e]
      exact Or.inl a
    · exact Or.inr ⟨e, List.mem_singleton.mp a⟩
  · exact Or.inl hm

theorem watchPos_attach (cd : List ClauseData) (num p1 p2 : Nat) :
    ((if cd.length ≤ num then cd ++ List.replicate (num + 1 - cd.length) ({} : ClauseData) else cd).set num
        { lit0 := p1, lit1 := p2 })[num]? = some { lit0 := p1, lit1 := p2 } ∧
    ∀ n, n ≠ num → n < cd.length →
      ((if cd.length ≤ num then cd ++ List.replicate (num + 1 - cd.length) ({} : ClauseData) else cd).set num
        { lit0 := p1, lit1 := p2 })[n]? = cd[n]? := by
  constructor
  · rw [List.getElem?_set_self]
    split_ifs with h
    · rw [List.length_append, List.length_replicate]
      omega
    · omega
  · intro n hn hlt
    rw [List.getElem?_set_ne (fun e => hn e.symm)]
    split_ifs with h
    · rw [List.getElem?_append_left hlt]
    · rfl

/-- `attachClause` of a clause that is not attached keeps the watcher invariant. -/
theorem attachClause_wInv {s t : Solver} {off p1 p2 : Nat} {chk : Bool}
    (h : s.attachClause off p1 p2 chk = .ok t) :
    (TrailTrue s → TrailTrue t) ∧ (NumInj s → NumInj t) ∧
      (NumInj s → NotAttached s off → WInv s → WInv t) ∧
      (NotAttached s off → LongUnique s → LongUnique t) := by
  obtain ⟨-, g1, g2⟩ := attachClause_binSame h
  obtain ⟨c, l1, l2, hc, -, hl1, hl2, -, -, hcase⟩ := attachClause_inv h
  rcases hcase with ⟨c0, c1, c2, s1, s2, -, h1, h2, h3⟩ | ⟨-, blk, s1, s2, -, h1, h2, rfl⟩
  · obtain ⟨-, a1, d1, -⟩ := pushWs_frame h1
    obtain ⟨-, a2, d2, -⟩ := pushWs_frame h2
    obtain ⟨-, a3, d3, -⟩ := pushWs_frame h3
    have ha : t.arena = s.arena := a3.trans (a2.trans a1)
    have hd : t.clauseData = s.clauseData := d3.trans (d2.trans d1)
    refine ⟨fun hT => trailTrue_congr g1 g2 hT, numInj_of_arena ha, fun _ _ hW => ?_,
      fun _ hU => ?_⟩
    · intro x off1 blk1 wn1 hm
      rw [watchLit_of_fields ha hd]
      rcases mem_pushWs h3 hm with m | ⟨-, m⟩
      · rcases mem_pushWs h2 m with m | ⟨-, m⟩
        · rcases mem_pushWs h1 m with m | ⟨-, m⟩
          · exact hW x off1 blk1 wn1 m
          · cases m
        · cases m
      · cases m
    · intro off1 wn1
      rw [longCount_pushWs h3, longCount_pushWs h2, longCount_pushWs h1]
      have := hU off1 wn1
      simp only [Watched.isLongOf, Bool.false_eq_true, if_false, Nat.add_zero]
      exact this
  · obtain ⟨-, a1, d1, -⟩ := pushWs_frame h1
    obtain ⟨-, a2, d2, -⟩ := pushWs_frame h2
    have ha : s2.arena = s.arena := a2.trans a1
    have hd : s2.clauseData = s.clauseData := d2.trans d1
    refine ⟨fun hT => trailTrue_congr g1 g2 hT, numInj_of_arena ha, fun hN hNA hW => ?_,
      fun hNA hU => ?_⟩
    · obtain ⟨w1, w2⟩ := watchPos_attach s2.clauseData c.num p1 p2
      have hnew : ∀ wn, Solver.watchLit
          { s2 with clauseData :=
            (if s2.clauseData.length ≤ c.num
              then s2.clauseData ++ List.replicate (c.num + 1 - s2.clauseData.length) {}
              else s2.clauseData).set c.num { lit0 := p1, lit1 := p2 } } off wn
          = c.lits[if wn then p2 else p1]? := by
        intro wn
        unfold Solver.watchLit Solver.watchPos
        simp only
        rw [ha, hc]
        simp only
        rw [w1]
        rfl
      intro x off1 blk1 wn1 hm
      have hm2 : Watched.clause off1 blk1 wn1 ∈ s2.ws x := hm
      rcases mem_pushWs h2 hm2 with m | ⟨e1, m⟩
      · rcases mem_pushWs h1 m with m | ⟨e1, m⟩
        · have hne : off1 ≠ off := by
            intro e
            rw [e] at m
            exact hNA x blk1 wn1 m
          have hold := hW x off1 blk1 wn1 m
          rw [← hold]
          unfold Solver.watchLit Solver.watchPos
          simp only
          rw [ha]
          unfold Solver.watchLit Solver.watchPos at hold
          cases hc1 : s.arena[off1]? with
          | none => rfl
          | some c1 =>
            rw [hc1] at hold
            simp only at hold ⊢
            have hnum : c1.num ≠ c.num := fun e => hne (hN off1 off c1 c hc1 hc e)
            have hlt : c1.num < s2.clauseData.length := by
              by_contra hge
              rw [List.getElem?_eq_none (by rw [← hd]; omega)] at hold
              cases hold
            rw [w2 c1.num hnum hlt, hd]
        · injection m with m1 m2 m3
          subst m1 m3
          rw [e1, Lit.neg_neg, hnew]
          exact hl1
      · injection m with m1 m2 m3
        subst m1 m3
        rw [e1, Lit.neg_neg, hnew]
        exact hl2
    · intro off1 wn1
      show longCount s2.watches off1 wn1 ≤ 1
      rw [longCount_pushWs h2, longCount_pushWs h1]
      by_cases e : off1 = off
      · subst e
        rw [longCount_zero_of_notAttached hNA wn1]
        cases wn1 <;> simp [Watched.isLongOf]
      · have := hU off1 wn1
        have f1 : Watched.isLongOf off1 wn1 (.clause off blk false) = false := by
          simp [Watched.isLongOf, Ne.symm e]
        have f2 : Watched.isLongOf off1 wn1 (.clause off blk true) = false := by
          simp [Watched.isLongOf, Ne.symm e]
        rw [f1, f2]
        simpa using this

theorem decide_wInv {s t : Solver} {l : Lit} (hl : s.value l = l_Undef)
    (h : s.decide l = .ok t) :
    (TrailTrue s → TrailTrue t) ∧ (NumInj s → NumInj t) ∧ (WInv s → WInv t) ∧
      (LongUnique s → LongUnique t) := by
  have hp := fun hT => (decide_pres hl h hT)
  unfold Solver.decide at h
  obtain ⟨he, hw⟩ := enqueue_inv h
  have ha : t.arena = s.arena := he.2.2.2.2.2.1
  have hwl : ∀ off wn, t.watchLit off wn = s.watchLit off wn := by
    intro off wn
    unfold Solver.watchLit
    rw [ha]
    cases s.arena[off]? with
    | none => rfl
    | some cl => simp only; rw [he.2.2.2.2.2.2.2.2.2 cl.num]; rfl
  refine ⟨fun hT => (hp hT).1, numInj_of_arena ha, fun hW => ?_, fun hU => ?_⟩
  · intro x off blk wn hm
    have hm' : Watched.clause off blk wn ∈ s.ws x := by
      rw [ws_congr hw] at hm
      exact hm
    rw [hwl]
    exact hW x off blk wn hm'
  · intro off wn
    rw [hw]
    exact hU off wn

theorem propagate_wInv {s t : Solver} {c : PropBy} (h : s.propagate = .ok (c, t)) :
    (TrailTrue s → TrailTrue t) ∧ (NumInj s → TrailTrue s → NumInj t) ∧
      (TrailTrue s → NumInj s → LongUnique s → WInv s → WInv t) ∧
      (TrailTrue s → NumInj s → LongUnique s → LongUnique t) := by
  refine ⟨fun hT => (propagate_pres h hT).1, fun hN hT => ?_, fun hT hN hU hW => ?_,
    fun hT hN hU => ?_⟩
  · exact numInj_of_arena (propagateLoop_kept _ hT hN h).1.1 hN
  · exact (propagateLoop_kept _ hT hN h).2 hW hU
  · exact longUnique_of_kept (propagateLoop_kept _ hT hN h).1 hU

theorem reachW_inv {s : Solver} (h : ReachW s) :
    TrailTrue s ∧ NumInj s ∧ WInv s ∧ LongUnique s := by
  induction h with
  | init s hw hT hN =>
    have hno : ∀ l w, w ∉ s.ws l := by
      intro l w hm
      obtain ⟨ws, a1, a2⟩ := mem_ws_watches hm
      rw [hw ws a1] at a2
      cases a2
    refine ⟨hT, hN, fun l off blk wn hm => absurd hm (hno l _), fun off wn => ?_⟩
    rw [longCount_zero_of_notAttached (fun l blk wn => hno l _) wn]
    exact Nat.zero_le 1
  | attachBin a b learnt _ h ih =>
    obtain ⟨i1, i2, i3, i4⟩ := ih
    obtain ⟨a1, a2, a3, a4⟩ := attachBinClause_wInv h
    exact ⟨a1 i1, a2 i2, a3 i3, a4 i4⟩
  | attach off p1 p2 chk _ hNA h ih =>
    obtain ⟨i1, i2, i3, i4⟩ := ih
    obtain ⟨a1, a2, a3, a4⟩ := attachClause_wInv h
    exact ⟨a1 i1, a2 i2, a3 i2 hNA i3, a4 hNA i4⟩
  | propagate c _ h ih =>
    obtain ⟨i1, i2, i3, i4⟩ := ih
    obtain ⟨a1, a2, a3, a4⟩ := propagate_wInv h
    exact ⟨a1 i1, a2 i2 i1, a3 i1 i2 i4 i3, a4 i1 i2 i4⟩
  | decide l _ hl h ih =>
    obtain ⟨i1, i2, i3, i4⟩ := ih
    obtain ⟨a1, a2, a3, a4⟩ := decide_wInv hl h
    exact ⟨a1 i1, a2 i2, a3 i3, a4 i4⟩

theorem watchLit_unfold {s : Solver} {off : Nat} {wn : Bool} {x : Lit}
    (h : s.watchLit off wn = some x) :
    ∃ cl d, s.arena[off]? = some cl ∧ s.clauseData[cl.num]? = some d ∧
      cl.lits[d.get wn]? = some x := by
  unfold Solver.watchLit Solver.watchPos at h
  cases ha : s.arena[off]? with
  | none => rw [ha] at h; cases h
  | some cl =>
    rw [ha] at h
    simp only at h
    cases hd : s.clauseData[cl.num]? with
    | none => rw [hd] at h; cases h
    | some d =>
      rw [hd] at h
      refine ⟨cl, d, rfl, hd, ?_⟩
      simp only [Option.map_some'] at h
      unfold ClauseData.get
      cases wn
      · simpa using h
      · simpa using h

/-- C4: the watcher invariant is preserved by `attachBinClause`, by
`attachClause` of a clause that is not currently attached, and by `propagate`:
in every state reached from empty watchlists by these operations and by
decisions (`ReachW`; clause numbers name clauses and the trail literals are
True at the start), for every literal `l` and every Long watcher
`(offset, blocker, which)` in `watches[l]`, the clause at `offset` has the
literal `~l` at the position `clauseData[num][which]`. Each operation keeps the
invariant `WInv` on its own: `attachClause` when the clause is not attached and
clause numbers name clauses, `propagate` when in addition the trail literals are
True and no watch has two Long watchers, which holds in every reachable
state. -/
theorem watcher_invariant_preserved :
    (∀ (s t : Solver) (a b : Lit) (learnt : Bool),
      s.attachBinClause a b learnt = .ok t → WInv s → WInv t) ∧
    (∀ (s t : Solver) (off p1 p2 : Nat) (chk : Bool),
      s.attachClause off p1 p2 chk = .ok t → NumInj s → NotAttached s off → WInv s → WInv t) ∧
    (∀ (s t : Solver) (c : PropBy),
      s.propagate = .ok (c, t) → TrailTrue s → NumInj s → LongUnique s → WInv s → WInv t) ∧
    (∀ s : Solver, ReachW s →
      WInv s ∧ LongUnique s ∧
      ∀ l off blk which, Watched.clause off blk which ∈ s.ws l →
        ∃ cl d, s.arena[off]? = some cl ∧ s.clauseData[cl.num]? = some d ∧
          cl.lits[d.get which]? = some l.neg) := by
  refine ⟨fun s t a b learnt h => (attachBinClause_wInv h).2.2.1,
    fun s t off p1 p2 chk h => (attachClause_wInv h).2.2.1,
    fun s t c h => (propagate_wInv h).2.2.1, fun s h => ?_⟩
  obtain ⟨-, -, hW, hU⟩ := reachW_inv h
  exact ⟨hW, hU, fun l off blk which hm => watchLit_unfold (hW l off blk which hm)⟩

theorem reachW_exS4Final : ReachW exS4Final := by
  have h0 : ReachW exS4Start := by
    refine ReachW.init _ (by decide) (fun l hl => (by cases hl)) ?_
    intro off off' cl cl' h1 h2 _
    have ha : exS4Start.arena = [exS4Clause] := rfl
    rw [ha] at h1 h2
    have e1 : off = 0 := by
      by_contra hc
      rw [List.getElem?_eq_none (by simp; omega)] at h1
      cases h1
    have e2 : off' = 0 := by
      by_contra hc
      rw [List.getElem?_eq_none (by simp; omega)] at h2
      cases h2
    rw [e1, e2]
  have hna : NotAttached exS4Start 0 := by
    intro l blk wn hm
    obtain ⟨ws, a1, a2⟩ := mem_ws_watches hm
    have hall : ∀ ws ∈ exS4Start.watches, ws = [] := by decide
    rw [hall ws a1] at a2
    cases a2
  have h1 : ReachW exS4Attached :=
    ReachW.attach 0 0 1 true h0 hna (by decide)
  have h2 : ReachW exS4 := ReachW.decide (negLit 1) h1 (by decide) (by decide)
  exact ReachW.propagate .null h2 (by decide)

theorem watcher_invariant_preserved_witness :
    ReachW exS4Final ∧ Watched.clause 0 (posLit 2) false ∈ exS4Final.ws (negLit 3) ∧
    ∃ cl d, exS4Final.arena[0]? = some cl ∧ exS4Final.clauseData[cl.num]? = some d ∧
      cl.lits[d.get false]? = some (negLit 3).neg :=
  ⟨reachW_exS4Final, by decide,
    (watcher_invariant_preserved.2.2.2 exS4Final reachW_exS4Final).2.2 (negLit 3) 0 (posLit 2)
      false (by decide)⟩

/-! ## Propagation derives only the literals of a closed set -/

/-- A literal that is True after one step of the scan was True before, or it is
the unit literal of the clause of the scanned watcher. -/
theorem absStep_true {s t : Solver} {p : Lit} {k k1 : Nat} {w : Watched} {c c1 : PropBy}
    {b : Bool} (hv : s.value p = l_True) (hsz : ShortClauses s)
    (h : s.absStep p k w c = .ok (b, k1, c1, t)) (y : Lit) (hy : t.value y = l_True) :
    s.value y = l_True ∨ ∃ r, ArmUnit s p w y r := by
  have hpn : s.value p.neg = l_False := Solver.value_neg_false.mpr hv
  have henq : ∀ {u : Solver} {l : Lit} {r : PropBy}, Enq s u l r → u.value y = l_True →
      ArmUnit s p w l r → s.value y = l_True ∨ ∃ r, ArmUnit s p w y r := by
    intro u l r he hu ha
    rw [he.value_other] at hu
    by_cases e1 : y.var = l.var
    · rw [if_pos e1] at hu
      by_cases e2 : y = l
      · exact Or.inr ⟨r, e2 ▸ ha⟩
      · rw [if_neg e2] at hu
        cases hu
    · rw [if_neg e1] at hu
      exact Or.inl hu
  have hcore : ∀ {off : Nat} {blk : Lit} {wn : Bool} {b0 : Bool} {act : LongAct} {c0 : PropBy}
      {u : Solver}, w = .clause off blk wn →
      s.propNormalCore off blk wn p c = .ok (b0, act, c0, u) → u.value y = l_True →
      s.value y = l_True ∨ ∃ r, ArmUnit s p w y r := by
    intro off blk wn b0 act c0 u ew hA hu
    obtain ⟨-, hc⟩ := propNormalCore_unit hv hsz hA
    rcases hc with ⟨-, -, e, -⟩ | ⟨-, -, l, r, he, -, ha⟩ | ⟨-, e, -⟩
    · rw [Solver.value_congr e] at hu
      exact Or.inl hu
    · exact henq he hu (ew ▸ ha)
    · rw [Solver.value_congr e] at hu
      exact Or.inl hu
  unfold Solver.absStep at h
  cases w with
  | binary o lr =>
    simp only at h
    split at h
    · cases h
    · rename_i b2 c2 s1 h1
      simp only [Except.ok.injEq, Prod.mk.injEq] at h
      obtain ⟨rfl, rfl, rfl, rfl⟩ := h
      obtain ⟨-, hc⟩ := propBinaryClause_inv h1
      rcases hc with ⟨-, -, -, he⟩ | ⟨-, -, -, hs, -⟩ | ⟨-, -, -, rfl⟩
      · exact henq he hy ⟨rfl, rfl, hpn⟩
      · rw [hs.value_eq] at hy
        exact Or.inl hy
      · exact Or.inl hy
  | tri a a2 =>
    simp only at h
    split at h
    · cases h
    · rename_i b2 c2 s1 h1
      simp only [Except.ok.injEq, Prod.mk.injEq] at h
      obtain ⟨rfl, rfl, rfl, rfl⟩ := h
      obtain ⟨-, hc⟩ := propTriClause_inv h1
      rcases hc with ⟨-, hf, -, -, he⟩ | ⟨hf, -, -, -, he⟩ | ⟨-, -, -, -, hs, -⟩ | ⟨-, -, -, rfl⟩
      · exact henq he hy ⟨Or.inl ⟨rfl, rfl, hf⟩, hpn⟩
      · exact henq he hy ⟨Or.inr ⟨rfl, rfl, hf⟩, hpn⟩
      · rw [hs.value_eq] at hy
        exact Or.inl hy
      · exact Or.inl hy
  | clause off blk wn =>
    simp only at h
    split at h
    · cases h
    · rename_i b2 c2 s1 h1
      simp only [Except.ok.injEq, Prod.mk.injEq] at h
      obtain ⟨rfl, rfl, rfl, rfl⟩ := h
      exact hcore rfl h1 hy
    · rename_i b2 l w1 c2 s1 h1
      split at h
      · cases h
      · rename_i s2 h2
        simp only [Except.ok.injEq, Prod.mk.injEq] at h
        obtain ⟨rfl, rfl, rfl, rfl⟩ := h
        obtain ⟨-, e⟩ := Solver.pushWs_ok h2
        rw [e] at hy
        exact hcore rfl h1 hy

/-- One step of the scan keeps the True literals inside a set that is closed
under unit propagation with the clause of the scanned watcher. -/
theorem absStep_closed {G : Lit → Prop} {s t : Solver} {p : Lit} {k k1 : Nat} {w : Watched}
    {c c1 : PropBy} {b : Bool} (hv : s.value p = l_True) (hsz : ShortClauses s)
    (h : s.absStep p k w c = .ok (b, k1, c1, t)) (hG : ∀ y, s.value y = l_True → G y)
    (hw : WClosed G s.arena p w) : ∀ y, t.value y = l_True → G y := by
  intro y hy
  rcases absStep_true hv hsz h y hy with h1 | ⟨r, h1⟩
  · exact hG y h1
  · cases w with
    | binary o lr =>
      obtain ⟨rfl, -, -⟩ := h1
      exact hw (hG p hv)
    | tri a a2 =>
      obtain ⟨h2 | h2, -⟩ := h1
      · obtain ⟨rfl, -, hf⟩ := h2
        exact (hw (hG p hv)).1 (hG _ (value_false_neg hf))
      · obtain ⟨rfl, -, hf⟩ := h2
        exact (hw (hG p hv)).2 (hG _ (value_false_neg hf))
    | clause off blk wn =>
      obtain ⟨-, cl, d, ha, -, -, hl, hoth⟩ := h1
      exact hw cl _ y ha hl (fun i x hx hne => hG _ (value_false_neg (hoth i x hx hne)))

/-- A Long watcher of the later state has a Long watcher of the same watch of
the same clause in the earlier state. -/
theorem long_mem_of_kept {s t : Solver} (hK : WatchersKept s t) {p : Lit} {off : Nat}
    {blk : Lit} {wn : Bool} (hm : Watched.clause off blk wn ∈ t.ws p) :
    ∃ l blk', Watched.clause off blk' wn ∈ s.ws l := by
  obtain ⟨ws, a1, a2⟩ := mem_ws_watches hm
  have hpos := longCount_pos_of_mem a1 a2 (isLongOf_iff.mpr ⟨blk, rfl⟩)
  rw [hK.2.2.1] at hpos
  obtain ⟨ws', b1, w', b2, b3⟩ := exists_of_longCount_pos hpos
  obtain ⟨blk', rfl⟩ := isLongOf_iff.mp b3
  obtain ⟨i, hi⟩ := List.mem_iff_getElem?.mp b1
  obtain ⟨l, rfl⟩ := Lit.exists_toInt i
  refine ⟨l, blk', ?_⟩
  unfold Solver.ws
  rw [List.getD_eq_getElem?_getD, hi]
  exact b2

theorem closed_kept {G : Lit → Prop} {s t : Solver} (hK : WatchersKept s t)
    (hC : Closed G s) : Closed G t := by
  intro p w hm
  rw [hK.1]
  cases w with
  | binary o r => exact hC p _ ((hK.2.2.2 p (.binary o r) rfl).mp hm)
  | tri a a2 => exact hC p _ ((hK.2.2.2 p (.tri a a2) rfl).mp hm)
  | clause off blk wn =>
    obtain ⟨l, blk', hm'⟩ := long_mem_of_kept hK hm
    exact hC l _ hm'

/-- One step of the scan, seen from the watched positions: they are unchanged,
or the watch of the scanned Long watcher moves to a position that is neither of
the two watched positions. -/
theorem absStep_watchPos {s t : Solver} {p : Lit} {k k1 : Nat} {w : Watched} {c c1 : PropBy}
    {b : Bool} (h : s.absStep p k w c = .ok (b, k1, c1, t)) :
    (∀ n, t.watchPos n = s.watchPos n) ∨
    ∃ off blk wn cl d kn, w = .clause off blk wn ∧ s.arena[off]? = some cl ∧
      s.clauseData[cl.num]? = some d ∧ kn ≠ d.lit0 ∧ kn ≠ d.lit1 ∧
      t.watchPos cl.num = some ((d.set wn kn).lit0, (d.set wn kn).lit1) ∧
      ∀ n, n ≠ cl.num → t.watchPos n = s.watchPos n := by
  have hcore : ∀ {off : Nat} {blk : Lit} {wn : Bool} {b0 : Bool} {act : LongAct} {c0 : PropBy}
      {u : Solver}, w = .clause off blk wn →
      s.propNormalCore off blk wn p c = .ok (b0, act, c0, u) →
      (∀ n, u.watchPos n = s.watchPos n) ∨
      ∃ off blk wn cl d kn, w = .clause off blk wn ∧ s.arena[off]? = some cl ∧
        s.clauseData[cl.num]? = some d ∧ kn ≠ d.lit0 ∧ kn ≠ d.lit1 ∧
        u.watchPos cl.num = some ((d.set wn kn).lit0, (d.set wn kn).lit1) ∧
        ∀ n, n ≠ cl.num → u.watchPos n = s.watchPos n := by
    intro off blk wn b0 act c0 u ew hA
    obtain ⟨-, hc⟩ := propNormalCore_inv hA
    rcases hc with ⟨-, -, -, -, rfl⟩ | ⟨cl, d, lo, harena, hdata, -, -, -, hc⟩
    · exact Or.inl (fun _ => rfl)
    · rcases hc with ⟨-, -, -, -, hs, -⟩ | ⟨-, kn, hkn, -, -, -, hr⟩ | ⟨-, -, -, -, -, hs, -⟩ |
        ⟨-, -, -, -, -, he⟩
      · exact Or.inl hs.2.2.2.2.2.2
      · obtain ⟨-, -, n0, n1, -⟩ := findNewWatch_some hkn
        refine Or.inr ⟨off, blk, wn, cl, d, kn, ew, harena, hdata, n0, n1, ?_, hr.2.2.2.2.2.2.2.2⟩
        rw [hr.2.2.2.2.2.2.2.1, hdata]
        rfl
      · exact Or.inl hs.2.2.2.2.2.2
      · exact Or.inl he.2.2.2.2.2.2.2.2.2
  unfold Solver.absStep at h
  cases w with
  | binary o lr =>
    simp only at h
    split at h
    · cases h
    · rename_i b2 c2 s1 h1
      simp only [Except.ok.injEq, Prod.mk.injEq] at h
      obtain ⟨rfl, rfl, rfl, rfl⟩ := h
      obtain ⟨-, hc⟩ := propBinaryClause_inv h1
      rcases hc with ⟨-, -, -, he⟩ | ⟨-, -, -, hs, -⟩ | ⟨-, -, -, rfl⟩
      · exact Or.inl he.2.2.2.2.2.2.2.2.2
      · exact Or.inl hs.2.2.2.2.2.2
      · exact Or.inl (fun _ => rfl)
  | tri a a2 =>
    simp only at h
    split at h
    · cases h
    · rename_i b2 c2 s1 h1
      simp only [Except.ok.injEq, Prod.mk.injEq] at h
      obtain ⟨rfl, rfl, rfl, rfl⟩ := h
      obtain ⟨-, hc⟩ := propTriClause_inv h1
      rcases hc with ⟨-, -, -, -, he⟩ | ⟨-, -, -, -, he⟩ | ⟨-, -, -, -, hs, -⟩ | ⟨-, -, -, rfl⟩
      · exact Or.inl he.2.2.2.2.2.2.2.2.2
      · exact Or.inl he.2.2.2.2.2.2.2.2.2
      · exact Or.inl hs.2.2.2.2.2.2
      · exact Or.inl (fun _ => rfl)
  | clause off blk wn =>
    simp only at h
    split at h
    · cases h
    · rename_i b2 c2 s1 h1
      simp only [Except.ok.injEq, Prod.mk.injEq] at h
      obtain ⟨rfl, rfl, rfl, rfl⟩ := h
      exact hcore rfl h1
    · rename_i b2 l w1 c2 s1 h1
      split at h
      · cases h
      · rename_i s2 h2
        simp only [Except.ok.injEq, Prod.mk.injEq] at h
        obtain ⟨rfl, rfl, rfl, rfl⟩ := h
        obtain ⟨-, e⟩ := Solver.pushWs_ok h2
        have e1 : ∀ n, s2.watchPos n = s1.watchPos n := by
          intro n
          rw [e]
          rfl
        rcases hcore rfl h1 with hs | ⟨off0, blk0, wn0, cl, d, kn, ew, a1, a2, a3, a4, a5, a6⟩
        · exact Or.inl (fun n => (e1 n).trans (hs n))
        · exact Or.inr ⟨off0, blk0, wn0, cl, d, kn, ew, a1, a2, a3, a4, (e1 _).trans a5,
            fun n hn => (e1 n).trans (a6 n hn)⟩

/-- One step of the scan keeps the two watches of every clause at different
positions. -/
theorem absStep_distinct {s t : Solver} {p : Lit} {k k1 : Nat} {w : Watched} {c c1 : PropBy}
    {b : Bool} (hv : s.value p = l_True) (hN : NumInj s) (hP : p.toInt < s.watches.length)
    (hw : (s.ws p)[k]? = some w) (h : s.absStep p k w c = .ok (b, k1, c1, t))
    (hD : WatchDistinct s) : WatchDistinct t := by
  obtain ⟨hK, -, -⟩ := absStep_kept hv hN hP hw h
  intro l off blk wn cl q hm ha hq
  obtain ⟨l', blk', hm'⟩ := long_mem_of_kept hK hm
  rw [hK.1] at ha
  rcases absStep_watchPos h with hs | ⟨off0, blk0, wn0, cl0, d, kn, -, -, -, n0, n1, hq0, hoth⟩
  · rw [hs] at hq
    exact hD l' off blk' wn cl q hm' ha hq
  · by_cases e : cl.num = cl0.num
    · rw [e, hq0] at hq
      injection hq with hq
      subst hq
      cases wn0
      · exact n1
      · exact fun e => n0 e.symm
    · rw [hoth _ e] at hq
      exact hD l' off blk' wn cl q hm' ha hq

/-- The scan of one watchlist keeps the watches distinct and the True literals
inside every closed set. -/
theorem absScan_closed (p : Lit) (n : Nat) : ∀ {k : Nat} {s t : Solver} {c c1 : PropBy},
    s.value p = l_True → NumInj s → ShortClauses s → p.toInt < s.watches.length →
    Solver.absScan p n k s c = .ok (c1, t) →
    (WatchDistinct s → WatchDistinct t) ∧
    ∀ G : Lit → Prop, Closed G s → (∀ y, s.value y = l_True → G y) →
      ∀ y, t.value y = l_True → G y := by
  induction n with
  | zero =>
    intro k s t c c1 hv hN hsz hP h
    simp only [Solver.absScan, Except.ok.injEq, Prod.mk.injEq] at h
    obtain ⟨-, rfl⟩ := h
    exact ⟨fun hD => hD, fun G _ hG => hG⟩
  | succ n ih =>
    intro k s t c c1 hv hN hsz hP h
    rw [Solver.absScan] at h
    split at h
    · cases h
    · rename_i w hw
      have hmem : w ∈ s.ws p := List.getElem?_mem hw
      split at h
      · cases h
      · rename_i k1 c2 s1 h1
        obtain ⟨a1, a2, -⟩ := absStep_kept hv hN hP hw h1
        obtain ⟨b1, b2⟩ := ih a2 (numInj_of_arena a1.1 hN) (shortClauses_of_arena a1.1 hsz)
          (by rw [a1.2.1]; exact hP) h
        exact ⟨fun hD => b1 (absStep_distinct hv hN hP hw h1 hD),
          fun G hC hG => b2 G (closed_kept a1 hC)
            (absStep_closed hv hsz h1 hG (hC p w hmem))⟩
      · rename_i k1 c2 s1 h1
        simp only [Except.ok.injEq, Prod.mk.injEq] at h
        obtain ⟨-, rfl⟩ := h
        exact ⟨fun hD => absStep_distinct hv hN hP hw h1 hD,
          fun G hC hG => absStep_closed hv hsz h1 hG (hC p w hmem)⟩

theorem propagateLit_closed {s t : Solver} {c c1 : PropBy} (hT : TrailTrue s) (hN : NumInj s)
    (hsz : ShortClauses s) (h : s.propagateLit c = .ok (c1, t)) :
    (WatchDistinct s → WatchDistinct t) ∧
    ∀ G : Lit → Prop, Closed G s → (∀ y, s.value y = l_True → G y) →
      ∀ y, t.value y = l_True → G y := by
  rw [propagateLit_eq_absLit s c (fun p hp => hT p (List.getElem?_mem hp))] at h
  unfold Solver.absLit at h
  split at h
  · cases h
  · rename_i p hp
    split_ifs at h with hPb
    simp only at h
    have hvp : s.value p = l_True := hT p (List.getElem?_mem hp)
    obtain ⟨a1, a2⟩ := absScan_closed p _ (by exact hvp) (by exact hN) (by exact hsz)
      (by exact hPb) h
    exact ⟨fun hD => a1 (by exact hD), fun G hC hG => a2 G (by exact hC) (by exact hG)⟩

theorem propagateLoop_closed (fuel : Nat) : ∀ {s t : Solver} {c c1 : PropBy},
    TrailTrue s → NumInj s → ShortClauses s → Solver.propagateLoop fuel s c = .ok (c1, t) →
    (WatchDistinct s → WatchDistinct t) ∧
    ∀ G : Lit → Prop, Closed G s → (∀ y, s.value y = l_True → G y) →
      ∀ y, t.value y = l_True → G y := by
  induction fuel with
  | zero =>
    intro s t c c1 hT hN hsz h
    unfold Solver.propagateLoop at h
    split_ifs at h
    simp only [Except.ok.injEq, Prod.mk.injEq] at h
    obtain ⟨-, rfl⟩ := h
    exact ⟨fun hD => hD, fun G _ hG => hG⟩
  | succ fuel ih =>
    intro s t c c1 hT hN hsz h
    unfold Solver.propagateLoop at h
    split_ifs at h
    · split at h
      · cases h
      · rename_i c2 s1 h1
        obtain ⟨k1, -⟩ := propagateLit_kept hT hN h1
        obtain ⟨a1, a2⟩ := propagateLit_closed hT hN hsz h1
        obtain ⟨b1, b2⟩ := ih (propagateLit_pres h1 hT).1 (numInj_of_arena k1.1 hN)
          (shortClauses_of_arena k1.1 hsz) h
        exact ⟨fun hD => b1 (a1 hD),
          fun G hC hG => b2 G (closed_kept k1 hC) (a2 G hC hG)⟩
    · simp only [Except.ok.injEq, Prod.mk.injEq] at h
      obtain ⟨-, rfl⟩ := h
      exact ⟨fun hD => hD, fun G _ hG => hG⟩

/-! ## The state after a list of clauses is attached -/

theorem mem_pushWs_iff {s t : Solver} {l : Lit} {w : Watched} (h : s.pushWs l w = .ok t)
    (x : Lit) (m : Watched) : m ∈ t.ws x ↔ m ∈ s.ws x ∨ (x = l ∧ m = w) := by
  rw [pushWs_ws h x]
  by_cases e : x = l
  · rw [if_pos e, List.mem_append, List.mem_singleton, e]
    tauto
  · rw [if_neg e]
    tauto

theorem pushWs_unchanged {s t : Solver} {l : Lit} {w : Watched} (h : s.pushWs l w = .ok t) :
    t.arena = s.arena ∧ t.assigns = s.assigns ∧ t.trail = s.trail ∧ t.qhead = s.qhead ∧
      t.watches.length = s.watches.length ∧ t.clauseData = s.clauseData := by
  obtain ⟨-, rfl⟩ := Solver.pushWs_ok h
  exact ⟨rfl, rfl, rfl, rfl, Solver.setWs_watches_length _ _ _, rfl⟩

/-- Attaching a clause touches only the watchlists and the watched positions. -/
theorem attachOp_fields {s t : Solver} {op : AttachOp} (h : s.attachOp op = .ok t) :
    t.arena = s.arena ∧ t.assigns = s.assigns ∧ t.trail = s.trail ∧ t.qhead = s.qhead ∧
      t.watches.length = s.watches.length := by
  cases op with
  | bin a b r =>
    have h' : s.attachBinClause a b r = .ok t := h
    obtain ⟨ha, hb⟩ := attachBinClause_ok h'
    rw [attachBinClause_of_lt s a b r ha hb] at h'
    injection h' with h'
    subst h'
    exact ⟨rfl, rfl, rfl, rfl, by simp⟩
  | cls off p1 p2 chk =>
    have h' : s.attachClause off p1 p2 chk = .ok t := h
    obtain ⟨c, l1, l2, -, -, -, -, -, -, hc⟩ := attachClause_inv h'
    rcases hc with ⟨c0, c1, c2, s1, s2, -, h1, h2, h3⟩ | ⟨-, blk, s1, s2, -, h1, h2, rfl⟩
    · obtain ⟨a1, a2, a3, a4, a5, -⟩ := pushWs_unchanged h1
      obtain ⟨b1, b2, b3, b4, b5, -⟩ := pushWs_unchanged h2
      obtain ⟨c1, c2, c3, c4, c5, -⟩ := pushWs_unchanged h3
      exact ⟨c1.trans (b1.trans a1), c2.trans (b2.trans a2), c3.trans (b3.trans a3),
        c4.trans (b4.trans a4), c5.trans (b5.trans a5)⟩
    · obtain ⟨a1, a2, a3, a4, a5, -⟩ := pushWs_unchanged h1
      obtain ⟨b1, b2, b3, b4, b5, -⟩ := pushWs_unchanged h2
      exact ⟨b1.trans a1, b2.trans a2, b3.trans a3, b4.trans a4, b5.trans a5⟩

/-- The watchers after one clause is attached: those of before and those that
the call pushes. -/
theorem mem_attachOp {s t : Solver} {op : AttachOp} (h : s.attachOp op = .ok t) (l : Lit)
    (w : Watched) : w ∈ t.ws l ↔ w ∈ s.ws l ∨ Pushes s.arena op l w := by
  cases op with
  | bin a b r =>
    have h' : s.attachBinClause a b r = .ok t := h
    exact mem_attachBinClause h' l w
  | cls off p1 p2 chk =>
    have h' : s.attachClause off p1 p2 chk = .ok t := h
    obtain ⟨c, l1, l2, hc, hsz, hl1, hl2, hvar, -, hcase⟩ := attachClause_inv h'
    rcases hcase with ⟨c0, c1, c2, s1, s2, hlits, h1, h2, h3⟩ | ⟨hsz3, blk, s1, s2, hblk, h1, h2, rfl⟩
    · rw [mem_pushWs_iff h3, mem_pushWs_iff h2, mem_pushWs_iff h1]
      constructor
      · rintro (((m | m) | m) | m)
        · exact Or.inl m
        · exact Or.inr ⟨c, hc, Or.inl ⟨c0, c1, c2, hlits, Or.inl m⟩⟩
        · exact Or.inr ⟨c, hc, Or.inl ⟨c0, c1, c2, hlits, Or.inr (Or.inl m)⟩⟩
        · exact Or.inr ⟨c, hc, Or.inl ⟨c0, c1, c2, hlits, Or.inr (Or.inr m)⟩⟩
      · rintro (m | ⟨cl, hcl, m⟩)
        · exact Or.inl (Or.inl (Or.inl m))
        · rw [hc] at hcl
          injection hcl with hcl
          subst hcl
          rcases m with ⟨d0, d1, d2, hd, m⟩ | ⟨hgt, -⟩
          · rw [hlits] at hd
            injection hd with e0 hd
            injection hd with e1 hd
            injection hd with e2 hd
            subst e0 e1 e2
            rcases m with m | m | m
            · exact Or.inl (Or.inl (Or.inr m))
            · exact Or.inl (Or.inr m)
            · exact Or.inr m
          · exfalso
            have : c.size = 3 := by
              unfold Clause.size
              rw [hlits]
              rfl
            omega
    · have e : ∀ x, ({ s2 with clauseData :=
          (if s2.clauseData.length ≤ c.num
            then s2.clauseData ++ List.replicate (c.num + 1 - s2.clauseData.length) {}
            else s2.clauseData).set c.num { lit0 := p1, lit1 := p2 } } : Solver).ws x
          = s2.ws x := fun _ => rfl
      rw [e, mem_pushWs_iff h2, mem_pushWs_iff h1]
      constructor
      · rintro ((m | m) | m)
        · exact Or.inl m
        · exact Or.inr ⟨c, hc, Or.inr ⟨hsz3, blk, l1, l2, hblk, hl1, hl2, hvar, Or.inl m⟩⟩
        · exact Or.inr ⟨c, hc, Or.inr ⟨hsz3, blk, l1, l2, hblk, hl1, hl2, hvar, Or.inr m⟩⟩
      · rintro (m | ⟨cl, hcl, m⟩)
        · exact Or.inl (Or.inl m)
        · rw [hc] at hcl
          injection hcl with hcl
          subst hcl
          rcases m with ⟨d0, d1, d2, hd, -⟩ | ⟨-, blk', l1', l2', hb, e1, e2, -, m⟩
          · exfalso
            have : c.size = 3 := by
              unfold Clause.size
              rw [hd]
              rfl
            omega
          · rw [hblk] at hb
            rw [hl1] at e1
            rw [hl2] at e2
            injection hb with hb
            injection e1 with e1
            injection e2 with e2
            subst hb e1 e2
            rcases m with m | m
            · exact Or.inl (Or.inr m)
            · exact Or.inr m

/-- The watched positions after one clause is attached: a Long clause is watched
at `point1` and `point2`, and the positions of the other clauses are kept. -/
theorem watchPos_attachOp {s t : Solver} {op : AttachOp} (h : s.attachOp op = .ok t) :
    (∀ n q, s.watchPos n = some q →
      (∀ off p1 p2 chk cl, op = .cls off p1 p2 chk → s.arena[off]? = some cl → cl.num ≠ n) →
      t.watchPos n = some q) ∧
    (∀ off p1 p2 chk cl, op = .cls off p1 p2 chk → s.arena[off]? = some cl → cl.size > 3 →
      t.watchPos cl.num = some (p1, p2)) := by
  cases op with
  | bin a b r =>
    have h' : s.attachBinClause a b r = .ok t := h
    obtain ⟨-, f2, -, -⟩ := attachBinClause_fields h'
    refine ⟨fun n q hq _ => ?_, fun off p1 p2 chk cl e => by cases e⟩
    unfold Solver.watchPos at hq ⊢
    rw [f2]
    exact hq
  | cls off p1 p2 chk =>
    have h' : s.attachClause off p1 p2 chk = .ok t := h
    obtain ⟨c, l1, l2, hc, hsz, hl1, hl2, hvar, -, hcase⟩ := attachClause_inv h'
    rcases hcase with ⟨c0, c1, c2, s1, s2, hlits, h1, h2, h3⟩ | ⟨hsz3, blk, s1, s2, hblk, h1, h2, rfl⟩
    · have hcd : t.clauseData = s.clauseData :=
        (pushWs_unchanged h3).2.2.2.2.2.trans
          ((pushWs_unchanged h2).2.2.2.2.2.trans (pushWs_unchanged h1).2.2.2.2.2)
      refine ⟨fun n q hq _ => ?_, fun off' q1 q2 chk' cl e ha hgt => ?_⟩
      · unfold Solver.watchPos at hq ⊢
        rw [hcd]
        exact hq
      · exfalso
        injection e with e1 e2 e3 e4
        subst e1
        rw [hc] at ha
        injection ha with ha
        subst ha
        have : c.size = 3 := by
          unfold Clause.size
          rw [hlits]
          rfl
        omega
    · have hcd : s2.clauseData = s.clauseData :=
        (pushWs_unchanged h2).2.2.2.2.2.trans (pushWs_unchanged h1).2.2.2.2.2
      obtain ⟨w1, w2⟩ := watchPos_attach s.clauseData c.num p1 p2
      refine ⟨fun n q hq hne => ?_, fun off' q1 q2 chk' cl e ha hgt => ?_⟩
      · have hn : c.num ≠ n := hne off p1 p2 chk c rfl hc
        unfold Solver.watchPos at hq ⊢
        simp only [hcd]
        have hlt : n < s.clauseData.length := by
          by_contra hcon
          rw [List.getElem?_eq_none (by omega)] at hq
          cases hq
        rw [w2 n (fun e => hn e.symm) hlt]
        exact hq
      · injection e with e1 e2 e3 e4
        subst e1 e2 e3
        rw [hc] at ha
        injection ha with ha
        subst ha
        unfold Solver.watchPos
        simp only [hcd]
        rw [w1]
        rfl

theorem attachOps_cons {op : AttachOp} {rest : List AttachOp} {s t : Solver}
    (h : attachOps (op :: rest) s = .ok t) :
    ∃ s1, s.attachOp op = .ok s1 ∧ attachOps rest s1 = .ok t := by
  unfold attachOps at h
  split at h
  · cases h
  · rename_i s1 h1
    exact ⟨s1, h1, h⟩

theorem attachOps_fields : ∀ (ops : List AttachOp) {s t : Solver}, attachOps ops s = .ok t →
    t.arena = s.arena ∧ t.assigns = s.assigns ∧ t.trail = s.trail ∧ t.qhead = s.qhead ∧
      t.watches.length = s.watches.length := by
  intro ops
  induction ops with
  | nil =>
    intro s t h
    simp only [attachOps, Except.ok.injEq] at h
    subst h
    exact ⟨rfl, rfl, rfl, rfl, rfl⟩
  | cons op rest ih =>
    intro s t h
    obtain ⟨s1, h1, h2⟩ := attachOps_cons h
    obtain ⟨a1, a2, a3, a4, a5⟩ := attachOp_fields h1
    obtain ⟨b1, b2, b3, b4, b5⟩ := ih h2
    exact ⟨b1.trans a1, b2.trans a2, b3.trans a3, b4.trans a4, b5.trans a5⟩

/-- The watchers after a list of clauses is attached: those of before and those
that the calls push, whatever the order of the list. -/
theorem mem_attachOps : ∀ (ops : List AttachOp) {s t : Solver}, attachOps ops s = .ok t →
    ∀ l w, w ∈ t.ws l ↔ w ∈ s.ws l ∨ ∃ op ∈ ops, Pushes s.arena op l w := by
  intro ops
  induction ops with
  | nil =>
    intro s t h l w
    simp only [attachOps, Except.ok.injEq] at h
    subst h
    simp
  | cons op rest ih =>
    intro s t h l w
    obtain ⟨s1, h1, h2⟩ := attachOps_cons h
    rw [ih h2 l w, mem_attachOp h1 l w, (attachOp_fields h1).1]
    constructor
    · rintro ((m | m) | ⟨o, ho, m⟩)
      · exact Or.inl m
      · exact Or.inr ⟨op, List.mem_cons_self _ _, m⟩
      · exact Or.inr ⟨o, List.mem_cons_of_mem _ ho, m⟩
    · rintro (m | ⟨o, ho, m⟩)
      · exact Or.inl (Or.inl m)
      · rcases List.mem_cons.mp ho with e | e
        · subst e
          exact Or.inl (Or.inr m)
        · exact Or.inr ⟨o, e, m⟩

theorem mem_attachedOffsets {ops : List AttachOp} {off p1 p2 : Nat} {chk : Bool}
    (h : AttachOp.cls off p1 p2 chk ∈ ops) : off ∈ attachedOffsets ops := by
  induction ops with
  | nil => cases h
  | cons op rest ih =>
    rcases List.mem_cons.mp h with e | e
    · subst e
      exact List.mem_cons_self _ _
    · cases op with
      | bin a b r => exact ih e
      | cls o q1 q2 c => exact List.mem_cons_of_mem _ (ih e)

theorem attachedOffsets_cons_nodup {op : AttachOp} {rest : List AttachOp}
    (h : (attachedOffsets (op :: rest)).Nodup) :
    (attachedOffsets rest).Nodup ∧
      ∀ off p1 p2 chk, op = .cls off p1 p2 chk → off ∉ attachedOffsets rest := by
  cases op with
  | bin a b r => exact ⟨h, fun _ _ _ _ e => by cases e⟩
  | cls o q1 q2 c =>
    have h' : (o :: attachedOffsets rest).Nodup := h
    rw [List.nodup_cons] at h'
    refine ⟨h'.2, fun off p1 p2 chk e => ?_⟩
    injection e with e1
    subst e1
    exact h'.1

/-- The watched positions of a clause are kept by the calls that attach other
clauses. -/
theorem attachOps_watchPos_keep : ∀ (ops : List AttachOp) {s t : Solver},
    attachOps ops s = .ok t → ∀ n q, s.watchPos n = some q →
    (∀ off cl, off ∈ attachedOffsets ops → s.arena[off]? = some cl → cl.num ≠ n) →
    t.watchPos n = some q := by
  intro ops
  induction ops with
  | nil =>
    intro s t h n q hq _
    simp only [attachOps, Except.ok.injEq] at h
    subst h
    exact hq
  | cons op rest ih =>
    intro s t h n q hq hne
    obtain ⟨s1, h1, h2⟩ := attachOps_cons h
    have ha := (attachOp_fields h1).1
    refine ih h2 n q ((watchPos_attachOp h1).1 n q hq ?_) ?_
    · intro off p1 p2 chk cl e hcl
      subst e
      exact hne off cl (List.mem_cons_self _ _) hcl
    · intro off cl hoff hcl
      rw [ha] at hcl
      refine hne off cl ?_ hcl
      cases op with
      | bin a b r => exact hoff
      | cls o q1 q2 c => exact List.mem_cons_of_mem _ hoff

/-- After a list of different clauses is attached, each Long clause of the list
is watched at the positions of its call. -/
theorem attachOps_watchPos : ∀ (ops : List AttachOp) {s t : Solver},
    attachOps ops s = .ok t → NumInj s → (attachedOffsets ops).Nodup →
    ∀ off p1 p2 chk cl, AttachOp.cls off p1 p2 chk ∈ ops → s.arena[off]? = some cl →
      cl.size > 3 → t.watchPos cl.num = some (p1, p2) := by
  intro ops
  induction ops with
  | nil =>
    intro s t _ _ _ off p1 p2 chk cl hm
    cases hm
  | cons op rest ih =>
    intro s t h hN hD off p1 p2 chk cl hm hcl hgt
    obtain ⟨s1, h1, h2⟩ := attachOps_cons h
    have ha := (attachOp_fields h1).1
    obtain ⟨hD1, hD2⟩ := attachedOffsets_cons_nodup hD
    rcases List.mem_cons.mp hm with e | e
    · subst e
      have hq := (watchPos_attachOp h1).2 off p1 p2 chk cl rfl hcl hgt
      refine attachOps_watchPos_keep rest h2 _ _ hq ?_
      intro off' cl' hoff' hcl' hnum
      rw [ha] at hcl'
      have : off' = off := hN off' off cl' cl hcl' hcl hnum
      subst this
      exact hD2 off' p1 p2 chk rfl hoff'
    · exact ih h2 (numInj_of_arena ha hN) hD1 off p1 p2 chk cl e (by rw [ha]; exact hcl) hgt

/-- After a list of different clauses is attached to a state in which they are
not attached, each watch of each clause has at most one Long watcher. -/
theorem attachOps_longUnique : ∀ (ops : List AttachOp) {s t : Solver},
    attachOps ops s = .ok t → (attachedOffsets ops).Nodup →
    (∀ off, off ∈ attachedOffsets ops → NotAttached s off) → LongUnique s → LongUnique t := by
  intro ops
  induction ops with
  | nil =>
    intro s t h _ _ hU
    simp only [attachOps, Except.ok.injEq] at h
    subst h
    exact hU
  | cons op rest ih =>
    intro s t h hD hNA hU
    obtain ⟨s1, h1, h2⟩ := attachOps_cons h
    obtain ⟨hD1, hD2⟩ := attachedOffsets_cons_nodup hD
    have hNA1 : ∀ off, off ∈ attachedOffsets rest → NotAttached s1 off := by
      intro off hoff l blk wn hm
      rcases (mem_attachOp h1 l _).mp hm with m | m
      · refine hNA off ?_ l blk wn m
        cases op with
        | bin a b r => exact hoff
        | cls o q1 q2 c => exact List.mem_cons_of_mem _ hoff
      · cases op with
        | bin a b r =>
          rcases m with ⟨-, m⟩ | ⟨-, m⟩ <;> cases m
        | cls o q1 q2 c =>
          obtain ⟨cl, -, m⟩ := m
          rcases m with ⟨d0, d1, d2, -, m⟩ | ⟨-, blk', l1, l2, -, -, -, -, m⟩
          · rcases m with ⟨-, m⟩ | ⟨-, m⟩ | ⟨-, m⟩ <;> cases m
          · have eo : off = o := by
              rcases m with ⟨-, m⟩ | ⟨-, m⟩ <;>
                (simp only [Watched.clause.injEq] at m
                 exact m.1)
            subst eo
            exact hD2 off q1 q2 c rfl hoff
    refine ih h2 hD1 hNA1 ?_
    cases op with
    | bin a b r =>
      have h' : s.attachBinClause a b r = .ok s1 := h1
      exact (attachBinClause_wInv h').2.2.2 hU
    | cls o q1 q2 c =>
      have h' : s.attachClause o q1 q2 c = .ok s1 := h1
      exact (attachClause_wInv h').2.2.2 (hNA o (List.mem_cons_self _ _)) hU

/-! ## The watch invariants after a clause set is attached -/

theorem no_watchers {s : Solver} (hE : ∀ ws ∈ s.watches, ws = []) (l : Lit) (w : Watched) :
    w ∉ s.ws l := by
  intro hm
  obtain ⟨ws, a1, a2⟩ := mem_ws_watches hm
  rw [hE ws a1] at a2
  cases a2

/-- From empty watchlists, the watchers are those that the calls push. -/
theorem attached_watchers {ops : List AttachOp} {s t : Solver}
    (hE : ∀ ws ∈ s.watches, ws = []) (h : attachOps ops s = .ok t) (l : Lit) (w : Watched) :
    w ∈ t.ws l ↔ ∃ op ∈ ops, Pushes s.arena op l w := by
  rw [mem_attachOps ops h l w]
  constructor
  · rintro (m | m)
    · exact absurd m (no_watchers hE l w)
    · exact m
  · exact Or.inr

theorem pushes_bin_inv {ar : List Clause} {op : AttachOp} {l o : Lit} {r : Bool}
    (h : Pushes ar op l (.binary o r)) :
    ∃ a b, op = .bin a b r ∧ ((l = a.neg ∧ o = b) ∨ (l = b.neg ∧ o = a)) := by
  cases op with
  | bin a b r' =>
    rcases h with ⟨e1, e2⟩ | ⟨e1, e2⟩
    · injection e2 with e3 e4
      subst e3 e4
      exact ⟨a, o, rfl, Or.inl ⟨e1, rfl⟩⟩
    · injection e2 with e3 e4
      subst e3 e4
      exact ⟨o, b, rfl, Or.inr ⟨e1, rfl⟩⟩
  | cls off p1 p2 chk =>
    obtain ⟨cl, -, m⟩ := h
    rcases m with ⟨c0, c1, c2, -, m⟩ | ⟨-, blk, l1, l2, -, -, -, -, m⟩
    · rcases m with ⟨-, m⟩ | ⟨-, m⟩ | ⟨-, m⟩ <;> cases m
    · rcases m with ⟨-, m⟩ | ⟨-, m⟩ <;> cases m

theorem pushes_tri_inv {ar : List Clause} {op : AttachOp} {l a a2 : Lit}
    (h : Pushes ar op l (.tri a a2)) :
    ∃ off p1 p2 chk cl c0 c1 c2, op = .cls off p1 p2 chk ∧ ar[off]? = some cl ∧
      cl.lits = [c0, c1, c2] ∧
      ((l = c0.neg ∧ a = c1 ∧ a2 = c2) ∨ (l = c1.neg ∧ a = c0 ∧ a2 = c2) ∨
        (l = c2.neg ∧ a = c0 ∧ a2 = c1)) := by
  cases op with
  | bin x y r =>
    rcases h with ⟨-, m⟩ | ⟨-, m⟩ <;> cases m
  | cls off p1 p2 chk =>
    obtain ⟨cl, hcl, m⟩ := h
    rcases m with ⟨c0, c1, c2, hl, m⟩ | ⟨-, blk, l1, l2, -, -, -, -, m⟩
    · refine ⟨off, p1, p2, chk, cl, c0, c1, c2, rfl, hcl, hl, ?_⟩
      rcases m with ⟨e, m⟩ | ⟨e, m⟩ | ⟨e, m⟩
      · injection m with m1 m2
        exact Or.inl ⟨e, m1, m2⟩
      · injection m with m1 m2
        exact Or.inr (Or.inl ⟨e, m1, m2⟩)
      · injection m with m1 m2
        exact Or.inr (Or.inr ⟨e, m1, m2⟩)
    · rcases m with ⟨-, m⟩ | ⟨-, m⟩ <;> cases m

theorem pushes_clause_inv {ar : List Clause} {op : AttachOp} {l blk : Lit} {off : Nat}
    {wn : Bool} (h : Pushes ar op l (.clause off blk wn)) :
    ∃ p1 p2 chk cl l1 l2, op = .cls off p1 p2 chk ∧ ar[off]? = some cl ∧ cl.size > 3 ∧
      cl.lits[cl.size / 2]? = some blk ∧ cl.lits[p1]? = some l1 ∧ cl.lits[p2]? = some l2 ∧
      l1.var ≠ l2.var ∧ l = (if wn then l2 else l1).neg := by
  cases op with
  | bin x y r =>
    rcases h with ⟨-, m⟩ | ⟨-, m⟩ <;> cases m
  | cls o p1 p2 chk =>
    obtain ⟨cl, hcl, m⟩ := h
    rcases m with ⟨c0, c1, c2, -, m⟩ | ⟨hgt, blk', l1, l2, hb, h1, h2, hv, m⟩
    · rcases m with ⟨-, m⟩ | ⟨-, m⟩ | ⟨-, m⟩ <;> cases m
    · rcases m with ⟨e, m⟩ | ⟨e, m⟩
      · injection m with m1 m2 m3
        subst m1 m2 m3
        exact ⟨p1, p2, chk, cl, l1, l2, rfl, hcl, hgt, hb, h1, h2, hv, e⟩
      · injection m with m1 m2 m3
        subst m1 m2 m3
        exact ⟨p1, p2, chk, cl, l1, l2, rfl, hcl, hgt, hb, h1, h2, hv, e⟩

theorem pushes_long {ar : List Clause} {off p1 p2 : Nat} {chk : Bool} {cl : Clause}
    {blk l1 l2 : Lit} (hcl : ar[off]? = some cl) (hgt : cl.size > 3)
    (hb : cl.lits[cl.size / 2]? = some blk) (h1 : cl.lits[p1]? = some l1)
    (h2 : cl.lits[p2]? = some l2) (hv : l1.var ≠ l2.var) :
    Pushes ar (.cls off p1 p2 chk) l1.neg (.clause off blk false) ∧
      Pushes ar (.cls off p1 p2 chk) l2.neg (.clause off blk true) :=
  ⟨⟨cl, hcl, Or.inr ⟨hgt, blk, l1, l2, hb, h1, h2, hv, Or.inl ⟨rfl, rfl⟩⟩⟩,
    ⟨cl, hcl, Or.inr ⟨hgt, blk, l1, l2, hb, h1, h2, hv, Or.inr ⟨rfl, rfl⟩⟩⟩⟩

/-- A Long clause of the list is attached with its two watchers after the list
is attached. -/
theorem attachedLong_of_pushes {ops : List AttachOp} {s t : Solver}
    (hE : ∀ ws ∈ s.watches, ws = []) (hN : NumInj s) (hD : (attachedOffsets ops).Nodup)
    (h : attachOps ops s = .ok t) {off p1 p2 : Nat} {chk : Bool} {cl : Clause}
    {blk l1 l2 : Lit} (hop : AttachOp.cls off p1 p2 chk ∈ ops) (hcl : s.arena[off]? = some cl)
    (hgt : cl.size > 3) (hb : cl.lits[cl.size / 2]? = some blk)
    (h1 : cl.lits[p1]? = some l1) (h2 : cl.lits[p2]? = some l2) (hv : l1.var ≠ l2.var) :
    AttachedLong t off l1 l2 := by
  have ha := (attachOps_fields ops h).1
  have hpos := attachOps_watchPos ops h hN hD off p1 p2 chk cl hop hcl hgt
  obtain ⟨q1, q2⟩ := @pushes_long s.arena off p1 p2 chk cl blk l1 l2 hcl hgt hb h1 h2 hv
  have hwl : ∀ wn : Bool, t.watchLit off wn = cl.lits[if wn then p2 else p1]? := by
    intro wn
    unfold Solver.watchLit
    rw [ha, hcl]
    simp only [hpos]
  refine ⟨?_, ?_, ⟨blk, ?_⟩, ⟨blk, ?_⟩⟩
  · rw [hwl false]
    exact h1
  · rw [hwl true]
    exact h2
  · exact (attached_watchers hE h _ _).mpr ⟨_, hop, q1⟩
  · exact (attached_watchers hE h _ _).mpr ⟨_, hop, q2⟩

/-- After a list of different clauses is attached to empty watchlists, the watch
invariants hold. -/
theorem attached_invariants {ops : List AttachOp} {s t : Solver}
    (hE : ∀ ws ∈ s.watches, ws = []) (hN : NumInj s) (hD : (attachedOffsets ops).Nodup)
    (h : attachOps ops s = .ok t) :
    BlkIn t ∧ TriSym t ∧ BinSym t ∧ WInv t ∧ LongUnique t ∧ WatchDistinct t := by
  have hchar := attached_watchers hE h
  have ha := (attachOps_fields ops h).1
  refine ⟨?_, ?_, ?_, ?_, ?_, ?_⟩
  · intro l off blk wn hm
    obtain ⟨op, -, hp⟩ := (hchar _ _).mp hm
    obtain ⟨p1, p2, chk, cl, l1, l2, -, hcl, -, hb, -⟩ := pushes_clause_inv hp
    exact ⟨cl, by rw [ha]; exact hcl, List.getElem?_mem hb⟩
  · intro l a a2 hm
    obtain ⟨op, hop, hp⟩ := (hchar _ _).mp hm
    obtain ⟨off, p1, p2, chk, cl, c0, c1, c2, rfl, hcl, hl, hc⟩ := pushes_tri_inv hp
    have hmem : ∀ x w, (x = c0.neg ∧ w = Watched.tri c1 c2) ∨ (x = c1.neg ∧ w = .tri c0 c2) ∨
        (x = c2.neg ∧ w = .tri c0 c1) → w ∈ t.ws x := fun x w hx =>
      (hchar x w).mpr ⟨_, hop, cl, hcl, Or.inl ⟨c0, c1, c2, hl, hx⟩⟩
    rcases hc with ⟨rfl, rfl, rfl⟩ | ⟨rfl, rfl, rfl⟩ | ⟨rfl, rfl, rfl⟩
    · rw [Lit.neg_neg]
      exact ⟨Or.inl (hmem _ _ (Or.inr (Or.inl ⟨rfl, rfl⟩))),
        Or.inl (hmem _ _ (Or.inr (Or.inr ⟨rfl, rfl⟩)))⟩
    · rw [Lit.neg_neg]
      exact ⟨Or.inl (hmem _ _ (Or.inl ⟨rfl, rfl⟩)),
        Or.inr (hmem _ _ (Or.inr (Or.inr ⟨rfl, rfl⟩)))⟩
    · rw [Lit.neg_neg]
      exact ⟨Or.inr (hmem _ _ (Or.inl ⟨rfl, rfl⟩)),
        Or.inr (hmem _ _ (Or.inr (Or.inl ⟨rfl, rfl⟩)))⟩
  · have key : ∀ a b r, Watched.binary b r ∈ t.ws a.neg → Watched.binary a r ∈ t.ws b.neg := by
      intro a b r hm
      obtain ⟨op, hop, hp⟩ := (hchar _ _).mp hm
      obtain ⟨x, y, rfl, hc⟩ := pushes_bin_inv hp
      rcases hc with ⟨e1, e2⟩ | ⟨e1, e2⟩
      · have := Lit.neg_inj e1
        subst this e2
        exact (hchar _ _).mpr ⟨_, hop, Or.inr ⟨rfl, rfl⟩⟩
      · have := Lit.neg_inj e1
        subst this e2
        exact (hchar _ _).mpr ⟨_, hop, Or.inl ⟨rfl, rfl⟩⟩
    exact fun a b r => ⟨key a b r, key b a r⟩
  · intro l off blk wn hm
    obtain ⟨op, hop, hp⟩ := (hchar _ _).mp hm
    obtain ⟨p1, p2, chk, cl, l1, l2, rfl, hcl, hgt, hb, h1, h2, hv, e⟩ := pushes_clause_inv hp
    obtain ⟨w0, w1, -, -⟩ := attachedLong_of_pushes hE hN hD h hop hcl hgt hb h1 h2 hv
    rw [e, Lit.neg_neg]
    cases wn
    · exact w0
    · exact w1
  · refine attachOps_longUnique ops h hD (fun off _ l blk wn => no_watchers hE l _) ?_
    intro off wn
    rw [longCount_zero_of_notAttached (fun l blk wn => no_watchers hE l _) wn]
    exact Nat.zero_le 1
  · intro l off blk wn cl q hm hcl hq
    obtain ⟨op, hop, hp⟩ := (hchar _ _).mp hm
    obtain ⟨p1, p2, chk, cl', l1, l2, rfl, hcl', hgt, hb, h1, h2, hv, e⟩ := pushes_clause_inv hp
    rw [ha, hcl'] at hcl
    injection hcl with hcl
    subst hcl
    rw [attachOps_watchPos ops h hN hD off p1 p2 chk cl' hop hcl' hgt] at hq
    injection hq with hq
    subst hq
    intro e12
    have e12' : p1 = p2 := e12
    rw [e12', h2] at h1
    injection h1 with h1
    exact hv (by rw [h1])

/-! ## The state after the decision -/

/-- The state after a decision in a state without assignments: the decision is
the one True literal, and the watchlists, the arena and the watched positions
are those of before. -/
theorem decide_fresh {a b : Solver} {d : Lit} (hU : ∀ x, a.value x = l_Undef)
    (ht : a.trail = []) (hq : a.qhead = 0) (h : a.decide d = .ok b) :
    b.watches = a.watches ∧ b.arena = a.arena ∧ (∀ n, b.watchPos n = a.watchPos n) ∧
      TrailTrue b ∧ AssignedOnTrail b ∧ b.qhead = 0 ∧ b.value d = l_True ∧
      ∀ x, b.value x = l_True → x = d := by
  have hT : TrailTrue a := by
    intro l hl
    rw [ht] at hl
    cases hl
  obtain ⟨hTb, hw⟩ := decide_pres (hU d) h hT
  unfold Solver.decide at h
  obtain ⟨he, -⟩ := enqueue_inv h
  have honly : ∀ x, b.value x = l_True → x = d := by
    intro x hx
    rw [he.value_other] at hx
    by_cases e1 : x.var = d.var
    · rw [if_pos e1] at hx
      by_cases e2 : x = d
      · exact e2
      · rw [if_neg e2] at hx
        cases hx
    · rw [if_neg e1] at hx
      have := hU x
      have hx' : a.value x = l_True := hx
      rw [this] at hx'
      cases hx'
  refine ⟨hw, he.2.2.2.2.2.1, he.2.2.2.2.2.2.2.2.2, hTb, ?_, ?_, he.value_self, honly⟩
  · intro x hx
    rw [he.2.2.2.1, honly x hx]
    exact List.mem_append_right _ (List.mem_singleton.mpr rfl)
  · rw [he.2.2.2.2.2.2.2.1]
    exact hq

/-- The invariants that `propagate` is called with hold after a clause set is
attached to a state without watchers and without assignments and a decision is
enqueued. -/
theorem start_invariants {ops : List AttachOp} {s a b : Solver} {d : Lit}
    (hE : ∀ ws ∈ s.watches, ws = []) (hU : ∀ x, s.value x = l_Undef) (ht : s.trail = [])
    (hq : s.qhead = 0) (hN : NumInj s) (hD : (attachedOffsets ops).Nodup)
    (h : attachOps ops s = .ok a) (hd : a.decide d = .ok b) :
    WatchInv b ∧ WatchDistinct b ∧ b.arena = s.arena ∧ b.value d = l_True ∧
      (∀ x, b.value x = l_True → x = d) ∧
      (∀ l w, w ∈ b.ws l ↔ ∃ op ∈ ops, Pushes s.arena op l w) ∧
      (∀ off x0 x1, AttachedLong a off x0 x1 → AttachedLong b off x0 x1) := by
  obtain ⟨f1, f2, f3, f4, -⟩ := attachOps_fields ops h
  obtain ⟨i1, i2, i3, i4, i5, i6⟩ := attached_invariants hE hN hD h
  obtain ⟨g1, g2, g3, g4, g5, g6, g7, g8⟩ := decide_fresh
    (fun x => by rw [Solver.value_congr f2]; exact hU x) (f3.trans ht) (f4.trans hq) hd
  have hws : ∀ l, b.ws l = a.ws l := ws_congr g1
  have hwl : ∀ off wn, b.watchLit off wn = a.watchLit off wn := watchLit_congr g2 g3
  refine ⟨⟨⟨g4, g5, by omega, numInj_of_arena (g2.trans f1) hN, ?_, ?_, ?_, ?_⟩, ?_, ?_⟩, ?_,
    g2.trans f1, g7, g8, ?_, ?_⟩
  · intro l off blk wn hm
    rw [hws] at hm
    rw [g2]
    exact i1 l off blk wn hm
  · intro l x x2 hm
    rw [hws] at hm
    rw [hws, hws]
    exact i2 l x x2 hm
  · intro x y r
    rw [hws, hws]
    exact i3 x y r
  · rintro l ⟨i, hi, -⟩
    omega
  · intro l off blk wn hm
    rw [hws] at hm
    rw [hwl]
    exact i4 l off blk wn hm
  · intro off wn
    rw [g1]
    exact i5 off wn
  · intro l off blk wn cl q hm hcl hq'
    rw [hws] at hm
    rw [g2] at hcl
    rw [g3] at hq'
    exact i6 l off blk wn cl q hm hcl hq'
  · intro l w
    rw [hws]
    exact attached_watchers hE h l w
  · rintro off x0 x1 ⟨a1, a2, ⟨k1, a3⟩, ⟨k2, a4⟩⟩
    refine ⟨by rw [hwl]; exact a1, by rw [hwl]; exact a2, ⟨k1, ?_⟩, ⟨k2, ?_⟩⟩
    · rw [hws]
      exact a3
    · rw [hws]
      exact a4

/-! ## The order of attaching and the propagated literals -/

theorem attachDecidePropagate_ok {s : Solver} {ops : List AttachOp} {d : Lit} {c : PropBy}
    {t : Solver} (h : s.attachDecidePropagate ops d = .ok (c, t)) :
    ∃ a b, attachOps ops s = .ok a ∧ a.decide d = .ok b ∧ b.propagate = .ok (c, t) := by
  unfold Solver.attachDecidePropagate at h
  split at h
  · cases h
  · rename_i a ha
    split at h
    · cases h
    · rename_i b hb
      exact ⟨a, b, ha, hb, h⟩

/-- The literals on the trail of one run are on the trail of a run that attaches
the same clauses, in any order, and returns no conflict. -/
theorem attach_trail_subset {s0 : Solver} {ops1 ops2 : List AttachOp} {d : Lit} {c1 : PropBy}
    {t1 t2 : Solver} (hE : ∀ ws ∈ s0.watches, ws = []) (hU : ∀ x, s0.value x = l_Undef)
    (ht : s0.trail = []) (hq : s0.qhead = 0) (hN : NumInj s0) (hS : ShortClauses s0)
    (hD1 : (attachedOffsets ops1).Nodup) (hD2 : (attachedOffsets ops2).Nodup)
    (hsub : ∀ op ∈ ops1, op ∈ ops2)
    (h1 : s0.attachDecidePropagate ops1 d = .ok (c1, t1))
    (h2 : s0.attachDecidePropagate ops2 d = .ok (.null, t2)) :
    ∀ x ∈ t1.trail, x ∈ t2.trail := by
  obtain ⟨a1, b1, ha1, hb1, hp1⟩ := attachDecidePropagate_ok h1
  obtain ⟨a2, b2, ha2, hb2, hp2⟩ := attachDecidePropagate_ok h2
  obtain ⟨⟨hP1, -, -⟩, -, hA1, -, honly1, hc1, -⟩ := start_invariants hE hU ht hq hN hD1 ha1 hb1
  obtain ⟨⟨hP2, hW2, hU2⟩, hDist2, hA2, hd2, -, hc2, hAL2⟩ :=
    start_invariants hE hU ht hq hN hD2 ha2 hb2
  obtain ⟨-, hPt2, hbin, htri, hlong⟩ := propagate_fixpoint_returned b2 t2 hP2 hp2
  obtain ⟨hK2, hWt2⟩ := propagateLoop_kept _ hP2.1 hP2.2.2.2.1 hp2
  have hWt2' := hWt2 hW2 hU2
  have hS2 : ShortClauses b2 := shortClauses_of_arena hA2 hS
  have hS1 : ShortClauses b1 := shortClauses_of_arena hA1 hS
  have hDist := (propagateLoop_closed _ hP2.1 hP2.2.2.2.1 hS2 hp2).1 hDist2
  obtain ⟨hUR, -⟩ := propagateLoop_unit _ hP2.1 hS2 hp2
  have hinit : ∀ y, b1.value y = l_True → t2.value y = l_True := by
    intro y hy
    rw [honly1 y hy, (hUR.2.1 d (by rw [hd2]; simp)).1]
    exact hd2
  have hclosed : Closed (fun y => t2.value y = l_True) b1 := by
    intro p w hm
    obtain ⟨op, hop, hp⟩ := (hc1 p w).mp hm
    have hm2 : w ∈ b2.ws p := (hc2 p w).mpr ⟨op, hsub op hop, hp⟩
    rw [hA1]
    cases w with
    | binary o r =>
      intro hp'
      have hpt : t2.value p = l_True := hp'
      have hm3 := (hK2.2.2.2 p (.binary o r) rfl).mpr hm2
      rcases hbin p o r hm3 with e | e | ⟨e, -⟩
      · rw [Solver.value_neg_true, hpt] at e
        cases e
      · exact e
      · rw [Solver.value_neg_undef, hpt] at e
        cases e
    | tri a a2 =>
      intro hp'
      have hpt : t2.value p = l_True := hp'
      have hpn : t2.value p.neg = l_False := Solver.value_neg_false.mpr hpt
      have hm3 := (hK2.2.2.2 p (.tri a a2) rfl).mpr hm2
      have h3 := htri p a a2 hm3
      constructor
      · intro ha2'
        have hf : t2.value a2 = l_False := Solver.value_neg_true.mp ha2'
        show t2.value a = l_True
        rcases h3 with (e | e | e) | ⟨e, -⟩ | ⟨e, -⟩ | ⟨-, e⟩
        · rw [hpn] at e
          cases e
        · exact e
        · rw [hf] at e
          cases e
        · exact absurd hpn e
        · exact absurd hpn e
        · exact absurd hf e
      · intro ha'
        have hf : t2.value a = l_False := Solver.value_neg_true.mp ha'
        show t2.value a2 = l_True
        rcases h3 with (e | e | e) | ⟨-, e⟩ | ⟨e, -⟩ | ⟨e, -⟩
        · rw [hpn] at e
          cases e
        · rw [hf] at e
          cases e
        · exact e
        · exact absurd hf e
        · exact absurd hpn e
        · exact absurd hf e
    | clause off blk wn =>
      obtain ⟨p1, p2, chk, cl, l1, l2, rfl, hcl, hgt, hb, e1, e2, hv, -⟩ := pushes_clause_inv hp
      have hAL := hAL2 off l1 l2
        (attachedLong_of_pushes hE hN hD2 ha2 (hsub _ hop) hcl hgt hb e1 e2 hv)
      obtain ⟨cl', y0, y1, q1, q2, q3⟩ := attachedLong_kept hK2 hWt2' hAL
      rw [hA2, hcl] at q1
      injection q1 with q1
      subst q1
      intro cl2 k x har hk hoth
      rw [hcl] at har
      injection har with har
      subst har
      have hothF : ∀ i y, cl.lits[i]? = some y → i ≠ k → t2.value y = l_False :=
        fun i y hi hne => Solver.value_neg_true.mp (hoth i y hi hne)
      show t2.value x = l_True
      rcases hlong off cl y0 y1 q2 q3 with ⟨x', hx', hv'⟩ | ⟨u0, u1⟩
      · obtain ⟨i, hi⟩ := List.mem_iff_getElem?.mp hx'
        by_cases e : i = k
        · rw [e, hk] at hi
          injection hi with hi
          rw [hi]
          exact hv'
        · rw [hothF i x' hi e] at hv'
          cases hv'
      · exfalso
        obtain ⟨w0, w1, ⟨k0, m0⟩, -⟩ := q3
        obtain ⟨c0, d0, r1, r2, r3⟩ := watchLit_unfold w0
        obtain ⟨c1', d1, r4, r5, r6⟩ := watchLit_unfold w1
        rw [q2] at r1 r4
        injection r1 with r1
        injection r4 with r4
        subst r1 r4
        rw [r2] at r5
        injection r5 with r5
        subst r5
        have hpos : t2.watchPos cl.num = some (d0.lit0, d0.lit1) := by
          unfold Solver.watchPos
          rw [r2]
          rfl
        have hne := hDist y0.neg off k0 false cl (d0.lit0, d0.lit1) m0 q2 hpos
        have g0 : d0.get false = d0.lit0 := rfl
        have g1 : d0.get true = d0.lit1 := rfl
        rw [g0] at r3
        rw [g1] at r6
        by_cases e0 : d0.lit0 = k
        · by_cases e1' : d0.lit1 = k
          · exact hne (e0.trans e1'.symm)
          · rw [hothF _ y1 r6 e1'] at u1
            cases u1
        · rw [hothF _ y0 r3 e0] at u0
          cases u0
  have hG := (propagateLoop_closed _ hP1.1 hP1.2.2.2.1 hS1 hp1).2
    (fun y => t2.value y = l_True) hclosed hinit
  intro x hx
  exact hPt2.2.1 x (hG x ((propagate_pres hp1 hP1.1).1 x hx))

theorem attachedOffsets_append (l1 l2 : List AttachOp) :
    attachedOffsets (l1 ++ l2) = attachedOffsets l1 ++ attachedOffsets l2 := by
  induction l1 with
  | nil => rfl
  | cons op rest ih =>
    cases op with
    | bin a b r => exact ih
    | cls off p1 p2 chk =>
      show off :: attachedOffsets (rest ++ l2) = off :: attachedOffsets rest ++ attachedOffsets l2
      rw [ih]
      rfl

theorem attachedOffsets_reverse (l : List AttachOp) :
    attachedOffsets l.reverse = (attachedOffsets l).reverse := by
  induction l with
  | nil => rfl
  | cons op rest ih =>
    rw [List.reverse_cons, attachedOffsets_append, ih]
    cases op with
    | bin a b r =>
      show (attachedOffsets rest).reverse ++ [] = (attachedOffsets rest).reverse
      rw [List.append_nil]
    | cls off p1 p2 chk =>
      show (attachedOffsets rest).reverse ++ [off] = (off :: attachedOffsets rest).reverse
      rw [List.reverse_cons]

theorem emptySolver_fresh (n : Nat) (ar : List Clause) :
    (∀ ws ∈ (emptySolver n ar).watches, ws = []) ∧ (∀ x, (emptySolver n ar).value x = l_Undef) ∧
      (emptySolver n ar).trail = [] ∧ (emptySolver n ar).qhead = 0 := by
  refine ⟨fun ws hws => List.eq_of_mem_replicate hws, fun x => ?_, rfl, rfl⟩
  show valueOf (List.replicate n l_Undef) x = l_Undef
  unfold valueOf
  have : (List.replicate n l_Undef).getD x.var l_Undef = l_Undef := by
    rw [List.getD_eq_getElem?_getD]
    by_cases hx : x.var < n
    · rw [List.getElem?_replicate_of_lt hx]
      rfl
    · rw [List.getElem?_eq_none (by simpa using hx)]
      rfl
  rw [this]
  cases x.sign <;> rfl

theorem exOrder_run :
    ((emptySolver 4 []).attachDecidePropagate exOrderOps (posLit 1)).map
        (fun r => (r.1, r.2.trail)) = .ok (.binary (negLit 1), [posLit 1, posLit 2]) ∧
    ((emptySolver 4 []).attachDecidePropagate exOrderOps.reverse (posLit 1)).map
        (fun r => (r.1, r.2.trail))
      = .ok (.binary (negLit 1), [posLit 1, posLit 3, negLit 2]) := by
  constructor <;> decide

theorem exMixed_run :
    ((emptySolver 6 exMixedArena).attachDecidePropagate exMixedOps (posLit 1)).map
        (fun r => (r.1, r.2.trail))
      = .ok (.null, [posLit 1, posLit 2, posLit 3, posLit 4, posLit 5]) ∧
    ((emptySolver 6 exMixedArena).attachDecidePropagate exMixedOps.reverse (posLit 1)).map
        (fun r => (r.1, r.2.trail))
      = .ok (.null, [posLit 1, posLit 3, posLit 2, posLit 4, posLit 5]) := by
  constructor <;> decide

theorem run_of_map {r : Except Fault (PropBy × Solver)} {c : PropBy} {tr : List Lit}
    (h : r.map (fun r => (r.1, r.2.trail)) = .ok (c, tr)) :
    ∃ t, r = .ok (c, t) ∧ t.trail = tr := by
  cases r with
  | error e => cases h
  | ok v =>
    obtain ⟨c', t⟩ := v
    have h' : (Except.ok (c', t.trail) : Except Fault (PropBy × List Lit)) = .ok (c, tr) := h
    injection h' with h'
    injection h' with h1 h2
    subst h1
    exact ⟨t, rfl, h2⟩

theorem exMixed_arena :
    NumInj (emptySolver 6 exMixedArena) ∧ ShortClauses (emptySolver 6 exMixedArena) := by
  have hlt : ∀ (off : Nat) (cl : Clause), exMixedArena[off]? = some cl → off < 2 := by
    intro off cl h
    by_contra hc
    rw [List.getElem?_eq_none (by simp [exMixedArena]; omega)] at h
    cases h
  constructor
  · intro off off' cl cl' h1 h2 hnum
    have h1' : exMixedArena[off]? = some cl := h1
    have h2' : exMixedArena[off']? = some cl' := h2
    have a1 := hlt off cl h1'
    have a2 := hlt off' cl' h2'
    interval_cases off <;> interval_cases off' <;>
      simp [exMixedArena] at h1' h2' <;> subst h1' <;> subst h2' <;> simp at hnum ⊢
  · intro off cl h
    have h' : exMixedArena[off]? = some cl := h
    have a1 := hlt off cl h'
    interval_cases off <;> simp [exMixedArena] at h' <;> subst h' <;> simp [Clause.size]

/-- C6 (as amended): for every arena of clauses with fewer than `2^16` literals
whose numbers name them, every list of attach calls that attaches no clause of
the arena twice and every decision literal: when the clauses are attached to the
solver without watchers and assignments in the order of the list, the decision
is enqueued and `propagate` returns no conflict, and the same holds with the
clauses attached in the reversed order, the two trails hold the same literals. -/
theorem attach_order_same_trail (n : Nat) (ar : List Clause) (ops : List AttachOp) (d : Lit)
    (t1 t2 : Solver) (hN : NumInj (emptySolver n ar)) (hS : ShortClauses (emptySolver n ar))
    (hD : (attachedOffsets ops).Nodup)
    (h1 : (emptySolver n ar).attachDecidePropagate ops d = .ok (.null, t1))
    (h2 : (emptySolver n ar).attachDecidePropagate ops.reverse d = .ok (.null, t2)) :
    ∀ x, x ∈ t1.trail ↔ x ∈ t2.trail := by
  obtain ⟨hE, hU, ht, hq⟩ := emptySolver_fresh n ar
  have hDr : (attachedOffsets ops.reverse).Nodup := by
    rw [attachedOffsets_reverse]
    exact List.nodup_reverse.mpr hD
  intro x
  exact ⟨attach_trail_subset hE hU ht hq hN hS hD hDr (fun op h => List.mem_reverse.mpr h) h1 h2 x,
    attach_trail_subset hE hU ht hq hN hS hDr hD (fun op h => List.mem_reverse.mp h) h2 h1 x⟩

theorem attach_order_same_trail_witness :
    ∃ t1 t2, (emptySolver 6 exMixedArena).attachDecidePropagate exMixedOps (posLit 1)
        = .ok (.null, t1) ∧
      (emptySolver 6 exMixedArena).attachDecidePropagate exMixedOps.reverse (posLit 1)
        = .ok (.null, t2) ∧
      t1.trail = [posLit 1, posLit 2, posLit 3, posLit 4, posLit 5] ∧
      t2.trail = [posLit 1, posLit 3, posLit 2, posLit 4, posLit 5] ∧
      ∀ x, x ∈ t1.trail ↔ x ∈ t2.trail := by
  obtain ⟨t1, e1, r1⟩ := run_of_map exMixed_run.1
  obtain ⟨t2, e2, r2⟩ := run_of_map exMixed_run.2
  exact ⟨t1, t2, e1, e2, r1, r2,
    attach_order_same_trail 6 exMixedArena exMixedOps (posLit 1) t1 t2 exMixed_arena.1
      exMixed_arena.2 (by decide) e1 e2⟩

/-- C6, counterexample: the binary clauses `{-1, +2}`, `{-1, -2}`, `{-1, +3}` and
the decision `+1`. Attached in this order, `propagate` enqueues `+2`, meets the
conflict of `{-1, -2}` and returns with the trail `[+1, +2]`; attached in the
reversed order, it enqueues `+3` and `-2`, meets the conflict of `{-1, +2}` and
returns with the trail `[+1, +3, -2]`. The two trails do not hold the same
literals. -/
theorem attach_order_conflict_counterexample :
    ∃ c1 t1 c2 t2, (emptySolver 4 []).attachDecidePropagate exOrderOps (posLit 1)
        = .ok (c1, t1) ∧
      (emptySolver 4 []).attachDecidePropagate exOrderOps.reverse (posLit 1) = .ok (c2, t2) ∧
      c1 = .binary (negLit 1) ∧ c2 = .binary (negLit 1) ∧
      t1.trail = [posLit 1, posLit 2] ∧ t2.trail = [posLit 1, posLit 3, negLit 2] ∧
      ¬ (∀ x, x ∈ t1.trail ↔ x ∈ t2.trail) := by
  obtain ⟨t1, e1, r1⟩ := run_of_map exOrder_run.1
  obtain ⟨t2, e2, r2⟩ := run_of_map exOrder_run.2
  refine ⟨_, t1, _, t2, e1, e2, rfl, rfl, r1, r2, ?_⟩
  rw [r1, r2]
  intro h
  exact absurd ((h (posLit 2)).mp (by decide)) (by decide)

end CMS
